import Mathlib

/-!
# EbnfStudio: lexer, parser and grammar emitters

A shallow embedding of `EbnfLexer.cpp`, `EbnfParser.cpp`, `AntlrGen.cpp` and
`CocoGen.cpp`, followed by theorems about the embedded functions.

Conventions of the embedding

* A `QByteArray` is a list of byte values (`Nat`); the character classes
  `::isalnum` and `::isspace` are those of the "C" locale.
* The `QIODevice` behind the lexer is the list of raw lines that successive
  `readLine()` calls deliver; `atEnd()` holds when the list is empty.
* The token source behind the parser is the list of tokens that successive
  `EbnfLexer::nextToken()` calls deliver, followed by `Eof` forever.
* A `QTextStream` is the text written to it so far.
* Pointers that only mirror the tree shape (`d_parent`, `d_owner`) and fields
  written by the analyzer only (`d_leftRecursive`, `d_pathToDef`) are not part
  of `Node`; the resolved definition `d_def` of a node is kept as the
  summary `DefRef` of the definition it points to.
* The recursive descent functions of the parser carry a fuel argument; the
  theorem `parse_total` shows that the fuel `parse` supplies always suffices.
-/

namespace EbnfStudio

/-! ## Tokens (EbnfToken.h is not part of the sources at hand) -/

/-- Bytes of a `QByteArray`. -/
abbrev QByteArray := List Nat

/-- Bytes of an ASCII string literal. -/
def ba (s : String) : QByteArray := s.toList.map Char.toNat

/-- Token kinds, `EbnfToken::TokenType`. -/
inductive TokenType where
  | Invalid | Production | Assig | NonTerm | Keyword | Literal
  | Bar | LPar | RPar | LBrack | RBrack | LBrace | RBrace
  | Predicate | Comment | Eof
  deriving DecidableEq

/-- Operator annotation of a symbol, `EbnfToken::Handling`. -/
inductive Handling where
  | Normal | Transparent | Keep | Skip
  deriving DecidableEq

/-- Modelled from the spec: the token record of EbnfToken.h (kind, value,
1-based line and column, length, operator annotation), with the fields the
sources use: `d_type`, `d_lineNr`, `d_colNr`, `d_len`, `d_val`, `d_op`. -/
structure EbnfToken where
  d_type : TokenType
  d_lineNr : Nat
  d_colNr : Nat
  d_len : Nat
  d_val : QByteArray
  d_op : Handling
  deriving DecidableEq

/-- Modelled from the spec: the default constructed token of EbnfToken.h. It is
not valid (`parseTerm` relies on that for its `pred` variable), has an empty
value and the annotation Normal. -/
def EbnfToken.default : EbnfToken :=
  { d_type := .Invalid, d_lineNr := 0, d_colNr := 0, d_len := 0, d_val := [], d_op := .Normal }

/-- Modelled from the spec: the constructor `EbnfToken(tt, line, col, len, val)`
of EbnfToken.h; the annotation starts as Normal. -/
def EbnfToken.make (tt : TokenType) (line col len : Nat) (val : QByteArray) : EbnfToken :=
  { d_type := tt, d_lineNr := line, d_colNr := col, d_len := len, d_val := val, d_op := .Normal }

/-- Modelled from the spec: `EbnfToken::isValid` of EbnfToken.h, false exactly
for the kinds Eof and Invalid (the token list of `EbnfLexer::tokens` ends at the
first of them). -/
def EbnfToken.isValid (t : EbnfToken) : Bool :=
  t.d_type != .Eof && t.d_type != .Invalid

/-- Modelled from the spec: `EbnfToken::isErr` of EbnfToken.h, true for the
kind Invalid. -/
def EbnfToken.isErr (t : EbnfToken) : Bool :=
  t.d_type == .Invalid

/-! ## Lexer (EbnfLexer.cpp) -/

/-- The C function `isalnum` in the "C" locale. -/
def isalnum (c : Nat) : Bool :=
  (48 ≤ c && c ≤ 57) || (65 ≤ c && c ≤ 90) || (97 ≤ c && c ≤ 122)

/-- The C function `isspace` in the "C" locale: blank, `\t`, `\n`, `\v`, `\f`, `\r`. -/
def isspace (c : Nat) : Bool :=
  c == 32 || (9 ≤ c && c ≤ 13)

/-- The test of the loop in `EbnfLexer::ident`: alphanumeric, `_` or `$`. -/
def isIdentChar (c : Nat) : Bool :=
  isalnum c || c == 95 || c == 36

/-- `QByteArray::mid(pos, len)`. -/
def mid (a : QByteArray) (pos len : Nat) : QByteArray := (a.drop pos).take len

/-- `QByteArray::mid(pos)`. -/
def midFrom (a : QByteArray) (pos : Nat) : QByteArray := a.drop pos

/-- `QByteArray::trimmed()`: white space removed from both ends. -/
def trimmed (a : QByteArray) : QByteArray :=
  ((a.dropWhile isspace).reverse.dropWhile isspace).reverse

/-- `QByteArray::replace` for a two byte pattern `a b` and a one byte
replacement `r`: every occurrence, found from left to right, is replaced. -/
def replace2 (a b r : Nat) : QByteArray → QByteArray
  | [] => []
  | [x] => [x]
  | x :: y :: rest =>
      if x = a ∧ y = b then r :: replace2 a b r rest
      else x :: replace2 a b r (y :: rest)

/-- State of an `EbnfLexer`. `d_in = none` is the null device; `ownsStream`
says whether the device is a child object of the lexer. -/
structure EbnfLexer where
  d_in : Option (List QByteArray)
  ownsStream : Bool
  d_lineNr : Nat
  d_colNr : Nat
  d_line : QByteArray
  d_lastToken : EbnfToken
  d_buffer : List EbnfToken
  d_kw : List QByteArray

/-- `EbnfLexer::setStream` on a lexer with keyword set `kw`: the state right
after the stream `input` was attached. -/
def EbnfLexer.setStream (kw : List QByteArray) (input : List QByteArray) : EbnfLexer :=
  { d_in := some input, ownsStream := false, d_lineNr := 0, d_colNr := 0, d_line := [],
    d_lastToken := EbnfToken.make .Invalid 0 0 0 [], d_buffer := [], d_kw := kw }

/-- `EbnfLexer::skipWhiteSpace`: the new state and the number of bytes skipped. -/
def EbnfLexer.skipWhiteSpace (lx : EbnfLexer) : EbnfLexer × Nat :=
  let n := ((lx.d_line.drop lx.d_colNr).takeWhile isspace).length
  ({ lx with d_colNr := lx.d_colNr + n }, n)

/-- `EbnfLexer::token`; the header default of `len` is 1. -/
def EbnfLexer.token (lx : EbnfLexer) (tt : TokenType) (len : Nat) (val : QByteArray) :
    EbnfLexer × EbnfToken :=
  let t := EbnfToken.make tt lx.d_lineNr (lx.d_colNr + 1) len val
  ({ lx with d_lastToken := t, d_colNr := lx.d_colNr + len }, t)

/-- `EbnfLexer::lookAhead`. -/
def EbnfLexer.lookAhead (lx : EbnfLexer) (off : Nat) : Nat :=
  lx.d_line.getD (lx.d_colNr + off) 0

/-- The line end handling of `EbnfLexer::nextLine`: `\r\n` is chopped, else one
of `\n`, `\r`, `\025`. -/
def chopLine (raw : QByteArray) : QByteArray :=
  match raw.reverse with
  | 10 :: 13 :: r => r.reverse
  | 10 :: r => r.reverse
  | 13 :: r => r.reverse
  | 21 :: r => r.reverse
  | _ => raw

/-- `EbnfLexer::nextLine` when the device delivers `raw` and keeps `rest`. -/
def EbnfLexer.nextLine (lx : EbnfLexer) (raw : QByteArray) (rest : List QByteArray) : EbnfLexer :=
  { lx with d_colNr := 0, d_lineNr := lx.d_lineNr + 1, d_line := chopLine raw, d_in := some rest }

/-- `EbnfLexer::readOp`. -/
def EbnfLexer.readOp (lx : EbnfLexer) : EbnfLexer × Handling :=
  match lx.d_line.drop lx.d_colNr with
  | 42 :: _ => ({ lx with d_colNr := lx.d_colNr + 1 }, .Transparent)
  | 33 :: _ => ({ lx with d_colNr := lx.d_colNr + 1 }, .Keep)
  | 45 :: _ => ({ lx with d_colNr := lx.d_colNr + 1 }, .Skip)
  | _ => (lx, .Normal)

/-- `EbnfLexer::ident`. -/
def EbnfLexer.ident (lx : EbnfLexer) : EbnfLexer × EbnfToken :=
  let off := ((lx.d_line.drop lx.d_colNr).takeWhile isIdentChar).length
  let str := mid lx.d_line lx.d_colNr off
  let (lx1, t) := lx.token .NonTerm off str
  let (lx2, op) := lx1.readOp
  (lx2, { t with d_op := op })

/-- The loop of `EbnfLexer::attribute` over the bytes from `d_colNr + off` on. -/
def attributeScan : QByteArray → Nat → Nat
  | [], off => off
  | c :: rest, off => if c = 92 then off else attributeScan rest (off + 1)

/-- `EbnfLexer::attribute`. -/
def EbnfLexer.attribute (lx : EbnfLexer) : EbnfLexer × EbnfToken :=
  let off := attributeScan (lx.d_line.drop (lx.d_colNr + 1)) 1
  let str := mid lx.d_line (lx.d_colNr + 1) (off - 1)
  lx.token .Predicate (off + 1) str

/-- The loop of `EbnfLexer::literal` over the bytes from `d_colNr + off` on: a
backslash skips the byte after it, a quote or the line end stops the loop. -/
def literalScan : QByteArray → Nat → Nat
  | [], off => off
  | [c], off => if c = 92 then off + 2 else if c = 39 then off else off + 1
  | c :: d :: rest, off =>
      if c = 92 then literalScan rest (off + 2)
      else if c = 39 then off
      else literalScan (d :: rest) (off + 1)

/-- `EbnfLexer::literal`. -/
def EbnfLexer.literal (lx : EbnfLexer) : EbnfLexer × EbnfToken :=
  let off := literalScan (lx.d_line.drop (lx.d_colNr + 1)) 1
  let str := mid lx.d_line (lx.d_colNr + 1) (off - 1)
  let str := replace2 92 39 39 str
  let str := replace2 92 92 92 str
  let (lx1, t) := lx.token .Literal (off + 1) str
  let (lx2, op) := lx1.readOp
  (lx2, { t with d_op := op })

/-- UTF-8 bytes of the Latin-1 character `ch`. -/
def utf8OfLatin1 (ch : Nat) : QByteArray :=
  if ch < 128 then [ch] else [192 + ch / 64, 128 + ch % 64]

/-- The payload of the Invalid token for an unexpected character. -/
def unexpectedCharMsg (ch : Nat) : QByteArray :=
  ba "unexpected character '" ++ utf8OfLatin1 ch ++ ba "' " ++ ba (toString ch)

/-- The first loop of `EbnfLexer::nextTokenImp`: while the current line is used
up, read the next line and skip its leading white space. The result is the
lexer, `potentialProduction`, and whether the device was at its end. -/
def EbnfLexer.lineLoop : List QByteArray → EbnfLexer → Bool → EbnfLexer × Bool × Bool
  | [], lx, pp =>
      if lx.d_line.length ≤ lx.d_colNr then ({ lx with d_in := some [] }, pp, true)
      else ({ lx with d_in := some [] }, pp, false)
  | raw :: rest, lx, pp =>
      if lx.d_line.length ≤ lx.d_colNr then
        let lx1 := lx.nextLine raw rest
        let (lx2, n) := lx1.skipWhiteSpace
        EbnfLexer.lineLoop rest lx2 (n == 0)
      else ({ lx with d_in := some (raw :: rest) }, pp, false)

/-- The identifier and literal branches of the second loop of
`EbnfLexer::nextTokenImp` (lines 63 to 94): the lexer afterwards and the token
returned there, if one is returned. -/
def EbnfLexer.identOrLiteral (lx : EbnfLexer) (potentialProduction : Bool) (ch : Nat) :
    EbnfLexer × Option EbnfToken :=
  if isalnum ch || ch == 36 then
    let (lx1, t) := lx.ident
    if potentialProduction then
      let lx2 := lx1.skipWhiteSpace.1
      if lx2.lookAhead 0 = 58 ∧ lx2.lookAhead 1 = 58 ∧ lx2.lookAhead 2 = 61 then
        (lx2, some { t with d_type := .Production })
      else (lx2, none)
    else
      (lx1, some (if t.d_val ∈ lx1.d_kw then { t with d_type := .Keyword } else t))
  else if ch = 39 then
    let (lx1, t) := lx.literal
    if potentialProduction then
      let lx2 := lx1.skipWhiteSpace.1
      if lx2.lookAhead 0 = 58 ∧ lx2.lookAhead 1 = 58 ∧ lx2.lookAhead 2 = 61 then
        (lx2, some { t with d_type := .Production })
      else (lx2, none)
    else (lx1, some t)
  else (lx, none)

/-- The rest of the second loop of `EbnfLexer::nextTokenImp` (lines 96 to 127),
reached when the identifier and literal branches returned no token. -/
def EbnfLexer.punctuation (lx : EbnfLexer) (potentialProduction : Bool) (ch : Nat) :
    EbnfLexer × EbnfToken :=
  if potentialProduction then lx.token .Invalid 0 (ba "production or comment expected")
  else if ch = 58 ∧ lx.lookAhead 1 = 58 ∧ lx.lookAhead 2 = 61 then lx.token .Assig 3 []
  else if ch = 40 then lx.token .LPar 1 []
  else if ch = 41 then lx.token .RPar 1 []
  else if ch = 91 then lx.token .LBrack 1 []
  else if ch = 93 then lx.token .RBrack 1 []
  else if ch = 123 then lx.token .LBrace 1 []
  else if ch = 125 then lx.token .RBrace 1 []
  else if ch = 124 then lx.token .Bar 1 []
  else if ch = 92 then lx.attribute
  else lx.token .Invalid 0 (unexpectedCharMsg ch)

/-- The second loop of `EbnfLexer::nextTokenImp`; every path through its body
returns, so the body runs once. -/
def EbnfLexer.lexAt (lx : EbnfLexer) (potentialProduction : Bool) : EbnfLexer × EbnfToken :=
  let ch := lx.d_line.getD lx.d_colNr 0
  if ch = 47 ∧ lx.lookAhead 1 = 47 then
    lx.token .Comment (lx.d_line.length - lx.d_colNr) (trimmed (midFrom lx.d_line (lx.d_colNr + 2)))
  else
    match lx.identOrLiteral potentialProduction ch with
    | (lx1, some t) => (lx1, t)
    | (lx1, none) => lx1.punctuation potentialProduction ch

/-- `EbnfLexer::nextTokenImp`. -/
def EbnfLexer.nextTokenImp (lx : EbnfLexer) : EbnfLexer × EbnfToken :=
  match lx.d_in with
  | none => lx.token .Eof 1 []
  | some ins =>
      let lx0 := lx.skipWhiteSpace.1
      match EbnfLexer.lineLoop ins lx0 false with
      | (lx1, _, true) =>
          let (lx2, t) := lx1.token .Eof 0 []
          (if lx2.ownsStream then { lx2 with d_in := none } else lx2, t)
      | (lx1, pp, false) => lx1.lexAt pp

/-- `EbnfLexer::nextToken`: the oldest buffered token, else a fresh one. -/
def EbnfLexer.nextToken (lx : EbnfLexer) : EbnfLexer × EbnfToken :=
  match lx.d_buffer with
  | t :: rest => ({ lx with d_buffer := rest }, t)
  | [] => lx.nextTokenImp

/-! ### Header lines, as the specification describes them -/

/-- An identifier lexeme: starts with an alphanumeric byte or `$`, continues
with alphanumeric bytes, `_` or `$`. -/
def isIdentifier : QByteArray → Bool
  | [] => false
  | c :: cs => (isalnum c || c == 36) && cs.all isIdentChar

/-- The bytes of a quoted literal after its opening quote: plain bytes and
backslash pairs, closed by a quote. -/
def isQuotedBody : QByteArray → Bool
  | [] => false
  | [c] => c == 39
  | c :: d :: rest =>
      if c = 92 then isQuotedBody rest
      else if c = 39 then false
      else isQuotedBody (d :: rest)

/-- A terminated single-quoted literal lexeme. -/
def isQuotedLiteral : QByteArray → Bool
  | 39 :: body => isQuotedBody body
  | _ => false

/-- The operator suffix written by the bytes `op`: none, `*`, `!` or `-`. -/
def opSuffix : QByteArray → Option Handling
  | [] => some .Normal
  | [42] => some .Transparent
  | [33] => some .Keep
  | [45] => some .Skip
  | _ => none

/-- The value the lexer gives to a header lexeme: the text of an identifier,
the text between the quotes of a literal after the two replacements of
`EbnfLexer::literal`. -/
def lexemeValue (lexeme : QByteArray) : QByteArray :=
  if isIdentifier lexeme then lexeme
  else replace2 92 92 92 (replace2 92 39 39 (lexeme.drop 1).dropLast)

/-- The unread part of the current line. -/
def EbnfLexer.rest (lx : EbnfLexer) : QByteArray := lx.d_line.drop lx.d_colNr

/-! ## Grammar model (EbnfSyntax.h) -/

/-- Node kinds, `EbnfSyntax::Node::Type`. -/
inductive NodeType where
  | Terminal | Nonterminal | Sequence | Alternative | Predicate
  deriving DecidableEq

/-- Quantifiers, `EbnfSyntax::Node::Quantity`. -/
inductive Quantity where
  | One | ZeroOrOne | ZeroOrMore
  deriving DecidableEq

/-- What the emitters read through the pointer `Node::d_def`: the token of the
definition and whether its root `d_node` is set. -/
structure DefRef where
  d_tok : EbnfToken
  hasNode : Bool
  deriving DecidableEq

/-- An expression tree node, `EbnfSyntax::Node`. -/
inductive Node where
  | mk (d_type : NodeType) (d_quant : Quantity) (d_tok : EbnfToken) (d_subs : List Node)
      (d_def : Option DefRef) : Node

/-- Field `d_type`. -/
def Node.d_type : Node → NodeType
  | .mk ty _ _ _ _ => ty

/-- Field `d_quant`. -/
def Node.d_quant : Node → Quantity
  | .mk _ q _ _ _ => q

/-- Field `d_tok`. -/
def Node.d_tok : Node → EbnfToken
  | .mk _ _ tok _ _ => tok

/-- Field `d_subs`. -/
def Node.d_subs : Node → List Node
  | .mk _ _ _ subs _ => subs

/-- Field `d_def`. -/
def Node.d_def : Node → Option DefRef
  | .mk _ _ _ _ d => d

/-- The constructor `Node(Type t, Definition* d, const EbnfToken& tok)`:
quantifier One, no children, nothing resolved. -/
def Node.new (ty : NodeType) (tok : EbnfToken) : Node := .mk ty .One tok [] none

/-- The assignment `node->d_quant = q`. -/
def Node.setQuant : Node → Quantity → Node
  | .mk ty _ tok subs d, q => .mk ty q tok subs d

/-- The call `node->d_subs.append(n)`. -/
def Node.appendSub : Node → Node → Node
  | .mk ty q tok subs d, n => .mk ty q tok (subs ++ [n]) d

/-- The container node `parseTerm` and `parseExpression` create: a default token
that takes over line and column of `first`, and the first child. -/
def Node.container (ty : NodeType) (line col : Nat) (subs : List Node) : Node :=
  .mk ty .One { EbnfToken.default with d_lineNr := line, d_colNr := col } subs none

/-- A production, `EbnfSyntax::Definition`. -/
structure Definition where
  d_tok : EbnfToken
  d_node : Option Node
  d_usedBy : List Node
  d_nullable : Bool
  d_repeatable : Bool
  d_directLeftRecursive : Bool
  d_indirectLeftRecursive : Bool

/-- The constructor `Definition(const EbnfToken& tok)`. -/
def Definition.new (tok : EbnfToken) : Definition :=
  { d_tok := tok, d_node := none, d_usedBy := [], d_nullable := false, d_repeatable := false,
    d_directLeftRecursive := false, d_indirectLeftRecursive := false }

/-- The grammar, `EbnfSyntax`: the definitions in source order. The hash
`d_defs` holds the same definitions under their names. -/
structure EbnfSyntax where
  d_order : List Definition

/-- Modelled from the spec: `EbnfSyntax::addDef` of EbnfSyntax.cpp. The grammar
is an ordered list of definitions plus a name to definition map, so a second
definition of a name is refused and every other one is appended. -/
def EbnfSyntax.addDef (syn : EbnfSyntax) (d : Definition) : Option EbnfSyntax :=
  if syn.d_order.any (fun e => e.d_tok.d_val == d.d_tok.d_val) then none
  else some { d_order := syn.d_order ++ [d] }

/-- The assignment `d_def->d_node = node` for the definition added last. -/
def EbnfSyntax.setLastNode (syn : EbnfSyntax) (node : Option Node) : EbnfSyntax :=
  match syn.d_order.reverse with
  | [] => syn
  | d :: ds => { d_order := (({ d with d_node := node } : Definition) :: ds).reverse }

/-! ## Error sink (EbnfErrors.h is not part of the sources at hand) -/

/-- Error kinds named by the spec. -/
inductive ErrKind where
  | Syntax | Semantics | Analysis
  deriving DecidableEq

/-- The message of a report: a fixed text, the payload of an Invalid token, or
the text `unexpected symbol` with the rendering of a token. -/
inductive ErrMsg where
  | text (s : String)
  | tokenValue (v : QByteArray)
  | unexpectedSymbol (t : EbnfToken)
  deriving DecidableEq

/-- One report to the sink. -/
structure ErrEntry where
  kind : ErrKind
  line : Nat
  col : Nat
  msg : ErrMsg
  deriving DecidableEq

/-- Modelled from the spec: the error sink of EbnfErrors.h,
`error(kind, line, col, message)` plus a counter and its reset. -/
structure EbnfErrors where
  entries : List ErrEntry
  errCount : Nat
  deriving DecidableEq

/-- Modelled from the spec: `EbnfErrors::error` records the report and counts it. -/
def EbnfErrors.error (e : EbnfErrors) (kind : ErrKind) (line col : Nat) (msg : ErrMsg) :
    EbnfErrors :=
  { entries := e.entries ++ [{ kind := kind, line := line, col := col, msg := msg }],
    errCount := e.errCount + 1 }

/-- Modelled from the spec: `EbnfErrors::resetErrCount`. -/
def EbnfErrors.resetErrCount (e : EbnfErrors) : EbnfErrors := { e with errCount := 0 }

/-- Modelled from the spec: `EbnfErrors::getErrCount`. -/
def EbnfErrors.getErrCount (e : EbnfErrors) : Nat := e.errCount

/-! ## Parser (EbnfParser.cpp) -/

/-- State of an `EbnfParser`: the tokens the lexer will still deliver, the
current token, the error sink (`none` is the null pointer) and the grammar
under construction, whose last definition is `d_def`. -/
structure EbnfParser where
  d_lex : List EbnfToken
  d_cur : EbnfToken
  d_errs : Option EbnfErrors
  d_syn : EbnfSyntax

/-- The token a lexer delivers once its input is used up. -/
def eofToken : EbnfToken := EbnfToken.make .Eof 0 0 0 []

/-- The loop of `EbnfParser::nextToken`: the next token that is no Comment,
and the tokens left behind it. -/
def skipComments : List EbnfToken → List EbnfToken × EbnfToken
  | [] => ([], eofToken)
  | t :: rest => if t.d_type = .Comment then skipComments rest else (rest, t)

/-- `EbnfParser::nextToken`; the token returned is the new `d_cur`. -/
def EbnfParser.nextToken (p : EbnfParser) : EbnfParser :=
  { p with d_lex := (skipComments p.d_lex).1, d_cur := (skipComments p.d_lex).2 }

/-- `EbnfParser::error`; its result is always `false`, so only the state is returned.
An empty `msg` stands for the default argument. -/
def EbnfParser.error (p : EbnfParser) (t : EbnfToken) (msg : String) : EbnfParser :=
  match p.d_errs with
  | none => p
  | some e =>
      if t.d_type = .Invalid then
        { p with d_errs := some (e.error .Syntax t.d_lineNr t.d_colNr (.tokenValue t.d_val)) }
      else if msg = "" then
        { p with d_errs := some (e.error .Syntax t.d_lineNr t.d_colNr (.unexpectedSymbol t)) }
      else
        { p with d_errs := some (e.error .Syntax t.d_lineNr t.d_colNr (.text msg)) }

/-- `EbnfParser::checkCardinality`. -/
def EbnfParser.checkCardinality (p : EbnfParser) (node : Node) : EbnfParser × Bool :=
  if node.d_quant ≠ .One then
    (p.error p.d_cur "contradicting nested quantifiers", false)
  else if node.d_type ≠ .Sequence ∧ node.d_type ≠ .Alternative then
    (p, true)
  else if node.d_subs.isEmpty then
    (p.error p.d_cur "container with zero items", false)
  else if node.d_subs.length = 1 ∧
      ((node.d_subs.head?.map Node.d_type) = some .Sequence
        ∨ (node.d_subs.head?.map Node.d_type) = some .Alternative) then
    (p.error p.d_cur "container containing only one other sequence or alternative", false)
  else
    (p, true)

/-- The token kinds that start a factor (switch of `parseTerm`, lines 248 to
257, and the loop condition, lines 278 to 283). -/
def isFactorStart : TokenType → Bool
  | .Keyword | .Literal | .NonTerm | .LBrack | .LBrace | .LPar => true
  | _ => false

/-- The token kinds that start a term (switch of `parseExpression`, lines 192 to 202). -/
def isTermStart : TokenType → Bool
  | .Keyword | .Literal | .NonTerm | .LBrack | .LPar | .LBrace | .Predicate => true
  | _ => false

/-- The part the three bracket cases of `parseFactor` share, from the return of
`parseExpression` on: `close` is the closing token, `msg` the complaint when it
is missing, `q` the quantifier assigned. -/
def finishBracket (close : TokenType) (msg : String) (q : Quantity) :
    EbnfParser × Option Node → EbnfParser × Option Node
  | (p, none) => (p, none)
  | (p, some node) =>
      if p.d_cur.d_type ≠ close then (p.error p.d_cur msg, none)
      else
        match p.checkCardinality node with
        | (p1, false) => (p1, none)
        | (p1, true) => (p1.nextToken, some (node.setQuant q))

mutual

/-- `EbnfParser::parseFactor`; `none` means the fuel ran out. -/
def parseFactor : Nat → EbnfParser → Option (EbnfParser × Option Node)
  | 0, _ => none
  | fuel + 1, p =>
      match p.d_cur.d_type with
      | .Keyword => some (p.nextToken, some (Node.new .Terminal p.d_cur))
      | .Literal => some (p.nextToken, some (Node.new .Terminal p.d_cur))
      | .NonTerm => some (p.nextToken, some (Node.new .Nonterminal p.d_cur))
      | .LBrack =>
          (parseExpression fuel p.nextToken).map (finishBracket .RBrack "expecting ']'" .ZeroOrOne)
      | .LPar =>
          (parseExpression fuel p.nextToken).map (finishBracket .RPar "expecting ')'" .One)
      | .LBrace =>
          (parseExpression fuel p.nextToken).map (finishBracket .RBrace "expecting '\x7d'" .ZeroOrMore)
      | _ => some (p.error p.d_cur "expecting keyword, delimiter, category, '\x7b' or '['", none)

/-- `EbnfParser::parseExpression`. -/
def parseExpression : Nat → EbnfParser → Option (EbnfParser × Option Node)
  | 0, _ => none
  | fuel + 1, p =>
      if isTermStart p.d_cur.d_type then
        match parseTerm fuel p with
        | none => none
        | some (p1, none) => some (p1, none)
        | some (p1, some node) => expressionLoop fuel p.d_cur p1 node false
      else some (p.error p.d_cur "expecting term", none)

/-- The loop of `parseExpression` over `| term`; `alternative` says whether the
Alternative node exists already, and then `node` is that node. -/
def expressionLoop : Nat → EbnfToken → EbnfParser → Node → Bool →
    Option (EbnfParser × Option Node)
  | 0, _, _, _, _ => none
  | fuel + 1, first, p, node, alternative =>
      if p.d_cur.d_type = .Bar then
        let p1 := p.nextToken
        let node1 := if alternative then node
          else Node.container .Alternative first.d_lineNr first.d_colNr [node]
        match parseTerm fuel p1 with
        | none => none
        | some (p2, none) => some (p2, none)
        | some (p2, some n) => expressionLoop fuel first p2 (node1.appendSub n) true
      else some (p, some node)

/-- `EbnfParser::parseTerm`. -/
def parseTerm : Nat → EbnfParser → Option (EbnfParser × Option Node)
  | 0, _ => none
  | fuel + 1, p =>
      let pred := if p.d_cur.d_type = .Predicate then p.d_cur else EbnfToken.default
      let p0 := if p.d_cur.d_type = .Predicate then p.nextToken else p
      if isFactorStart p0.d_cur.d_type then
        match parseFactor fuel p0 with
        | none => none
        | some (p1, none) => some (p1, none)
        | some (p1, some node) =>
            if pred.isValid then
              termLoop fuel p1
                (Node.container .Sequence p0.d_cur.d_lineNr p0.d_cur.d_colNr
                  [Node.new .Predicate pred, node]) true
            else termLoop fuel p1 node false
      else some (p0.error p0.d_cur "expecting factor", none)

/-- The loop of `parseTerm` over further factors; `sequence` says whether the
Sequence node exists already, and then `node` is that node. -/
def termLoop : Nat → EbnfParser → Node → Bool → Option (EbnfParser × Option Node)
  | 0, _, _, _ => none
  | fuel + 1, p, node, sequence =>
      if isFactorStart p.d_cur.d_type then
        let node1 := if sequence then node
          else Node.container .Sequence node.d_tok.d_lineNr node.d_tok.d_colNr [node]
        match parseFactor fuel p with
        | none => none
        | some (p1, none) => some (p1, none)
        | some (p1, some n) => termLoop fuel p1 (node1.appendSub n) true
      else some (p, some node)

end

/-- The loop of `EbnfParser::parse`, entered with `t = d_cur`; the result is
the final state and the value `parse` returns. -/
def parseLoop : Nat → EbnfParser → Option (EbnfParser × Bool)
  | 0, _ => none
  | fuel + 1, p =>
      let t := p.d_cur
      if t.isValid then
        if t.d_type = .Production then
          let p1 := p.nextToken
          if p1.d_cur.d_type ≠ .Assig then
            some (p1.error t "expecing ::= for production", false)
          else
            match p1.d_syn.addDef (Definition.new t) with
            | none => some (p1, false)
            | some syn =>
                let p2 := EbnfParser.nextToken { p1 with d_syn := syn }
                if p2.d_cur.d_type ≠ .Production ∧ p2.d_cur.d_type ≠ .Eof then
                  match parseExpression fuel p2 with
                  | none => none
                  | some (p3, node) =>
                      parseLoop fuel { p3 with d_syn := p3.d_syn.setLastNode node }
                else parseLoop fuel p2
        else some (p.error t "", false)
      else
        let p1 := if t.isErr then p.error t "" else p
        some (p1, match p1.d_errs with
                  | some e => e.getErrCount == 0
                  | none => true)

/-- The number of tokens not yet consumed, the current one included. -/
def EbnfParser.remaining (p : EbnfParser) : Nat :=
  p.d_lex.length + (if p.d_cur.d_type = .Eof then 0 else 1)

/-- `EbnfParser::parse` on the token source `lex` with the error sink `errs`:
the final state and the returned flag. -/
def EbnfParser.parse (lex : List EbnfToken) (errs : Option EbnfErrors) :
    Option (EbnfParser × Bool) :=
  let p0 : EbnfParser :=
    { d_lex := lex, d_cur := EbnfToken.default, d_errs := errs.map EbnfErrors.resetErrCount,
      d_syn := { d_order := [] } }
  parseLoop (3 * lex.length + 7) p0.nextToken

/-! ## Shape of the trees the parser builds -/

mutual

/-- The nodes of the tree under a node, the node itself first. -/
def Node.subtree : Node → List Node
  | .mk ty q tok subs d => .mk ty q tok subs d :: subtrees subs

/-- The nodes of the trees under the nodes of a list. -/
def subtrees : List Node → List Node
  | [] => []
  | n :: ns => n.subtree ++ subtrees ns

end

/-- No node of the list is a Predicate. -/
def noPredicate (ns : List Node) : Bool := ns.all (fun n => n.d_type != .Predicate)

/-- Sequence or Alternative. -/
def Node.isContainer (n : Node) : Bool := n.d_type == .Sequence || n.d_type == .Alternative

mutual

/-- The shape of a node in a tree built by `parseExpression`, also after the
analyzer has resolved its Nonterminal nodes: leaves have no children, a
container carries the default token and no resolved definition, it has at
least two children, and a Predicate is a leaf that stands only at the head of
a Sequence. -/
def Node.wellBuilt : Node → Bool
  | .mk .Terminal _ _ subs d => subs.isEmpty && d.isNone
  | .mk .Nonterminal _ _ subs _ => subs.isEmpty
  | .mk .Predicate q _ subs d => subs.isEmpty && d.isNone && q == .One
  | .mk .Sequence _ tok subs d =>
      tok.d_val.isEmpty && tok.d_op == .Normal && d.isNone && decide (2 ≤ subs.length)
        && allWellBuilt subs && noPredicate subs.tail
  | .mk .Alternative _ tok subs d =>
      tok.d_val.isEmpty && tok.d_op == .Normal && d.isNone && decide (2 ≤ subs.length)
        && allWellBuilt subs && noPredicate subs

/-- Every node of the list is well built. -/
def allWellBuilt : List Node → Bool
  | [] => true
  | n :: ns => n.wellBuilt && allWellBuilt ns

end

/-- The shape of the root of a tree built by `parseExpression`. -/
def Node.wellBuiltRoot (n : Node) : Prop := n.wellBuilt = true ∧ n.d_type ≠ .Predicate

/-- Every root of the grammar is well built. -/
def EbnfSyntax.wellBuilt (syn : EbnfSyntax) : Prop :=
  ∀ d ∈ syn.d_order, ∀ root, d.d_node = some root → root.wellBuiltRoot

/-! ### Terms of an expression and factors of a term, in source order -/

/-- The terms `ts` that follow the first term of an expression: each one is
announced by a `|` and parsed by `parseTerm`, and no `|` follows the last. The
parser stands at `p` before them and at `p1` behind them. -/
def termsFrom (f : Nat) : List Node → EbnfParser → EbnfParser → Prop
  | [], p, p1 => p.d_cur.d_type ≠ .Bar ∧ p1 = p
  | t :: ts, p, p1 =>
      p.d_cur.d_type = .Bar ∧
        ∃ p2, parseTerm f p.nextToken = some (p2, some t) ∧ termsFrom f ts p2 p1

/-- The factors `xs` that follow the first factor of a term: each one starts
with a token that starts a factor and is parsed by `parseFactor`, and no such
token follows the last. -/
def factorsFrom (f : Nat) : List Node → EbnfParser → EbnfParser → Prop
  | [], p, p1 => isFactorStart p.d_cur.d_type = false ∧ p1 = p
  | x :: xs, p, p1 =>
      isFactorStart p.d_cur.d_type = true ∧
        ∃ p2, parseFactor f p = some (p2, some x) ∧ factorsFrom f xs p2 p1

/-! ### Notions used in the statements about the parser -/

/-- The result of a parsing function on `p`: it returns, and it has consumed a
token whenever it returns a node. -/
def Returns (res : Option (EbnfParser × Option Node)) (p : EbnfParser) : Prop :=
  ∃ p1 r, res = some (p1, r) ∧ p1.remaining ≤ p.remaining ∧
    (r.isSome = true → p1.remaining < p.remaining)

/-- The sink holds the reports `old` from before the run and counts the
reports added since. -/
def CountsNew (old : List ErrEntry) (p : EbnfParser) : Prop :=
  ∃ e new, p.d_errs = some e ∧ e.entries = old ++ new ∧ e.errCount = new.length

/-! ### Token sources of small grammars, used in the examples -/

/-- A token of kind `tt` with value `val` in line 1, column `col`. -/
def tok (tt : TokenType) (col : Nat) (val : String) : EbnfToken :=
  EbnfToken.make tt 1 col val.length (ba val)

/-- The parser in front of the tokens `first :: more`, with an empty sink. -/
def parserAt (first : EbnfToken) (more : List EbnfToken) : EbnfParser :=
  { d_lex := more, d_cur := first, d_errs := some { entries := [], errCount := 0 },
    d_syn := { d_order := [] } }

/-- The tokens of the two lines `A ::= )` and `B ::= b`. -/
def unbalancedThenGood : List EbnfToken :=
  [tok .Production 1 "A", tok .Assig 3 "", tok .RPar 7 "",
   EbnfToken.make .Production 2 1 1 (ba "B"), EbnfToken.make .Assig 2 3 3 [],
   EbnfToken.make .NonTerm 2 7 1 (ba "b")]

/-! ## Emitters (AntlrGen.cpp, CocoGen.cpp) -/

/-- Modelled from the spec: the helpers `symToString` and `escapeDollars` of
GenUtils, which turn the value of a token into the text of a name; their
bodies are not part of the sources at hand. -/
structure GenUtils where
  symToString : QByteArray → String
  escapeDollars : QByteArray → String

/-- The two tests at the head of `writeNode` (AntlrGen.cpp lines 97 to 100,
CocoGen.cpp lines 139 to 142): the node or its resolved definition is
annotated Skip. -/
def emitsNothing (tok : EbnfToken) (d : Option DefRef) : Bool :=
  tok.d_op == .Skip ||
    (match d with
     | some r => r.d_tok.d_op == .Skip
     | none => false)

/-- The test `node->d_def == 0 || node->d_def->d_node == 0`: a pseudoterminal. -/
def isPseudoTerminal (d : Option DefRef) : Bool :=
  match d with
  | none => true
  | some r => !r.hasNode

/-- `AntlrGen::tokenName`. -/
def AntlrGen.tokenName (gu : GenUtils) (str : QByteArray) : String :=
  let t := (gu.symToString str).toUpper
  if !t.isEmpty && t.front.isDigit then "T" ++ t else t

/-- `AntlrGen::ruleName`. -/
def AntlrGen.ruleName (gu : GenUtils) (str : QByteArray) : String :=
  (gu.escapeDollars str).toLower

/-- The first switch of `AntlrGen::writeNode` (lines 102 to 114): the text
written in front of the node. -/
def AntlrGen.openBracket (ty : NodeType) (q : Quantity) (tk : EbnfToken) (topLevel : Bool) :
    String :=
  match q with
  | .One =>
      if !topLevel && ty == .Alternative then "( "
      else if !topLevel && ty == .Sequence && !tk.d_val.isEmpty then "( "
      else ""
  | .ZeroOrOne => "( "
  | .ZeroOrMore => "( "

/-- The last switch of `AntlrGen::writeNode` (lines 148 to 162): the text
written behind the node. -/
def AntlrGen.closeBracket (ty : NodeType) (q : Quantity) (tk : EbnfToken) (topLevel : Bool) :
    String :=
  match q with
  | .One =>
      if !topLevel && ty == .Alternative then ") "
      else if !topLevel && ty == .Sequence && !tk.d_val.isEmpty then ") "
      else ""
  | .ZeroOrOne => ")? "
  | .ZeroOrMore => ")* "

mutual

/-- `AntlrGen::writeNode` for a node that is not null: the text of the stream
before and after the call. -/
def AntlrGen.writeNode (gu : GenUtils) : String → Node → Bool → String
  | out, .mk ty q tk subs d, topLevel =>
      if emitsNothing tk d then out
      else
        let out1 := out ++ AntlrGen.openBracket ty q tk topLevel
        let out2 :=
          match ty with
          | .Terminal => out1 ++ AntlrGen.tokenName gu tk.d_val ++ " "
          | .Nonterminal =>
              if isPseudoTerminal d then out1 ++ AntlrGen.tokenName gu tk.d_val ++ " "
              else out1 ++ AntlrGen.ruleName gu tk.d_val ++ " "
          | .Alternative => AntlrGen.writeAlternative gu out1 subs topLevel 0
          | .Sequence => AntlrGen.writeSequence gu out1 subs
          | .Predicate => out1
        out2 ++ AntlrGen.closeBracket ty q tk topLevel

/-- The loop of the case Alternative (lines 127 to 137) from index `i` on. -/
def AntlrGen.writeAlternative (gu : GenUtils) : String → List Node → Bool → Nat → String
  | out, [], _, _ => out
  | out, n :: ns, topLevel, i =>
      let out1 := if i ≠ 0 then (if topLevel then out ++ "\n" ++ "    | " else out ++ "| ") else out
      AntlrGen.writeAlternative gu (AntlrGen.writeNode gu out1 n false) ns topLevel (i + 1)

/-- The loop of the case Sequence (lines 140 to 143). -/
def AntlrGen.writeSequence (gu : GenUtils) : String → List Node → String
  | out, [] => out
  | out, n :: ns => AntlrGen.writeSequence gu (AntlrGen.writeNode gu out n false) ns

end

/-- The second switch of `AntlrGen::writeNode` (lines 115 to 147) on its own:
the text of the node between its brackets. -/
def AntlrGen.writeBody (gu : GenUtils) (out : String) (n : Node) (topLevel : Bool) : String :=
  match n.d_type with
  | .Terminal => out ++ AntlrGen.tokenName gu n.d_tok.d_val ++ " "
  | .Nonterminal =>
      if isPseudoTerminal n.d_def then out ++ AntlrGen.tokenName gu n.d_tok.d_val ++ " "
      else out ++ AntlrGen.ruleName gu n.d_tok.d_val ++ " "
  | .Alternative => AntlrGen.writeAlternative gu out n.d_subs topLevel 0
  | .Sequence => AntlrGen.writeSequence gu out n.d_subs
  | .Predicate => out

/-- A message of `qWarning()` in CocoGen.cpp. -/
inductive CocoWarning where
  | predicateNode
  | unknownPredicate (val : QByteArray)
  deriving DecidableEq

/-- What `CocoGen` has produced so far: the text of the stream and the warnings. -/
structure CocoOut where
  text : String
  warnings : List CocoWarning
  deriving DecidableEq

/-- The operator `out << s`. -/
def CocoOut.write (o : CocoOut) (s : String) : CocoOut := { o with text := o.text ++ s }

/-- A call of `qWarning()`. -/
def CocoOut.warn (o : CocoOut) (w : CocoWarning) : CocoOut :=
  { o with warnings := o.warnings ++ [w] }

/-- Modelled from the spec: what `CocoGen` takes from code that is not part of
the sources at hand: the helpers of GenUtils, `Node::getLlk` (the depth a
predicate encodes, 0 if none) and `EbnfAnalyzer::calcLlkFirstSet` (for each
depth 1 to k the admissible terminal nodes, in the order of iteration). -/
structure CocoEnv where
  gu : GenUtils
  getLlk : Node → Nat
  calcLlkFirstSet : Nat → Nat → Node → List (List Node)

/-- `CocoGen::tokenName`. -/
def CocoGen.tokenName (gu : GenUtils) (str : QByteArray) : String :=
  "T_" ++ gu.symToString str

/-- The inner loop of `CocoGen::handlePredicate` (lines 239 to 244) over the
nodes of depth `i + 1`, from position `j` on. -/
def CocoGen.writePeeks (env : CocoEnv) (i : Nat) : CocoOut → List Node → Nat → CocoOut
  | out, [], _ => out
  | out, n :: ns, j =>
      let out1 := if j ≠ 0 then out.write "|| " else out
      let out2 := out1.write
        ("peek(" ++ toString (i + 1) ++ ") == _" ++ CocoGen.tokenName env.gu n.d_tok.d_val ++ " ")
      CocoGen.writePeeks env i out2 ns (j + 1)

/-- The outer loop of `CocoGen::handlePredicate` (lines 232 to 247) from depth
index `i` on. -/
def CocoGen.writeConditions (env : CocoEnv) : CocoOut → List (List Node) → Nat → CocoOut
  | out, [], _ => out
  | out, s :: ss, i =>
      let out1 := if i ≠ 0 then out.write "&& " else out
      let out2 := if s.length > 1 then out1.write "( " else out1
      let out3 := CocoGen.writePeeks env i out2 s 0
      let out4 := if s.length > 1 then out3.write ") " else out3
      CocoGen.writeConditions env out4 ss (i + 1)

/-- `CocoGen::handlePredicate`. -/
def CocoGen.handlePredicate (env : CocoEnv) (out : CocoOut) (pred sequence : Node) : CocoOut :=
  let ll := env.getLlk pred
  if ll > 0 then
    let llkNodes := env.calcLlkFirstSet ll 0 sequence
    let out1 := out.write "IF( "
    let out2 := CocoGen.writeConditions env out1 llkNodes 0
    out2.write ") "
  else out.warn (.unknownPredicate sequence.d_tok.d_val)

/-- The first switch of `CocoGen::writeNode` (lines 144 to 158). -/
def CocoGen.openBracket (ty : NodeType) (q : Quantity) (tk : EbnfToken) (topLevel : Bool) :
    String :=
  match q with
  | .One =>
      if !topLevel && ty == .Alternative then "( "
      else if !topLevel && ty == .Sequence && !tk.d_val.isEmpty then "( "
      else ""
  | .ZeroOrOne => "[ "
  | .ZeroOrMore => "\x7b "

/-- The last switch of `CocoGen::writeNode` (lines 203 to 217). -/
def CocoGen.closeBracket (ty : NodeType) (q : Quantity) (tk : EbnfToken) (topLevel : Bool) :
    String :=
  match q with
  | .One =>
      if !topLevel && ty == .Alternative then ") "
      else if !topLevel && ty == .Sequence && !tk.d_val.isEmpty then ") "
      else ""
  | .ZeroOrOne => "] "
  | .ZeroOrMore => "\x7d "

/-- The text of a terminal or pseudoterminal in `CocoGen::writeNode` (lines 163
to 165 and 171 to 173). -/
def CocoGen.writeTerminal (env : CocoEnv) (out : CocoOut) (tk : EbnfToken) (buildAst : Bool) :
    CocoOut :=
  let out1 := out.write (CocoGen.tokenName env.gu tk.d_val ++ " ")
  if buildAst then out1.write "(. addTerminal(); .) " else out1

mutual

/-- `CocoGen::writeNode` for a node that is not null. -/
def CocoGen.writeNode (env : CocoEnv) : CocoOut → Node → Bool → Bool → CocoOut
  | out, .mk ty q tk subs d, topLevel, buildAst =>
      if emitsNothing tk d then out
      else
        let out1 := out.write (CocoGen.openBracket ty q tk topLevel)
        let out2 :=
          match ty with
          | .Terminal => CocoGen.writeTerminal env out1 tk buildAst
          | .Nonterminal =>
              if isPseudoTerminal d then CocoGen.writeTerminal env out1 tk buildAst
              else out1.write (env.gu.escapeDollars tk.d_val ++ " ")
          | .Alternative => CocoGen.writeAlternative env out1 subs topLevel buildAst 0
          | .Sequence => CocoGen.writeSequence env out1 subs (.mk ty q tk subs d) buildAst
          | .Predicate => out1.warn .predicateNode
        out2.write (CocoGen.closeBracket ty q tk topLevel)

/-- The loop of the case Alternative (lines 178 to 188) from index `i` on. -/
def CocoGen.writeAlternative (env : CocoEnv) : CocoOut → List Node → Bool → Bool → Nat → CocoOut
  | out, [], _, _, _ => out
  | out, n :: ns, topLevel, buildAst, i =>
      let out1 :=
        if i ≠ 0 then (if topLevel then out.write ("\n" ++ "    | ") else out.write "| ") else out
      CocoGen.writeAlternative env (CocoGen.writeNode env out1 n false buildAst) ns topLevel
        buildAst (i + 1)

/-- The loop of the case Sequence (lines 191 to 197); `sequence` is the node
whose children are written. -/
def CocoGen.writeSequence (env : CocoEnv) : CocoOut → List Node → Node → Bool → CocoOut
  | out, [], _, _ => out
  | out, n :: ns, sequence, buildAst =>
      let out1 :=
        if n.d_type = .Predicate then CocoGen.handlePredicate env out n sequence
        else CocoGen.writeNode env out n false buildAst
      CocoGen.writeSequence env out1 ns sequence buildAst

end

/-- The second switch of `CocoGen::writeNode` (lines 160 to 202) on its own. -/
def CocoGen.writeBody (env : CocoEnv) (out : CocoOut) (n : Node) (topLevel buildAst : Bool) :
    CocoOut :=
  match n.d_type with
  | .Terminal => CocoGen.writeTerminal env out n.d_tok buildAst
  | .Nonterminal =>
      if isPseudoTerminal n.d_def then CocoGen.writeTerminal env out n.d_tok buildAst
      else out.write (env.gu.escapeDollars n.d_tok.d_val ++ " ")
  | .Alternative => CocoGen.writeAlternative env out n.d_subs topLevel buildAst 0
  | .Sequence => CocoGen.writeSequence env out n.d_subs n buildAst
  | .Predicate => out.warn .predicateNode

/-- Names as they are, for the examples: the bytes of a value as text. -/
def plainNames : GenUtils :=
  { symToString := fun v => String.mk (v.map Char.ofNat),
    escapeDollars := fun v => String.mk (v.map Char.ofNat) }

/-- The tree the parser builds for `'a' | 'b'-`, whose second alternative is
annotated Skip. -/
def altWithSkip : Node :=
  Node.container .Alternative 1 7
    [Node.new .Terminal (tok .Literal 7 "a"),
     Node.new .Terminal { tok .Literal 13 "b" with d_op := .Skip }]

/-- The tree `altWithSkip` without its Skip annotated child. -/
def altWithoutSkip : Node :=
  Node.container .Alternative 1 7 [Node.new .Terminal (tok .Literal 7 "a")]

/-- The tree the parser builds for `a | b`. -/
def altOfTwo : Node :=
  Node.container .Alternative 1 7
    [Node.new .Nonterminal (tok .NonTerm 7 "a"), Node.new .Nonterminal (tok .NonTerm 11 "b")]

/-- An environment of `CocoGen` for the examples: plain names, no predicate depth. -/
def plainEnv : CocoEnv :=
  { gu := plainNames, getLlk := fun _ => 0, calcLlkFirstSet := fun _ _ _ => [] }

/-! ## Grammar files (AntlrGen::generate, CocoGen::generate) and the token list
(SynTreeGen::generateTokenList) -/

/-- The text a `QTextStream` writes for a byte array of ASCII text. -/
def bytesToText (v : QByteArray) : String := String.mk (v.map Char.ofNat)

/-- Modelled from the spec: what the emitters take from `EbnfAnalyzer` and
`GenUtils::orderedTokenList`, whose bodies are not part of the sources at hand.
`orderedTokenList syn flag` is the call
`GenUtils::orderedTokenList(EbnfAnalyzer::collectAllTerminalStrings(syn), flag)`,
where `none` stands for the default argument;
`collectAllTerminalProductions syn` lists the names of the productions that
are marked as terminals. -/
structure Analyzer where
  orderedTokenList : EbnfSyntax → Option Bool → List QByteArray
  collectAllTerminalProductions : EbnfSyntax → List QByteArray

/-- Modelled from the spec: `GenUtils::containsAlnum`, whether a value contains
an alphanumeric character. -/
def containsAlnum (v : QByteArray) : Bool := v.any isalnum

/-- An entry of `SynTreeGen::TokenNameValueList`: name and value. -/
abbrev TokenNameValue := String × QByteArray

/-- The loop of `SynTreeGen::generateTokenList` over the ordered tokens (lines
142 to 150). -/
def SynTreeGen.tokenEntries (gu : GenUtils) :
    List TokenNameValue → Bool → List QByteArray → List TokenNameValue
  | res, _, [] => res
  | res, keyWordSection, t :: ts =>
      if !keyWordSection && containsAlnum t then
        SynTreeGen.tokenEntries gu (res ++ [("Keywords", [])] ++ [(gu.symToString t, t)]) true ts
      else
        SynTreeGen.tokenEntries gu (res ++ [(gu.symToString t, t)]) keyWordSection ts

/-- `SynTreeGen::generateTokenList`. -/
def SynTreeGen.generateTokenList (gu : GenUtils) (an : Analyzer) (syn : EbnfSyntax) :
    List TokenNameValue :=
  let tokens := an.orderedTokenList syn (some false)
  let specials := an.collectAllTerminalProductions syn
  let res := [("Literals", [])]
  let res := SynTreeGen.tokenEntries gu res false tokens
  let res := res ++ [("Specials", [])]
  let res := res ++ specials.map (fun t => (gu.escapeDollars t, t))
  let res := res ++ [("Eof", ba "<eof>")]
  res ++ [("MaxToken", [])]

/-- The loop over the tokens in `AntlrGen::generate` (lines 54 to 59). -/
def AntlrGen.writeTokens (gu : GenUtils) : String → List QByteArray → Nat → String
  | out, [], _ => out
  | out, t :: ts, i =>
      AntlrGen.writeTokens gu
        (out ++ "\t" ++ AntlrGen.tokenName gu t ++ "='" ++ toString i ++ "';" ++ "\n") ts (i + 1)

/-- The body of the loop over the definitions in `AntlrGen::generate` (lines 66
to 73) for the definition `d` at index `i`. -/
def AntlrGen.writeRule (gu : GenUtils) (out : String) (d : Definition) (i : Nat) : String :=
  if d.d_tok.d_op = .Skip ∨ (i ≠ 0 ∧ d.d_usedBy.isEmpty) then out
  else
    match d.d_node with
    | none => out
    | some root =>
        let out1 := out ++ AntlrGen.ruleName gu d.d_tok.d_val ++ " : " ++ "\n" ++ "    "
        let out2 := AntlrGen.writeNode gu out1 root true
        out2 ++ "\n" ++ "    ;" ++ "\n" ++ "\n"

/-- The loop over the definitions in `AntlrGen::generate` (lines 64 to 74) from
index `i` on. -/
def AntlrGen.writeRules (gu : GenUtils) : String → List Definition → Nat → String
  | out, [], _ => out
  | out, d :: ds, i => AntlrGen.writeRules gu (AntlrGen.writeRule gu out d i) ds (i + 1)

/-- What `AntlrGen::generate` writes in front of the rules (lines 43 to 62). -/
def AntlrGen.preamble (gu : GenUtils) (an : Analyzer) (syn : EbnfSyntax) (root : Definition) :
    String :=
  let out := "// This file was automatically generated by EbnfStudio; don't modify it!"
    ++ "\n" ++ "\n"
  let out := out ++ "grammar " ++ bytesToText root.d_tok.d_val ++ ";" ++ "\n" ++ "\n"
  let out := out ++ "options \x7b" ++ "\n"
  let out := out ++ "    language = Cpp;" ++ "\n"
  let out := out ++ "\x7d" ++ "\n" ++ "\n"
  let out := out ++ "tokens \x7b" ++ "\n"
  let tokens := an.orderedTokenList syn none ++ an.collectAllTerminalProductions syn
  let out := AntlrGen.writeTokens gu out tokens 0
  let out := out ++ "\x7d" ++ "\n" ++ "\n"
  out ++ "\n"

/-- `AntlrGen::generate`: the text of the grammar file, `none` when the function
returns false without writing. -/
def AntlrGen.generate (gu : GenUtils) (an : Analyzer) (syn : Option EbnfSyntax) : Option String :=
  match syn with
  | none => none
  | some s =>
      match s.d_order with
      | [] => none
      | root :: _ => some (AntlrGen.writeRules gu (AntlrGen.preamble gu an s root) s.d_order 0)

/-- The test `if( node == 0 ) return;` at the head of `CocoGen::writeNode`. -/
def CocoGen.writeNodeOrNull (env : CocoEnv) (out : CocoOut) (node : Option Node)
    (topLevel buildAst : Bool) : CocoOut :=
  match node with
  | none => out
  | some n => CocoGen.writeNode env out n topLevel buildAst

/-- The case of the first definition in `CocoGen::generate` (lines 96 to 106). -/
def CocoGen.writeStart (env : CocoEnv) (out : CocoOut) (d : Definition) (buildAst : Bool) :
    CocoOut :=
  let out := out.write (env.gu.escapeDollars d.d_tok.d_val ++ " = " ++ "\n" ++ "    ")
  let out := if buildAst then out.write ("(. d_stack.push(&d_root); .) " ++ "(") else out
  let out := CocoGen.writeNodeOrNull env out d.d_node true buildAst
  let out := if buildAst then out.write (") " ++ "(. d_stack.pop(); .) ") else out
  out.write ("\n" ++ "    ." ++ "\n" ++ "\n")

/-- The body of the loop over the further definitions in `CocoGen::generate`
(lines 111 to 128) for the definition `d` at index `i`. -/
def CocoGen.writeProduction (env : CocoEnv) (out : CocoOut) (d : Definition) (i : Nat)
    (buildAst : Bool) : CocoOut :=
  if d.d_tok.d_op = .Skip ∨ (i ≠ 0 ∧ d.d_usedBy.isEmpty) then out
  else
    match d.d_node with
    | none => out
    | some root =>
        let out := out.write (env.gu.escapeDollars d.d_tok.d_val ++ " = " ++ "\n" ++ "    ")
        let transparent := d.d_tok.d_op == .Transparent
        let out :=
          if buildAst && !transparent then
            out.write ("(. Vl::SynTree* n = new Vl::SynTree( Vl::SynTree::R_"
              ++ env.gu.escapeDollars d.d_tok.d_val
              ++ ", d_next ); d_stack.top()->d_children.append(n); d_stack.push(n); .) " ++ "( ")
          else out
        let out := CocoGen.writeNode env out root true buildAst
        let out :=
          if buildAst && !transparent then out.write (") " ++ "(. d_stack.pop(); .) ") else out
        out.write ("\n" ++ "    ." ++ "\n" ++ "\n")

/-- The loop over the further definitions in `CocoGen::generate` (lines 109 to
129) from index `i` on. -/
def CocoGen.writeProductions (env : CocoEnv) : CocoOut → List Definition → Nat → Bool → CocoOut
  | out, [], _, _ => out
  | out, d :: ds, i, buildAst =>
      CocoGen.writeProductions env (CocoGen.writeProduction env out d i buildAst) ds (i + 1)
        buildAst

/-- The section PRODUCTIONS of `CocoGen::generate` (lines 95 to 129) for the
definitions in source order. -/
def CocoGen.writeAllProductions (env : CocoEnv) (out : CocoOut) (defs : List Definition)
    (buildAst : Bool) : CocoOut :=
  match defs with
  | [] => out
  | d :: ds => CocoGen.writeProductions env (CocoGen.writeStart env out d buildAst) ds 1 buildAst

/-- The loop over the token list in `CocoGen::generate` (lines 83 to 89). -/
def CocoGen.writeTokens (env : CocoEnv) : CocoOut → List TokenNameValue → CocoOut
  | out, [] => out
  | out, t :: ts =>
      let out := out.write ("  " ++ CocoGen.tokenName env.gu (ba t.1))
      let out := if t.2.isEmpty then out.write "_" else out
      CocoGen.writeTokens env (out.write "\n") ts

/-- What `CocoGen::generate` writes in front of the productions (lines 50 to 93). -/
def CocoGen.preamble (env : CocoEnv) (an : Analyzer) (syn : EbnfSyntax) (root : Definition)
    (buildAst : Bool) : CocoOut :=
  let out : CocoOut := { text := "", warnings := [] }
  let out := out.write
    ("// This file was automatically generated by EbnfStudio; don't modify it!" ++ "\n")
  let out :=
    if buildAst then
      let out := out.write ("#include <QStack>" ++ "\n")
      let out := out.write ("#include <VlSynTree.h>" ++ "\n")
      let out := out.write ("COMPILER " ++ bytesToText root.d_tok.d_val ++ "\n")
      let out := out.write "\n"
      let out := out.write ("\tVl::SynTree d_root;" ++ "\n")
      let out := out.write ("\tQStack<Vl::SynTree*> d_stack;" ++ "\n")
      let out := out.write ("\t" ++ "void addTerminal() \x7b" ++ "\n")
      let out := out.write ("\t\t"
        ++ "Vl::SynTree* n = new Vl::SynTree( d_cur ); d_stack.top()->d_children.append(n);"
        ++ "\n")
      out.write ("\t\x7d" ++ "\n")
    else out
  let out := out.write "\n"
  let out := out.write ("TOKENS" ++ "\n")
  let out := CocoGen.writeTokens env out (SynTreeGen.generateTokenList env.gu an syn)
  let out := out.write "\n"
  let out := out.write ("PRODUCTIONS" ++ "\n")
  out.write "\n"

/-- `CocoGen::generate`: the text of the grammar file and the warnings, `none`
when the function returns false without writing. -/
def CocoGen.generate (env : CocoEnv) (an : Analyzer) (syn : Option EbnfSyntax)
    (buildAst : Bool) : Option CocoOut :=
  match syn with
  | none => none
  | some s =>
      match s.d_order with
      | [] => none
      | root :: _ =>
          let out := CocoGen.preamble env an s root buildAst
          let out := CocoGen.writeAllProductions env out s.d_order buildAst
          some (out.write ("END " ++ bytesToText root.d_tok.d_val ++ " ." ++ "\n"))

/-! ### The condition of a predicate, as the specification describes it -/

/-- The comparison `peek(i) == _TOKEN` for depth index `i` (depth `i + 1`) and
the terminal node `n`. -/
def CocoGen.peekText (gu : GenUtils) (i : Nat) (n : Node) : String :=
  "peek(" ++ toString (i + 1) ++ ") == _" ++ CocoGen.tokenName gu n.d_tok.d_val ++ " "

/-- The disjunction of the comparisons over the members of one depth, joined
by `|| `. -/
def CocoGen.ifDisjunction (gu : GenUtils) (i : Nat) : List Node → String
  | [] => ""
  | [n] => CocoGen.peekText gu i n
  | n :: m :: rest => CocoGen.peekText gu i n ++ "|| " ++ CocoGen.ifDisjunction gu i (m :: rest)

/-- The condition of one depth: its disjunction, in parentheses when the depth
has more than one member. -/
def CocoGen.ifCondition (gu : GenUtils) (i : Nat) (s : List Node) : String :=
  if s.length > 1 then "( " ++ CocoGen.ifDisjunction gu i s ++ ") "
  else CocoGen.ifDisjunction gu i s

/-- The conditions of the depths from index `i` on, joined by `&& `. -/
def CocoGen.ifConditions (gu : GenUtils) : Nat → List (List Node) → String
  | _, [] => ""
  | i, [s] => CocoGen.ifCondition gu i s
  | i, s :: t :: rest =>
      CocoGen.ifCondition gu i s ++ "&& " ++ CocoGen.ifConditions gu (i + 1) (t :: rest)

/-! ### The bracket structure of the text an emitter writes -/

/-- A piece of emitted text: the name of a terminal or nonterminal, other text
(separator, semantic action, condition), or a bracketed group. A group is
plain when its brackets are parentheses that carry no quantifier. -/
inductive Doc where
  | atom (s : String) : Doc
  | text (s : String) : Doc
  | group (op cl : String) (plain : Bool) (body : List Doc) : Doc

mutual

/-- The text of a piece. -/
def Doc.render : Doc → String
  | .atom s => s
  | .text s => s
  | .group op cl _ body => op ++ renderAll body ++ cl

/-- The text of a list of pieces. -/
def renderAll : List Doc → String
  | [] => ""
  | d :: ds => d.render ++ renderAll ds

end

/-- The pieces are exactly one name. -/
def isSingleAtom : List Doc → Bool
  | [.atom _] => true
  | _ => false

mutual

/-- No plain group in the piece holds exactly one name. -/
def Doc.noSingleGroup : Doc → Bool
  | .atom _ => true
  | .text _ => true
  | .group _ _ plain body => !(plain && isSingleAtom body) && allNoSingleGroup body

/-- No plain group in the pieces holds exactly one name. -/
def allNoSingleGroup : List Doc → Bool
  | [] => true
  | d :: ds => d.noSingleGroup && allNoSingleGroup ds

end

/-- The pieces `body` between the brackets `op` and `cl`, or `body` alone when
there is no bracket. -/
def Doc.wrap (op cl : String) (plain : Bool) (body : List Doc) : List Doc :=
  if op = "" then body else [.group op cl plain body]

mutual

/-- The pieces `AntlrGen::writeNode` writes for a node. -/
def AntlrGen.layout (gu : GenUtils) : Node → Bool → List Doc
  | .mk ty q tk subs d, topLevel =>
      if emitsNothing tk d then []
      else
        Doc.wrap (AntlrGen.openBracket ty q tk topLevel) (AntlrGen.closeBracket ty q tk topLevel)
          (q == .One)
          (match ty with
           | .Terminal => [.atom (AntlrGen.tokenName gu tk.d_val ++ " ")]
           | .Nonterminal =>
               if isPseudoTerminal d then [.atom (AntlrGen.tokenName gu tk.d_val ++ " ")]
               else [.atom (AntlrGen.ruleName gu tk.d_val ++ " ")]
           | .Alternative => AntlrGen.layoutAlternative gu subs topLevel 0
           | .Sequence => AntlrGen.layoutSequence gu subs
           | .Predicate => [])

/-- The pieces of the children of an Alternative from index `i` on. -/
def AntlrGen.layoutAlternative (gu : GenUtils) : List Node → Bool → Nat → List Doc
  | [], _, _ => []
  | n :: ns, topLevel, i =>
      (if i ≠ 0 then [Doc.text (if topLevel then "\n" ++ "    | " else "| ")] else [])
        ++ AntlrGen.layout gu n false ++ AntlrGen.layoutAlternative gu ns topLevel (i + 1)

/-- The pieces of the children of a Sequence. -/
def AntlrGen.layoutSequence (gu : GenUtils) : List Node → List Doc
  | [] => []
  | n :: ns => AntlrGen.layout gu n false ++ AntlrGen.layoutSequence gu ns

end

/-- The pieces `CocoGen::writeNode` writes for a terminal or pseudoterminal. -/
def CocoGen.terminalLayout (env : CocoEnv) (tk : EbnfToken) (buildAst : Bool) : List Doc :=
  if buildAst then [.atom (CocoGen.tokenName env.gu tk.d_val ++ " "), .text "(. addTerminal(); .) "]
  else [.atom (CocoGen.tokenName env.gu tk.d_val ++ " ")]

/-- The pieces `CocoGen::handlePredicate` writes. -/
def CocoGen.predicateLayout (env : CocoEnv) (pred sequence : Node) : List Doc :=
  if env.getLlk pred > 0 then
    [.text ("IF( "
      ++ CocoGen.ifConditions env.gu 0 (env.calcLlkFirstSet (env.getLlk pred) 0 sequence) ++ ") ")]
  else []

mutual

/-- The pieces `CocoGen::writeNode` writes for a node. -/
def CocoGen.layout (env : CocoEnv) : Node → Bool → Bool → List Doc
  | .mk ty q tk subs d, topLevel, buildAst =>
      if emitsNothing tk d then []
      else
        Doc.wrap (CocoGen.openBracket ty q tk topLevel) (CocoGen.closeBracket ty q tk topLevel)
          (q == .One)
          (match ty with
           | .Terminal => CocoGen.terminalLayout env tk buildAst
           | .Nonterminal =>
               if isPseudoTerminal d then CocoGen.terminalLayout env tk buildAst
               else [.atom (env.gu.escapeDollars tk.d_val ++ " ")]
           | .Alternative => CocoGen.layoutAlternative env subs topLevel buildAst 0
           | .Sequence => CocoGen.layoutSequence env subs (.mk ty q tk subs d) buildAst
           | .Predicate => [])

/-- The pieces of the children of an Alternative from index `i` on. -/
def CocoGen.layoutAlternative (env : CocoEnv) : List Node → Bool → Bool → Nat → List Doc
  | [], _, _, _ => []
  | n :: ns, topLevel, buildAst, i =>
      (if i ≠ 0 then [Doc.text (if topLevel then "\n" ++ "    | " else "| ")] else [])
        ++ CocoGen.layout env n false buildAst
        ++ CocoGen.layoutAlternative env ns topLevel buildAst (i + 1)

/-- The pieces of the children of the Sequence `sequence`. -/
def CocoGen.layoutSequence (env : CocoEnv) : List Node → Node → Bool → List Doc
  | [], _, _ => []
  | n :: ns, sequence, buildAst =>
      (if n.d_type = .Predicate then CocoGen.predicateLayout env n sequence
       else CocoGen.layout env n false buildAst)
        ++ CocoGen.layoutSequence env ns sequence buildAst

end

/-- The pieces `AntlrGen::generate` writes for the definition `d` at index `i`. -/
def AntlrGen.ruleLayout (gu : GenUtils) (d : Definition) (i : Nat) : List Doc :=
  if d.d_tok.d_op = .Skip ∨ (i ≠ 0 ∧ d.d_usedBy.isEmpty) then []
  else
    match d.d_node with
    | none => []
    | some root =>
        [Doc.text (AntlrGen.ruleName gu d.d_tok.d_val ++ " : " ++ "\n" ++ "    ")]
          ++ AntlrGen.layout gu root true ++ [Doc.text ("\n" ++ "    ;" ++ "\n" ++ "\n")]

/-- The pieces `CocoGen::generate` writes for the definition `d` at index
`i > 0`. With AST building the body of a definition that is not Transparent
stands in a plain group between the push and the pop action. -/
def CocoGen.productionLayout (env : CocoEnv) (d : Definition) (i : Nat) (buildAst : Bool) :
    List Doc :=
  if d.d_tok.d_op = .Skip ∨ (i ≠ 0 ∧ d.d_usedBy.isEmpty) then []
  else
    match d.d_node with
    | none => []
    | some root =>
        [Doc.text (env.gu.escapeDollars d.d_tok.d_val ++ " = " ++ "\n" ++ "    ")]
          ++ (if buildAst && !(d.d_tok.d_op == .Transparent) then
                [Doc.text ("(. Vl::SynTree* n = new Vl::SynTree( Vl::SynTree::R_"
                    ++ env.gu.escapeDollars d.d_tok.d_val
                    ++ ", d_next ); d_stack.top()->d_children.append(n); d_stack.push(n); .) "),
                 Doc.group "( " ") " true (CocoGen.layout env root true buildAst),
                 Doc.text "(. d_stack.pop(); .) "]
              else CocoGen.layout env root true buildAst)
          ++ [Doc.text ("\n" ++ "    ." ++ "\n" ++ "\n")]

/-- The pieces `CocoGen::generate` writes for the first definition. With AST
building its body stands in a plain group between the push and the pop
action. -/
def CocoGen.startLayout (env : CocoEnv) (d : Definition) (buildAst : Bool) : List Doc :=
  let body :=
    match d.d_node with
    | none => []
    | some root => CocoGen.layout env root true buildAst
  [Doc.text (env.gu.escapeDollars d.d_tok.d_val ++ " = " ++ "\n" ++ "    ")]
    ++ (if buildAst then
          [Doc.text "(. d_stack.push(&d_root); .) ", Doc.group "(" ") " true body,
           Doc.text "(. d_stack.pop(); .) "]
        else body)
    ++ [Doc.text ("\n" ++ "    ." ++ "\n" ++ "\n")]

/-! ### The grammar `S ::= \LL:2\ 'a' 'b' | 'a' 'c'` -/

/-- The predicate node of `\LL:2\`. -/
def llPredicate : Node := Node.new .Predicate (tok .Predicate 7 "LL:2")

/-- The terminal node of `'a'` behind the predicate. -/
def literalA : Node := Node.new .Terminal (tok .Literal 14 "a")

/-- The terminal node of `'b'`. -/
def literalB : Node := Node.new .Terminal (tok .Literal 18 "b")

/-- The tree of the term `\LL:2\ 'a' 'b'`. -/
def llSequence : Node := Node.container .Sequence 1 14 [llPredicate, literalA, literalB]

/-- An environment in which the predicate has depth 2 and the admissible sets
of the two depths are `a` and `b`; names are rendered by `gu`. -/
def llEnv (gu : GenUtils) : CocoEnv :=
  { gu := gu, getLlk := fun _ => 2, calcLlkFirstSet := fun _ _ _ => [[literalA], [literalB]] }

/-! ### Small grammars for the examples of the emitters -/

/-- The node of a reference to the production `U`, which has a root. -/
def refU : Node :=
  .mk .Nonterminal .One (tok .NonTerm 7 "U") []
    (some { d_tok := tok .Production 1 "U", hasNode := true })

/-- The definition `T ::= U`, referenced from one node. -/
def singleRef : Definition :=
  { Definition.new (tok .Production 1 "T") with
    d_node := some refU, d_usedBy := [Node.new .Nonterminal (tok .NonTerm 7 "T")] }

/-- The tree of the factor `[ 'a' ]`, an optional terminal. -/
def optionalA : Node := (Node.new .Terminal (tok .Literal 9 "a")).setQuant .ZeroOrOne

/-- The node of a reference to the production `A`, which is declared without
a body (`A ::=`). -/
def refEmpty : Node :=
  .mk .Nonterminal .One (tok .NonTerm 7 "A") []
    (some { d_tok := tok .Production 1 "A", hasNode := false })

/-! ### The rules of a grammar file, as the specification describes them -/

/-- The texts of a list, one behind the other. -/
def concatAll : List String → String
  | [] => ""
  | s :: ss => s ++ concatAll ss

/-- The definition `d` at index `i` gets a rule of its own: it is not Skip, it
is the first definition or is referenced, and it has a root node. -/
def AntlrGen.emitsRule (d : Definition) (i : Nat) : Bool :=
  !(d.d_tok.d_op == .Skip) && (i == 0 || !d.d_usedBy.isEmpty) && d.d_node.isSome

/-- The rule of the definition `d`: its name, ` : `, the text of its root node
at top level, and ` ;`. -/
def AntlrGen.ruleText (gu : GenUtils) (d : Definition) : String :=
  AntlrGen.ruleName gu d.d_tok.d_val ++ " : " ++ "\n" ++ "    "
    ++ (match d.d_node with
        | none => ""
        | some root => AntlrGen.writeNode gu "" root true)
    ++ "\n" ++ "    ;" ++ "\n" ++ "\n"

/-- The rules of the definitions `defs`, which stand at the indices from `i`
on: one rule for each definition that gets one, in source order. -/
def AntlrGen.rulesFrom (gu : GenUtils) (defs : List Definition) (i : Nat) : List String :=
  ((defs.enumFrom i).filter (fun p => AntlrGen.emitsRule p.2 p.1)).map
    (fun p => AntlrGen.ruleText gu p.2)

/-- An analyzer that finds no token and no terminal production. -/
def noTokens : Analyzer :=
  { orderedTokenList := fun _ _ => [], collectAllTerminalProductions := fun _ => [] }

/-- The definition `S ::= A` at the head of a grammar. -/
def startS : Definition :=
  { Definition.new (tok .Production 1 "S") with d_node := some refEmpty }

/-- The definition `A ::=`, declared without a body and referenced from `S`. -/
def emptyA : Definition :=
  { Definition.new (tok .Production 1 "A") with d_usedBy := [refEmpty] }

/-- The definition `S- ::= 'a'`, annotated Skip, at the head of a grammar. -/
def skipStart : Definition :=
  { Definition.new { tok .Production 1 "S" with d_op := .Skip } with
    d_node := some (Node.new .Terminal (tok .Literal 8 "a")) }

/-- The definition `S* ::= 'a'`, annotated Transparent, at the head of a
grammar. -/
def transparentStart : Definition :=
  { Definition.new { tok .Production 1 "S" with d_op := .Transparent } with
    d_node := some (Node.new .Terminal (tok .Literal 8 "a")) }

/-! ### The sections of the token list, as the specification describes them -/

/-- The loop of `SynTreeGen::generateTt` that writes the enumerators of the
tokens into `enum TokenType` (lines 185 to 191): `TT_` and the name for an
entry without value, `Tok_` and the name for any other entry. -/
def SynTreeGen.tokenEnumerators (tokens : List TokenNameValue) : List String :=
  tokens.map (fun t => if t.2.isEmpty then "TT_" ++ t.1 else "Tok_" ++ t.1)

/-- The tokens in front of the first token that contains an alphanumeric
character. -/
def SynTreeGen.literalTokens (tokens : List QByteArray) : List QByteArray :=
  tokens.takeWhile (fun t => !containsAlnum t)

/-- The tokens from the first token on that contains an alphanumeric
character. -/
def SynTreeGen.keywordTokens (tokens : List QByteArray) : List QByteArray :=
  tokens.dropWhile (fun t => !containsAlnum t)

/-- The grammar of `S ::= '+'`. -/
def plusGrammar : EbnfSyntax :=
  { d_order := [{ Definition.new (tok .Production 1 "S") with
      d_node := some (Node.new .Terminal (tok .Literal 7 "+")) }] }

/-- An analyzer that finds the one terminal string `+` and no terminal
production, as in `plusGrammar`. -/
def operatorsOnly : Analyzer :=
  { orderedTokenList := fun _ _ => [ba "+"], collectAllTerminalProductions := fun _ => [] }

/-! ## Further notions of the lexer -/

/-- The first `n` tokens `EbnfLexer::nextToken` delivers, and the lexer behind
them. -/
def EbnfLexer.nextTokens : Nat → EbnfLexer → EbnfLexer × List EbnfToken
  | 0, lx => (lx, [])
  | n + 1, lx =>
      let (lx1, t) := lx.nextToken
      let (lx2, ts) := EbnfLexer.nextTokens n lx1
      (lx2, t :: ts)

/-! ### Operator suffix and escapes, as the specification describes them -/

/-- The annotation the bytes behind a lexeme stand for, and the number of
bytes that belong to it: `*` is Transparent, `!` is Keep, `-` is Skip, each one
byte; anything else, the end of the line included, is Normal and no byte. -/
def suffixOp : QByteArray → Handling × Nat
  | 42 :: _ => (.Transparent, 1)
  | 33 :: _ => (.Keep, 1)
  | 45 :: _ => (.Skip, 1)
  | _ => (.Normal, 0)

/-- One pass from left to right over the text between the quotes: the pair
`\'` becomes `'`, the pair `\\` becomes `\`, any other pair that starts with a
backslash and any other byte stay as they are. -/
def unescape : QByteArray → QByteArray
  | [] => []
  | [x] => [x]
  | x :: y :: rest =>
      if x = 92 ∧ y = 39 then 39 :: unescape rest
      else if x = 92 ∧ y = 92 then 92 :: unescape rest
      else if x = 92 then 92 :: y :: unescape rest
      else x :: unescape (y :: rest)

/-- A lexer with the keyword `if` that stands behind `a ` in the line `a if b`. -/
def lexerBeforeIf : EbnfLexer :=
  { EbnfLexer.setStream [ba "if"] [] with d_lineNr := 1, d_line := ba "a if b", d_colNr := 2 }

/-! ## The enumerations written by SynTreeGen (SynTreeGen.cpp) -/

/-- The values of the enumerators `names` of a C++ enumeration whose first
enumerator has the value `first` and whose other enumerators carry no value of
their own: each is one more than the one before. -/
def enumValues (names : List String) (first : Nat) : List (String × Nat) :=
  (names.enumFrom first).map (fun p => (p.2, p.1))

/-- The test of `SynTreeGen::generateTt` for the definitions that get an
enumerator `R_` (lines 195, 243 and 261). -/
def SynTreeGen.hasRuleId (d : Definition) : Bool :=
  d.d_tok.d_op == .Normal && !d.d_usedBy.isEmpty && d.d_node.isSome

/-- The enumerators of `enum TokenType` that `SynTreeGen::generateTt` writes to
the header (lines 182 to 200), in order: `Tok_Invalid`, the enumerators of the
token list, with `includeNt` the sentinel `TT_Nonterminals` and the `R_`
enumerators, and `TT_Max`. `defs` are the definitions in the order in which
`syn->getDefs()` delivers them. -/
def SynTreeGen.tokenTypeEnum (gu : GenUtils) (an : Analyzer) (syn : EbnfSyntax)
    (defs : List Definition) (includeNt : Bool) : List String :=
  ["Tok_Invalid"]
    ++ SynTreeGen.tokenEnumerators (SynTreeGen.generateTokenList gu an syn)
    ++ (if includeNt then
          ["TT_Nonterminals"]
            ++ (defs.filter SynTreeGen.hasRuleId).map
                (fun d => "R_" ++ gu.escapeDollars d.d_tok.d_val)
        else [])
    ++ ["TT_Max"]

/-- The values of `enum TokenType`: `Tok_Invalid = 0` is written with its
value, the others follow. -/
def SynTreeGen.tokenTypeValues (gu : GenUtils) (an : Analyzer) (syn : EbnfSyntax)
    (defs : List Definition) (includeNt : Bool) : List (String × Nat) :=
  enumValues (SynTreeGen.tokenTypeEnum gu an syn defs includeNt) 0

/-- `QMap::insert` on the keys of a map: the keys stay in ascending order, a
key that is present keeps its place. -/
def sortInsert (k : String) : List String → List String
  | [] => [k]
  | x :: xs =>
      if k < x then k :: x :: xs
      else if k = x then x :: xs
      else x :: sortInsert k xs

/-- The keys of the map `sort` that `SynTreeGen::generateTree` fills (lines 51
to 57): the names of the definitions that are not Transparent and are
referenced. -/
def SynTreeGen.sortedRuleNames (gu : GenUtils) (defs : List Definition) : List String :=
  defs.foldl
    (fun acc d =>
      if d.d_tok.d_op != .Transparent && !d.d_usedBy.isEmpty then
        sortInsert (gu.escapeDollars d.d_tok.d_val) acc
      else acc)
    []

/-- The enumerators of `enum ParserRule` that `SynTreeGen::generateTree` writes
with `includeNt` (lines 62 to 70), with their values: `R_First = TT_Max + 1`,
an `R_` enumerator for each key, and `R_Last`. `ttMax` is the value of
`TT_Max`. -/
def SynTreeGen.parserRuleEnum (gu : GenUtils) (defs : List Definition) (ttMax : Nat) :
    List (String × Nat) :=
  enumValues
    (["R_First"] ++ (SynTreeGen.sortedRuleNames gu defs).map (fun k => "R_" ++ k) ++ ["R_Last"])
    (ttMax + 1)

/-! ### Looking ahead (EbnfLexer::peekToken) -/

/-- The loop of `EbnfLexer::peekToken` (lines 192 and 193): while the buffer
holds less than `lookAhead` tokens, the next token goes to its end. -/
def EbnfLexer.peekLoop : Nat → EbnfLexer → Nat → EbnfLexer
  | 0, lx, _ => lx
  | fuel + 1, lx, lookAhead =>
      if lx.d_buffer.length < lookAhead then
        let (lx1, t) := lx.nextTokenImp
        EbnfLexer.peekLoop fuel { lx1 with d_buffer := lx1.d_buffer ++ [t] } lookAhead
      else lx

/-- `EbnfLexer::peekToken`; `lookAhead` is the value of the argument, for which
the function asserts `lookAhead > 0`. Each round of the loop adds a token to
the buffer, so `lookAhead` rounds are enough. -/
def EbnfLexer.peekToken (lx : EbnfLexer) (lookAhead : Nat) : EbnfLexer × EbnfToken :=
  let lx1 := EbnfLexer.peekLoop lookAhead lx lookAhead
  (lx1, lx1.d_buffer.getD (lookAhead - 1) EbnfToken.default)

/-- A call of the lexer: `nextToken()` or `peekToken(k)`. -/
inductive LexerCall where
  | next
  | peek (k : Nat)

/-- The calls `calls` made one after the other: the lexer behind them and the
tokens the calls of `nextToken` have returned. -/
def EbnfLexer.run : List LexerCall → EbnfLexer → EbnfLexer × List EbnfToken
  | [], lx => (lx, [])
  | .next :: calls, lx =>
      let (lx1, t) := lx.nextToken
      let (lx2, ts) := EbnfLexer.run calls lx1
      (lx2, t :: ts)
  | .peek k :: calls, lx => EbnfLexer.run calls (lx.peekToken k).1

/-- The number of calls of `nextToken` among `calls`. -/
def countNext : List LexerCall → Nat
  | [] => 0
  | .next :: calls => countNext calls + 1
  | .peek _ :: calls => countNext calls

/-- The first `n` tokens `EbnfLexer::nextTokenImp` delivers, and the lexer
behind them. -/
def EbnfLexer.impTokens : Nat → EbnfLexer → EbnfLexer × List EbnfToken
  | 0, lx => (lx, [])
  | n + 1, lx =>
      let (lx1, t) := lx.nextTokenImp
      let (lx2, ts) := EbnfLexer.impTokens n lx1
      (lx2, t :: ts)

/-- The lexer with another buffer and another last token. -/
def EbnfLexer.put (lx : EbnfLexer) (b : List EbnfToken) (l : EbnfToken) : EbnfLexer :=
  { lx with d_buffer := b, d_lastToken := l }

/-- The lexer with another buffer. -/
def EbnfLexer.setBuffer (lx : EbnfLexer) (b : List EbnfToken) : EbnfLexer :=
  { lx with d_buffer := b }

/-! ### The start of a line, as the specification describes it -/

/-- The line is a production header: an identifier or a terminated quoted
literal, an optional operator suffix right behind it, optional white space,
and `::=`. -/
def IsProductionHeader (line : QByteArray) : Prop :=
  ∃ (lexeme op ws tail : QByteArray) (h : Handling),
    line = lexeme ++ (op ++ (ws ++ 58 :: 58 :: 61 :: tail)) ∧
      (isIdentifier lexeme = true ∨ isQuotedLiteral lexeme = true) ∧
      opSuffix op = some h ∧ ws.all isspace = true

/-- The line starts with `//`. -/
def startsComment (line : QByteArray) : Bool :=
  match line with
  | 47 :: 47 :: _ => true
  | _ => false

/-! ### Notions used in the statements about positions -/

/-- The lexer `y` is the lexer `x` further on in the same line: device, line
and line number are those of `x`, the column has not gone back. -/
def EbnfLexer.Advanced (x y : EbnfLexer) : Prop :=
  y.d_in = x.d_in ∧ y.ownsStream = x.ownsStream ∧ y.d_line = x.d_line ∧
    y.d_lineNr = x.d_lineNr ∧ y.d_kw = x.d_kw ∧ x.d_colNr ≤ y.d_colNr

/-- The lexer reads the lines `input` and does not own the device; it has read
`d_lineNr` of them, and its current line is the last line read without its
line end, or empty when no line was read. -/
def EbnfLexer.Reads (input : List QByteArray) (lx : EbnfLexer) : Prop :=
  lx.ownsStream = false ∧ lx.d_lineNr ≤ input.length ∧
    (lx.d_lineNr = 0 → lx.d_line = []) ∧
    (∀ k, lx.d_lineNr = k + 1 → ∃ raw, input[k]? = some raw ∧ lx.d_line = chopLine raw)

/-- The byte the lexer stands at, if there is one, is not white space. -/
def EbnfLexer.Settled (lx : EbnfLexer) : Prop :=
  ∀ c, lx.d_line[lx.d_colNr]? = some c → isspace c = false

/-- The position of a token read from the lines `input`: the column is at
least 1 and the line number at most the number of lines; the Eof token has the
number of the last line; any other token has a line number of at least 1, and
unless it is Invalid, its column is 1 plus the offset of a byte of that line
that is not white space. -/
def PositionOk (input : List QByteArray) (t : EbnfToken) : Prop :=
  1 ≤ t.d_colNr ∧ t.d_lineNr ≤ input.length ∧
    (t.d_type = .Eof → t.d_lineNr = input.length) ∧
    (t.d_type ≠ .Eof →
      1 ≤ t.d_lineNr ∧
      (t.d_type ≠ .Invalid →
        ∃ raw c, input[t.d_lineNr - 1]? = some raw ∧
          (chopLine raw)[t.d_colNr - 1]? = some c ∧ isspace c = false))

/-- What a function of the lexer that makes one token does to the position:
the token carries line and column of the lexer, and the lexer moves on in its
line by the length of the token at least. -/
def MakesTokenAt (x : EbnfLexer) (res : EbnfLexer × EbnfToken) : Prop :=
  x.Advanced res.1 ∧ res.2.d_lineNr = x.d_lineNr ∧ res.2.d_colNr = x.d_colNr + 1 ∧
    x.d_colNr + res.2.d_len ≤ res.1.d_colNr ∧ res.2.d_type ≠ .Eof

/-! ### Token sources without comments -/

/-- The token is not a Comment. -/
def notComment (t : EbnfToken) : Bool := t.d_type != .Comment

/-- The parser in front of the same tokens without the Comment tokens. -/
def EbnfParser.withoutComments (p : EbnfParser) : EbnfParser :=
  { p with d_lex := p.d_lex.filter notComment }

/-- The result of a parsing function with the Comment tokens taken from the
tokens that are left. -/
def resultWithoutComments {α : Type} (r : EbnfParser × α) : EbnfParser × α :=
  (r.1.withoutComments, r.2)

/-- The tokens of `S ::= a | b` with a comment behind `::=` and one behind `|`. -/
def commentedTokens : List EbnfToken :=
  [tok .Production 1 "S", tok .Assig 3 "", tok .Comment 7 "one", tok .NonTerm 14 "a",
   tok .Bar 16 "", tok .Comment 18 "two", tok .NonTerm 25 "b"]

/-- The tokens of `commentedTokens` with one comment, in front of `S`. -/
def otherCommentedTokens : List EbnfToken :=
  [tok .Comment 0 "zero", tok .Production 1 "S", tok .Assig 3 "", tok .NonTerm 14 "a",
   tok .Bar 16 "", tok .NonTerm 25 "b"]

/-! ### Rule ids in the push actions of CocoGen -/

/-- The name behind `Vl::SynTree::R_` in the push action that the loop of
`CocoGen::generate` writes for the definition `d` at index `i` (lines 113 to
121), if it writes one: the definition is not skipped, it has a root, AST
building is on and the definition is not Transparent. -/
def CocoGen.pushedRule (gu : GenUtils) (d : Definition) (i : Nat) (buildAst : Bool) :
    Option String :=
  if d.d_tok.d_op = .Skip ∨ (i ≠ 0 ∧ d.d_usedBy.isEmpty) then none
  else
    match d.d_node with
    | none => none
    | some _ =>
        if buildAst && !(d.d_tok.d_op == .Transparent) then
          some (gu.escapeDollars d.d_tok.d_val)
        else none

/-- A referenced definition `T ::= U` and a referenced Transparent definition
`V* ::= U`, behind a start definition `S ::= T V`. -/
def threeRules : List Definition :=
  [{ Definition.new (tok .Production 1 "S") with
      d_node := some (Node.container .Sequence 1 7
        [Node.new .Nonterminal (tok .NonTerm 7 "T"), Node.new .Nonterminal (tok .NonTerm 9 "V")]) },
   { Definition.new (tok .Production 1 "T") with
      d_node := some (Node.new .Nonterminal (tok .NonTerm 7 "U")),
      d_usedBy := [Node.new .Nonterminal (tok .NonTerm 7 "T")] },
   { Definition.new { tok .Production 1 "V" with d_op := .Transparent } with
      d_node := some (Node.new .Nonterminal (tok .NonTerm 8 "U")),
      d_usedBy := [Node.new .Nonterminal (tok .NonTerm 9 "V")] }]

/-! ### The token list of a text (EbnfLexer::tokens) -/

/-- `EbnfLexer::setStream` on a lexer that was used before, for a device that
is not a child of the lexer: the device, the line and column numbers and the
last token are set; the current line and the buffer are left as they are. -/
def EbnfLexer.setStreamOn (lx : EbnfLexer) (input : List QByteArray) : EbnfLexer :=
  { lx with d_in := some input, ownsStream := false, d_lineNr := 0, d_colNr := 0,
            d_lastToken := EbnfToken.make .Invalid 0 0 0 [] }

/-- The bytes the lexer has not read yet: the rest of the current line and the
lines left in the device, each with one more for the step to the next line. -/
def EbnfLexer.unread (lx : EbnfLexer) : Nat :=
  (lx.d_line.length - lx.d_colNr) +
    match lx.d_in with
    | none => 0
    | some ins => (ins.map (fun raw => raw.length + 1)).sum

/-- The loop of `EbnfLexer::tokens` (lines 146 to 151), entered with the token
`t` read last and the list `res` collected so far; `none` means the fuel ran
out. -/
def EbnfLexer.tokensLoop : Nat → EbnfLexer → EbnfToken → List EbnfToken → Option (List EbnfToken)
  | 0, _, _, _ => none
  | fuel + 1, lx, t, res =>
      if t.isValid then
        let (lx1, t1) := lx.nextToken
        EbnfLexer.tokensLoop fuel lx1 t1 (res ++ [t])
      else some res

/-- `EbnfLexer::tokens` for the text whose lines are `input`. -/
def EbnfLexer.tokens (lx : EbnfLexer) (input : List QByteArray) : Option (List EbnfToken) :=
  let lx0 := lx.setStreamOn input
  let (lx1, t) := lx0.nextToken
  EbnfLexer.tokensLoop (lx0.d_buffer.length + lx0.unread + 1) lx1 t []

/-- A lexer behind the `a` of the line `S ::= a + b`, in front of the `+`. -/
def lexerBeforePlus : EbnfLexer :=
  { EbnfLexer.setStream [] [] with d_lineNr := 1, d_line := ba "S ::= a + b", d_colNr := 7 }

/-! ### The position a token carries -/

/-- The byte `c` is one that a lexeme of the token `t` begins with: a letter,
a digit or `$` for an identifier, a quote for a literal, either of them for a
production header, the delimiter itself for a delimiter, a backslash for a
predicate, a slash for a comment; for the Invalid token of an unexpected
character it is the character the message names. -/
def startsLexeme (t : EbnfToken) (c : Nat) : Bool :=
  match t.d_type with
  | .NonTerm | .Keyword => isalnum c || c == 36
  | .Literal => c == 39
  | .Production => isalnum c || c == 36 || c == 39
  | .Assig => c == 58
  | .LPar => c == 40
  | .RPar => c == 41
  | .LBrack => c == 91
  | .RBrack => c == 93
  | .LBrace => c == 123
  | .RBrace => c == 125
  | .Bar => c == 124
  | .Predicate => c == 92
  | .Comment => c == 47
  | .Invalid => t.d_val == unexpectedCharMsg c
  | .Eof => false

/-- The token is the Invalid token `production or comment expected`. -/
def isHeaderComplaint (t : EbnfToken) : Bool :=
  t.d_type == .Invalid && t.d_val == ba "production or comment expected"

/-- The offset in the current line from which a call of `nextTokenImp` looked
for its lexeme: where the lexer `x` stood before the call when the lexer `x1`
behind the call is still in the same line, and the start of the line when the
call has read that line. -/
def searchedFrom (x x1 : EbnfLexer) : Nat :=
  if x1.d_lineNr = x.d_lineNr then x.d_colNr else 0

/-- The position of the token of one call of `nextTokenImp`, relative to the
lexer: `x` is the lexer before the call, `res` the lexer behind it and the
token. The token carries the line count of the lexer and a column of at least
1. The Eof token carries 1 plus the offset at which the lexer stood. For a
token other than Eof the current line is the line the lexer had
before or a line read by this call. The token `production or comment expected`
has the length 0 and carries 1 plus the offset at which the lexer stands. Any
other token carries 1 plus the offset of the first byte of its lexeme: a byte
of the current line that such a lexeme begins with, with nothing but white
space between the offset the search started from and it; the lexer stands
behind the token. -/
def PositionedBy (x : EbnfLexer) (res : EbnfLexer × EbnfToken) : Prop :=
  res.2.d_lineNr = res.1.d_lineNr ∧ 1 ≤ res.2.d_colNr ∧
  (res.2.d_type = .Eof → res.2.d_colNr + res.2.d_len = res.1.d_colNr + 1) ∧
  (res.2.d_type ≠ .Eof →
    ((res.1.d_lineNr = x.d_lineNr ∧ res.1.d_line = x.d_line) ∨ x.d_lineNr < res.1.d_lineNr) ∧
    (isHeaderComplaint res.2 = true →
      res.2.d_colNr = res.1.d_colNr + 1 ∧ res.2.d_len = 0) ∧
    (isHeaderComplaint res.2 = false →
      ∃ c, res.1.d_line[res.2.d_colNr - 1]? = some c ∧ isspace c = false ∧
        startsLexeme res.2 c = true ∧
        searchedFrom x res.1 ≤ res.2.d_colNr - 1 ∧
        ((res.1.d_line.take (res.2.d_colNr - 1)).drop (searchedFrom x res.1)).all isspace = true ∧
        res.2.d_colNr - 1 + res.2.d_len ≤ res.1.d_colNr))

/-- The line of a token read from the lines `input`, `res` being the lexer
behind the call and the token: the token carries the number of lines the lexer
has taken from the device. For the Eof token these are all lines. Any other
token carries a number `k` of at least 1, and the current line of the lexer is
the `k`-th line of `input` without its line end. -/
def ReadFrom (input : List QByteArray) (res : EbnfLexer × EbnfToken) : Prop :=
  res.1.d_in = some (input.drop res.2.d_lineNr) ∧ res.2.d_lineNr ≤ input.length ∧
  (res.2.d_type = .Eof → res.2.d_lineNr = input.length) ∧
  (res.2.d_type ≠ .Eof →
    1 ≤ res.2.d_lineNr ∧
      ∃ raw, input[res.2.d_lineNr - 1]? = some raw ∧ res.1.d_line = chopLine raw)

/-- A lexer that has read the token `a` of the line ` a b` and is then given
the text ` c` by `setStream`. -/
def reusedLexer : EbnfLexer :=
  (EbnfLexer.setStream [] [ba " a b\n"]).nextToken.1.setStreamOn [ba " c\n"]

/-! # Theorems -/

/-! ## Production headers at the start of a line -/

theorem literalScan_quoted (body : QByteArray) :
    ∀ (more : QByteArray) (off : Nat), isQuotedBody body = true →
      literalScan (body ++ more) off + 1 = off + body.length := by
  induction body using isQuotedBody.induct with
  | case1 => intro more off h; simp [isQuotedBody] at h
  | case2 c =>
      intro more off h
      simp [isQuotedBody] at h
      subst h
      cases more <;> simp [literalScan]
  | case3 d rest ih =>
      intro more off h
      simp [isQuotedBody] at h
      have := ih more (off + 2) h
      simp [literalScan]
      omega
  | case4 d rest hc =>
      intro more off h
      simp [isQuotedBody] at h
  | case5 c d rest hc hq ih =>
      intro more off h
      simp [isQuotedBody, hc, hq] at h
      have := ih more (off + 1) h
      simp [literalScan, hc, hq]
      simp at this
      omega

theorem getD_eq_headD_drop (l : QByteArray) (n d : Nat) : l.getD n d = (l.drop n).headD d := by
  induction l generalizing n with
  | nil => simp
  | cons x xs ih =>
      cases n with
      | zero => simp
      | succ m => simp [ih m]

theorem lookAhead_eq (lx : EbnfLexer) (k : Nat) : lx.lookAhead k = (lx.rest.drop k).headD 0 := by
  simp only [EbnfLexer.lookAhead, EbnfLexer.rest, getD_eq_headD_drop, List.drop_drop]

theorem drop_takeWhile_length (p : Nat → Bool) (l : QByteArray) :
    l.drop (l.takeWhile p).length = l.dropWhile p := by
  induction l with
  | nil => rfl
  | cons x xs ih =>
      by_cases hx : p x = true
      · simp [List.takeWhile_cons, List.dropWhile_cons, hx, ih]
      · simp [List.takeWhile_cons, List.dropWhile_cons, hx]

theorem rest_skipWhiteSpace (lx : EbnfLexer) :
    lx.skipWhiteSpace.1.rest = lx.rest.dropWhile isspace := by
  simp only [EbnfLexer.skipWhiteSpace, EbnfLexer.rest, ← List.drop_drop, drop_takeWhile_length]

theorem rest_token (lx : EbnfLexer) (tt : TokenType) (len : Nat) (val : QByteArray) :
    (lx.token tt len val).1.rest = lx.rest.drop len := by
  simp only [EbnfLexer.token, EbnfLexer.rest, List.drop_drop]

theorem dropWhile_ws_assign (ws tail : QByteArray) (hws : ws.all isspace = true) :
    (ws ++ 58 :: 58 :: 61 :: tail).dropWhile isspace = 58 :: 58 :: 61 :: tail := by
  induction ws with
  | nil => simp [List.dropWhile_cons, isspace]
  | cons w ws ih =>
      simp only [List.all_cons, Bool.and_eq_true] at hws
      simp [List.dropWhile_cons, hws.1, ih hws.2]

theorem ws_assign_head (ws tail : QByteArray) (hws : ws.all isspace = true) :
    ∃ c r, ws ++ 58 :: 58 :: 61 :: tail = c :: r ∧ c ≠ 42 ∧ c ≠ 33 ∧ c ≠ 45 ∧
      isIdentChar c = false := by
  cases ws with
  | nil => exact ⟨58, _, rfl, by decide, by decide, by decide, by decide⟩
  | cons w ws' =>
      refine ⟨w, _, rfl, ?_⟩
      have hw : isspace w = true := by simp at hws; exact hws.1
      simp only [isspace, Bool.or_eq_true, beq_iff_eq, Bool.and_eq_true, decide_eq_true_eq] at hw
      simp only [isIdentChar, isalnum]
      refine ⟨by omega, by omega, by omega, ?_⟩
      simp
      omega

theorem opSuffix_cases (op : QByteArray) (h : Handling) (hop : opSuffix op = some h) :
    (op = [] ∧ h = .Normal) ∨ (op = [42] ∧ h = .Transparent) ∨ (op = [33] ∧ h = .Keep)
      ∨ (op = [45] ∧ h = .Skip) := by
  unfold opSuffix at hop
  split at hop <;> simp_all

/-- What `readOp` does in front of an operator suffix followed by white space and `::=`. -/
theorem readOp_suffix (lx : EbnfLexer) (op ws tail : QByteArray) (h : Handling)
    (hrest : lx.rest = op ++ (ws ++ 58 :: 58 :: 61 :: tail))
    (hop : opSuffix op = some h) (hws : ws.all isspace = true) :
    lx.readOp.2 = h ∧ lx.readOp.1.rest = ws ++ 58 :: 58 :: 61 :: tail := by
  obtain ⟨c, r, hcr, h1, h2, h3, _⟩ := ws_assign_head ws tail hws
  unfold EbnfLexer.rest at hrest
  rcases opSuffix_cases op h hop with ⟨rfl, rfl⟩ | ⟨rfl, rfl⟩ | ⟨rfl, rfl⟩ | ⟨rfl, rfl⟩
  · have hro : lx.readOp = (lx, .Normal) := by
      unfold EbnfLexer.readOp
      rw [hrest, List.nil_append, hcr]
      split <;> simp_all
    rw [hro]
    exact ⟨rfl, by simpa [EbnfLexer.rest] using hrest⟩
  all_goals
    simp only [EbnfLexer.readOp, hrest, List.singleton_append, EbnfLexer.rest, ← List.drop_drop,
      List.drop_succ_cons, List.drop_zero, and_self]

/-- After the lexeme: operator suffix, white space, `::=`. -/
theorem header_after_lexeme (lx : EbnfLexer) (op ws tail : QByteArray) (h : Handling)
    (hrest : lx.rest = op ++ (ws ++ 58 :: 58 :: 61 :: tail))
    (hop : opSuffix op = some h) (hws : ws.all isspace = true) :
    lx.readOp.2 = h ∧
      (lx.readOp.1.skipWhiteSpace.1.lookAhead 0 = 58 ∧
       lx.readOp.1.skipWhiteSpace.1.lookAhead 1 = 58 ∧
       lx.readOp.1.skipWhiteSpace.1.lookAhead 2 = 61) := by
  obtain ⟨h1, h2⟩ := readOp_suffix lx op ws tail h hrest hop hws
  refine ⟨h1, ?_⟩
  simp [lookAhead_eq, rest_skipWhiteSpace, h2, dropWhile_ws_assign ws tail hws]

theorem takeWhile_ident (cs more : QByteArray) (c : Nat) (hcs : cs.all isIdentChar = true)
    (hc : isIdentChar c = false) :
    (cs ++ c :: more).takeWhile isIdentChar = cs := by
  have h : ∀ a ∈ cs, isIdentChar a = true := by simpa using hcs
  rw [List.takeWhile_append_of_pos h]
  simp [hc]

theorem isIdentifier_all (lexeme : QByteArray) (h : isIdentifier lexeme = true) :
    lexeme.all isIdentChar = true ∧ ∃ c cs, lexeme = c :: cs ∧ (isalnum c || c == 36) = true := by
  cases lexeme with
  | nil => simp [isIdentifier] at h
  | cons c cs =>
      simp only [isIdentifier, Bool.and_eq_true] at h
      refine ⟨?_, c, cs, rfl, h.1⟩
      simp only [List.all_cons, Bool.and_eq_true]
      refine ⟨?_, h.2⟩
      have := h.1
      simp only [isIdentChar, Bool.or_eq_true] at this ⊢
      rcases this with h1 | h1
      · exact Or.inl (Or.inl h1)
      · exact Or.inr h1

theorem lexAt_ident_header (lx : EbnfLexer) (lexeme op ws tail : QByteArray) (h : Handling)
    (hrest : lx.rest = lexeme ++ (op ++ (ws ++ 58 :: 58 :: 61 :: tail)))
    (hlex : isIdentifier lexeme = true)
    (hop : opSuffix op = some h) (hws : ws.all isspace = true) :
    (lx.lexAt true).2 =
      { d_type := .Production, d_lineNr := lx.d_lineNr, d_colNr := lx.d_colNr + 1,
        d_len := lexeme.length, d_val := lexeme, d_op := h } := by
  obtain ⟨hall, c, cs, rfl, hc⟩ := isIdentifier_all lexeme hlex
  have hrest0 := hrest
  unfold EbnfLexer.rest at hrest0
  have hch : lx.d_line.getD lx.d_colNr 0 = c := by
    rw [getD_eq_headD_drop, hrest0]; rfl
  have hnc : c ≠ 47 := by
    intro h47; subst h47; simp [isalnum] at hc
  -- the operator suffix, white space and `::=` start with a byte that ends the identifier
  obtain ⟨e, more, hmore, hne⟩ : ∃ e more, op ++ (ws ++ 58 :: 58 :: 61 :: tail) = e :: more ∧
      isIdentChar e = false := by
    obtain ⟨w, r, hwr, _, _, _, hw⟩ := ws_assign_head ws tail hws
    rcases opSuffix_cases op h hop with ⟨rfl, _⟩ | ⟨rfl, _⟩ | ⟨rfl, _⟩ | ⟨rfl, _⟩
    · exact ⟨w, r, by simpa using hwr, hw⟩
    · exact ⟨42, _, rfl, by decide⟩
    · exact ⟨33, _, rfl, by decide⟩
    · exact ⟨45, _, rfl, by decide⟩
  have htw : (lx.d_line.drop lx.d_colNr).takeWhile isIdentChar = c :: cs := by
    rw [hrest0, hmore]; exact takeWhile_ident (c :: cs) more e hall hne
  have hmid : mid lx.d_line lx.d_colNr (c :: cs).length = c :: cs := by
    unfold mid; rw [hrest0]; simp
  have hafter : (lx.token .NonTerm (c :: cs).length (c :: cs)).1.rest
      = op ++ (ws ++ 58 :: 58 :: 61 :: tail) := by
    rw [rest_token, hrest]; simp
  obtain ⟨ho, hl0, hl1, hl2⟩ := header_after_lexeme _ op ws tail h hafter hop hws
  unfold EbnfLexer.lexAt
  simp only [hch, hnc, false_and, if_false]
  unfold EbnfLexer.identOrLiteral
  simp only [hc, if_true, EbnfLexer.ident, htw, hmid, hl0, hl1, hl2, and_self, ho]
  simp [EbnfLexer.token, EbnfToken.make]

theorem lexAt_literal_header (lx : EbnfLexer) (lexeme op ws tail : QByteArray) (h : Handling)
    (hrest : lx.rest = lexeme ++ (op ++ (ws ++ 58 :: 58 :: 61 :: tail)))
    (hlex : isQuotedLiteral lexeme = true)
    (hop : opSuffix op = some h) (hws : ws.all isspace = true) :
    (lx.lexAt true).2 =
      { d_type := .Production, d_lineNr := lx.d_lineNr, d_colNr := lx.d_colNr + 1,
        d_len := lexeme.length,
        d_val := replace2 92 92 92 (replace2 92 39 39 (lexeme.drop 1).dropLast), d_op := h } := by
  obtain ⟨body, rfl, hbody⟩ : ∃ body, lexeme = 39 :: body ∧ isQuotedBody body = true := by
    unfold isQuotedLiteral at hlex
    split at hlex
    · exact ⟨_, rfl, hlex⟩
    · simp at hlex
  have hrest0 := hrest
  unfold EbnfLexer.rest at hrest0
  have hch : lx.d_line.getD lx.d_colNr 0 = 39 := by
    rw [getD_eq_headD_drop, hrest0]; rfl
  have hd1 : lx.d_line.drop (lx.d_colNr + 1) = body ++ (op ++ (ws ++ 58 :: 58 :: 61 :: tail)) := by
    rw [← List.drop_drop, hrest0]; rfl
  have hscan := literalScan_quoted body (op ++ (ws ++ 58 :: 58 :: 61 :: tail)) 1 hbody
  have hoff : literalScan (lx.d_line.drop (lx.d_colNr + 1)) 1 = body.length := by
    rw [hd1]; omega
  have hmid : mid lx.d_line (lx.d_colNr + 1) (body.length - 1) = body.dropLast := by
    unfold mid; rw [hd1, List.dropLast_eq_take]
    apply List.take_append_of_le_length
    omega
  have hafter : ∀ v, (lx.token .Literal (body.length + 1) v).1.rest
      = op ++ (ws ++ 58 :: 58 :: 61 :: tail) := by
    intro v
    rw [rest_token, hrest]
    have : (39 :: body).length = body.length + 1 := rfl
    rw [← this, List.drop_left]
  obtain ⟨ho, hl0, hl1, hl2⟩ := header_after_lexeme _ op ws tail h (hafter
    (replace2 92 92 92 (replace2 92 39 39 body.dropLast))) hop hws
  unfold EbnfLexer.lexAt
  simp only [hch, show (39 : Nat) ≠ 47 by decide, false_and, if_false]
  unfold EbnfLexer.identOrLiteral
  simp only [show (isalnum 39 || (39 : Nat) == 36) = false by decide, Bool.false_eq_true, if_false,
    if_true, EbnfLexer.literal, hoff, hmid, hl0, hl1, hl2, and_self, ho]
  simp [EbnfLexer.token, EbnfToken.make]

theorem lexemeValue_ident (lexeme : QByteArray) (h : isIdentifier lexeme = true) :
    lexemeValue lexeme = lexeme := by
  simp [lexemeValue, h]

theorem lexemeValue_literal (lexeme : QByteArray) (h : isQuotedLiteral lexeme = true) :
    lexemeValue lexeme = replace2 92 92 92 (replace2 92 39 39 (lexeme.drop 1).dropLast) := by
  have hn : isIdentifier lexeme = false := by
    unfold isQuotedLiteral at h
    split at h
    · simp [isIdentifier, isalnum]
    · simp at h
  simp [lexemeValue, hn]

/-- A header lexeme starts with a byte that is not white space. -/
theorem header_head_not_space (lexeme more : QByteArray)
    (hlex : isIdentifier lexeme = true ∨ isQuotedLiteral lexeme = true) :
    ∃ c r, lexeme ++ more = c :: r ∧ isspace c = false := by
  rcases hlex with h | h
  · obtain ⟨_, c, cs, rfl, hc⟩ := isIdentifier_all lexeme h
    refine ⟨c, cs ++ more, rfl, ?_⟩
    simp only [isalnum, Bool.or_eq_true, Bool.and_eq_true, decide_eq_true_eq, beq_iff_eq] at hc
    simp only [isspace]
    simp
    omega
  · unfold isQuotedLiteral at h
    split at h
    · exact ⟨39, _, rfl, by decide⟩
    · simp at h

/-- Reading a fresh line that starts with a byte other than white space: the
lexer stands at column 0 of that line with `potentialProduction` set. -/
theorem nextTokenImp_fresh_line (lx : EbnfLexer) (raw : QByteArray) (rest : List QByteArray)
    (c : Nat) (r : QByteArray)
    (hin : lx.d_in = some (raw :: rest)) (hcol : lx.d_line.length ≤ lx.d_colNr)
    (hline : chopLine raw = c :: r) (hc : isspace c = false) :
    lx.nextTokenImp =
      EbnfLexer.lexAt { lx with d_in := some rest, d_lineNr := lx.d_lineNr + 1, d_colNr := 0,
                                d_line := c :: r } true := by
  have hdrop : lx.d_line.drop lx.d_colNr = [] := List.drop_eq_nil_of_le hcol
  have hskip : lx.skipWhiteSpace.1 = lx := by
    simp [EbnfLexer.skipWhiteSpace, hdrop]
  unfold EbnfLexer.nextTokenImp
  rw [hin]
  simp only [hskip]
  unfold EbnfLexer.lineLoop
  simp only [hcol, if_true, EbnfLexer.nextLine, EbnfLexer.skipWhiteSpace, hline, List.drop_zero,
    List.takeWhile_cons, hc, Bool.false_eq_true, if_false, List.length_nil, Nat.add_zero, beq_self_eq_true]
  cases rest with
  | nil => simp [EbnfLexer.lineLoop]
  | cons r1 rs => simp [EbnfLexer.lineLoop]

/-- The tokens of a lexer that has not peeked ahead come from `nextTokenImp`. -/
theorem nextToken_empty_buffer (lx : EbnfLexer) (h : lx.d_buffer = []) :
    lx.nextToken = lx.nextTokenImp := by
  unfold EbnfLexer.nextToken
  rw [h]

/-- Claim C1, amended. When a line starts at column 1 with an identifier or a
terminated quoted literal that is followed by an optional operator suffix,
optional white space and `::=`, `EbnfLexer::nextToken` returns that lexeme as
a token of kind Production. -/
theorem production_header_at_column_one (lx : EbnfLexer) (raw : QByteArray)
    (rest : List QByteArray) (lexeme op ws tail : QByteArray) (h : Handling)
    (hbuf : lx.d_buffer = [])
    (hin : lx.d_in = some (raw :: rest))
    (hcol : lx.d_line.length ≤ lx.d_colNr)
    (hline : chopLine raw = lexeme ++ (op ++ (ws ++ 58 :: 58 :: 61 :: tail)))
    (hlex : isIdentifier lexeme = true ∨ isQuotedLiteral lexeme = true)
    (hop : opSuffix op = some h)
    (hws : ws.all isspace = true) :
    lx.nextToken.2 =
      { d_type := .Production, d_lineNr := lx.d_lineNr + 1, d_colNr := 1,
        d_len := lexeme.length, d_val := lexemeValue lexeme, d_op := h } := by
  obtain ⟨c, r, hcr, hc⟩ := header_head_not_space lexeme (op ++ (ws ++ 58 :: 58 :: 61 :: tail)) hlex
  rw [nextToken_empty_buffer lx hbuf,
    nextTokenImp_fresh_line lx raw rest c r hin hcol (hline.trans hcr) hc]
  rcases hlex with hl | hl
  · rw [lexAt_ident_header _ lexeme op ws tail h (by simp [EbnfLexer.rest, hcr]) hl hop hws,
      lexemeValue_ident lexeme hl]
  · rw [lexAt_literal_header _ lexeme op ws tail h (by simp [EbnfLexer.rest, hcr]) hl hop hws,
      lexemeValue_literal lexeme hl]

/-- Witness of the theorem above: the line `'x\'y'* ::= a`. -/
theorem production_header_at_column_one_witness :
    (EbnfLexer.setStream [] [[39, 120, 92, 39, 121, 39, 42, 32, 58, 58, 61, 32, 97, 10]]).nextToken.2 =
      { d_type := .Production, d_lineNr := 1, d_colNr := 1, d_len := 6,
        d_val := [120, 39, 121], d_op := .Transparent } :=
  production_header_at_column_one
    (EbnfLexer.setStream [] [[39, 120, 92, 39, 121, 39, 42, 32, 58, 58, 61, 32, 97, 10]])
    [39, 120, 92, 39, 121, 39, 42, 32, 58, 58, 61, 32, 97, 10] []
    [39, 120, 92, 39, 121, 39] [42] [32] [32, 97] .Transparent
    rfl rfl (by decide) (by decide) (by decide) (by decide) (by decide)

/-- Claim C1 as stated fails: on the line ` S ::= 'a'`, where white space stands
before the identifier `S`, the lexer returns `S` as a NonTerm token. -/
theorem production_header_after_space_is_nonterm :
    (EbnfLexer.setStream [] [ba " S ::= 'a'\n"]).nextToken.2 =
      { d_type := .NonTerm, d_lineNr := 1, d_colNr := 2, d_len := 1, d_val := ba "S",
        d_op := .Normal } ∧
    (EbnfLexer.setStream [] [ba " S ::= 'a'\n"]).nextToken.2.d_type ≠ .Production := by
  constructor <;> decide

/-! ## The parser never runs out of fuel -/

theorem skipComments_remaining (l : List EbnfToken) :
    (skipComments l).1.length + (if (skipComments l).2.d_type = .Eof then 0 else 1) ≤ l.length := by
  induction l with
  | nil => simp [skipComments, eofToken, EbnfToken.make]
  | cons t rest ih =>
      unfold skipComments
      split
      · exact Nat.le_succ_of_le ih
      · simp only [List.length_cons]
        split <;> omega

theorem nextToken_remaining_le (p : EbnfParser) : p.nextToken.remaining ≤ p.remaining := by
  have h := skipComments_remaining p.d_lex
  simp only [EbnfParser.remaining, EbnfParser.nextToken]
  omega

theorem nextToken_remaining_lt (p : EbnfParser) (h : p.d_cur.d_type ≠ .Eof) :
    p.nextToken.remaining < p.remaining := by
  have h1 := skipComments_remaining p.d_lex
  simp only [EbnfParser.remaining, EbnfParser.nextToken, h, if_false]
  omega

theorem error_d_lex (p : EbnfParser) (t : EbnfToken) (msg : String) :
    (p.error t msg).d_lex = p.d_lex := by
  unfold EbnfParser.error
  split
  · rfl
  · split
    · rfl
    · split <;> rfl

theorem error_d_cur (p : EbnfParser) (t : EbnfToken) (msg : String) :
    (p.error t msg).d_cur = p.d_cur := by
  unfold EbnfParser.error
  split
  · rfl
  · split
    · rfl
    · split <;> rfl

theorem error_d_syn (p : EbnfParser) (t : EbnfToken) (msg : String) :
    (p.error t msg).d_syn = p.d_syn := by
  unfold EbnfParser.error
  split
  · rfl
  · split
    · rfl
    · split <;> rfl

theorem error_remaining (p : EbnfParser) (t : EbnfToken) (msg : String) :
    (p.error t msg).remaining = p.remaining := by
  simp only [EbnfParser.remaining, error_d_lex, error_d_cur]

theorem checkCardinality_remaining (p : EbnfParser) (node : Node) :
    (p.checkCardinality node).1.remaining = p.remaining := by
  unfold EbnfParser.checkCardinality
  split
  · exact error_remaining _ _ _
  · split
    · rfl
    · split
      · exact error_remaining _ _ _
      · split
        · exact error_remaining _ _ _
        · rfl

theorem finishBracket_remaining (close : TokenType) (msg : String) (q : Quantity)
    (x : EbnfParser × Option Node) :
    (finishBracket close msg q x).1.remaining ≤ x.1.remaining := by
  obtain ⟨p, r⟩ := x
  cases r with
  | none => simp [finishBracket]
  | some node =>
      simp only [finishBracket]
      split
      · simp [error_remaining]
      · have hc := checkCardinality_remaining p node
        split
        · rename_i p1 heq
          rw [heq] at hc
          simp only at hc ⊢
          omega
        · rename_i p1 heq
          rw [heq] at hc
          have := nextToken_remaining_le p1
          simp only at hc ⊢
          omega

theorem parseTerm_with_predicate (f : Nat) (p : EbnfParser) (hp : p.d_cur.d_type = .Predicate) :
    parseTerm (f + 1) p =
      if isFactorStart p.nextToken.d_cur.d_type then
        match parseFactor f p.nextToken with
        | none => none
        | some (p1, none) => some (p1, none)
        | some (p1, some node) =>
            termLoop f p1
              (Node.container .Sequence p.nextToken.d_cur.d_lineNr p.nextToken.d_cur.d_colNr
                [Node.new .Predicate p.d_cur, node]) true
      else some (p.nextToken.error p.nextToken.d_cur "expecting factor", none) := by
  have hv : p.d_cur.isValid = true := by simp [EbnfToken.isValid, hp]
  rw [parseTerm]
  simp only [hp, if_true, hv]

theorem parseTerm_without_predicate (f : Nat) (p : EbnfParser)
    (hp : p.d_cur.d_type ≠ .Predicate) :
    parseTerm (f + 1) p =
      if isFactorStart p.d_cur.d_type then
        match parseFactor f p with
        | none => none
        | some (p1, none) => some (p1, none)
        | some (p1, some node) => termLoop f p1 node false
      else some (p.error p.d_cur "expecting factor", none) := by
  have hv : EbnfToken.default.isValid = false := by decide
  rw [parseTerm]
  simp only [hp, if_false, hv, Bool.false_eq_true]

theorem returns_bracket (f : Nat) (p : EbnfParser) (close : TokenType) (msg : String)
    (q : Quantity) (hne : p.d_cur.d_type ≠ .Eof)
    (h : Returns (parseExpression f p.nextToken) p.nextToken) :
    Returns ((parseExpression f p.nextToken).map (finishBracket close msg q)) p := by
  obtain ⟨p1, r, he, hle, _⟩ := h
  have h1 := nextToken_remaining_lt p hne
  have h2 := finishBracket_remaining close msg q (p1, r)
  refine ⟨(finishBracket close msg q (p1, r)).1, (finishBracket close msg q (p1, r)).2, ?_, ?_, ?_⟩
  · rw [he]; rfl
  · simp only at h2; omega
  · intro _; simp only at h2; omega

theorem fuel_suffices (f : Nat) :
    (∀ p, 3 * p.remaining + 1 ≤ f → Returns (parseFactor f p) p) ∧
    (∀ p, 3 * p.remaining + 3 ≤ f → Returns (parseExpression f p) p) ∧
    (∀ first p node alt, 3 * p.remaining + 1 ≤ f →
      ∃ p1 r, expressionLoop f first p node alt = some (p1, r) ∧ p1.remaining ≤ p.remaining) ∧
    (∀ p, 3 * p.remaining + 2 ≤ f → Returns (parseTerm f p) p) ∧
    (∀ p node seq, 3 * p.remaining + 2 ≤ f →
      ∃ p1 r, termLoop f p node seq = some (p1, r) ∧ p1.remaining ≤ p.remaining) := by
  induction f with
  | zero =>
      refine ⟨?_, ?_, ?_, ?_, ?_⟩ <;> intros <;> omega
  | succ f ih =>
      obtain ⟨ihF, ihE, ihEL, ihT, ihTL⟩ := ih
      refine ⟨?_, ?_, ?_, ?_, ?_⟩
      · -- parseFactor
        intro p hf
        have hE : p.d_cur.d_type ≠ .Eof → Returns (parseExpression f p.nextToken) p.nextToken := by
          intro hne
          have := nextToken_remaining_lt p hne
          exact ihE _ (by omega)
        have hterm : p.d_cur.d_type ≠ .Eof → ∀ n, Returns (some (p.nextToken, some n)) p := by
          intro hne n
          exact ⟨_, _, rfl, nextToken_remaining_le p, fun _ => nextToken_remaining_lt p hne⟩
        unfold parseFactor
        split
        · rename_i h; exact hterm (by rw [h]; decide) _
        · rename_i h; exact hterm (by rw [h]; decide) _
        · rename_i h; exact hterm (by rw [h]; decide) _
        · rename_i h
          have hne : p.d_cur.d_type ≠ .Eof := by rw [h]; decide
          exact returns_bracket f p _ _ _ hne (hE hne)
        · rename_i h
          have hne : p.d_cur.d_type ≠ .Eof := by rw [h]; decide
          exact returns_bracket f p _ _ _ hne (hE hne)
        · rename_i h
          have hne : p.d_cur.d_type ≠ .Eof := by rw [h]; decide
          exact returns_bracket f p _ _ _ hne (hE hne)
        · exact ⟨_, _, rfl, by simp [error_remaining], by simp⟩
      · -- parseExpression
        intro p hf
        unfold parseExpression
        split
        · obtain ⟨p1, r, he, hle, hlt⟩ := ihT p (by omega)
          rw [he]
          cases r with
          | none => exact ⟨_, _, rfl, hle, by simp⟩
          | some node =>
              have hlt := hlt rfl
              obtain ⟨p2, r2, he2, hle2⟩ := ihEL p.d_cur p1 node false (by omega)
              simp only [he2]
              exact ⟨_, _, rfl, by omega, fun _ => by omega⟩
        · exact ⟨_, _, rfl, by simp [error_remaining], by simp⟩
      · -- expressionLoop
        intro first p node alt hf
        unfold expressionLoop
        split
        · rename_i hbar
          have hne : p.d_cur.d_type ≠ .Eof := by rw [hbar]; decide
          have h1 := nextToken_remaining_lt p hne
          obtain ⟨p2, r, he, hle, hlt⟩ := ihT p.nextToken (by omega)
          simp only [he]
          cases r with
          | none => exact ⟨_, _, rfl, by omega⟩
          | some n =>
              obtain ⟨p3, r3, he3, hle3⟩ := ihEL first p2
                ((if alt = true then node
                  else Node.container .Alternative first.d_lineNr first.d_colNr [node]).appendSub n)
                true (by omega)
              simp only [he3]
              exact ⟨_, _, rfl, by omega⟩
        · exact ⟨_, _, rfl, Nat.le_refl _⟩
      · -- parseTerm
        intro p hf
        by_cases hp : p.d_cur.d_type = .Predicate
        · have hne : p.d_cur.d_type ≠ .Eof := by rw [hp]; decide
          have h0 := nextToken_remaining_lt p hne
          rw [parseTerm_with_predicate f p hp]
          split
          · obtain ⟨p1, r, he, hle, hlt⟩ := ihF p.nextToken (by omega)
            rw [he]
            cases r with
            | none => exact ⟨_, _, rfl, by omega, by simp⟩
            | some node =>
                have hlt := hlt rfl
                obtain ⟨p2, r2, he2, hle2⟩ := ihTL p1
                  (Node.container .Sequence p.nextToken.d_cur.d_lineNr p.nextToken.d_cur.d_colNr
                    [Node.new .Predicate p.d_cur, node]) true (by omega)
                exact ⟨_, _, he2, by omega, fun _ => by omega⟩
          · exact ⟨_, _, rfl, by rw [error_remaining]; omega, by simp⟩
        · rw [parseTerm_without_predicate f p hp]
          split
          · obtain ⟨p1, r, he, hle, hlt⟩ := ihF p (by omega)
            rw [he]
            cases r with
            | none => exact ⟨_, _, rfl, by omega, by simp⟩
            | some node =>
                have hlt := hlt rfl
                obtain ⟨p2, r2, he2, hle2⟩ := ihTL p1 node false (by omega)
                exact ⟨_, _, he2, by omega, fun _ => by omega⟩
          · exact ⟨_, _, rfl, by rw [error_remaining], by simp⟩
      · -- termLoop
        intro p node seq hf
        unfold termLoop
        split
        · obtain ⟨p1, r, he, hle, hlt⟩ := ihF p (by omega)
          simp only [he]
          cases r with
          | none => exact ⟨_, _, rfl, by omega⟩
          | some n =>
              have hlt := hlt rfl
              obtain ⟨p2, r2, he2, hle2⟩ := ihTL p1
                ((if seq = true then node
                  else Node.container .Sequence node.d_tok.d_lineNr node.d_tok.d_colNr
                    [node]).appendSub n) true (by omega)
              simp only [he2]
              exact ⟨_, _, rfl, by omega⟩
        · exact ⟨_, _, rfl, Nat.le_refl _⟩

/-! ## More fuel does not change a result -/

theorem fuel_step (f : Nat) :
    (∀ p r, parseFactor f p = some r → parseFactor (f + 1) p = some r) ∧
    (∀ p r, parseExpression f p = some r → parseExpression (f + 1) p = some r) ∧
    (∀ first p node alt r, expressionLoop f first p node alt = some r →
      expressionLoop (f + 1) first p node alt = some r) ∧
    (∀ p r, parseTerm f p = some r → parseTerm (f + 1) p = some r) ∧
    (∀ p node seq r, termLoop f p node seq = some r → termLoop (f + 1) p node seq = some r) := by
  induction f with
  | zero =>
      refine ⟨?_, ?_, ?_, ?_, ?_⟩
      · intro p r h; simp [parseFactor] at h
      · intro p r h; simp [parseExpression] at h
      · intro first p node alt r h; simp [expressionLoop] at h
      · intro p r h; simp [parseTerm] at h
      · intro p node seq r h; simp [termLoop] at h
  | succ f ih =>
      obtain ⟨ihF, ihE, ihEL, ihT, ihTL⟩ := ih
      have hbr : ∀ (p : EbnfParser) (g : EbnfParser × Option Node → EbnfParser × Option Node) r,
          (parseExpression f p).map g = some r → (parseExpression (f + 1) p).map g = some r := by
        intro p g r h
        cases he : parseExpression f p with
        | none => rw [he] at h; simp at h
        | some r0 => rw [he] at h; rw [ihE p r0 he]; exact h
      refine ⟨?_, ?_, ?_, ?_, ?_⟩
      · intro p r h
        rw [parseFactor] at h
        rw [parseFactor]
        split at h
        all_goals first
          | exact h
          | exact hbr _ _ _ h
      · intro p r h
        rw [parseExpression] at h
        rw [parseExpression]
        split at h
        · rename_i hs
          simp only [hs, if_true]
          cases ht : parseTerm f p with
          | none => rw [ht] at h; simp at h
          | some x =>
              obtain ⟨p1, o⟩ := x
              rw [ht] at h
              rw [ihT p _ ht]
              cases o with
              | none => exact h
              | some node => exact ihEL _ _ _ _ _ h
        · rename_i hs
          simp only [hs]
          exact h
      · intro first p node alt r h
        rw [expressionLoop] at h
        rw [expressionLoop]
        split at h
        · rename_i hs
          simp only [hs, if_true]
          cases ht : parseTerm f p.nextToken with
          | none => simp only [ht] at h; simp at h
          | some x =>
              obtain ⟨p1, o⟩ := x
              simp only [ht] at h
              simp only [ihT _ _ ht]
              cases o with
              | none => exact h
              | some n => exact ihEL _ _ _ _ _ h
        · rename_i hs
          simp only [hs]
          exact h
      · intro p r h
        by_cases hp : p.d_cur.d_type = .Predicate
        · rw [parseTerm_with_predicate _ p hp] at h ⊢
          split at h
          · rename_i hs
            simp only [hs, if_true]
            cases ht : parseFactor f p.nextToken with
            | none => rw [ht] at h; simp at h
            | some x =>
                obtain ⟨p1, o⟩ := x
                rw [ht] at h
                rw [ihF _ _ ht]
                cases o with
                | none => exact h
                | some n => exact ihTL _ _ _ _ h
          · rename_i hs
            simp only [hs]
            exact h
        · rw [parseTerm_without_predicate _ p hp] at h ⊢
          split at h
          · rename_i hs
            simp only [hs, if_true]
            cases ht : parseFactor f p with
            | none => rw [ht] at h; simp at h
            | some x =>
                obtain ⟨p1, o⟩ := x
                rw [ht] at h
                rw [ihF _ _ ht]
                cases o with
                | none => exact h
                | some n => exact ihTL _ _ _ _ h
          · rename_i hs
            simp only [hs]
            exact h
      · intro p node seq r h
        rw [termLoop] at h
        rw [termLoop]
        split at h
        · rename_i hs
          simp only [hs, if_true]
          cases ht : parseFactor f p with
          | none => simp only [ht] at h; simp at h
          | some x =>
              obtain ⟨p1, o⟩ := x
              simp only [ht] at h
              simp only [ihF _ _ ht]
              cases o with
              | none => exact h
              | some n => exact ihTL _ _ _ _ h
        · rename_i hs
          simp only [hs]
          exact h

/-! ## Every tree the parser builds is well built -/

theorem allWellBuilt_append (xs ys : List Node) :
    allWellBuilt (xs ++ ys) = (allWellBuilt xs && allWellBuilt ys) := by
  induction xs with
  | nil => simp [allWellBuilt]
  | cons x xs ih => simp [allWellBuilt, ih, Bool.and_assoc]

theorem noPredicate_append (xs ys : List Node) :
    noPredicate (xs ++ ys) = (noPredicate xs && noPredicate ys) := by
  simp [noPredicate]

@[simp] theorem d_type_mk (ty : NodeType) (q : Quantity) (tok : EbnfToken) (subs : List Node)
    (d : Option DefRef) : (Node.mk ty q tok subs d).d_type = ty := rfl

@[simp] theorem d_quant_mk (ty : NodeType) (q : Quantity) (tok : EbnfToken) (subs : List Node)
    (d : Option DefRef) : (Node.mk ty q tok subs d).d_quant = q := rfl

@[simp] theorem d_tok_mk (ty : NodeType) (q : Quantity) (tok : EbnfToken) (subs : List Node)
    (d : Option DefRef) : (Node.mk ty q tok subs d).d_tok = tok := rfl

@[simp] theorem d_subs_mk (ty : NodeType) (q : Quantity) (tok : EbnfToken) (subs : List Node)
    (d : Option DefRef) : (Node.mk ty q tok subs d).d_subs = subs := rfl

@[simp] theorem d_def_mk (ty : NodeType) (q : Quantity) (tok : EbnfToken) (subs : List Node)
    (d : Option DefRef) : (Node.mk ty q tok subs d).d_def = d := rfl

theorem wellBuiltRoot_new_terminal (tok : EbnfToken) : (Node.new .Terminal tok).wellBuiltRoot := by
  simp [Node.wellBuiltRoot, Node.new, Node.wellBuilt]

theorem wellBuiltRoot_new_nonterminal (tok : EbnfToken) :
    (Node.new .Nonterminal tok).wellBuiltRoot := by
  simp [Node.wellBuiltRoot, Node.new, Node.wellBuilt]

theorem wellBuiltRoot_setQuant (n : Node) (q : Quantity) (h : n.wellBuiltRoot) :
    (n.setQuant q).wellBuiltRoot := by
  obtain ⟨ty, q0, tok, subs, d⟩ := n
  obtain ⟨h1, h2⟩ := h
  cases ty <;> simp_all [Node.wellBuiltRoot, Node.setQuant, Node.wellBuilt]

theorem wellBuiltRoot_pair (ty : NodeType) (line col : Nat) (a b : Node)
    (hty : ty = .Sequence ∨ ty = .Alternative)
    (ha : a.wellBuiltRoot) (hb : b.wellBuiltRoot) :
    ((Node.container ty line col [a]).appendSub b).wellBuiltRoot := by
  obtain ⟨ha1, ha2⟩ := ha
  obtain ⟨hb1, hb2⟩ := hb
  rcases hty with rfl | rfl <;>
    simp [Node.wellBuiltRoot, Node.container, Node.appendSub, Node.wellBuilt,
      allWellBuilt, noPredicate, EbnfToken.default, ha1, hb1, ha2, hb2]

theorem wellBuiltRoot_predicate_pair (line col : Nat) (pred : EbnfToken) (b : Node)
    (hb : b.wellBuiltRoot) :
    (Node.container .Sequence line col [Node.new .Predicate pred, b]).wellBuiltRoot := by
  obtain ⟨hb1, hb2⟩ := hb
  simp [Node.wellBuiltRoot, Node.container, Node.new, Node.wellBuilt,
    allWellBuilt, noPredicate, EbnfToken.default, hb1, hb2]

theorem wellBuiltRoot_appendSub (n c : Node) (hn : n.wellBuiltRoot) (hc : c.wellBuiltRoot)
    (hty : n.d_type = .Sequence ∨ n.d_type = .Alternative) :
    (n.appendSub c).wellBuiltRoot := by
  obtain ⟨ty, q0, tok, subs, d⟩ := n
  obtain ⟨hn1, hn2⟩ := hn
  obtain ⟨hc1, hc2⟩ := hc
  simp only [d_type_mk] at hty
  have hcp : noPredicate [c] = true := by simp [noPredicate, hc2]
  have hcw : allWellBuilt [c] = true := by simp [allWellBuilt, hc1]
  rcases hty with rfl | rfl
  · simp only [Node.wellBuilt, Bool.and_eq_true, decide_eq_true_eq] at hn1
    obtain ⟨⟨⟨⟨⟨h1, h2⟩, h3⟩, h4⟩, h5⟩, h6⟩ := hn1
    cases subs with
    | nil => simp at h4
    | cons s ss =>
        simp only [List.tail_cons] at h6
        have h7 : 2 ≤ (s :: (ss ++ [c])).length := by
          simp only [List.length_append, List.length_cons] at h4 ⊢; omega
        have h5a : allWellBuilt (s :: (ss ++ [c])) = true := by
          simp only [allWellBuilt, Bool.and_eq_true] at h5 ⊢
          exact ⟨h5.1, by rw [allWellBuilt_append, h5.2, hcw]; rfl⟩
        refine ⟨?_, by simp [Node.appendSub]⟩
        simp only [Node.appendSub, Node.wellBuilt, h1, h2, h3, h7, h5a,
          List.cons_append, List.tail_cons, noPredicate_append, h6, hcp, decide_True, Bool.and_self]
  · simp only [Node.wellBuilt, Bool.and_eq_true, decide_eq_true_eq] at hn1
    obtain ⟨⟨⟨⟨⟨h1, h2⟩, h3⟩, h4⟩, h5⟩, h6⟩ := hn1
    have h7 : 2 ≤ (subs ++ [c]).length := by
      simp only [List.length_append]; omega
    refine ⟨?_, by simp [Node.appendSub]⟩
    simp only [Node.appendSub, Node.wellBuilt, h1, h2, h3, h7, allWellBuilt_append, h5, hcw,
      noPredicate_append, h6, hcp, decide_True, Bool.and_self]

theorem appendSub_d_type (n c : Node) : (n.appendSub c).d_type = n.d_type := by
  obtain ⟨ty, q0, tok, subs, d⟩ := n
  rfl

theorem finishBracket_wellBuilt (close : TokenType) (msg : String) (q : Quantity)
    (x : EbnfParser × Option Node) (p1 : EbnfParser) (n : Node)
    (hx : ∀ m, x.2 = some m → m.wellBuiltRoot)
    (h : finishBracket close msg q x = (p1, some n)) : n.wellBuiltRoot := by
  obtain ⟨p, r⟩ := x
  cases r with
  | none => simp [finishBracket] at h
  | some node =>
      simp only [finishBracket] at h
      split at h
      · simp at h
      · split at h
        · simp at h
        · simp only [Prod.mk.injEq, Option.some.injEq] at h
          rw [← h.2]
          exact wellBuiltRoot_setQuant _ _ (hx node rfl)

theorem parser_builds_well (f : Nat) :
    (∀ p p1 n, parseFactor f p = some (p1, some n) → n.wellBuiltRoot) ∧
    (∀ p p1 n, parseExpression f p = some (p1, some n) → n.wellBuiltRoot) ∧
    (∀ first p node alt p1 n, node.wellBuiltRoot → (alt = true → node.d_type = .Alternative) →
      expressionLoop f first p node alt = some (p1, some n) → n.wellBuiltRoot) ∧
    (∀ p p1 n, parseTerm f p = some (p1, some n) → n.wellBuiltRoot) ∧
    (∀ p node seq p1 n, node.wellBuiltRoot → (seq = true → node.d_type = .Sequence) →
      termLoop f p node seq = some (p1, some n) → n.wellBuiltRoot) := by
  induction f with
  | zero =>
      refine ⟨?_, ?_, ?_, ?_, ?_⟩
      · intro p p1 n h; simp [parseFactor] at h
      · intro p p1 n h; simp [parseExpression] at h
      · intro first p node alt p1 n _ _ h; simp [expressionLoop] at h
      · intro p p1 n h; simp [parseTerm] at h
      · intro p node seq p1 n _ _ h; simp [termLoop] at h
  | succ f ih =>
      obtain ⟨ihF, ihE, ihEL, ihT, ihTL⟩ := ih
      have hbr : ∀ (p : EbnfParser) close msg q p1 n,
          (parseExpression f p).map (finishBracket close msg q) = some (p1, some n) →
          n.wellBuiltRoot := by
        intro p close msg q p1 n h
        cases he : parseExpression f p with
        | none => rw [he] at h; simp at h
        | some x =>
            rw [he] at h
            simp only [Option.map_some', Option.some.injEq] at h
            refine finishBracket_wellBuilt close msg q x p1 n ?_ h
            intro m hm
            obtain ⟨px, rx⟩ := x
            simp only at hm
            subst hm
            exact ihE p px m he
      have hloopT : ∀ (p : EbnfParser) (node : Node) (seq : Bool) (n : Node),
          node.wellBuiltRoot → (seq = true → node.d_type = .Sequence) → n.wellBuiltRoot →
          ((if seq = true then node
            else Node.container .Sequence node.d_tok.d_lineNr node.d_tok.d_colNr
              [node]).appendSub n).wellBuiltRoot := by
        intro p node seq n hn hs hn2
        cases seq with
        | true => exact wellBuiltRoot_appendSub _ _ hn hn2 (Or.inl (hs rfl))
        | false => exact wellBuiltRoot_pair _ _ _ _ _ (Or.inl rfl) hn hn2
      have hloopE : ∀ (first : EbnfToken) (node : Node) (alt : Bool) (n : Node),
          node.wellBuiltRoot → (alt = true → node.d_type = .Alternative) → n.wellBuiltRoot →
          ((if alt = true then node
            else Node.container .Alternative first.d_lineNr first.d_colNr
              [node]).appendSub n).wellBuiltRoot := by
        intro first node alt n hn hs hn2
        cases alt with
        | true => exact wellBuiltRoot_appendSub _ _ hn hn2 (Or.inr (hs rfl))
        | false => exact wellBuiltRoot_pair _ _ _ _ _ (Or.inr rfl) hn hn2
      refine ⟨?_, ?_, ?_, ?_, ?_⟩
      · intro p p1 n h
        rw [parseFactor] at h
        split at h
        · simp only [Option.some.injEq, Prod.mk.injEq] at h
          rw [← h.2]; exact wellBuiltRoot_new_terminal _
        · simp only [Option.some.injEq, Prod.mk.injEq] at h
          rw [← h.2]; exact wellBuiltRoot_new_terminal _
        · simp only [Option.some.injEq, Prod.mk.injEq] at h
          rw [← h.2]; exact wellBuiltRoot_new_nonterminal _
        · exact hbr _ _ _ _ _ _ h
        · exact hbr _ _ _ _ _ _ h
        · exact hbr _ _ _ _ _ _ h
        · simp at h
      · intro p p1 n h
        rw [parseExpression] at h
        split at h
        · cases ht : parseTerm f p with
          | none => rw [ht] at h; simp at h
          | some x =>
              obtain ⟨p2, o⟩ := x
              rw [ht] at h
              cases o with
              | none => simp at h
              | some node =>
                  exact ihEL _ _ _ _ _ _ (ihT _ _ _ ht) (by simp) h
        · simp at h
      · intro first p node alt p1 n hn ha h
        rw [expressionLoop] at h
        split at h
        · cases ht : parseTerm f p.nextToken with
          | none => simp only [ht] at h; simp at h
          | some x =>
              obtain ⟨p2, o⟩ := x
              simp only [ht] at h
              cases o with
              | none => simp at h
              | some m =>
                  refine ihEL _ _ _ _ _ _ (hloopE first node alt m hn ha (ihT _ _ _ ht)) ?_ h
                  intro _
                  rw [appendSub_d_type]
                  cases alt with
                  | true => simpa using ha rfl
                  | false => rfl
        · simp only [Option.some.injEq, Prod.mk.injEq] at h
          rw [← h.2]; exact hn
      · intro p p1 n h
        by_cases hp : p.d_cur.d_type = .Predicate
        · rw [parseTerm_with_predicate _ p hp] at h
          split at h
          · cases ht : parseFactor f p.nextToken with
            | none => rw [ht] at h; simp at h
            | some x =>
                obtain ⟨p2, o⟩ := x
                rw [ht] at h
                cases o with
                | none => simp at h
                | some m =>
                    exact ihTL _ _ _ _ _
                      (wellBuiltRoot_predicate_pair _ _ _ _ (ihF _ _ _ ht)) (fun _ => rfl) h
          · simp at h
        · rw [parseTerm_without_predicate _ p hp] at h
          split at h
          · cases ht : parseFactor f p with
            | none => rw [ht] at h; simp at h
            | some x =>
                obtain ⟨p2, o⟩ := x
                rw [ht] at h
                cases o with
                | none => simp at h
                | some m => exact ihTL _ _ _ _ _ (ihF _ _ _ ht) (by simp) h
          · simp at h
      · intro p node seq p1 n hn hs h
        rw [termLoop] at h
        split at h
        · cases ht : parseFactor f p with
          | none => simp only [ht] at h; simp at h
          | some x =>
              obtain ⟨p2, o⟩ := x
              simp only [ht] at h
              cases o with
              | none => simp at h
              | some m =>
                  refine ihTL _ _ _ _ _ (hloopT p node seq m hn hs (ihF _ _ _ ht)) ?_ h
                  intro _
                  rw [appendSub_d_type]
                  cases seq with
                  | true => simpa using hs rfl
                  | false => rfl
        · simp only [Option.some.injEq, Prod.mk.injEq] at h
          rw [← h.2]; exact hn

/-! ## What the parsing functions leave untouched -/

theorem checkCardinality_preserves (Inv : EbnfParser → Prop)
    (herr : ∀ p t msg, Inv p → Inv (p.error t msg))
    (p : EbnfParser) (node : Node) (h : Inv p) : Inv (p.checkCardinality node).1 := by
  unfold EbnfParser.checkCardinality
  split
  · exact herr _ _ _ h
  · split
    · exact h
    · split
      · exact herr _ _ _ h
      · split
        · exact herr _ _ _ h
        · exact h

theorem finishBracket_preserves (Inv : EbnfParser → Prop)
    (hnext : ∀ p, Inv p → Inv p.nextToken)
    (herr : ∀ p t msg, Inv p → Inv (p.error t msg))
    (close : TokenType) (msg : String) (q : Quantity) (x : EbnfParser × Option Node)
    (h : Inv x.1) : Inv (finishBracket close msg q x).1 := by
  obtain ⟨p, r⟩ := x
  cases r with
  | none => exact h
  | some node =>
      simp only [finishBracket]
      split
      · exact herr _ _ _ h
      · have hc := checkCardinality_preserves Inv herr p node h
        split
        · rename_i p1 heq; rw [heq] at hc; exact hc
        · rename_i p1 heq; rw [heq] at hc; exact hnext _ hc

/-- A property of the parser state that `nextToken` and `error` keep is kept
by every parsing function. -/
theorem parser_preserves (Inv : EbnfParser → Prop)
    (hnext : ∀ p, Inv p → Inv p.nextToken)
    (herr : ∀ p t msg, Inv p → Inv (p.error t msg)) (f : Nat) :
    (∀ p p1 r, parseFactor f p = some (p1, r) → Inv p → Inv p1) ∧
    (∀ p p1 r, parseExpression f p = some (p1, r) → Inv p → Inv p1) ∧
    (∀ first p node alt p1 r, expressionLoop f first p node alt = some (p1, r) →
      Inv p → Inv p1) ∧
    (∀ p p1 r, parseTerm f p = some (p1, r) → Inv p → Inv p1) ∧
    (∀ p node seq p1 r, termLoop f p node seq = some (p1, r) → Inv p → Inv p1) := by
  induction f with
  | zero =>
      refine ⟨?_, ?_, ?_, ?_, ?_⟩
      · intro p p1 r h; simp [parseFactor] at h
      · intro p p1 r h; simp [parseExpression] at h
      · intro first p node alt p1 r h; simp [expressionLoop] at h
      · intro p p1 r h; simp [parseTerm] at h
      · intro p node seq p1 r h; simp [termLoop] at h
  | succ f ih =>
      obtain ⟨ihF, ihE, ihEL, ihT, ihTL⟩ := ih
      have hbr : ∀ (p : EbnfParser) close msg q p1 r,
          (parseExpression f p.nextToken).map (finishBracket close msg q) = some (p1, r) →
          Inv p → Inv p1 := by
        intro p close msg q p1 r h hi
        cases he : parseExpression f p.nextToken with
        | none => rw [he] at h; simp at h
        | some x =>
            rw [he] at h
            simp only [Option.map_some', Option.some.injEq] at h
            have hx : Inv x.1 := ihE p.nextToken x.1 x.2 he (hnext _ hi)
            have := finishBracket_preserves Inv hnext herr close msg q x hx
            rw [h] at this
            exact this
      refine ⟨?_, ?_, ?_, ?_, ?_⟩
      · intro p p1 r h hi
        rw [parseFactor] at h
        split at h
        · simp only [Option.some.injEq, Prod.mk.injEq] at h; rw [← h.1]; exact hnext _ hi
        · simp only [Option.some.injEq, Prod.mk.injEq] at h; rw [← h.1]; exact hnext _ hi
        · simp only [Option.some.injEq, Prod.mk.injEq] at h; rw [← h.1]; exact hnext _ hi
        · exact hbr _ _ _ _ _ _ h hi
        · exact hbr _ _ _ _ _ _ h hi
        · exact hbr _ _ _ _ _ _ h hi
        · simp only [Option.some.injEq, Prod.mk.injEq] at h; rw [← h.1]; exact herr _ _ _ hi
      · intro p p1 r h hi
        rw [parseExpression] at h
        split at h
        · cases ht : parseTerm f p with
          | none => rw [ht] at h; simp at h
          | some x =>
              obtain ⟨p2, o⟩ := x
              rw [ht] at h
              have h2 := ihT _ _ _ ht hi
              cases o with
              | none =>
                  simp only [Option.some.injEq, Prod.mk.injEq] at h; rw [← h.1]; exact h2
              | some node => exact ihEL _ _ _ _ _ _ h h2
        · simp only [Option.some.injEq, Prod.mk.injEq] at h; rw [← h.1]; exact herr _ _ _ hi
      · intro first p node alt p1 r h hi
        rw [expressionLoop] at h
        split at h
        · cases ht : parseTerm f p.nextToken with
          | none => simp only [ht] at h; simp at h
          | some x =>
              obtain ⟨p2, o⟩ := x
              simp only [ht] at h
              have h2 := ihT _ _ _ ht (hnext _ hi)
              cases o with
              | none =>
                  simp only [Option.some.injEq, Prod.mk.injEq] at h; rw [← h.1]; exact h2
              | some m => exact ihEL _ _ _ _ _ _ h h2
        · simp only [Option.some.injEq, Prod.mk.injEq] at h; rw [← h.1]; exact hi
      · intro p p1 r h hi
        by_cases hp : p.d_cur.d_type = .Predicate
        · rw [parseTerm_with_predicate _ p hp] at h
          split at h
          · cases ht : parseFactor f p.nextToken with
            | none => rw [ht] at h; simp at h
            | some x =>
                obtain ⟨p2, o⟩ := x
                rw [ht] at h
                have h2 := ihF _ _ _ ht (hnext _ hi)
                cases o with
                | none =>
                    simp only [Option.some.injEq, Prod.mk.injEq] at h; rw [← h.1]; exact h2
                | some m => exact ihTL _ _ _ _ _ h h2
          · simp only [Option.some.injEq, Prod.mk.injEq] at h
            rw [← h.1]; exact herr _ _ _ (hnext _ hi)
        · rw [parseTerm_without_predicate _ p hp] at h
          split at h
          · cases ht : parseFactor f p with
            | none => rw [ht] at h; simp at h
            | some x =>
                obtain ⟨p2, o⟩ := x
                rw [ht] at h
                have h2 := ihF _ _ _ ht hi
                cases o with
                | none =>
                    simp only [Option.some.injEq, Prod.mk.injEq] at h; rw [← h.1]; exact h2
                | some m => exact ihTL _ _ _ _ _ h h2
          · simp only [Option.some.injEq, Prod.mk.injEq] at h
            rw [← h.1]; exact herr _ _ _ hi
      · intro p node seq p1 r h hi
        rw [termLoop] at h
        split at h
        · cases ht : parseFactor f p with
          | none => simp only [ht] at h; simp at h
          | some x =>
              obtain ⟨p2, o⟩ := x
              simp only [ht] at h
              have h2 := ihF _ _ _ ht hi
              cases o with
              | none =>
                  simp only [Option.some.injEq, Prod.mk.injEq] at h; rw [← h.1]; exact h2
              | some m => exact ihTL _ _ _ _ _ h h2
        · simp only [Option.some.injEq, Prod.mk.injEq] at h; rw [← h.1]; exact hi

theorem parseExpression_d_syn (f : Nat) (p p1 : EbnfParser) (r : Option Node)
    (h : parseExpression f p = some (p1, r)) : p1.d_syn = p.d_syn :=
  (parser_preserves (fun q => q.d_syn = p.d_syn) (fun _ hq => hq)
    (fun q t msg hq => (error_d_syn q t msg).trans hq) f).2.1 p p1 r h rfl

theorem parseFactor_d_syn (f : Nat) (p p1 : EbnfParser) (r : Option Node)
    (h : parseFactor f p = some (p1, r)) : p1.d_syn = p.d_syn :=
  (parser_preserves (fun q => q.d_syn = p.d_syn) (fun _ hq => hq)
    (fun q t msg hq => (error_d_syn q t msg).trans hq) f).1 p p1 r h rfl

/-! ## The loop of `parse` returns -/

theorem parseLoop_returns (f : Nat) :
    ∀ p, 3 * p.remaining + 4 ≤ f → ∃ r, parseLoop f p = some r := by
  induction f with
  | zero => intro p h; omega
  | succ f ih =>
      intro p hf
      rw [parseLoop]
      simp only
      split
      · rename_i hv
        have hne : p.d_cur.d_type ≠ .Eof := by
          intro he; simp [EbnfToken.isValid, he] at hv
        have h1 := nextToken_remaining_lt p hne
        split
        · split
          · exact ⟨_, rfl⟩
          · rename_i hass
            split
            · exact ⟨_, rfl⟩
            · rename_i syn hadd
              have hne2 : (EbnfParser.mk p.nextToken.d_lex p.nextToken.d_cur p.nextToken.d_errs
                  syn).d_cur.d_type ≠ .Eof := by
                simp only [ne_eq, Decidable.not_not] at hass
                simp only [hass]; decide
              have h2 := nextToken_remaining_lt _ hne2
              have h3 : (EbnfParser.mk p.nextToken.d_lex p.nextToken.d_cur p.nextToken.d_errs
                  syn).remaining = p.nextToken.remaining := rfl
              split
              · obtain ⟨p3, r, he, hle, _⟩ := (fuel_suffices f).2.1
                  (EbnfParser.nextToken { p.nextToken with d_syn := syn }) (by
                    show 3 * (EbnfParser.mk p.nextToken.d_lex p.nextToken.d_cur
                      p.nextToken.d_errs syn).nextToken.remaining + 3 ≤ f
                    omega)
                rw [he]
                simp only
                apply ih
                show 3 * p3.remaining + 4 ≤ f
                have : p3.remaining ≤ (EbnfParser.mk p.nextToken.d_lex p.nextToken.d_cur
                  p.nextToken.d_errs syn).nextToken.remaining := hle
                omega
              · apply ih
                show 3 * (EbnfParser.mk p.nextToken.d_lex p.nextToken.d_cur
                  p.nextToken.d_errs syn).nextToken.remaining + 4 ≤ f
                omega
        · exact ⟨_, rfl⟩
      · exact ⟨_, rfl⟩

/-- `EbnfParser::parse` returns on every token source. -/
theorem parse_total (lex : List EbnfToken) (errs : Option EbnfErrors) :
    ∃ r, EbnfParser.parse lex errs = some r := by
  unfold EbnfParser.parse
  apply parseLoop_returns
  have h := nextToken_remaining_le
    { d_lex := lex, d_cur := EbnfToken.default, d_errs := errs.map EbnfErrors.resetErrCount,
      d_syn := { d_order := [] } }
  have h2 : (EbnfParser.mk lex EbnfToken.default (errs.map EbnfErrors.resetErrCount)
      { d_order := [] }).remaining = lex.length + 1 := by
    simp [EbnfParser.remaining, EbnfToken.default]
  simp only at h ⊢
  omega

/-! ## Trees of the grammar `parse` builds -/

theorem wellBuilt_children (ty : NodeType) (q : Quantity) (tok : EbnfToken) (subs : List Node)
    (d : Option DefRef) (h : (Node.mk ty q tok subs d).wellBuilt = true) :
    allWellBuilt subs = true := by
  cases ty <;> simp only [Node.wellBuilt, Bool.and_eq_true, List.isEmpty_iff] at h
  · rw [h.1]; rfl
  · rw [h]; rfl
  · exact h.1.2
  · exact h.1.2
  · rw [h.1.1]; rfl

mutual

theorem wellBuilt_subtree : ∀ (n : Node), n.wellBuilt = true → ∀ m ∈ n.subtree, m.wellBuilt = true
  | .mk ty q tok subs d, h, m, hm => by
      simp only [Node.subtree, List.mem_cons] at hm
      rcases hm with rfl | hm
      · exact h
      · exact allWellBuilt_subtrees subs (wellBuilt_children ty q tok subs d h) m hm

theorem allWellBuilt_subtrees : ∀ (ns : List Node), allWellBuilt ns = true →
    ∀ m ∈ subtrees ns, m.wellBuilt = true
  | [], _, m, hm => by simp [subtrees] at hm
  | n :: ns, h, m, hm => by
      simp only [allWellBuilt, Bool.and_eq_true] at h
      simp only [subtrees, List.mem_append] at hm
      rcases hm with hm | hm
      · exact wellBuilt_subtree n h.1 m hm
      · exact allWellBuilt_subtrees ns h.2 m hm

end

theorem wellBuilt_container_size (n : Node) (h : n.wellBuilt = true)
    (hc : n.isContainer = true) : 2 ≤ n.d_subs.length := by
  obtain ⟨ty, q, tok, subs, d⟩ := n
  cases ty <;> simp [Node.isContainer] at hc <;>
    simp only [Node.wellBuilt, Bool.and_eq_true, decide_eq_true_eq] at h <;>
    simpa using h.1.1.2

theorem wellBuilt_predicate_child (n : Node) (h : n.wellBuilt = true) (i : Nat) (c : Node)
    (hi : n.d_subs[i]? = some c) (hc : c.d_type = .Predicate) :
    n.d_type = .Sequence ∧ i = 0 := by
  obtain ⟨ty, q, tok, subs, d⟩ := n
  simp only [d_subs_mk] at hi
  have hmem : c ∈ subs := List.getElem?_mem hi
  cases ty <;> simp only [Node.wellBuilt, Bool.and_eq_true, List.isEmpty_iff] at h
  · rw [h.1] at hmem; simp at hmem
  · rw [h] at hmem; simp at hmem
  · refine ⟨rfl, ?_⟩
    cases i with
    | zero => rfl
    | succ j =>
        exfalso
        cases subs with
        | nil => simp at hi
        | cons s ss =>
            simp only [List.getElem?_cons_succ] at hi
            have hm : c ∈ ss := List.getElem?_mem hi
            have hnp := h.2
            simp only [List.tail_cons, noPredicate, List.all_eq_true] at hnp
            have := hnp c hm
            simp [hc] at this
  · exfalso
    have hnp := h.2
    simp only [noPredicate, List.all_eq_true] at hnp
    have := hnp c hmem
    simp [hc] at this
  · rw [h.1.1] at hmem; simp at hmem

theorem wellBuilt_one_predicate (n : Node) (h : n.wellBuilt = true) :
    (n.d_subs.filter (fun c => c.d_type == .Predicate)).length ≤ 1 := by
  obtain ⟨ty, q, tok, subs, d⟩ := n
  simp only [d_subs_mk]
  have hnone : ∀ l : List Node, noPredicate l = true →
      l.filter (fun c => c.d_type == .Predicate) = [] := by
    intro l hl
    simp only [noPredicate, List.all_eq_true] at hl
    simp only [List.filter_eq_nil_iff]
    intro a ha
    have := hl a ha
    simpa using this
  cases ty <;> simp only [Node.wellBuilt, Bool.and_eq_true, List.isEmpty_iff] at h
  · rw [h.1]; simp
  · rw [h]; simp
  · cases subs with
    | nil => simp
    | cons s ss =>
        have := hnone ss (by simpa using h.2)
        simp only [List.filter_cons, this]
        split <;> simp
  · rw [hnone subs h.2]; simp
  · rw [h.1.1]; simp

theorem addDef_wellBuilt (syn syn1 : EbnfSyntax) (t : EbnfToken) (h : syn.wellBuilt)
    (ha : syn.addDef (Definition.new t) = some syn1) : syn1.wellBuilt := by
  unfold EbnfSyntax.addDef at ha
  split at ha
  · simp at ha
  · simp only [Option.some.injEq] at ha
    subst ha
    intro d hd root hr
    simp only [List.mem_append, List.mem_singleton] at hd
    rcases hd with hd | rfl
    · exact h d hd root hr
    · simp [Definition.new] at hr

theorem setLastNode_wellBuilt (syn : EbnfSyntax) (node : Option Node) (h : syn.wellBuilt)
    (hn : ∀ root, node = some root → root.wellBuiltRoot) : (syn.setLastNode node).wellBuilt := by
  unfold EbnfSyntax.setLastNode
  split
  · exact h
  · rename_i d ds heq
    have hord : syn.d_order = (d :: ds).reverse := by
      rw [← heq, List.reverse_reverse]
    intro e he root hr
    simp only [List.mem_reverse, List.mem_cons] at he
    rcases he with rfl | he
    · exact hn root hr
    · apply h e _ root hr
      rw [hord]; simp [he]

theorem parseLoop_wellBuilt (f : Nat) :
    ∀ p p1 b, parseLoop f p = some (p1, b) → p.d_syn.wellBuilt → p1.d_syn.wellBuilt := by
  induction f with
  | zero => intro p p1 b h; simp [parseLoop] at h
  | succ f ih =>
      intro p p1 b h hw
      rw [parseLoop] at h
      simp only at h
      split at h
      · split at h
        · split at h
          · simp only [Option.some.injEq, Prod.mk.injEq] at h
            rw [← h.1, error_d_syn]; exact hw
          · split at h
            · simp only [Option.some.injEq, Prod.mk.injEq] at h
              rw [← h.1]; exact hw
            · rename_i syn hadd
              have hw1 : syn.wellBuilt := addDef_wellBuilt _ _ _ hw hadd
              split at h
              · cases he : parseExpression f
                    (EbnfParser.nextToken { p.nextToken with d_syn := syn }) with
                | none => rw [he] at h; simp at h
                | some x =>
                    obtain ⟨p3, node⟩ := x
                    rw [he] at h
                    simp only at h
                    have hs : p3.d_syn = syn := parseExpression_d_syn _ _ _ _ he
                    refine ih _ _ _ h ?_
                    simp only [hs]
                    apply setLastNode_wellBuilt _ _ hw1
                    intro root hr
                    subst hr
                    exact (parser_builds_well f).2.1 _ _ _ he
              · exact ih _ _ _ h hw1
        · simp only [Option.some.injEq, Prod.mk.injEq] at h
          rw [← h.1, error_d_syn]; exact hw
      · simp only [Option.some.injEq, Prod.mk.injEq] at h
        rw [← h.1]
        split
        · rw [error_d_syn]; exact hw
        · exact hw

theorem parse_wellBuilt (lex : List EbnfToken) (errs : Option EbnfErrors) (p : EbnfParser)
    (b : Bool) (h : EbnfParser.parse lex errs = some (p, b)) : p.d_syn.wellBuilt := by
  unfold EbnfParser.parse at h
  refine parseLoop_wellBuilt _ _ _ _ h ?_
  intro d hd
  simp [EbnfParser.nextToken] at hd

/-- Claim C2. Every Sequence or Alternative node in every tree that
`EbnfParser::parse` attaches to a definition has at least two children. -/
theorem parse_containers_have_two_children (lex : List EbnfToken) (errs : Option EbnfErrors) :
    ∃ p b, EbnfParser.parse lex errs = some (p, b) ∧
      ∀ d ∈ p.d_syn.d_order, ∀ root, d.d_node = some root →
        ∀ n ∈ root.subtree, n.isContainer = true → 2 ≤ n.d_subs.length := by
  obtain ⟨⟨p, b⟩, h⟩ := parse_total lex errs
  refine ⟨p, b, h, ?_⟩
  intro d hd root hr n hn hc
  have hw := (parse_wellBuilt lex errs p b h d hd root hr).1
  exact wellBuilt_container_size n (wellBuilt_subtree root hw n hn) hc

/-- Claim C4. In every tree produced by the parser a Predicate node occurs only
as child 0 of a Sequence node: the root of a definition is no Predicate, a
Predicate child of any node sits at index 0 of a Sequence, and no node has
more than one Predicate child. -/
theorem parse_predicate_only_heads_sequence (lex : List EbnfToken)
    (errs : Option EbnfErrors) :
    ∃ p b, EbnfParser.parse lex errs = some (p, b) ∧
      ∀ d ∈ p.d_syn.d_order, ∀ root, d.d_node = some root →
        root.d_type ≠ .Predicate ∧
        ∀ n ∈ root.subtree,
          (∀ i c, n.d_subs[i]? = some c → c.d_type = .Predicate →
            n.d_type = .Sequence ∧ i = 0) ∧
          (n.d_subs.filter (fun c => c.d_type == .Predicate)).length ≤ 1 := by
  obtain ⟨⟨p, b⟩, h⟩ := parse_total lex errs
  refine ⟨p, b, h, ?_⟩
  intro d hd root hr
  have hw := parse_wellBuilt lex errs p b h d hd root hr
  refine ⟨hw.2, ?_⟩
  intro n hn
  have hnw := wellBuilt_subtree root hw.1 n hn
  exact ⟨fun i c hi hc => wellBuilt_predicate_child n hnw i c hi hc,
    wellBuilt_one_predicate n hnw⟩

/-! ## Single terms and factors are returned as they are -/

theorem parseFactor_mono (f g : Nat) (h : f ≤ g) (p : EbnfParser)
    (r : EbnfParser × Option Node) (hr : parseFactor f p = some r) : parseFactor g p = some r := by
  induction h with
  | refl => exact hr
  | step _ ih => exact (fuel_step _).1 p r ih

theorem parseExpression_mono (f g : Nat) (h : f ≤ g) (p : EbnfParser)
    (r : EbnfParser × Option Node) (hr : parseExpression f p = some r) :
    parseExpression g p = some r := by
  induction h with
  | refl => exact hr
  | step _ ih => exact (fuel_step _).2.1 p r ih

theorem parseTerm_mono (f g : Nat) (h : f ≤ g) (p : EbnfParser)
    (r : EbnfParser × Option Node) (hr : parseTerm f p = some r) : parseTerm g p = some r := by
  induction h with
  | refl => exact hr
  | step _ ih => exact (fuel_step _).2.2.2.1 p r ih

theorem foldl_appendSub (ts : List Node) (ty : NodeType) (q : Quantity) (tok : EbnfToken)
    (subs : List Node) (d : Option DefRef) :
    ts.foldl Node.appendSub (.mk ty q tok subs d) = .mk ty q tok (subs ++ ts) d := by
  induction ts generalizing subs with
  | nil => simp
  | cons t ts ih => simp [Node.appendSub, ih]

theorem expressionLoop_terms (f : Nat) (first : EbnfToken) (ts : List Node) :
    ∀ (p p2 : EbnfParser) (node : Node) (alt : Bool) (g : Nat),
      termsFrom f ts p p2 → f + ts.length + 1 ≤ g →
      expressionLoop g first p node alt =
        some (p2, some (if ts.isEmpty then node
          else ts.foldl Node.appendSub (if alt then node
            else Node.container .Alternative first.d_lineNr first.d_colNr [node]))) := by
  induction ts with
  | nil =>
      intro p p2 node alt g h hg
      obtain ⟨h1, rfl⟩ := h
      obtain ⟨k, rfl⟩ : ∃ k, g = k + 1 := ⟨g - 1, by omega⟩
      rw [expressionLoop]
      simp [h1]
  | cons t ts ih =>
      intro p p2 node alt g h hg
      obtain ⟨h1, p3, ht, hrest⟩ := h
      simp only [List.length_cons] at hg
      obtain ⟨k, rfl⟩ : ∃ k, g = k + 1 := ⟨g - 1, by omega⟩
      rw [expressionLoop]
      simp only [h1, if_true, parseTerm_mono f k (by omega) _ _ ht]
      rw [ih p3 p2 _ true k hrest (by omega)]
      cases ts <;> simp

theorem termLoop_factors (f : Nat) (xs : List Node) :
    ∀ (p p2 : EbnfParser) (node : Node) (seq : Bool) (g : Nat),
      factorsFrom f xs p p2 → f + xs.length + 1 ≤ g →
      termLoop g p node seq =
        some (p2, some (if xs.isEmpty then node
          else xs.foldl Node.appendSub (if seq then node
            else Node.container .Sequence node.d_tok.d_lineNr node.d_tok.d_colNr [node]))) := by
  induction xs with
  | nil =>
      intro p p2 node seq g h hg
      obtain ⟨h1, rfl⟩ := h
      obtain ⟨k, rfl⟩ : ∃ k, g = k + 1 := ⟨g - 1, by omega⟩
      rw [termLoop]
      simp [h1]
  | cons x xs ih =>
      intro p p2 node seq g h hg
      obtain ⟨h1, p3, ht, hrest⟩ := h
      simp only [List.length_cons] at hg
      obtain ⟨k, rfl⟩ : ∃ k, g = k + 1 := ⟨g - 1, by omega⟩
      rw [termLoop]
      simp only [h1, if_true, parseFactor_mono f k (by omega) _ _ ht]
      rw [ih p3 p2 _ true k hrest (by omega)]
      cases xs <;> simp

theorem parseTerm_some_isTermStart (f : Nat) (p p1 : EbnfParser) (t : Node)
    (h : parseTerm f p = some (p1, some t)) : isTermStart p.d_cur.d_type = true := by
  cases f with
  | zero => simp [parseTerm] at h
  | succ f =>
      by_cases hp : p.d_cur.d_type = .Predicate
      · rw [hp]; rfl
      · rw [parseTerm_without_predicate _ p hp] at h
        split at h
        · rename_i hs
          revert hs
          cases p.d_cur.d_type <;> simp [isFactorStart, isTermStart]
        · simp at h

theorem parseFactor_some_isFactorStart (f : Nat) (p p1 : EbnfParser) (x : Node)
    (h : parseFactor f p = some (p1, some x)) : isFactorStart p.d_cur.d_type = true := by
  cases f with
  | zero => simp [parseFactor] at h
  | succ f =>
      rw [parseFactor] at h
      split at h
      all_goals first
        | (rename_i hty; rw [hty]; rfl)
        | simp at h

/-- Claim C3. `parseExpression` returns the node of its single term as it is
when no `|` follows, else an Alternative over all terms in source order;
`parseTerm` returns the node of its single factor as it is when there is no
predicate and no further factor, else a Sequence over the optional predicate
and all factors in source order. -/
theorem single_items_are_not_wrapped :
    (∀ (f : Nat) (p p1 p2 : EbnfParser) (t : Node) (ts : List Node) (g : Nat),
      parseTerm f p = some (p1, some t) → termsFrom f ts p1 p2 → f + ts.length + 2 ≤ g →
      parseExpression g p = some (p2, some (if ts.isEmpty then t
        else Node.container .Alternative p.d_cur.d_lineNr p.d_cur.d_colNr (t :: ts)))) ∧
    (∀ (f : Nat) (p p1 p2 : EbnfParser) (x : Node) (xs : List Node) (g : Nat),
      p.d_cur.d_type ≠ .Predicate →
      parseFactor f p = some (p1, some x) → factorsFrom f xs p1 p2 → f + xs.length + 2 ≤ g →
      parseTerm g p = some (p2, some (if xs.isEmpty then x
        else Node.container .Sequence x.d_tok.d_lineNr x.d_tok.d_colNr (x :: xs)))) ∧
    (∀ (f : Nat) (p p1 p2 : EbnfParser) (x : Node) (xs : List Node) (g : Nat),
      p.d_cur.d_type = .Predicate →
      parseFactor f p.nextToken = some (p1, some x) → factorsFrom f xs p1 p2 →
      f + xs.length + 2 ≤ g →
      parseTerm g p = some (p2, some
        (Node.container .Sequence p.nextToken.d_cur.d_lineNr p.nextToken.d_cur.d_colNr
          (Node.new .Predicate p.d_cur :: x :: xs)))) := by
  refine ⟨?_, ?_, ?_⟩
  · intro f p p1 p2 t ts g ht hts hg
    obtain ⟨k, rfl⟩ : ∃ k, g = k + 1 := ⟨g - 1, by omega⟩
    rw [parseExpression]
    simp only [parseTerm_some_isTermStart f p p1 t ht, if_true,
      parseTerm_mono f k (by omega) _ _ ht]
    rw [expressionLoop_terms f p.d_cur ts p1 p2 t false k hts (by omega)]
    cases ts with
    | nil => simp
    | cons a as => simp [Node.container, Node.appendSub, foldl_appendSub]
  · intro f p p1 p2 x xs g hp hx hxs hg
    have hs := parseFactor_some_isFactorStart f _ _ _ hx
    obtain ⟨k, rfl⟩ : ∃ k, g = k + 1 := ⟨g - 1, by omega⟩
    rw [parseTerm_without_predicate _ p hp]
    simp only [hs, if_true, parseFactor_mono f k (by omega) _ _ hx]
    rw [termLoop_factors f xs p1 p2 x false k hxs (by omega)]
    cases xs with
    | nil => simp
    | cons a as => simp [Node.container, Node.appendSub, foldl_appendSub]
  · intro f p p1 p2 x xs g hp hx hxs hg
    have hs := parseFactor_some_isFactorStart f _ _ _ hx
    obtain ⟨k, rfl⟩ : ∃ k, g = k + 1 := ⟨g - 1, by omega⟩
    rw [parseTerm_with_predicate _ p hp]
    simp only [hs, if_true, parseFactor_mono f k (by omega) _ _ hx]
    rw [termLoop_factors f xs p1 p2 _ true k hxs (by omega)]
    cases xs with
    | nil => simp
    | cons a as => simp [Node.container, Node.appendSub, foldl_appendSub]

/-- Witness of the theorem above: the expression `a | b` becomes an
Alternative over `a` and `b`, the term `a` stays the node of `a`, and the term
`\LL:2\ a b` becomes a Sequence of the predicate, `a` and `b`. -/
theorem single_items_are_not_wrapped_witness :
    parseExpression 7 (parserAt (tok .NonTerm 1 "a") [tok .Bar 3 "", tok .NonTerm 5 "b"]) =
      some (parserAt eofToken [], some (Node.container .Alternative 1 1
        [Node.new .Nonterminal (tok .NonTerm 1 "a"), Node.new .Nonterminal (tok .NonTerm 5 "b")])) ∧
    parseTerm 6 (parserAt (tok .NonTerm 1 "a") [tok .Bar 3 "", tok .NonTerm 5 "b"]) =
      some (parserAt (tok .Bar 3 "") [tok .NonTerm 5 "b"],
        some (Node.new .Nonterminal (tok .NonTerm 1 "a"))) ∧
    parseTerm 7 (parserAt (tok .Predicate 1 "LL:2") [tok .NonTerm 8 "a", tok .NonTerm 10 "b"]) =
      some (parserAt eofToken [], some (Node.container .Sequence 1 8
        [Node.new .Predicate (tok .Predicate 1 "LL:2"),
         Node.new .Nonterminal (tok .NonTerm 8 "a"),
         Node.new .Nonterminal (tok .NonTerm 10 "b")])) :=
  ⟨single_items_are_not_wrapped.1 4
      (parserAt (tok .NonTerm 1 "a") [tok .Bar 3 "", tok .NonTerm 5 "b"])
      (parserAt (tok .Bar 3 "") [tok .NonTerm 5 "b"]) (parserAt eofToken [])
      (Node.new .Nonterminal (tok .NonTerm 1 "a")) [Node.new .Nonterminal (tok .NonTerm 5 "b")] 7
      rfl ⟨rfl, parserAt eofToken [], rfl, by decide, rfl⟩ (by decide),
    single_items_are_not_wrapped.2.1 4
      (parserAt (tok .NonTerm 1 "a") [tok .Bar 3 "", tok .NonTerm 5 "b"])
      (parserAt (tok .Bar 3 "") [tok .NonTerm 5 "b"])
      (parserAt (tok .Bar 3 "") [tok .NonTerm 5 "b"])
      (Node.new .Nonterminal (tok .NonTerm 1 "a")) [] 6
      (by decide) rfl ⟨rfl, rfl⟩ (by decide),
    single_items_are_not_wrapped.2.2 4
      (parserAt (tok .Predicate 1 "LL:2") [tok .NonTerm 8 "a", tok .NonTerm 10 "b"])
      (parserAt (tok .NonTerm 10 "b") []) (parserAt eofToken [])
      (Node.new .Nonterminal (tok .NonTerm 8 "a")) [Node.new .Nonterminal (tok .NonTerm 10 "b")] 7
      rfl rfl ⟨rfl, parserAt eofToken [], rfl, rfl, rfl⟩ (by decide)⟩

/-! ## Nested quantifiers -/

theorem error_text (p : EbnfParser) (t : EbnfToken) (msg : String) (e : EbnfErrors)
    (he : p.d_errs = some e) (ht : t.d_type ≠ .Invalid) (hm : msg ≠ "") :
    (p.error t msg).d_errs = some (e.error .Syntax t.d_lineNr t.d_colNr (.text msg)) := by
  unfold EbnfParser.error
  rw [he]
  simp [ht, hm]

/-- Claim C5. A bracket quantifier `[ ]` or `{ }` around an expression whose
node already carries ZeroOrOne or ZeroOrMore is rejected: `parseFactor` returns
no node, the report `contradicting nested quantifiers` goes to the sink at
the closing bracket, and the grammar is left as it was. -/
theorem nested_quantifier_rejected (f g : Nat) (p p1 : EbnfParser) (node : Node)
    (hopen : (p.d_cur.d_type = .LBrack ∧ p1.d_cur.d_type = .RBrack) ∨
      (p.d_cur.d_type = .LBrace ∧ p1.d_cur.d_type = .RBrace))
    (hexpr : parseExpression f p.nextToken = some (p1, some node))
    (hq : node.d_quant = .ZeroOrOne ∨ node.d_quant = .ZeroOrMore)
    (hg : f + 1 ≤ g) :
    parseFactor g p = some (p1.error p1.d_cur "contradicting nested quantifiers", none) ∧
    (∀ e, p1.d_errs = some e →
      (p1.error p1.d_cur "contradicting nested quantifiers").d_errs =
        some (e.error .Syntax p1.d_cur.d_lineNr p1.d_cur.d_colNr
          (.text "contradicting nested quantifiers"))) ∧
    (p1.error p1.d_cur "contradicting nested quantifiers").d_syn = p.d_syn := by
  have hne : node.d_quant ≠ .One := by
    rcases hq with h | h <;> rw [h] <;> decide
  have hcard : p1.checkCardinality node =
      (p1.error p1.d_cur "contradicting nested quantifiers", false) := by
    unfold EbnfParser.checkCardinality
    simp [hne]
  refine ⟨?_, ?_, ?_⟩
  · obtain ⟨k, rfl⟩ : ∃ k, g = k + 1 := ⟨g - 1, by omega⟩
    have hk := parseExpression_mono f k (by omega) _ _ hexpr
    rw [parseFactor]
    rcases hopen with ⟨h1, h2⟩ | ⟨h1, h2⟩
    · simp only [h1, hk, Option.map_some', finishBracket, h2, hcard, ne_eq, not_true_eq_false,
        if_false]
    · simp only [h1, hk, Option.map_some', finishBracket, h2, hcard, ne_eq, not_true_eq_false,
        if_false]
  · intro e he
    apply error_text p1 p1.d_cur _ e he
    · rcases hopen with ⟨_, h2⟩ | ⟨_, h2⟩ <;> rw [h2] <;> decide
    · decide
  · rw [error_d_syn, parseExpression_d_syn f _ _ _ hexpr]
    rfl

/-- Witness of the theorem above: the factor `{ [ a ] }`. -/
theorem nested_quantifier_rejected_witness :
    parseFactor 9 (parserAt (tok .LBrace 1 "") [tok .LBrack 3 "", tok .NonTerm 5 "a",
        tok .RBrack 7 "", tok .RBrace 9 ""]) =
      some ((parserAt (tok .RBrace 9 "") []).error (tok .RBrace 9 "")
        "contradicting nested quantifiers", none) :=
  (nested_quantifier_rejected 8 9
    (parserAt (tok .LBrace 1 "") [tok .LBrack 3 "", tok .NonTerm 5 "a",
        tok .RBrack 7 "", tok .RBrace 9 ""])
    (parserAt (tok .RBrace 9 "") [])
    (.mk .Nonterminal .ZeroOrOne (tok .NonTerm 5 "a") [] none)
    (Or.inr ⟨rfl, rfl⟩) rfl (Or.inl rfl) (Nat.le_refl _)).1

/-! ## Errors inside a production -/

theorem setLastNode_append (xs : List Definition) (d : Definition) (node : Option Node) :
    (EbnfSyntax.setLastNode { d_order := xs ++ [d] } node).d_order
      = xs ++ [{ d with d_node := node }] := by
  simp [EbnfSyntax.setLastNode]

theorem addDef_d_order (syn syn1 : EbnfSyntax) (d : Definition)
    (h : syn.addDef d = some syn1) : syn1.d_order = syn.d_order ++ [d] := by
  unfold EbnfSyntax.addDef at h
  split at h
  · simp at h
  · simp only [Option.some.injEq] at h
    rw [← h]

/-- Claim C6, amended. After an error inside the expression of a production,
`parse` leaves that production in the grammar without a root and skips no
token. Is the token at which the error was detected a valid token other than
a Production token, `parse` reports it and returns false at once, so no later
production is added; is it a Production token, the loop goes on with it. -/
theorem error_in_production_does_not_resynchronise (f : Nat) (p p3 : EbnfParser)
    (syn : EbnfSyntax)
    (hprod : p.d_cur.d_type = .Production)
    (hassig : p.nextToken.d_cur.d_type = .Assig)
    (hadd : p.nextToken.d_syn.addDef (Definition.new p.d_cur) = some syn)
    (hbody : (EbnfParser.nextToken { p.nextToken with d_syn := syn }).d_cur.d_type ≠ .Production ∧
      (EbnfParser.nextToken { p.nextToken with d_syn := syn }).d_cur.d_type ≠ .Eof)
    (herr : parseExpression f (EbnfParser.nextToken { p.nextToken with d_syn := syn })
      = some (p3, none)) :
    (p3.d_syn.setLastNode none).d_order = p.d_syn.d_order ++ [Definition.new p.d_cur] ∧
    (p3.d_cur.isValid = true → p3.d_cur.d_type ≠ .Production →
      parseLoop (f + 1) p =
        some (EbnfParser.error { p3 with d_syn := p3.d_syn.setLastNode none } p3.d_cur "", false)
      ∧ (EbnfParser.error { p3 with d_syn := p3.d_syn.setLastNode none } p3.d_cur "").d_syn.d_order
          = p.d_syn.d_order ++ [Definition.new p.d_cur]) ∧
    (p3.d_cur.d_type = .Production →
      parseLoop (f + 1) p = parseLoop f { p3 with d_syn := p3.d_syn.setLastNode none }) := by
  have hv : p.d_cur.isValid = true := by simp [EbnfToken.isValid, hprod]
  have hsyn : p3.d_syn = syn := parseExpression_d_syn _ _ _ _ herr
  have hord : (p3.d_syn.setLastNode none).d_order
      = p.d_syn.d_order ++ [Definition.new p.d_cur] := by
    have h1 := addDef_d_order _ _ _ hadd
    have h2 : syn = { d_order := p.nextToken.d_syn.d_order ++ [Definition.new p.d_cur] } := by
      cases syn; simp only at h1; rw [h1]
    rw [hsyn, h2, setLastNode_append]
    rfl
  have hstep : parseLoop (f + 1) p = parseLoop f { p3 with d_syn := p3.d_syn.setLastNode none } := by
    rw [parseLoop]
    simp only [hv, if_true, hprod, hassig, ne_eq, not_true_eq_false, if_false, hadd, hbody,
      not_false_eq_true, and_self, herr]
  refine ⟨hord, ?_, fun _ => hstep⟩
  intro hvalid hnp
  obtain ⟨k, rfl⟩ : ∃ k, f = k + 1 := by
    cases f with
    | zero => simp [parseExpression] at herr
    | succ k => exact ⟨k, rfl⟩
  refine ⟨?_, ?_⟩
  · rw [hstep, parseLoop]
    simp only [hvalid, if_true, hnp, if_false]
  · rw [error_d_syn]
    exact hord

/-- Witness of the theorem above: in `A ::= )` the
error is detected at `)`, and `parse` returns false there. -/
theorem error_in_production_does_not_resynchronise_witness :
    parseLoop 3 (parserAt (tok .Production 1 "A") unbalancedThenGood.tail) =
      some (EbnfParser.error
        { d_lex := unbalancedThenGood.drop 3, d_cur := tok .RPar 7 "",
          d_errs := some { entries := [⟨.Syntax, 1, 7, .text "expecting term"⟩], errCount := 1 },
          d_syn := { d_order := [Definition.new (tok .Production 1 "A")] } }
        (tok .RPar 7 "") "", false) :=
  ((error_in_production_does_not_resynchronise 2
    (parserAt (tok .Production 1 "A") unbalancedThenGood.tail)
    { d_lex := unbalancedThenGood.drop 3, d_cur := tok .RPar 7 "",
      d_errs := some { entries := [⟨.Syntax, 1, 7, .text "expecting term"⟩], errCount := 1 },
      d_syn := { d_order := [Definition.new (tok .Production 1 "A")] } }
    { d_order := [Definition.new (tok .Production 1 "A")] }
    rfl rfl rfl (by decide) rfl).2.1 (by decide) (by decide)).1

/-- Claim C6 as stated fails: for the lines `A ::= )` and `B ::= b` the parser
returns false with a grammar that holds `A` only, although `B ::= b` alone
parses without error into a grammar that holds `B`. -/
theorem later_production_is_lost :
    (EbnfParser.parse unbalancedThenGood (some { entries := [], errCount := 0 })).map
        (fun r => (r.1.d_syn.d_order.map (fun d => d.d_tok.d_val), r.2)) = some ([ba "A"], false) ∧
    (EbnfParser.parse (unbalancedThenGood.drop 3) (some { entries := [], errCount := 0 })).map
        (fun r => (r.1.d_syn.d_order.map (fun d => d.d_tok.d_val), r.2)) = some ([ba "B"], true) := by
  constructor <;> rfl

/-! ## The result of `parse` and the error count -/

theorem countsNew_nextToken (old : List ErrEntry) (p : EbnfParser) (h : CountsNew old p) :
    CountsNew old p.nextToken := h

theorem countsNew_error (old : List ErrEntry) (p : EbnfParser) (t : EbnfToken) (msg : String)
    (h : CountsNew old p) : CountsNew old (p.error t msg) := by
  obtain ⟨e, new, he, hent, hcnt⟩ := h
  unfold EbnfParser.error
  rw [he]
  simp only
  have hadd : ∀ m : ErrMsg, CountsNew old
      { p with d_errs := some (e.error .Syntax t.d_lineNr t.d_colNr m) } := by
    intro m
    exact ⟨_, new ++ [⟨.Syntax, t.d_lineNr, t.d_colNr, m⟩], rfl,
      by simp [EbnfErrors.error, hent], by simp [EbnfErrors.error, hcnt]⟩
  split
  · exact hadd _
  · split
    · exact hadd _
    · exact hadd _

theorem parseLoop_counts (old : List ErrEntry) (f : Nat) :
    ∀ p p1 b, parseLoop f p = some (p1, b) → CountsNew old p →
      CountsNew old p1 ∧ (b = true → ∀ e, p1.d_errs = some e → e.errCount = 0) := by
  induction f with
  | zero => intro p p1 b h; simp [parseLoop] at h
  | succ f ih =>
      intro p p1 b h hc
      rw [parseLoop] at h
      simp only at h
      split at h
      · split at h
        · split at h
          · simp only [Option.some.injEq, Prod.mk.injEq] at h
            rw [← h.1, ← h.2]
            exact ⟨countsNew_error _ _ _ _ hc, by simp⟩
          · split at h
            · simp only [Option.some.injEq, Prod.mk.injEq] at h
              rw [← h.1, ← h.2]
              exact ⟨hc, by simp⟩
            · rename_i syn hadd
              have hc1 : CountsNew old (EbnfParser.nextToken { p.nextToken with d_syn := syn }) := hc
              split at h
              · cases he : parseExpression f
                    (EbnfParser.nextToken { p.nextToken with d_syn := syn }) with
                | none => rw [he] at h; simp at h
                | some x =>
                    obtain ⟨p3, node⟩ := x
                    rw [he] at h
                    simp only at h
                    have hc3 : CountsNew old p3 :=
                      (parser_preserves (CountsNew old) (countsNew_nextToken old)
                        (countsNew_error old) f).2.1 _ _ _ he hc1
                    exact ih _ _ _ h hc3
              · exact ih _ _ _ h hc1
        · simp only [Option.some.injEq, Prod.mk.injEq] at h
          rw [← h.1, ← h.2]
          exact ⟨countsNew_error _ _ _ _ hc, by simp⟩
      · simp only [Option.some.injEq, Prod.mk.injEq] at h
        have hc1 : CountsNew old (if p.d_cur.isErr = true then p.error p.d_cur "" else p) := by
          split
          · exact countsNew_error _ _ _ _ hc
          · exact hc
        rw [← h.1, ← h.2]
        refine ⟨hc1, ?_⟩
        intro hb e he
        rw [he] at hb
        simpa [EbnfErrors.getErrCount] using hb

/-- Claim C7. With an error sink attached, `EbnfParser::parse` resets the error
count at entry, so that at the end the sink counts exactly the reports of
this run; it returns false whenever at least one error was reported during
the run, and it returns true only if the count is zero at the end. -/
theorem parse_result_reflects_error_count (lex : List EbnfToken) (sink : EbnfErrors) :
    ∃ p b e new, EbnfParser.parse lex (some sink) = some (p, b) ∧
      p.d_errs = some e ∧ e.entries = sink.entries ++ new ∧ e.getErrCount = new.length ∧
      (new ≠ [] → b = false) ∧ (b = true → e.getErrCount = 0) := by
  obtain ⟨⟨p, b⟩, h⟩ := parse_total lex (some sink)
  have h0 := h
  unfold EbnfParser.parse at h0
  have hstart : CountsNew sink.entries (EbnfParser.nextToken
      { d_lex := lex, d_cur := EbnfToken.default,
        d_errs := (some sink).map EbnfErrors.resetErrCount, d_syn := { d_order := [] } }) :=
    ⟨sink.resetErrCount, [], rfl, by simp [EbnfErrors.resetErrCount],
      by simp [EbnfErrors.resetErrCount]⟩
  obtain ⟨⟨e, new, he, hent, hcnt⟩, hb⟩ := parseLoop_counts sink.entries _ _ _ _ h0 hstart
  refine ⟨p, b, e, new, h, he, hent, hcnt, ?_, fun hbt => hb hbt e he⟩
  intro hnew
  cases b with
  | false => rfl
  | true =>
      have h1 : e.errCount = 0 := hb rfl e he
      rw [h1] at hcnt
      exact absurd (List.length_eq_zero.mp hcnt.symm) hnew

/-! ## Emitters: Skip and parentheses -/

/-- Claim C8. For a node whose own operator annotation is Skip, or whose
resolved definition is annotated Skip, `AntlrGen::writeNode` and
`CocoGen::writeNode` write nothing at all: stream and warnings stay as they
were. -/
theorem skip_node_writes_nothing (gu : GenUtils) (env : CocoEnv) (out : String)
    (cout : CocoOut) (n : Node) (topLevel buildAst : Bool)
    (h : n.d_tok.d_op = .Skip ∨ ∃ r, n.d_def = some r ∧ r.d_tok.d_op = .Skip) :
    AntlrGen.writeNode gu out n topLevel = out ∧
    CocoGen.writeNode env cout n topLevel buildAst = cout := by
  obtain ⟨ty, q, tk, subs, d⟩ := n
  have hs : emitsNothing tk d = true := by
    simp only [d_tok_mk, d_def_mk] at h
    rcases h with h | ⟨r, hd, hr⟩
    · simp [emitsNothing, h]
    · simp [emitsNothing, hd, hr]
  constructor
  · rw [AntlrGen.writeNode]; simp [hs]
  · rw [CocoGen.writeNode]; simp [hs]

/-- Witness of the theorem above: a reference to a production annotated Skip,
under a ZeroOrMore quantifier. -/
theorem skip_node_writes_nothing_witness :
    AntlrGen.writeNode plainNames "s : " (.mk .Nonterminal .ZeroOrMore (tok .NonTerm 7 "X") []
      (some { d_tok := { tok .Production 1 "X" with d_op := .Skip }, hasNode := true })) false
      = "s : " ∧
    CocoGen.writeNode plainEnv
      { text := "S = ", warnings := [] }
      (.mk .Nonterminal .ZeroOrMore (tok .NonTerm 7 "X") []
      (some { d_tok := { tok .Production 1 "X" with d_op := .Skip }, hasNode := true })) false true
      = { text := "S = ", warnings := [] } :=
  skip_node_writes_nothing plainNames
    plainEnv
    "s : " { text := "S = ", warnings := [] }
    (.mk .Nonterminal .ZeroOrMore (tok .NonTerm 7 "X") []
      (some { d_tok := { tok .Production 1 "X" with d_op := .Skip }, hasNode := true }))
    false true (Or.inr ⟨_, rfl, rfl⟩)

/-- The parser builds the tree `altWithSkip` from the tokens of `'a' | 'b'-`. -/
theorem parser_builds_altWithSkip :
    parseExpression 7 (parserAt (tok .Literal 7 "a")
        [tok .Bar 11 "", { tok .Literal 13 "b" with d_op := .Skip }]) =
      some (parserAt eofToken [], some altWithSkip) := rfl

/-- The lexer reads `'b'-` as a Literal token annotated Skip. -/
theorem lexer_reads_skip_suffix :
    (EbnfLexer.lexAt { EbnfLexer.setStream [] [] with d_line := ba "'b'-", d_lineNr := 1 } false).2 =
      { d_type := .Literal, d_lineNr := 1, d_colNr := 1, d_len := 3, d_val := ba "b",
        d_op := .Skip } := by
  decide

theorem append_separator_ne (s : String) : s ++ "\n    | " ≠ s := by
  intro h
  have := congrArg String.length h
  rw [String.length_append] at this
  have h7 : "\n    | ".length = 7 := by decide
  omega

/-- Claim C9 at the tree of `'a' | 'b'-`. Both emitters write the separator of
the Skip annotated alternative, so the text differs from the text of the
same Alternative without that child. -/
theorem skipped_alternative_leaves_separator (gu : GenUtils) (env : CocoEnv) (out : String)
    (cout : CocoOut) (buildAst : Bool) :
    AntlrGen.writeNode gu out altWithSkip true
      = AntlrGen.writeNode gu out altWithoutSkip true ++ "\n    | " ∧
    AntlrGen.writeNode gu out altWithSkip true ≠ AntlrGen.writeNode gu out altWithoutSkip true ∧
    CocoGen.writeNode env cout altWithSkip true buildAst
      = (CocoGen.writeNode env cout altWithoutSkip true buildAst).write "\n    | " ∧
    CocoGen.writeNode env cout altWithSkip true buildAst
      ≠ CocoGen.writeNode env cout altWithoutSkip true buildAst := by
  have ha : AntlrGen.writeNode gu out altWithSkip true
      = AntlrGen.writeNode gu out altWithoutSkip true ++ "\n    | " := by
    simp [altWithSkip, altWithoutSkip, Node.container, Node.new, AntlrGen.writeNode,
      AntlrGen.writeAlternative, emitsNothing, EbnfToken.default, tok, EbnfToken.make,
      AntlrGen.openBracket, AntlrGen.closeBracket, String.append_assoc]
  have hc : CocoGen.writeNode env cout altWithSkip true buildAst
      = (CocoGen.writeNode env cout altWithoutSkip true buildAst).write "\n    | " := by
    simp [altWithSkip, altWithoutSkip, Node.container, Node.new, CocoGen.writeNode,
      CocoGen.writeAlternative, emitsNothing, EbnfToken.default, tok, EbnfToken.make,
      CocoGen.openBracket, CocoGen.closeBracket, CocoOut.write, String.append_assoc]
  refine ⟨ha, ?_, hc, ?_⟩
  · rw [ha]; exact append_separator_ne _
  · rw [hc]
    intro h
    have := congrArg CocoOut.text h
    exact append_separator_ne _ this

theorem cocoOut_write_empty (o : CocoOut) : o.write "" = o := by
  cases o; simp [CocoOut.write]

/-- Claim C10. For a well built node with quantifier One, `AntlrGen::writeNode`
and `CocoGen::writeNode` put `( ` and `) ` around the text of the node exactly
when it is an Alternative that is not written at the top level; every other
such node is written without brackets of its own, or not at all when it is
annotated Skip. -/
theorem parentheses_only_around_inner_alternative (gu : GenUtils) (env : CocoEnv)
    (out : String) (cout : CocoOut) (n : Node) (topLevel buildAst : Bool)
    (hb : n.wellBuilt = true) (hq : n.d_quant = .One) :
    AntlrGen.writeNode gu out n topLevel =
      (if n.d_type = .Alternative ∧ topLevel = false then
         AntlrGen.writeBody gu (out ++ "( ") n topLevel ++ ") "
       else if emitsNothing n.d_tok n.d_def then out
       else AntlrGen.writeBody gu out n topLevel) ∧
    CocoGen.writeNode env cout n topLevel buildAst =
      (if n.d_type = .Alternative ∧ topLevel = false then
         (CocoGen.writeBody env (cout.write "( ") n topLevel buildAst).write ") "
       else if emitsNothing n.d_tok n.d_def then cout
       else CocoGen.writeBody env cout n topLevel buildAst) := by
  obtain ⟨ty, q, tk, subs, d⟩ := n
  simp only [d_quant_mk] at hq
  subst hq
  cases ty
  · -- Terminal
    constructor
    · rw [AntlrGen.writeNode]
      simp [AntlrGen.openBracket, AntlrGen.closeBracket, AntlrGen.writeBody]
    · rw [CocoGen.writeNode]
      simp [CocoGen.openBracket, CocoGen.closeBracket, CocoGen.writeBody, cocoOut_write_empty]
  · -- Nonterminal
    constructor
    · rw [AntlrGen.writeNode]
      simp [AntlrGen.openBracket, AntlrGen.closeBracket, AntlrGen.writeBody]
    · rw [CocoGen.writeNode]
      simp [CocoGen.openBracket, CocoGen.closeBracket, CocoGen.writeBody, cocoOut_write_empty]
  · -- Sequence
    simp only [Node.wellBuilt, Bool.and_eq_true, List.isEmpty_iff, beq_iff_eq,
      Option.isNone_iff_eq_none] at hb
    obtain ⟨⟨⟨⟨⟨h1, h2⟩, h3⟩, _⟩, _⟩, _⟩ := hb
    have hs : emitsNothing tk d = false := by simp [emitsNothing, h2, h3]
    constructor
    · rw [AntlrGen.writeNode]
      simp [AntlrGen.openBracket, AntlrGen.closeBracket, AntlrGen.writeBody, hs, h1]
    · rw [CocoGen.writeNode]
      simp [CocoGen.openBracket, CocoGen.closeBracket, CocoGen.writeBody, hs, h1,
        cocoOut_write_empty]
  · -- Alternative
    simp only [Node.wellBuilt, Bool.and_eq_true, List.isEmpty_iff, beq_iff_eq,
      Option.isNone_iff_eq_none] at hb
    obtain ⟨⟨⟨⟨⟨h1, h2⟩, h3⟩, _⟩, _⟩, _⟩ := hb
    have hs : emitsNothing tk d = false := by simp [emitsNothing, h2, h3]
    cases topLevel
    · constructor
      · rw [AntlrGen.writeNode]
        simp [AntlrGen.openBracket, AntlrGen.closeBracket, AntlrGen.writeBody, hs]
      · rw [CocoGen.writeNode]
        simp [CocoGen.openBracket, CocoGen.closeBracket, CocoGen.writeBody, hs]
    · constructor
      · rw [AntlrGen.writeNode]
        simp [AntlrGen.openBracket, AntlrGen.closeBracket, AntlrGen.writeBody, hs]
      · rw [CocoGen.writeNode]
        simp [CocoGen.openBracket, CocoGen.closeBracket, CocoGen.writeBody, hs,
          cocoOut_write_empty]
  · -- Predicate
    simp only [Node.wellBuilt, Bool.and_eq_true, List.isEmpty_iff, beq_iff_eq,
      Option.isNone_iff_eq_none] at hb
    constructor
    · rw [AntlrGen.writeNode]
      simp [AntlrGen.openBracket, AntlrGen.closeBracket, AntlrGen.writeBody]
    · rw [CocoGen.writeNode]
      simp [CocoGen.openBracket, CocoGen.closeBracket, CocoGen.writeBody, cocoOut_write_empty]

/-- Witness of the theorem above: the Alternative `a | b` below the top level
is written between `( ` and `) `. -/
theorem parentheses_only_around_inner_alternative_witness :
    AntlrGen.writeNode plainNames "" altOfTwo false =
      (if altOfTwo.d_type = .Alternative ∧ false = false then
         AntlrGen.writeBody plainNames ("" ++ "( ") altOfTwo false ++ ") "
       else if emitsNothing altOfTwo.d_tok altOfTwo.d_def then ""
       else AntlrGen.writeBody plainNames "" altOfTwo false) ∧
    CocoGen.writeNode plainEnv { text := "", warnings := [] } altOfTwo false false =
      (if altOfTwo.d_type = .Alternative ∧ false = false then
         (CocoGen.writeBody plainEnv (CocoOut.write { text := "", warnings := [] } "( ") altOfTwo
            false false).write ") "
       else if emitsNothing altOfTwo.d_tok altOfTwo.d_def then { text := "", warnings := [] }
       else CocoGen.writeBody plainEnv { text := "", warnings := [] } altOfTwo false false) :=
  parentheses_only_around_inner_alternative plainNames plainEnv "" { text := "", warnings := [] }
    altOfTwo false false (by decide) rfl

/-! ## The condition text of a predicate -/

theorem write_write (o : CocoOut) (a b : String) : (o.write a).write b = o.write (a ++ b) := by
  simp [CocoOut.write, String.append_assoc]

@[simp] theorem write_text (o : CocoOut) (a : String) : (o.write a).text = o.text ++ a := rfl

@[simp] theorem write_warnings (o : CocoOut) (a : String) : (o.write a).warnings = o.warnings := rfl

@[simp] theorem warn_text (o : CocoOut) (w : CocoWarning) : (o.warn w).text = o.text := rfl

theorem writePeeks_cons (env : CocoEnv) (i : Nat) (out : CocoOut) (n : Node) (ns : List Node)
    (j : Nat) :
    CocoGen.writePeeks env i out (n :: ns) j =
      CocoGen.writePeeks env i
        ((if j ≠ 0 then out.write "|| " else out).write (CocoGen.peekText env.gu i n)) ns
        (j + 1) := rfl

theorem writePeeks_later (env : CocoEnv) (i : Nat) (ns : List Node) :
    ∀ (out : CocoOut) (j : Nat), j ≠ 0 → ns ≠ [] →
      CocoGen.writePeeks env i out ns j = out.write ("|| " ++ CocoGen.ifDisjunction env.gu i ns) := by
  induction ns with
  | nil => intro out j _ h; exact absurd rfl h
  | cons n rest ih =>
      intro out j hj _
      rw [writePeeks_cons]
      simp only [hj, ne_eq, not_false_eq_true, if_true]
      cases rest with
      | nil => simp [CocoGen.writePeeks, CocoGen.ifDisjunction, write_write]
      | cons m rest =>
          rw [ih _ (j + 1) (by omega) (by simp)]
          simp [CocoGen.ifDisjunction, write_write, String.append_assoc]

theorem writePeeks_first (env : CocoEnv) (i : Nat) (ns : List Node) (out : CocoOut) :
    CocoGen.writePeeks env i out ns 0 = out.write (CocoGen.ifDisjunction env.gu i ns) := by
  cases ns with
  | nil => simp [CocoGen.writePeeks, CocoGen.ifDisjunction, cocoOut_write_empty]
  | cons n rest =>
      rw [writePeeks_cons]
      simp only [ne_eq, not_true_eq_false, if_false]
      cases rest with
      | nil => simp [CocoGen.writePeeks, CocoGen.ifDisjunction]
      | cons m rest =>
          rw [writePeeks_later env i (m :: rest) _ 1 (by omega) (by simp)]
          simp [CocoGen.ifDisjunction, write_write, String.append_assoc]

theorem writeCondition_step (env : CocoEnv) (i : Nat) (s : List Node) (out : CocoOut) :
    (if s.length > 1 then
        (CocoGen.writePeeks env i (if s.length > 1 then out.write "( " else out) s 0).write ") "
      else CocoGen.writePeeks env i (if s.length > 1 then out.write "( " else out) s 0)
      = out.write (CocoGen.ifCondition env.gu i s) := by
  by_cases h : s.length > 1
  · simp [h, writePeeks_first, CocoGen.ifCondition, write_write, String.append_assoc]
  · simp [h, writePeeks_first, CocoGen.ifCondition]

theorem writeConditions_later (env : CocoEnv) (l : List (List Node)) :
    ∀ (out : CocoOut) (i : Nat), i ≠ 0 → l ≠ [] →
      CocoGen.writeConditions env out l i
        = out.write ("&& " ++ CocoGen.ifConditions env.gu i l) := by
  induction l with
  | nil => intro out i _ h; exact absurd rfl h
  | cons s rest ih =>
      intro out i hi _
      rw [CocoGen.writeConditions]
      simp only [hi, ne_eq, not_false_eq_true, if_true]
      rw [writeCondition_step env i s (out.write "&& ")]
      cases rest with
      | nil => simp [CocoGen.writeConditions, CocoGen.ifConditions, write_write]
      | cons t rest =>
          rw [ih _ (i + 1) (by omega) (by simp)]
          simp [CocoGen.ifConditions, write_write, String.append_assoc]

theorem writeConditions_first (env : CocoEnv) (l : List (List Node)) (out : CocoOut) :
    CocoGen.writeConditions env out l 0 = out.write (CocoGen.ifConditions env.gu 0 l) := by
  cases l with
  | nil => simp [CocoGen.writeConditions, CocoGen.ifConditions, cocoOut_write_empty]
  | cons s rest =>
      rw [CocoGen.writeConditions]
      simp only [ne_eq, not_true_eq_false, if_false]
      rw [writeCondition_step env 0 s out]
      cases rest with
      | nil => simp [CocoGen.writeConditions, CocoGen.ifConditions]
      | cons t rest =>
          rw [writeConditions_later env (t :: rest) _ 1 (by omega) (by simp)]
          simp [CocoGen.ifConditions, write_write, String.append_assoc]

/-- Claim C16, amended. For a predicate with look-ahead depth k > 0 at the head
of a sequence, `CocoGen::handlePredicate` writes `IF( `, the conditions of the
depths joined by `&& `, and `) `; the condition of a depth is the disjunction
of `peek(i) == _` followed by the token name `T_...` of each member, joined by
`|| ` and put in parentheses when the depth has more than one member. No
warning is issued. -/
theorem handlePredicate_writes_condition (env : CocoEnv) (out : CocoOut) (pred sequence : Node)
    (hk : env.getLlk pred > 0) :
    CocoGen.handlePredicate env out pred sequence =
      out.write ("IF( "
        ++ CocoGen.ifConditions env.gu 0 (env.calcLlkFirstSet (env.getLlk pred) 0 sequence)
        ++ ") ") := by
  simp [CocoGen.handlePredicate, hk, writeConditions_first, write_write, String.append_assoc]

/-- Witness of the theorem above: for `S ::= \LL:2\ 'a' 'b' | 'a' 'c'` with the
admissible sets `a` and `b` the text is `IF( peek(1) == _T_a && peek(2) == _T_b ) `. -/
theorem handlePredicate_writes_condition_witness :
    CocoGen.handlePredicate (llEnv plainNames) { text := "", warnings := [] } llPredicate
        llSequence =
      { text := "IF( peek(1) == _T_a && peek(2) == _T_b ) ", warnings := [] } :=
  (handlePredicate_writes_condition (llEnv plainNames) { text := "", warnings := [] } llPredicate
    llSequence (by decide)).trans (by decide)

theorem handlePredicate_text_of_depth (env : CocoEnv) (out : CocoOut) (pred sequence : Node)
    (hk : env.getLlk pred > 0) :
    (CocoGen.handlePredicate env out pred sequence).text =
      out.text ++ ("IF( "
        ++ CocoGen.ifConditions env.gu 0 (env.calcLlkFirstSet (env.getLlk pred) 0 sequence)
        ++ ") ") := by
  simp [CocoGen.handlePredicate, hk, writeConditions_first, write_write, String.append_assoc]

/-- Claim C16 as stated fails in its example: whatever `GenUtils::symToString`
makes of `a` and `b`, the text `CocoGen::handlePredicate` writes for the
admissible sets `a` and `b` is not `IF( peek(1) == _A && peek(2) == _B ) `,
because `CocoGen::tokenName` puts `T_` in front of every token name. -/
theorem predicate_condition_names_carry_prefix :
    ¬ ∃ gu : GenUtils,
      (CocoGen.handlePredicate (llEnv gu) { text := "", warnings := [] } llPredicate
        llSequence).text = "IF( peek(1) == _A && peek(2) == _B ) " := by
  rintro ⟨gu, h⟩
  rw [handlePredicate_text_of_depth (llEnv gu) _ _ _ (by simp [llEnv])] at h
  have e1 : toString (1 : Nat) = "1" := by decide
  have h2 := congrArg String.data h
  simp [String.data_append, llEnv, CocoGen.ifConditions, CocoGen.ifCondition,
    CocoGen.ifDisjunction, CocoGen.peekText, CocoGen.tokenName, e1] at h2

/-! ## The text of a node and its pieces -/

theorem renderAll_append (a b : List Doc) : renderAll (a ++ b) = renderAll a ++ renderAll b := by
  induction a with
  | nil => simp [renderAll]
  | cons d ds ih => simp [renderAll, ih, String.append_assoc]

theorem renderAll_wrap (op cl : String) (plain : Bool) (body : List Doc)
    (h : op = "" → cl = "") :
    renderAll (Doc.wrap op cl plain body) = op ++ renderAll body ++ cl := by
  unfold Doc.wrap
  by_cases ho : op = ""
  · simp [ho, h ho]
  · simp [ho, renderAll, Doc.render]

theorem antlr_close_empty (ty : NodeType) (q : Quantity) (tk : EbnfToken) (topLevel : Bool)
    (h : AntlrGen.openBracket ty q tk topLevel = "") :
    AntlrGen.closeBracket ty q tk topLevel = "" := by
  unfold AntlrGen.openBracket at h
  unfold AntlrGen.closeBracket
  cases q
  · simp only at h ⊢
    split at h
    · simp at h
    · split at h
      · simp at h
      · rename_i h1 h2
        simp [h1, h2]
  · simp at h
  · simp at h

theorem coco_close_empty (ty : NodeType) (q : Quantity) (tk : EbnfToken) (topLevel : Bool)
    (h : CocoGen.openBracket ty q tk topLevel = "") :
    CocoGen.closeBracket ty q tk topLevel = "" := by
  unfold CocoGen.openBracket at h
  unfold CocoGen.closeBracket
  cases q
  · simp only at h ⊢
    split at h
    · simp at h
    · split at h
      · simp at h
      · rename_i h1 h2
        simp [h1, h2]
  · simp at h
  · simp at h

mutual

theorem antlr_writeNode_render (gu : GenUtils) :
    ∀ (n : Node) (out : String) (topLevel : Bool),
      AntlrGen.writeNode gu out n topLevel = out ++ renderAll (AntlrGen.layout gu n topLevel)
  | .mk ty q tk subs d, out, topLevel => by
      rw [AntlrGen.writeNode]
      simp only [AntlrGen.layout]
      by_cases hs : emitsNothing tk d = true
      · simp [hs, renderAll]
      · simp only [hs, Bool.false_eq_true, if_false]
        rw [renderAll_wrap _ _ _ _ (antlr_close_empty ty q tk topLevel)]
        cases ty
        · simp [renderAll, Doc.render, String.append_assoc]
        · by_cases hp : isPseudoTerminal d = true <;>
            simp [hp, renderAll, Doc.render, String.append_assoc]
        · simp only
          rw [antlr_writeSequence_render gu subs]
          simp [String.append_assoc]
        · simp only
          rw [antlr_writeAlternative_render gu subs]
          simp [String.append_assoc]
        · simp [renderAll, String.append_assoc]

theorem antlr_writeAlternative_render (gu : GenUtils) :
    ∀ (ns : List Node) (out : String) (topLevel : Bool) (i : Nat),
      AntlrGen.writeAlternative gu out ns topLevel i
        = out ++ renderAll (AntlrGen.layoutAlternative gu ns topLevel i)
  | [], out, topLevel, i => by simp [AntlrGen.writeAlternative, AntlrGen.layoutAlternative, renderAll]
  | n :: ns, out, topLevel, i => by
      rw [AntlrGen.writeAlternative, AntlrGen.layoutAlternative]
      rw [antlr_writeAlternative_render gu ns, antlr_writeNode_render gu n]
      by_cases hi : i = 0
      · simp [hi, renderAll_append, String.append_assoc]
      · cases topLevel <;>
          simp [hi, renderAll_append, renderAll, Doc.render, String.append_assoc]

theorem antlr_writeSequence_render (gu : GenUtils) :
    ∀ (ns : List Node) (out : String),
      AntlrGen.writeSequence gu out ns = out ++ renderAll (AntlrGen.layoutSequence gu ns)
  | [], out => by simp [AntlrGen.writeSequence, AntlrGen.layoutSequence, renderAll]
  | n :: ns, out => by
      rw [AntlrGen.writeSequence, AntlrGen.layoutSequence]
      rw [antlr_writeSequence_render gu ns, antlr_writeNode_render gu n]
      simp [renderAll_append, String.append_assoc]

end

theorem coco_handlePredicate_render (env : CocoEnv) (out : CocoOut) (pred sequence : Node) :
    (CocoGen.handlePredicate env out pred sequence).text
      = out.text ++ renderAll (CocoGen.predicateLayout env pred sequence) := by
  unfold CocoGen.predicateLayout
  by_cases hk : env.getLlk pred > 0
  · rw [handlePredicate_text_of_depth env out pred sequence hk]
    simp [hk, renderAll, Doc.render]
  · simp [CocoGen.handlePredicate, hk, renderAll]

theorem coco_writeTerminal_render (env : CocoEnv) (out : CocoOut) (tk : EbnfToken)
    (buildAst : Bool) :
    (CocoGen.writeTerminal env out tk buildAst).text
      = out.text ++ renderAll (CocoGen.terminalLayout env tk buildAst) := by
  cases buildAst <;>
    simp [CocoGen.writeTerminal, CocoGen.terminalLayout, renderAll, Doc.render,
      String.append_assoc]

mutual

theorem coco_writeNode_render (env : CocoEnv) :
    ∀ (n : Node) (out : CocoOut) (topLevel buildAst : Bool),
      (CocoGen.writeNode env out n topLevel buildAst).text
        = out.text ++ renderAll (CocoGen.layout env n topLevel buildAst)
  | .mk ty q tk subs d, out, topLevel, buildAst => by
      rw [CocoGen.writeNode]
      simp only [CocoGen.layout]
      by_cases hs : emitsNothing tk d = true
      · simp [hs, renderAll]
      · simp only [hs, Bool.false_eq_true, if_false]
        rw [renderAll_wrap _ _ _ _ (coco_close_empty ty q tk topLevel)]
        cases ty
        · simp [coco_writeTerminal_render, String.append_assoc]
        · by_cases hp : isPseudoTerminal d = true <;>
            simp [hp, coco_writeTerminal_render, renderAll, Doc.render, String.append_assoc]
        · simp only [write_text]
          rw [coco_writeSequence_render env subs]
          simp [String.append_assoc]
        · simp only [write_text]
          rw [coco_writeAlternative_render env subs]
          simp [String.append_assoc]
        · simp [renderAll, String.append_assoc]

theorem coco_writeAlternative_render (env : CocoEnv) :
    ∀ (ns : List Node) (out : CocoOut) (topLevel buildAst : Bool) (i : Nat),
      (CocoGen.writeAlternative env out ns topLevel buildAst i).text
        = out.text ++ renderAll (CocoGen.layoutAlternative env ns topLevel buildAst i)
  | [], out, topLevel, buildAst, i => by
      simp [CocoGen.writeAlternative, CocoGen.layoutAlternative, renderAll]
  | n :: ns, out, topLevel, buildAst, i => by
      rw [CocoGen.writeAlternative, CocoGen.layoutAlternative]
      rw [coco_writeAlternative_render env ns, coco_writeNode_render env n]
      by_cases hi : i = 0
      · simp [hi, renderAll_append, String.append_assoc]
      · cases topLevel <;>
          simp [hi, renderAll_append, renderAll, Doc.render, String.append_assoc]

theorem coco_writeSequence_render (env : CocoEnv) :
    ∀ (ns : List Node) (out : CocoOut) (sequence : Node) (buildAst : Bool),
      (CocoGen.writeSequence env out ns sequence buildAst).text
        = out.text ++ renderAll (CocoGen.layoutSequence env ns sequence buildAst)
  | [], out, sequence, buildAst => by
      simp [CocoGen.writeSequence, CocoGen.layoutSequence, renderAll]
  | n :: ns, out, sequence, buildAst => by
      rw [CocoGen.writeSequence, CocoGen.layoutSequence]
      rw [coco_writeSequence_render env ns]
      by_cases hp : n.d_type = .Predicate
      · simp [hp, coco_handlePredicate_render, renderAll_append, String.append_assoc]
      · simp only [hp, if_false]
        rw [coco_writeNode_render env n]
        simp [renderAll_append, String.append_assoc]

end

/-! ## No parentheses around a single name -/

theorem allNoSingleGroup_append (a b : List Doc) :
    allNoSingleGroup (a ++ b) = (allNoSingleGroup a && allNoSingleGroup b) := by
  induction a with
  | nil => simp [allNoSingleGroup]
  | cons d ds ih => simp [allNoSingleGroup, ih, Bool.and_assoc]

theorem allNoSingleGroup_wrap (op cl : String) (plain : Bool) (body : List Doc)
    (hb : allNoSingleGroup body = true)
    (hs : plain = true → op ≠ "" → isSingleAtom body = false) :
    allNoSingleGroup (Doc.wrap op cl plain body) = true := by
  unfold Doc.wrap
  by_cases ho : op = ""
  · simp [ho, hb]
  · cases plain with
    | false => simp [ho, allNoSingleGroup, Doc.noSingleGroup, hb]
    | true => simp [ho, allNoSingleGroup, Doc.noSingleGroup, hb, hs rfl ho]

theorem isSingleAtom_with_text (a b : List Doc) (s : String) :
    isSingleAtom (a ++ Doc.text s :: b) = false := by
  cases a with
  | nil => simp [isSingleAtom]
  | cons x xs =>
      cases xs with
      | nil => cases x <;> simp [isSingleAtom]
      | cons y ys => cases x <;> simp [isSingleAtom]

theorem antlr_open_one (ty : NodeType) (tk : EbnfToken) (topLevel : Bool)
    (h : AntlrGen.openBracket ty .One tk topLevel ≠ "") :
    topLevel = false ∧ (ty = .Alternative ∨ (ty = .Sequence ∧ tk.d_val ≠ [])) := by
  unfold AntlrGen.openBracket at h
  simp only at h
  cases topLevel
  · refine ⟨rfl, ?_⟩
    cases ty <;> simp_all
  · simp at h

theorem coco_open_one (ty : NodeType) (tk : EbnfToken) (topLevel : Bool)
    (h : CocoGen.openBracket ty .One tk topLevel ≠ "") :
    topLevel = false ∧ (ty = .Alternative ∨ (ty = .Sequence ∧ tk.d_val ≠ [])) := by
  unfold CocoGen.openBracket at h
  simp only at h
  cases topLevel
  · refine ⟨rfl, ?_⟩
    cases ty <;> simp_all
  · simp at h

theorem antlr_layoutAlternative_two (gu : GenUtils) (a b : Node) (rest : List Node)
    (topLevel : Bool) :
    isSingleAtom (AntlrGen.layoutAlternative gu (a :: b :: rest) topLevel 0) = false := by
  simp only [AntlrGen.layoutAlternative]
  simp only [ne_eq, not_true_eq_false, if_false, List.nil_append, Nat.zero_add,
    Nat.succ_ne_zero, not_false_eq_true, if_true, List.singleton_append, List.cons_append]
  exact isSingleAtom_with_text _ _ _

theorem coco_layoutAlternative_two (env : CocoEnv) (a b : Node) (rest : List Node)
    (topLevel buildAst : Bool) :
    isSingleAtom (CocoGen.layoutAlternative env (a :: b :: rest) topLevel buildAst 0) = false := by
  simp only [CocoGen.layoutAlternative]
  simp only [ne_eq, not_true_eq_false, if_false, List.nil_append, Nat.zero_add,
    Nat.succ_ne_zero, not_false_eq_true, if_true, List.singleton_append, List.cons_append,
    List.append_assoc]
  exact isSingleAtom_with_text _ _ _

theorem wellBuilt_container_facts (ty : NodeType) (q : Quantity) (tk : EbnfToken)
    (subs : List Node) (d : Option DefRef) (hty : ty = .Sequence ∨ ty = .Alternative)
    (h : (Node.mk ty q tk subs d).wellBuilt = true) :
    tk.d_val = [] ∧ allWellBuilt subs = true ∧ ∃ a b rest, subs = a :: b :: rest := by
  have hsub : 2 ≤ subs.length → ∃ a b rest, subs = a :: b :: rest := by
    intro h2
    match subs, h2 with
    | a :: b :: rest, _ => exact ⟨a, b, rest, rfl⟩
  rcases hty with rfl | rfl <;>
    simp only [Node.wellBuilt, Bool.and_eq_true, List.isEmpty_iff, decide_eq_true_eq] at h <;>
    exact ⟨h.1.1.1.1.1, h.1.2, hsub h.1.1.2⟩

mutual

theorem antlr_layout_noSingle (gu : GenUtils) :
    ∀ (n : Node), n.wellBuilt = true → ∀ topLevel,
      allNoSingleGroup (AntlrGen.layout gu n topLevel) = true
  | .mk ty q tk subs d, hw, topLevel => by
      simp only [AntlrGen.layout]
      by_cases hs : emitsNothing tk d = true
      · simp [hs, allNoSingleGroup]
      · simp only [hs, Bool.false_eq_true, if_false]
        have hsub := wellBuilt_children ty q tk subs d hw
        apply allNoSingleGroup_wrap
        · cases ty
          · simp [allNoSingleGroup, Doc.noSingleGroup]
          · by_cases hp : isPseudoTerminal d = true <;>
              simp [hp, allNoSingleGroup, Doc.noSingleGroup]
          · exact antlr_layoutSequence_noSingle gu subs hsub
          · exact antlr_layoutAlternative_noSingle gu subs hsub topLevel 0
          · simp [allNoSingleGroup]
        · intro hq hop
          have hq1 : q = .One := by simpa using hq
          subst hq1
          obtain ⟨_, hty⟩ := antlr_open_one ty tk topLevel hop
          rcases hty with rfl | ⟨rfl, hval⟩
          · obtain ⟨_, _, a, b, rest, rfl⟩ :=
              wellBuilt_container_facts _ _ tk subs d (Or.inr rfl) hw
            exact antlr_layoutAlternative_two gu a b rest topLevel
          · exact absurd (wellBuilt_container_facts _ _ tk subs d (Or.inl rfl) hw).1 hval

theorem antlr_layoutAlternative_noSingle (gu : GenUtils) :
    ∀ (ns : List Node), allWellBuilt ns = true → ∀ topLevel i,
      allNoSingleGroup (AntlrGen.layoutAlternative gu ns topLevel i) = true
  | [], _, topLevel, i => by simp [AntlrGen.layoutAlternative, allNoSingleGroup]
  | n :: ns, hw, topLevel, i => by
      simp only [allWellBuilt, Bool.and_eq_true] at hw
      simp only [AntlrGen.layoutAlternative, allNoSingleGroup_append, Bool.and_eq_true]
      refine ⟨⟨?_, antlr_layout_noSingle gu n hw.1 false⟩,
        antlr_layoutAlternative_noSingle gu ns hw.2 topLevel (i + 1)⟩
      by_cases hi : i = 0 <;> simp [hi, allNoSingleGroup, Doc.noSingleGroup]

theorem antlr_layoutSequence_noSingle (gu : GenUtils) :
    ∀ (ns : List Node), allWellBuilt ns = true →
      allNoSingleGroup (AntlrGen.layoutSequence gu ns) = true
  | [], _ => by simp [AntlrGen.layoutSequence, allNoSingleGroup]
  | n :: ns, hw => by
      simp only [allWellBuilt, Bool.and_eq_true] at hw
      simp only [AntlrGen.layoutSequence, allNoSingleGroup_append, Bool.and_eq_true]
      exact ⟨antlr_layout_noSingle gu n hw.1 false, antlr_layoutSequence_noSingle gu ns hw.2⟩

end

theorem coco_terminalLayout_noSingle (env : CocoEnv) (tk : EbnfToken) (buildAst : Bool) :
    allNoSingleGroup (CocoGen.terminalLayout env tk buildAst) = true := by
  cases buildAst <;> simp [CocoGen.terminalLayout, allNoSingleGroup, Doc.noSingleGroup]

theorem coco_predicateLayout_noSingle (env : CocoEnv) (pred sequence : Node) :
    allNoSingleGroup (CocoGen.predicateLayout env pred sequence) = true := by
  unfold CocoGen.predicateLayout
  split <;> simp [allNoSingleGroup, Doc.noSingleGroup]

mutual

theorem coco_layout_noSingle (env : CocoEnv) :
    ∀ (n : Node), n.wellBuilt = true → ∀ topLevel buildAst,
      allNoSingleGroup (CocoGen.layout env n topLevel buildAst) = true
  | .mk ty q tk subs d, hw, topLevel, buildAst => by
      simp only [CocoGen.layout]
      by_cases hs : emitsNothing tk d = true
      · simp [hs, allNoSingleGroup]
      · simp only [hs, Bool.false_eq_true, if_false]
        have hsub := wellBuilt_children ty q tk subs d hw
        apply allNoSingleGroup_wrap
        · cases ty
          · exact coco_terminalLayout_noSingle env tk buildAst
          · by_cases hp : isPseudoTerminal d = true
            · simp only [hp, if_true]
              exact coco_terminalLayout_noSingle env tk buildAst
            · simp [hp, allNoSingleGroup, Doc.noSingleGroup]
          · exact coco_layoutSequence_noSingle env subs hsub _ buildAst
          · exact coco_layoutAlternative_noSingle env subs hsub topLevel buildAst 0
          · simp [allNoSingleGroup]
        · intro hq hop
          have hq1 : q = .One := by simpa using hq
          subst hq1
          obtain ⟨_, hty⟩ := coco_open_one ty tk topLevel hop
          rcases hty with rfl | ⟨rfl, hval⟩
          · obtain ⟨_, _, a, b, rest, rfl⟩ :=
              wellBuilt_container_facts _ _ tk subs d (Or.inr rfl) hw
            exact coco_layoutAlternative_two env a b rest topLevel buildAst
          · exact absurd (wellBuilt_container_facts _ _ tk subs d (Or.inl rfl) hw).1 hval

theorem coco_layoutAlternative_noSingle (env : CocoEnv) :
    ∀ (ns : List Node), allWellBuilt ns = true → ∀ topLevel buildAst i,
      allNoSingleGroup (CocoGen.layoutAlternative env ns topLevel buildAst i) = true
  | [], _, topLevel, buildAst, i => by simp [CocoGen.layoutAlternative, allNoSingleGroup]
  | n :: ns, hw, topLevel, buildAst, i => by
      simp only [allWellBuilt, Bool.and_eq_true] at hw
      simp only [CocoGen.layoutAlternative, allNoSingleGroup_append, Bool.and_eq_true]
      refine ⟨⟨?_, coco_layout_noSingle env n hw.1 false buildAst⟩,
        coco_layoutAlternative_noSingle env ns hw.2 topLevel buildAst (i + 1)⟩
      by_cases hi : i = 0 <;> simp [hi, allNoSingleGroup, Doc.noSingleGroup]

theorem coco_layoutSequence_noSingle (env : CocoEnv) :
    ∀ (ns : List Node), allWellBuilt ns = true → ∀ sequence buildAst,
      allNoSingleGroup (CocoGen.layoutSequence env ns sequence buildAst) = true
  | [], _, sequence, buildAst => by simp [CocoGen.layoutSequence, allNoSingleGroup]
  | n :: ns, hw, sequence, buildAst => by
      simp only [allWellBuilt, Bool.and_eq_true] at hw
      simp only [CocoGen.layoutSequence, allNoSingleGroup_append, Bool.and_eq_true]
      refine ⟨?_, coco_layoutSequence_noSingle env ns hw.2 sequence buildAst⟩
      by_cases hp : n.d_type = .Predicate
      · simp only [hp, if_true]
        exact coco_predicateLayout_noSingle env n sequence
      · simp only [hp, if_false]
        exact coco_layout_noSingle env n hw.1 false buildAst

end

theorem antlr_writeRule_render (gu : GenUtils) (out : String) (d : Definition) (i : Nat) :
    AntlrGen.writeRule gu out d i = out ++ renderAll (AntlrGen.ruleLayout gu d i) := by
  unfold AntlrGen.writeRule AntlrGen.ruleLayout
  split
  · simp [renderAll]
  · split
    · simp [renderAll]
    · simp [antlr_writeNode_render, renderAll_append, renderAll, Doc.render, String.append_assoc]

theorem coco_writeProduction_render (env : CocoEnv) (out : CocoOut) (d : Definition) (i : Nat)
    (buildAst : Bool) :
    (CocoGen.writeProduction env out d i buildAst).text
      = out.text ++ renderAll (CocoGen.productionLayout env d i buildAst) := by
  unfold CocoGen.writeProduction CocoGen.productionLayout
  split
  · simp [renderAll]
  · split
    · simp [renderAll]
    · by_cases hb : (buildAst && !(d.d_tok.d_op == Handling.Transparent)) = true
      · simp only [hb, if_true]
        simp only [write_text, coco_writeNode_render, renderAll_append, renderAll, Doc.render,
          String.append_assoc, String.append_empty, List.cons_append, List.nil_append, List.append_eq, List.singleton_append]
      · simp only [hb, Bool.false_eq_true, if_false]
        simp only [write_text, coco_writeNode_render, renderAll_append, renderAll, Doc.render,
          String.append_assoc, String.append_empty, List.cons_append, List.nil_append, List.append_eq, List.singleton_append]

theorem coco_writeStart_render (env : CocoEnv) (out : CocoOut) (d : Definition)
    (buildAst : Bool) :
    (CocoGen.writeStart env out d buildAst).text
      = out.text ++ renderAll (CocoGen.startLayout env d buildAst) := by
  unfold CocoGen.writeStart CocoGen.startLayout CocoGen.writeNodeOrNull
  cases hn : d.d_node with
  | none =>
      cases buildAst <;>
        simp only [write_text, renderAll_append, renderAll, Doc.render, String.append_assoc,
          String.append_empty, String.empty_append, List.cons_append, List.nil_append, List.append_eq,
          List.singleton_append, if_true, if_false, Bool.false_eq_true]
  | some root =>
      cases buildAst <;>
        simp only [write_text, coco_writeNode_render, renderAll_append, renderAll, Doc.render,
          String.append_assoc, String.append_empty, String.empty_append, List.cons_append,
          List.nil_append, List.append_eq, List.singleton_append, if_true, if_false, Bool.false_eq_true]

/-- Claim C11, amended. For a definition whose root is a well built tree, the
text `AntlrGen::generate` and `CocoGen::generate` write is the text of the
pieces listed by the layout functions. Without AST building no plain
parenthesised group among these pieces holds exactly one name of a terminal
or nonterminal; with AST building `CocoGen::generate` adds one plain group
around the whole body of a production, and inside that body there is again
no plain group around a single name. -/
theorem no_parentheses_around_single_name (gu : GenUtils) (env : CocoEnv) (out : String)
    (cout : CocoOut) (d : Definition) (i : Nat)
    (hw : ∀ root, d.d_node = some root → root.wellBuilt = true) :
    (AntlrGen.writeRule gu out d i = out ++ renderAll (AntlrGen.ruleLayout gu d i) ∧
      allNoSingleGroup (AntlrGen.ruleLayout gu d i) = true) ∧
    ((CocoGen.writeProduction env cout d i false).text
        = cout.text ++ renderAll (CocoGen.productionLayout env d i false) ∧
      allNoSingleGroup (CocoGen.productionLayout env d i false) = true) ∧
    ((CocoGen.writeStart env cout d false).text
        = cout.text ++ renderAll (CocoGen.startLayout env d false) ∧
      allNoSingleGroup (CocoGen.startLayout env d false) = true) ∧
    ((CocoGen.writeProduction env cout d i true).text
        = cout.text ++ renderAll (CocoGen.productionLayout env d i true) ∧
      (CocoGen.writeStart env cout d true).text
        = cout.text ++ renderAll (CocoGen.startLayout env d true) ∧
      ∀ root, d.d_node = some root →
        allNoSingleGroup (CocoGen.layout env root true true) = true) := by
  refine ⟨⟨antlr_writeRule_render gu out d i, ?_⟩,
    ⟨coco_writeProduction_render env cout d i false, ?_⟩,
    ⟨coco_writeStart_render env cout d false, ?_⟩,
    coco_writeProduction_render env cout d i true, coco_writeStart_render env cout d true,
    fun root hr => coco_layout_noSingle env root (hw root hr) true true⟩
  · unfold AntlrGen.ruleLayout
    split
    · rfl
    · cases hn : d.d_node with
      | none => rfl
      | some root =>
          simp [allNoSingleGroup_append, allNoSingleGroup, Doc.noSingleGroup,
            antlr_layout_noSingle gu root (hw root hn) true]
  · unfold CocoGen.productionLayout
    split
    · rfl
    · cases hn : d.d_node with
      | none => rfl
      | some root =>
          simp [allNoSingleGroup_append, allNoSingleGroup, Doc.noSingleGroup,
            coco_layout_noSingle env root (hw root hn) true false]
  · unfold CocoGen.startLayout
    cases hn : d.d_node with
    | none => simp [allNoSingleGroup_append, allNoSingleGroup, Doc.noSingleGroup]
    | some root =>
        simp [allNoSingleGroup_append, allNoSingleGroup, Doc.noSingleGroup,
          coco_layout_noSingle env root (hw root hn) true false]

/-- Witness of the theorem above: the definition `T ::= U`. -/
theorem no_parentheses_around_single_name_witness :
    AntlrGen.writeRule plainNames "" singleRef 1
        = "" ++ renderAll (AntlrGen.ruleLayout plainNames singleRef 1) ∧
      allNoSingleGroup (AntlrGen.ruleLayout plainNames singleRef 1) = true :=
  (no_parentheses_around_single_name plainNames plainEnv "" { text := "", warnings := [] }
    singleRef 1 (fun root h => by cases h; decide)).1

/-- Claim C11 as stated fails with AST building: for the definition `T ::= U`
`CocoGen::generate` writes `( U ) `, a plain group around the single
nonterminal `U` with quantifier One. -/
theorem ast_wrapper_encloses_single_nonterminal :
    (CocoGen.writeProduction plainEnv { text := "", warnings := [] } singleRef 1 true).text =
      "T = \n    (. Vl::SynTree* n = new Vl::SynTree( Vl::SynTree::R_T, d_next ); "
        ++ "d_stack.top()->d_children.append(n); d_stack.push(n); .) ( U ) (. d_stack.pop(); .) "
        ++ "\n    .\n\n" ∧
    CocoGen.productionLayout plainEnv singleRef 1 true =
      [Doc.text ("T = \n    "),
       Doc.text ("(. Vl::SynTree* n = new Vl::SynTree( Vl::SynTree::R_T, d_next ); "
        ++ "d_stack.top()->d_children.append(n); d_stack.push(n); .) "),
       Doc.group "( " ") " true [Doc.atom "U "],
       Doc.text "(. d_stack.pop(); .) ",
       Doc.text "\n    .\n\n"] ∧
    allNoSingleGroup (CocoGen.productionLayout plainEnv singleRef 1 true) = false := by
  refine ⟨by rfl, by rfl, by rfl⟩

/-! ## Quantifiers and their brackets -/

theorem antlr_writeBody_out (gu : GenUtils) (out : String) (n : Node) (topLevel : Bool) :
    AntlrGen.writeBody gu out n topLevel = out ++ AntlrGen.writeBody gu "" n topLevel := by
  unfold AntlrGen.writeBody
  cases n.d_type
  · simp [String.append_assoc]
  · by_cases hp : isPseudoTerminal n.d_def = true <;> simp [hp, String.append_assoc]
  · simp only
    rw [antlr_writeSequence_render gu n.d_subs out, antlr_writeSequence_render gu n.d_subs ""]
    simp
  · simp only
    rw [antlr_writeAlternative_render gu n.d_subs out, antlr_writeAlternative_render gu n.d_subs ""]
    simp
  · simp

theorem antlr_writeNode_body (gu : GenUtils) (out : String) (n : Node) (topLevel : Bool)
    (hs : emitsNothing n.d_tok n.d_def = false) :
    AntlrGen.writeNode gu out n topLevel
      = out ++ AntlrGen.openBracket n.d_type n.d_quant n.d_tok topLevel
          ++ AntlrGen.writeBody gu "" n topLevel
          ++ AntlrGen.closeBracket n.d_type n.d_quant n.d_tok topLevel := by
  obtain ⟨ty, q, tk, subs, d⟩ := n
  simp only [d_tok_mk, d_def_mk] at hs
  rw [AntlrGen.writeNode]
  simp only [hs, Bool.false_eq_true, if_false, d_type_mk, d_quant_mk, d_tok_mk]
  rw [← antlr_writeBody_out gu (out ++ AntlrGen.openBracket ty q tk topLevel)]
  cases ty <;> simp [AntlrGen.writeBody]

theorem antlr_writeBody_setQuant (gu : GenUtils) (out : String) (n : Node) (q : Quantity)
    (topLevel : Bool) :
    AntlrGen.writeBody gu out (n.setQuant q) topLevel = AntlrGen.writeBody gu out n topLevel := by
  obtain ⟨ty, q0, tk, subs, d⟩ := n
  simp [Node.setQuant, AntlrGen.writeBody]

theorem coco_writeBody_out (env : CocoEnv) (out : CocoOut) (n : Node) (topLevel buildAst : Bool) :
    (CocoGen.writeBody env out n topLevel buildAst).text
      = out.text
          ++ (CocoGen.writeBody env { text := "", warnings := [] } n topLevel buildAst).text := by
  unfold CocoGen.writeBody
  cases n.d_type
  · simp [coco_writeTerminal_render]
  · by_cases hp : isPseudoTerminal n.d_def = true <;> simp [hp, coco_writeTerminal_render]
  · simp only
    rw [coco_writeSequence_render env n.d_subs out,
      coco_writeSequence_render env n.d_subs { text := "", warnings := [] }]
    simp
  · simp only
    rw [coco_writeAlternative_render env n.d_subs out,
      coco_writeAlternative_render env n.d_subs { text := "", warnings := [] }]
    simp
  · simp

theorem coco_writeNode_body (env : CocoEnv) (out : CocoOut) (n : Node) (topLevel buildAst : Bool)
    (hs : emitsNothing n.d_tok n.d_def = false) :
    (CocoGen.writeNode env out n topLevel buildAst).text
      = out.text ++ CocoGen.openBracket n.d_type n.d_quant n.d_tok topLevel
          ++ (CocoGen.writeBody env { text := "", warnings := [] } n topLevel buildAst).text
          ++ CocoGen.closeBracket n.d_type n.d_quant n.d_tok topLevel := by
  obtain ⟨ty, q, tk, subs, d⟩ := n
  simp only [d_tok_mk, d_def_mk] at hs
  rw [CocoGen.writeNode]
  simp only [hs, Bool.false_eq_true, if_false, d_type_mk, d_quant_mk, d_tok_mk, write_text]
  have hb := coco_writeBody_out env (out.write (CocoGen.openBracket ty q tk topLevel))
    (.mk ty q tk subs d) topLevel buildAst
  rw [write_text] at hb
  rw [← hb]
  cases ty <;> simp [CocoGen.writeBody]

theorem coco_layoutSequence_congr (env : CocoEnv) (s1 s2 : Node) (buildAst : Bool)
    (h : ∀ k, env.calcLlkFirstSet k 0 s1 = env.calcLlkFirstSet k 0 s2) :
    ∀ ns : List Node,
      CocoGen.layoutSequence env ns s1 buildAst = CocoGen.layoutSequence env ns s2 buildAst
  | [] => by simp [CocoGen.layoutSequence]
  | n :: ns => by
      rw [CocoGen.layoutSequence, CocoGen.layoutSequence,
        coco_layoutSequence_congr env s1 s2 buildAst h ns]
      simp [CocoGen.predicateLayout, h]

theorem coco_writeBody_setQuant (env : CocoEnv) (n : Node) (q : Quantity)
    (topLevel buildAst : Bool)
    (h : ∀ k, env.calcLlkFirstSet k 0 (n.setQuant q) = env.calcLlkFirstSet k 0 n) :
    (CocoGen.writeBody env { text := "", warnings := [] } (n.setQuant q) topLevel buildAst).text
      = (CocoGen.writeBody env { text := "", warnings := [] } n topLevel buildAst).text := by
  obtain ⟨ty, q0, tk, subs, d⟩ := n
  cases ty
  · simp [Node.setQuant, CocoGen.writeBody]
  · simp [Node.setQuant, CocoGen.writeBody]
  · simp only [Node.setQuant, CocoGen.writeBody, d_type_mk, d_subs_mk]
    rw [coco_writeSequence_render, coco_writeSequence_render]
    rw [coco_layoutSequence_congr env (.mk .Sequence q tk subs d) (.mk .Sequence q0 tk subs d)
      buildAst h subs]
  · simp [Node.setQuant, CocoGen.writeBody]
  · simp [Node.setQuant, CocoGen.writeBody, CocoOut.warn]

/-- Claim C12. A node that is not skipped and has the quantifier ZeroOrOne or
ZeroOrMore is written as its body between the brackets of the quantifier:
`( ` body `)? ` and `( ` body `)* ` by `AntlrGen::writeNode`, `[ ` body `] `
and `\x7b ` body `\x7d ` by `CocoGen::writeNode`. The body is what the second
switch of `writeNode` writes, no bracket of the node itself; it is the body of
the same node with quantifier One (for `CocoGen`, whose predicates consult the
analyzer about the enclosing sequence, as long as the analyzer gives the same
sets for the sequence with quantifier One). -/
theorem quantifier_maps_to_bracket_pair (gu : GenUtils) (env : CocoEnv) (out : String)
    (cout : CocoOut) (n : Node) (topLevel buildAst : Bool)
    (hs : emitsNothing n.d_tok n.d_def = false) :
    (n.d_quant = .ZeroOrOne →
      AntlrGen.writeNode gu out n topLevel
          = out ++ "( " ++ AntlrGen.writeBody gu "" (n.setQuant .One) topLevel ++ ")? " ∧
        (CocoGen.writeNode env cout n topLevel buildAst).text
          = cout.text ++ "[ "
              ++ (CocoGen.writeBody env { text := "", warnings := [] } n topLevel buildAst).text
              ++ "] ") ∧
    (n.d_quant = .ZeroOrMore →
      AntlrGen.writeNode gu out n topLevel
          = out ++ "( " ++ AntlrGen.writeBody gu "" (n.setQuant .One) topLevel ++ ")* " ∧
        (CocoGen.writeNode env cout n topLevel buildAst).text
          = cout.text ++ "\x7b "
              ++ (CocoGen.writeBody env { text := "", warnings := [] } n topLevel buildAst).text
              ++ "\x7d ") ∧
    ((∀ k, env.calcLlkFirstSet k 0 (n.setQuant .One) = env.calcLlkFirstSet k 0 n) →
      (CocoGen.writeBody env { text := "", warnings := [] } (n.setQuant .One) topLevel
          buildAst).text
        = (CocoGen.writeBody env { text := "", warnings := [] } n topLevel buildAst).text) := by
  refine ⟨fun hq => ⟨?_, ?_⟩, fun hq => ⟨?_, ?_⟩,
    coco_writeBody_setQuant env n .One topLevel buildAst⟩
  · rw [antlr_writeNode_body gu out n topLevel hs, hq, antlr_writeBody_setQuant]
    simp [AntlrGen.openBracket, AntlrGen.closeBracket]
  · rw [coco_writeNode_body env cout n topLevel buildAst hs, hq]
    simp [CocoGen.openBracket, CocoGen.closeBracket]
  · rw [antlr_writeNode_body gu out n topLevel hs, hq, antlr_writeBody_setQuant]
    simp [AntlrGen.openBracket, AntlrGen.closeBracket]
  · rw [coco_writeNode_body env cout n topLevel buildAst hs, hq]
    simp [CocoGen.openBracket, CocoGen.closeBracket]

/-- Witness of the theorem above: the optional terminal `[ 'a' ]`, for which
`CocoGen::writeNode` writes `[ T_a ] `. -/
theorem quantifier_maps_to_bracket_pair_witness :
    emitsNothing optionalA.d_tok optionalA.d_def = false ∧
    optionalA.d_quant = .ZeroOrOne ∧
    (CocoGen.writeBody plainEnv { text := "", warnings := [] } optionalA false false).text
      = "T_a " ∧
    (CocoGen.writeNode plainEnv { text := "", warnings := [] } optionalA false false).text
      = "" ++ "[ "
          ++ (CocoGen.writeBody plainEnv { text := "", warnings := [] } optionalA false false).text
          ++ "] " :=
  ⟨by decide, by decide, by decide,
    ((quantifier_maps_to_bracket_pair plainNames plainEnv "" { text := "", warnings := [] }
      optionalA false false (by decide)).1 (by decide)).2⟩

/-! ## The name of a nonterminal -/

/-- Claim C13, amended. A Nonterminal node that is not skipped is written as a
terminal token name when its resolved definition is null or has no root node,
and as the rule name of the referenced production when its resolved definition
has a root node; in both emitters, between the brackets of the node. -/
theorem nonterminal_name_by_definition_root (gu : GenUtils) (env : CocoEnv) (out : String)
    (cout : CocoOut) (q : Quantity) (tk : EbnfToken) (subs : List Node) (d : Option DefRef)
    (topLevel buildAst : Bool) (hs : emitsNothing tk d = false) :
    ((d = none ∨ ∃ r, d = some r ∧ r.hasNode = false) →
      AntlrGen.writeNode gu out (.mk .Nonterminal q tk subs d) topLevel
          = out ++ AntlrGen.openBracket .Nonterminal q tk topLevel
              ++ AntlrGen.tokenName gu tk.d_val ++ " "
              ++ AntlrGen.closeBracket .Nonterminal q tk topLevel ∧
        (CocoGen.writeNode env cout (.mk .Nonterminal q tk subs d) topLevel buildAst).text
          = cout.text ++ CocoGen.openBracket .Nonterminal q tk topLevel
              ++ CocoGen.tokenName env.gu tk.d_val ++ " "
              ++ (if buildAst then "(. addTerminal(); .) " else "")
              ++ CocoGen.closeBracket .Nonterminal q tk topLevel) ∧
    ((∃ r, d = some r ∧ r.hasNode = true) →
      AntlrGen.writeNode gu out (.mk .Nonterminal q tk subs d) topLevel
          = out ++ AntlrGen.openBracket .Nonterminal q tk topLevel
              ++ AntlrGen.ruleName gu tk.d_val ++ " "
              ++ AntlrGen.closeBracket .Nonterminal q tk topLevel ∧
        (CocoGen.writeNode env cout (.mk .Nonterminal q tk subs d) topLevel buildAst).text
          = cout.text ++ CocoGen.openBracket .Nonterminal q tk topLevel
              ++ env.gu.escapeDollars tk.d_val ++ " "
              ++ CocoGen.closeBracket .Nonterminal q tk topLevel) := by
  constructor
  · intro h
    have hp : isPseudoTerminal d = true := by
      rcases h with h | ⟨r, h, hr⟩
      · simp [h, isPseudoTerminal]
      · simp [h, hr, isPseudoTerminal]
    constructor
    · rw [AntlrGen.writeNode]
      simp [hs, hp]
    · rw [CocoGen.writeNode]
      cases buildAst <;> simp [hs, hp, CocoGen.writeTerminal, String.append_assoc]
  · rintro ⟨r, h, hr⟩
    have hp : isPseudoTerminal d = false := by simp [h, hr, isPseudoTerminal]
    constructor
    · rw [AntlrGen.writeNode]
      simp [hs, hp]
    · rw [CocoGen.writeNode]
      simp [hs, hp, String.append_assoc]

/-- Witness of the theorem above: the reference to `U`, whose definition has a
root, is written as the rule name `U `. -/
theorem nonterminal_name_by_definition_root_witness :
    emitsNothing refU.d_tok refU.d_def = false ∧
    (CocoGen.writeNode plainEnv { text := "", warnings := [] } refU false false).text
      = "" ++ CocoGen.openBracket .Nonterminal .One (tok .NonTerm 7 "U") false
          ++ plainEnv.gu.escapeDollars (tok .NonTerm 7 "U").d_val ++ " "
          ++ CocoGen.closeBracket .Nonterminal .One (tok .NonTerm 7 "U") false :=
  ⟨by decide,
    ((nonterminal_name_by_definition_root plainNames plainEnv "" { text := "", warnings := [] }
      .One (tok .NonTerm 7 "U") []
      (some { d_tok := tok .Production 1 "U", hasNode := true }) false false (by decide)).2
      ⟨_, rfl, rfl⟩).2⟩

/-- Claim C13 as stated fails: the reference to `A`, declared by `A ::=` without
a body, has a resolved definition that is not null, and both emitters write
it as a terminal token name (`T_A ` for `CocoGen`), not as the rule name `A `. -/
theorem declared_terminal_is_written_as_token :
    refEmpty.d_def ≠ none ∧
    (CocoGen.writeNode plainEnv { text := "", warnings := [] } refEmpty false false).text
      = "T_A " ∧
    CocoGen.tokenName plainEnv.gu refEmpty.d_tok.d_val ++ " " = "T_A " ∧
    plainEnv.gu.escapeDollars refEmpty.d_tok.d_val ++ " " = "A " ∧
    ∀ (gu : GenUtils) (out : String),
      AntlrGen.writeNode gu out refEmpty false
        = out ++ AntlrGen.tokenName gu refEmpty.d_tok.d_val ++ " " := by
  refine ⟨by decide, by decide, by decide, by decide, fun gu out => ?_⟩
  simp [refEmpty, AntlrGen.writeNode, emitsNothing, isPseudoTerminal, AntlrGen.openBracket,
    AntlrGen.closeBracket, tok, EbnfToken.make]

/-! ## The rules of `AntlrGen::generate` -/

theorem antlr_writeRule_text (gu : GenUtils) (out : String) (d : Definition) (i : Nat) :
    AntlrGen.writeRule gu out d i
      = out ++ (if AntlrGen.emitsRule d i then AntlrGen.ruleText gu d else "") := by
  unfold AntlrGen.writeRule AntlrGen.emitsRule AntlrGen.ruleText
  by_cases h1 : d.d_tok.d_op = .Skip
  · simp [h1]
  · by_cases h2 : i = 0
    · cases hn : d.d_node with
      | none => simp [h1, h2]
      | some root =>
          simp only [h1, h2, hn]
          rw [antlr_writeNode_render gu root, antlr_writeNode_render gu root ""]
          simp [String.append_assoc, h1]
    · cases hu : d.d_usedBy.isEmpty with
      | true => simp [h1, h2, hu]
      | false =>
          cases hn : d.d_node with
          | none => simp [h1, h2, hu]
          | some root =>
              simp only [h1, h2, hu, hn]
              rw [antlr_writeNode_render gu root, antlr_writeNode_render gu root ""]
              simp [String.append_assoc, h1]

theorem antlr_writeRules_text (gu : GenUtils) :
    ∀ (defs : List Definition) (out : String) (i : Nat),
      AntlrGen.writeRules gu out defs i = out ++ concatAll (AntlrGen.rulesFrom gu defs i)
  | [], out, i => by simp [AntlrGen.writeRules, AntlrGen.rulesFrom, concatAll]
  | d :: ds, out, i => by
      rw [AntlrGen.writeRules, antlr_writeRules_text gu ds, antlr_writeRule_text]
      unfold AntlrGen.rulesFrom
      by_cases he : AntlrGen.emitsRule d i = true
      · simp [List.enumFrom, List.filter, he, concatAll, String.append_assoc]
      · simp [List.enumFrom, List.filter, he, concatAll]

/-- Claim C14, amended. `AntlrGen::generate` writes, behind the head of the
file and in source order, exactly one rule for each definition that is not
annotated Skip, is the first definition or is referenced, and has a root node;
nothing is written for any other definition. -/
theorem antlr_rules_of_used_definitions (gu : GenUtils) (an : Analyzer) (syn : EbnfSyntax)
    (root : Definition) (rest : List Definition) (h : syn.d_order = root :: rest) :
    AntlrGen.generate gu an (some syn)
      = some (AntlrGen.preamble gu an syn root
          ++ concatAll (AntlrGen.rulesFrom gu syn.d_order 0)) := by
  unfold AntlrGen.generate
  simp only [h]
  rw [antlr_writeRules_text]

/-- Witness of the theorem above: the grammar of `S ::= A` and `A ::=`. -/
theorem antlr_rules_of_used_definitions_witness :
    AntlrGen.generate plainNames noTokens (some { d_order := [startS, emptyA] })
      = some (AntlrGen.preamble plainNames noTokens { d_order := [startS, emptyA] } startS
          ++ concatAll (AntlrGen.rulesFrom plainNames [startS, emptyA] 0)) :=
  antlr_rules_of_used_definitions plainNames noTokens { d_order := [startS, emptyA] } startS
    [emptyA] rfl

/-- Claim C14 as stated fails: in the grammar of `S ::= A` and `A ::=` the
definition `A` is not annotated Skip and is referenced, yet `AntlrGen::generate`
writes the rule of `S` only. -/
theorem used_definition_without_body_gets_no_rule :
    emptyA.d_tok.d_op ≠ .Skip ∧ emptyA.d_usedBy.isEmpty = false ∧
    ∀ (gu : GenUtils) (an : Analyzer),
      AntlrGen.generate gu an (some { d_order := [startS, emptyA] })
        = some (AntlrGen.preamble gu an { d_order := [startS, emptyA] } startS
            ++ AntlrGen.ruleText gu startS) := by
  refine ⟨by decide, by decide, fun gu an => ?_⟩
  unfold AntlrGen.generate
  simp only
  rw [antlr_writeRules_text]
  have h : AntlrGen.rulesFrom gu [startS, emptyA] 0 = [AntlrGen.ruleText gu startS] := by
    have h1 : AntlrGen.emitsRule startS 0 = true := by decide
    have h2 : AntlrGen.emitsRule emptyA 1 = false := by decide
    simp [AntlrGen.rulesFrom, List.enumFrom, List.filter, h1, h2]
  rw [h]
  simp [concatAll]

/-! ## The productions of `CocoGen::generate` -/

theorem coco_writeProduction_skip (env : CocoEnv) (out : CocoOut) (d : Definition) (i : Nat)
    (buildAst : Bool) (h : d.d_tok.d_op = .Skip) :
    CocoGen.writeProduction env out d i buildAst = out := by
  simp [CocoGen.writeProduction, h]

theorem coco_writeProduction_index (env : CocoEnv) (out : CocoOut) (d : Definition) (i j : Nat)
    (buildAst : Bool) (hi : i ≠ 0) (hj : j ≠ 0) :
    CocoGen.writeProduction env out d i buildAst
      = CocoGen.writeProduction env out d j buildAst := by
  unfold CocoGen.writeProduction
  have e1 : (i ≠ 0 ∧ d.d_usedBy.isEmpty = true) ↔ (j ≠ 0 ∧ d.d_usedBy.isEmpty = true) := by
    simp [hi, hj]
  simp only [e1]

theorem coco_writeProductions_without_skip (env : CocoEnv) (buildAst : Bool) :
    ∀ (ds : List Definition) (out : CocoOut) (i j : Nat), i ≠ 0 → j ≠ 0 →
      CocoGen.writeProductions env out ds i buildAst
        = CocoGen.writeProductions env out
            (ds.filter (fun x => !(x.d_tok.d_op == Handling.Skip))) j buildAst
  | [], out, i, j, _, _ => by simp [CocoGen.writeProductions]
  | d :: ds, out, i, j, hi, hj => by
      rw [CocoGen.writeProductions]
      by_cases hs : d.d_tok.d_op = .Skip
      · rw [coco_writeProduction_skip env out d i buildAst hs]
        rw [coco_writeProductions_without_skip env buildAst ds out (i + 1) j (by omega) hj]
        rw [List.filter_cons_of_neg (by simp [hs])]
      · rw [coco_writeProductions_without_skip env buildAst ds _ (i + 1) (j + 1) (by omega)
          (by omega)]
        rw [coco_writeProduction_index env out d i j buildAst hi hj]
        rw [List.filter_cons_of_pos (by simp [hs]), CocoGen.writeProductions]

/-- Claim C15, amended. `CocoGen::generate` writes no production for a
definition annotated Skip that stands behind the first definition: the section
PRODUCTIONS is the one of the grammar without these definitions. The production
of the first definition is written whatever its annotation. -/
theorem skip_definition_behind_first_writes_nothing (env : CocoEnv) (out : CocoOut)
    (d : Definition) (ds : List Definition) (buildAst : Bool) :
    CocoGen.writeAllProductions env out (d :: ds) buildAst
        = CocoGen.writeAllProductions env out
            (d :: ds.filter (fun x => !(x.d_tok.d_op == Handling.Skip))) buildAst ∧
    (∀ (x : Definition) (i : Nat) (o : CocoOut), x.d_tok.d_op = .Skip →
        CocoGen.writeProduction env o x i buildAst = o) ∧
    (CocoGen.writeStart env out d buildAst).text
        = out.text ++ env.gu.escapeDollars d.d_tok.d_val ++ " = " ++ "\n" ++ "    "
            ++ (if buildAst then "(. d_stack.push(&d_root); .) " ++ "(" else "")
            ++ (CocoGen.writeNodeOrNull env { text := "", warnings := [] } d.d_node true
                  buildAst).text
            ++ (if buildAst then ") " ++ "(. d_stack.pop(); .) " else "")
            ++ "\n" ++ "    ." ++ "\n" ++ "\n" := by
  refine ⟨?_, fun x i o hx => coco_writeProduction_skip env o x i buildAst hx, ?_⟩
  · unfold CocoGen.writeAllProductions
    exact coco_writeProductions_without_skip env buildAst ds _ 1 1 (by omega) (by omega)
  · unfold CocoGen.writeStart CocoGen.writeNodeOrNull
    cases hn : d.d_node with
    | none =>
        cases buildAst <;>
          simp only [write_text, String.append_assoc, String.append_empty, String.empty_append,
            if_true, if_false, Bool.false_eq_true]
    | some root =>
        cases buildAst <;>
          simp only [write_text, coco_writeNode_render, String.append_assoc, String.append_empty,
            String.empty_append, if_true, if_false, Bool.false_eq_true]

/-- Claim C15 as stated fails: for the grammar of `S- ::= 'a'`, whose first
definition is annotated Skip, `CocoGen::generate` writes the production
`S = T_a .`. -/
theorem skip_start_production_is_written :
    skipStart.d_tok.d_op = .Skip ∧
    (CocoGen.writeAllProductions plainEnv { text := "", warnings := [] } [skipStart] false).text
      = "S = \n    T_a \n    .\n\n" := by
  refine ⟨by decide, by decide⟩

/-- Claim C18, amended. With AST building, `CocoGen::generate` writes the
production of a definition behind the first one with the push action, the body
in parentheses and the pop action exactly when the definition is not annotated
Transparent; for a Transparent definition the production holds the text of
`writeNode` for its root and nothing else. The production of the first
definition holds the push of the root of the tree, the body in parentheses and
the pop action whatever its annotation. -/
theorem ast_wrapper_unless_transparent (env : CocoEnv) (out : CocoOut) (d : Definition)
    (root : Node) (i : Nat) (hn : d.d_node = some root)
    (he : ¬(d.d_tok.d_op = .Skip ∨ (i ≠ 0 ∧ d.d_usedBy.isEmpty))) :
    (CocoGen.writeProduction env out d i true).text
        = out.text ++ env.gu.escapeDollars d.d_tok.d_val ++ " = " ++ "\n" ++ "    "
            ++ (if d.d_tok.d_op = .Transparent then
                  (CocoGen.writeNode env { text := "", warnings := [] } root true true).text
                else
                  "(. Vl::SynTree* n = new Vl::SynTree( Vl::SynTree::R_"
                    ++ env.gu.escapeDollars d.d_tok.d_val
                    ++ ", d_next ); d_stack.top()->d_children.append(n); d_stack.push(n); .) "
                    ++ "( "
                    ++ (CocoGen.writeNode env { text := "", warnings := [] } root true true).text
                    ++ ") " ++ "(. d_stack.pop(); .) ")
            ++ "\n" ++ "    ." ++ "\n" ++ "\n" ∧
    (CocoGen.writeStart env out d true).text
        = out.text ++ env.gu.escapeDollars d.d_tok.d_val ++ " = " ++ "\n" ++ "    "
            ++ "(. d_stack.push(&d_root); .) " ++ "("
            ++ (CocoGen.writeNode env { text := "", warnings := [] } root true true).text
            ++ ") " ++ "(. d_stack.pop(); .) "
            ++ "\n" ++ "    ." ++ "\n" ++ "\n" := by
  constructor
  · unfold CocoGen.writeProduction
    simp only [he, if_false, hn]
    by_cases ht : d.d_tok.d_op = .Transparent
    · simp only [ht, beq_self_eq_true, Bool.not_true, Bool.and_false, Bool.false_eq_true,
        if_false, if_true, write_text, coco_writeNode_render, String.append_assoc,
        String.empty_append]
    · have hb : (d.d_tok.d_op == Handling.Transparent) = false := by simp [ht]
      simp only [ht, hb, Bool.not_false, Bool.and_true, if_false, if_true, write_text,
        coco_writeNode_render, String.append_assoc, String.empty_append]
  · unfold CocoGen.writeStart CocoGen.writeNodeOrNull
    simp only [hn, if_true, write_text, coco_writeNode_render, String.append_assoc,
      String.empty_append]

/-- Witness of the theorem above: the definition `T ::= U` behind the first
definition. -/
theorem ast_wrapper_unless_transparent_witness :
    (CocoGen.writeProduction plainEnv { text := "", warnings := [] } singleRef 1 true).text
        = "" ++ plainEnv.gu.escapeDollars singleRef.d_tok.d_val ++ " = " ++ "\n" ++ "    "
            ++ (if singleRef.d_tok.d_op = .Transparent then
                  (CocoGen.writeNode plainEnv { text := "", warnings := [] } refU true true).text
                else
                  "(. Vl::SynTree* n = new Vl::SynTree( Vl::SynTree::R_"
                    ++ plainEnv.gu.escapeDollars singleRef.d_tok.d_val
                    ++ ", d_next ); d_stack.top()->d_children.append(n); d_stack.push(n); .) "
                    ++ "( "
                    ++ (CocoGen.writeNode plainEnv { text := "", warnings := [] } refU true
                          true).text
                    ++ ") " ++ "(. d_stack.pop(); .) ")
            ++ "\n" ++ "    ." ++ "\n" ++ "\n" :=
  (ast_wrapper_unless_transparent plainEnv { text := "", warnings := [] } singleRef refU 1 rfl
    (by decide)).1

/-- Claim C18 as stated fails for the first definition: for the grammar of
`S* ::= 'a'`, whose first definition is annotated Transparent,
`CocoGen::generate` with AST building writes the body between
`d_stack.push(&d_root)` and `d_stack.pop()`. -/
theorem transparent_start_is_wrapped :
    transparentStart.d_tok.d_op = .Transparent ∧
    (CocoGen.writeAllProductions plainEnv { text := "", warnings := [] } [transparentStart]
        true).text
      = "S = \n    (. d_stack.push(&d_root); .) (T_a (. addTerminal(); .) ) (. d_stack.pop(); .) "
          ++ "\n    .\n\n" := by
  refine ⟨by decide, by decide⟩

/-! ## Predicates without text -/

/-- Claim C17. `AntlrGen::writeNode` writes nothing for a Predicate node, and
the stream is all it acts on: a sequence with a predicate at its head gives
the same result as the sequence without it, so the predicate is dropped
without a report. `CocoGen` does report: `handlePredicate` on a predicate with
depth 0 and `writeNode` on a Predicate node each add a warning. -/
theorem antlr_drops_predicate_without_report :
    (∀ (gu : GenUtils) (out : String) (tk : EbnfToken) (subs : List Node) (d : Option DefRef)
        (topLevel : Bool),
      AntlrGen.writeNode gu out (.mk .Predicate .One tk subs d) topLevel = out) ∧
    (∀ (gu : GenUtils) (out : String),
      AntlrGen.writeSequence gu out [llPredicate, literalA, literalB]
        = AntlrGen.writeSequence gu out [literalA, literalB]) ∧
    (∀ (env : CocoEnv) (out : CocoOut) (pred sequence : Node), env.getLlk pred = 0 →
      CocoGen.handlePredicate env out pred sequence
        = out.warn (.unknownPredicate sequence.d_tok.d_val)) ∧
    (∀ (env : CocoEnv) (out : CocoOut) (q : Quantity) (tk : EbnfToken) (subs : List Node)
        (d : Option DefRef) (topLevel buildAst : Bool), emitsNothing tk d = false →
      (CocoGen.writeNode env out (.mk .Predicate q tk subs d) topLevel buildAst).warnings
        = out.warnings ++ [.predicateNode]) := by
  have h1 : ∀ (gu : GenUtils) (out : String) (tk : EbnfToken) (subs : List Node)
      (d : Option DefRef) (topLevel : Bool),
      AntlrGen.writeNode gu out (.mk .Predicate .One tk subs d) topLevel = out := by
    intro gu out tk subs d topLevel
    rw [AntlrGen.writeNode]
    by_cases hs : emitsNothing tk d = true
    · simp [hs]
    · simp [hs, AntlrGen.openBracket, AntlrGen.closeBracket]
  refine ⟨h1, fun gu out => ?_, fun env out pred sequence hk => ?_,
    fun env out q tk subs d topLevel buildAst hs => ?_⟩
  · rw [AntlrGen.writeSequence]
    simp only [llPredicate, Node.new]
    rw [h1]
  · simp [CocoGen.handlePredicate, hk]
  · rw [CocoGen.writeNode]
    simp [hs, CocoOut.write, CocoOut.warn]

/-! ## The token list -/

theorem tokenEntries_in_keywords (gu : GenUtils) :
    ∀ (tokens : List QByteArray) (res : List TokenNameValue),
      SynTreeGen.tokenEntries gu res true tokens
        = res ++ tokens.map (fun t => (gu.symToString t, t))
  | [], res => by simp [SynTreeGen.tokenEntries]
  | t :: ts, res => by
      rw [SynTreeGen.tokenEntries]
      simp [tokenEntries_in_keywords gu ts]

theorem tokenEntries_sections (gu : GenUtils) :
    ∀ (tokens : List QByteArray) (res : List TokenNameValue),
      SynTreeGen.tokenEntries gu res false tokens
        = res ++ (SynTreeGen.literalTokens tokens).map (fun t => (gu.symToString t, t))
            ++ (if (SynTreeGen.keywordTokens tokens).isEmpty then []
                else ("Keywords", []) ::
                  (SynTreeGen.keywordTokens tokens).map (fun t => (gu.symToString t, t)))
  | [], res => by
      simp [SynTreeGen.tokenEntries, SynTreeGen.literalTokens, SynTreeGen.keywordTokens]
  | t :: ts, res => by
      rw [SynTreeGen.tokenEntries]
      by_cases ha : containsAlnum t = true
      · simp [ha, tokenEntries_in_keywords, SynTreeGen.literalTokens, SynTreeGen.keywordTokens,
          List.takeWhile, List.dropWhile]
      · have hf : containsAlnum t = false := by simpa using ha
        simp only [hf, Bool.not_false, Bool.and_false, Bool.false_eq_true, if_false]
        rw [tokenEntries_sections gu ts]
        simp [hf, SynTreeGen.literalTokens, SynTreeGen.keywordTokens, List.takeWhile,
          List.dropWhile]

/-- Claim C19. For the grammar of `S ::= '+'`, whose one token holds no
alphanumeric character, the list of `SynTreeGen::generateTokenList` has the
sentinels Literals and Specials but no sentinel Keywords, and the enumerators
`SynTreeGen::generateTt` writes for it do not include `TT_Keywords`. -/
theorem keywords_sentinel_missing_without_keyword :
    (∀ gu : GenUtils,
      SynTreeGen.generateTokenList gu operatorsOnly plusGrammar
        = [("Literals", []), (gu.symToString (ba "+"), ba "+"), ("Specials", []),
            ("Eof", ba "<eof>"), ("MaxToken", [])]) ∧
    SynTreeGen.tokenEnumerators (SynTreeGen.generateTokenList plainNames operatorsOnly plusGrammar)
      = ["TT_Literals", "Tok_+", "TT_Specials", "Tok_Eof", "TT_MaxToken"] ∧
    "TT_Keywords" ∉
      SynTreeGen.tokenEnumerators
        (SynTreeGen.generateTokenList plainNames operatorsOnly plusGrammar) := by
  refine ⟨fun gu => ?_, by decide, by decide⟩
  have hc : containsAlnum (ba "+") = false := by decide
  simp [SynTreeGen.generateTokenList, operatorsOnly, SynTreeGen.tokenEntries, hc]

/-- Claim C20. The list of `SynTreeGen::generateTokenList` is: the sentinel
Literals; the entries of the tokens in front of the first token with an
alphanumeric character, in the order of the ordered token list; if there is
such a token, the sentinel Keywords and the entries of the tokens from it on, in
the same order; the sentinel Specials; the entries of the terminal
productions; Eof and MaxToken. -/
theorem token_list_sections (gu : GenUtils) (an : Analyzer) (syn : EbnfSyntax) :
    SynTreeGen.generateTokenList gu an syn
        = [("Literals", [])]
            ++ (SynTreeGen.literalTokens (an.orderedTokenList syn (some false))).map
                (fun t => (gu.symToString t, t))
            ++ (if (SynTreeGen.keywordTokens (an.orderedTokenList syn (some false))).isEmpty
                then []
                else ("Keywords", []) ::
                  (SynTreeGen.keywordTokens (an.orderedTokenList syn (some false))).map
                    (fun t => (gu.symToString t, t)))
            ++ [("Specials", [])]
            ++ (an.collectAllTerminalProductions syn).map (fun t => (gu.escapeDollars t, t))
            ++ [("Eof", ba "<eof>"), ("MaxToken", [])] ∧
    SynTreeGen.literalTokens (an.orderedTokenList syn (some false))
        ++ SynTreeGen.keywordTokens (an.orderedTokenList syn (some false))
      = an.orderedTokenList syn (some false) ∧
    (∀ t ∈ SynTreeGen.literalTokens (an.orderedTokenList syn (some false)),
      containsAlnum t = false) ∧
    (∀ t, (SynTreeGen.keywordTokens (an.orderedTokenList syn (some false))).head? = some t →
      containsAlnum t = true) := by
  refine ⟨?_, ?_, ?_, ?_⟩
  · unfold SynTreeGen.generateTokenList
    simp only [tokenEntries_sections]
    simp [List.append_assoc]
  · exact List.takeWhile_append_dropWhile _ _
  · intro t ht
    have := List.mem_takeWhile_imp ht
    simpa using this
  · intro t ht
    unfold SynTreeGen.keywordTokens at ht
    have := List.head?_dropWhile_not (fun t => !containsAlnum t)
      (an.orderedTokenList syn (some false))
    rw [ht] at this
    simpa using this

/-! ## Literals: escapes and the closing quote -/

theorem replace2_cons_ne (a b r x : Nat) (t : QByteArray) (h : x ≠ a) :
    replace2 a b r (x :: t) = x :: replace2 a b r t := by
  cases t with
  | nil => simp [replace2]
  | cons y ys => simp [replace2, h]

theorem replace2_cons_snd_ne (a b r : Nat) (t : QByteArray) (h : t.head? ≠ some b) :
    replace2 a b r (a :: t) = a :: replace2 a b r t := by
  cases t with
  | nil => simp [replace2]
  | cons y ys =>
      have hy : y ≠ b := by simpa using h
      simp [replace2, hy]

theorem isQuotedBody_ne_nil (body : QByteArray) (h : isQuotedBody body = true) : body ≠ [] := by
  intro hb
  subst hb
  simp [isQuotedBody] at h

theorem isQuotedBody_dropLast_head (body : QByteArray) (h : isQuotedBody body = true) :
    body.dropLast.head? ≠ some 39 := by
  cases body with
  | nil => simp
  | cons c t =>
      cases t with
      | nil => simp
      | cons d rest =>
          have hc : c ≠ 39 := by
            intro hc
            subst hc
            simp [isQuotedBody] at h
          simpa [List.dropLast] using hc

theorem isQuotedBody_getLast (body : QByteArray) :
    isQuotedBody body = true → body.getLast? = some 39 := by
  induction body using isQuotedBody.induct with
  | case1 => intro h; simp [isQuotedBody] at h
  | case2 c => intro h; simp [isQuotedBody] at h; simp [h]
  | case3 d rest ih =>
      intro h
      simp [isQuotedBody] at h
      have hne := isQuotedBody_ne_nil rest h
      obtain ⟨x, xs, rfl⟩ := List.exists_cons_of_ne_nil hne
      simpa [List.getLast?_cons_cons] using ih h
  | case4 d rest hc => intro h; simp [isQuotedBody] at h
  | case5 c d rest hc hq ih =>
      intro h
      simp [isQuotedBody, hc, hq] at h
      simpa [List.getLast?_cons_cons] using ih h

/-- The two replacements of `EbnfLexer::literal`, one after the other, on the
text between the quotes of a terminated literal are one pass of `unescape`. -/
theorem replace_twice_eq_unescape (body : QByteArray) :
    isQuotedBody body = true →
      replace2 92 92 92 (replace2 92 39 39 body.dropLast) = unescape body.dropLast := by
  induction body using isQuotedBody.induct with
  | case1 => intro h; simp [isQuotedBody] at h
  | case2 c => intro _; simp [replace2, unescape]
  | case3 d rest ih =>
      intro h
      simp [isQuotedBody] at h
      have hne := isQuotedBody_ne_nil rest h
      have hdl : (92 :: d :: rest).dropLast = 92 :: d :: rest.dropLast := by
        obtain ⟨x, xs, rfl⟩ := List.exists_cons_of_ne_nil hne
        simp [List.dropLast]
      rw [hdl]
      have ih1 := ih h
      by_cases hd : d = 39
      · subst hd
        simp only [replace2, unescape, and_self, if_true]
        rw [replace2_cons_ne 92 92 92 39 _ (by decide), ih1]
      · by_cases hd2 : d = 92
        · subst hd2
          have h1 : replace2 92 39 39 (92 :: 92 :: rest.dropLast)
              = 92 :: 92 :: replace2 92 39 39 rest.dropLast := by
            rw [replace2_cons_snd_ne 92 39 39 _ (by simp),
              replace2_cons_snd_ne 92 39 39 _ (isQuotedBody_dropLast_head rest h)]
          rw [h1]
          simp only [replace2, unescape, and_self, if_true, ih1]
          simp
        · have h1 : replace2 92 39 39 (92 :: d :: rest.dropLast)
              = 92 :: d :: replace2 92 39 39 rest.dropLast := by
            rw [replace2_cons_snd_ne 92 39 39 _ (by simpa using hd),
              replace2_cons_ne 92 39 39 d _ hd2]
          rw [h1, replace2_cons_snd_ne 92 92 92 _ (by simpa using hd2),
            replace2_cons_ne 92 92 92 d _ hd2, ih1]
          simp [unescape, hd, hd2]
  | case4 d rest hc => intro h; simp [isQuotedBody] at h
  | case5 c d rest hc hq ih =>
      intro h
      simp [isQuotedBody, hc, hq] at h
      have hne := isQuotedBody_ne_nil (d :: rest) h
      have hdl : (c :: d :: rest).dropLast = c :: (d :: rest).dropLast := by
        simp [List.dropLast]
      rw [hdl, replace2_cons_ne 92 39 39 c _ hc, replace2_cons_ne 92 92 92 c _ hc, ih h]
      cases hr : (d :: rest).dropLast with
      | nil => simp [unescape]
      | cons y ys => simp [unescape, hc]

theorem literalScan_of_quoted (lx : EbnfLexer) (body more : QByteArray)
    (hrest : lx.rest = 39 :: (body ++ more)) (hbody : isQuotedBody body = true) :
    literalScan (lx.d_line.drop (lx.d_colNr + 1)) 1 = body.length ∧
      mid lx.d_line (lx.d_colNr + 1) (body.length - 1) = body.dropLast := by
  unfold EbnfLexer.rest at hrest
  have hd1 : lx.d_line.drop (lx.d_colNr + 1) = body ++ more := by
    rw [← List.drop_drop, hrest]; rfl
  have hscan := literalScan_quoted body more 1 hbody
  refine ⟨by rw [hd1]; omega, ?_⟩
  unfold mid
  rw [hd1, List.dropLast_eq_take]
  apply List.take_append_of_le_length
  omega

/-- Claim C22. For a terminated single-quoted literal, that is a quote, a body
of plain bytes and backslash pairs, and the closing quote, `EbnfLexer::literal`
returns a Literal token that starts at the opening quote and whose length is
that of the lexeme, so that it ends at the closing quote; its value is the text
between the quotes after one pass of `unescape` from left to right. -/
theorem literal_value_is_unescaped (lx : EbnfLexer) (body more : QByteArray)
    (hrest : lx.rest = 39 :: (body ++ more)) (hbody : isQuotedBody body = true) :
    lx.literal.2.d_type = .Literal ∧
    lx.literal.2.d_lineNr = lx.d_lineNr ∧
    lx.literal.2.d_colNr = lx.d_colNr + 1 ∧
    lx.literal.2.d_len = (39 :: body).length ∧
    mid lx.d_line lx.d_colNr lx.literal.2.d_len = 39 :: body ∧
    (39 :: body).getLast? = some 39 ∧
    lx.literal.2.d_val = unescape body.dropLast := by
  obtain ⟨hoff, hmid⟩ := literalScan_of_quoted lx body more hrest hbody
  have hne := isQuotedBody_ne_nil body hbody
  have hlast := isQuotedBody_getLast body hbody
  have hm : mid lx.d_line lx.d_colNr (body.length + 1) = 39 :: body := by
    unfold EbnfLexer.rest at hrest
    unfold mid
    rw [hrest]
    simp
  refine ⟨?_, ?_, ?_, ?_, ?_, ?_, ?_⟩
  · simp [EbnfLexer.literal, EbnfLexer.token, EbnfToken.make]
  · simp [EbnfLexer.literal, EbnfLexer.token, EbnfToken.make]
  · simp [EbnfLexer.literal, EbnfLexer.token, EbnfToken.make]
  · simp [EbnfLexer.literal, EbnfLexer.token, EbnfToken.make, hoff]
  · simp only [EbnfLexer.literal, EbnfLexer.token, EbnfToken.make, hoff]
    exact hm
  · obtain ⟨x, xs, rfl⟩ := List.exists_cons_of_ne_nil hne
    simpa [List.getLast?_cons_cons] using hlast
  · simp only [EbnfLexer.literal, EbnfLexer.token, EbnfToken.make, hoff, hmid]
    exact replace_twice_eq_unescape body hbody

/-- Witness of the theorem above: the literal `'x\'y\\'` in front of ` z`. -/
theorem literal_value_is_unescaped_witness :
    (EbnfLexer.literal
        { EbnfLexer.setStream [] [] with
          d_line := [39, 120, 92, 39, 121, 92, 92, 39, 32, 122] }).2.d_val
      = unescape [120, 92, 39, 121, 92, 92] ∧
    unescape [120, 92, 39, 121, 92, 92] = [120, 39, 121, 92] :=
  ⟨(literal_value_is_unescaped
      { EbnfLexer.setStream [] [] with d_line := [39, 120, 92, 39, 121, 92, 92, 39, 32, 122] }
      [120, 92, 39, 121, 92, 92, 39] [32, 122] rfl (by decide)).2.2.2.2.2.2,
    by decide⟩

/-- Claim C23. `EbnfLexer::literal` returns a token of kind Literal on every
path, also when the line ends before a closing quote: on the line
`S ::= 'abc` the lexer delivers the Literal `abc`, of length 5, and then Eof;
no Invalid token is delivered. -/
theorem unterminated_literal_is_literal_token :
    (∀ lx : EbnfLexer, lx.literal.2.d_type = .Literal) ∧
    (EbnfLexer.nextTokens 4 (EbnfLexer.setStream [] [ba "S ::= 'abc\n"])).2
      = [{ d_type := .Production, d_lineNr := 1, d_colNr := 1, d_len := 1, d_val := ba "S",
           d_op := .Normal },
         { d_type := .Assig, d_lineNr := 1, d_colNr := 3, d_len := 3, d_val := [],
           d_op := .Normal },
         { d_type := .Literal, d_lineNr := 1, d_colNr := 7, d_len := 5, d_val := ba "abc",
           d_op := .Normal },
         { d_type := .Eof, d_lineNr := 1, d_colNr := 12, d_len := 0, d_val := [],
           d_op := .Normal }] := by
  refine ⟨fun lx => ?_, by decide⟩
  simp [EbnfLexer.literal, EbnfLexer.token, EbnfToken.make]

/-! ## The operator suffix -/

theorem readOp_suffixOp (lx : EbnfLexer) :
    lx.readOp.2 = (suffixOp lx.rest).1 ∧
      lx.readOp.1.d_colNr = lx.d_colNr + (suffixOp lx.rest).2 := by
  unfold EbnfLexer.readOp EbnfLexer.rest suffixOp
  split <;> simp_all

theorem ident_token (lx : EbnfLexer) :
    lx.ident.2 =
        { d_type := .NonTerm, d_lineNr := lx.d_lineNr, d_colNr := lx.d_colNr + 1,
          d_len := (lx.rest.takeWhile isIdentChar).length,
          d_val := lx.rest.takeWhile isIdentChar,
          d_op := (suffixOp (lx.rest.drop (lx.rest.takeWhile isIdentChar).length)).1 } ∧
      lx.ident.1.d_colNr = lx.d_colNr + (lx.rest.takeWhile isIdentChar).length
        + (suffixOp (lx.rest.drop (lx.rest.takeWhile isIdentChar).length)).2 := by
  have hm : mid lx.d_line lx.d_colNr (lx.rest.takeWhile isIdentChar).length
      = lx.rest.takeWhile isIdentChar := by
    unfold mid EbnfLexer.rest
    exact (List.prefix_iff_eq_take.mp (List.takeWhile_prefix isIdentChar)).symm
  have h := readOp_suffixOp
    (lx.token .NonTerm (lx.rest.takeWhile isIdentChar).length
      (mid lx.d_line lx.d_colNr (lx.rest.takeWhile isIdentChar).length)).1
  rw [rest_token, hm] at h
  have e : lx.ident
      = ((lx.token .NonTerm (lx.rest.takeWhile isIdentChar).length
            (mid lx.d_line lx.d_colNr (lx.rest.takeWhile isIdentChar).length)).1.readOp.1,
          { (lx.token .NonTerm (lx.rest.takeWhile isIdentChar).length
              (mid lx.d_line lx.d_colNr (lx.rest.takeWhile isIdentChar).length)).2 with
            d_op := (lx.token .NonTerm (lx.rest.takeWhile isIdentChar).length
              (mid lx.d_line lx.d_colNr
                (lx.rest.takeWhile isIdentChar).length)).1.readOp.2 }) := rfl
  rw [e]
  simp only [hm, h.1, h.2]
  simp [EbnfLexer.token, EbnfToken.make]

theorem literal_token (lx : EbnfLexer) :
    lx.literal.2.d_type = .Literal ∧
      lx.literal.2.d_colNr = lx.d_colNr + 1 ∧
      lx.literal.2.d_len = literalScan (lx.rest.drop 1) 1 + 1 ∧
      lx.literal.2.d_val
        = replace2 92 92 92 (replace2 92 39 39
            ((lx.rest.drop 1).take (literalScan (lx.rest.drop 1) 1 - 1))) ∧
      lx.literal.2.d_op = (suffixOp (lx.rest.drop (literalScan (lx.rest.drop 1) 1 + 1))).1 ∧
      lx.literal.1.d_colNr = lx.d_colNr + (literalScan (lx.rest.drop 1) 1 + 1)
        + (suffixOp (lx.rest.drop (literalScan (lx.rest.drop 1) 1 + 1))).2 := by
  have hd : lx.rest.drop 1 = lx.d_line.drop (lx.d_colNr + 1) := by
    simp [EbnfLexer.rest, List.drop_drop, Nat.add_comm]
  have h := fun v => readOp_suffixOp
    (lx.token .Literal (literalScan (lx.rest.drop 1) 1 + 1) v).1
  simp only [rest_token] at h
  have e : lx.literal
      = ((lx.token .Literal (literalScan (lx.rest.drop 1) 1 + 1)
            (replace2 92 92 92 (replace2 92 39 39
              (mid lx.d_line (lx.d_colNr + 1) (literalScan (lx.rest.drop 1) 1 - 1))))).1.readOp.1,
          { (lx.token .Literal (literalScan (lx.rest.drop 1) 1 + 1)
              (replace2 92 92 92 (replace2 92 39 39
                (mid lx.d_line (lx.d_colNr + 1) (literalScan (lx.rest.drop 1) 1 - 1))))).2 with
            d_op := (lx.token .Literal (literalScan (lx.rest.drop 1) 1 + 1)
              (replace2 92 92 92 (replace2 92 39 39
                (mid lx.d_line (lx.d_colNr + 1)
                  (literalScan (lx.rest.drop 1) 1 - 1))))).1.readOp.2 }) := by
    rw [hd]
    rfl
  rw [e]
  simp only [h]
  simp [EbnfLexer.token, EbnfToken.make, mid, hd]

/-- Claim C27. `EbnfLexer::ident` and `EbnfLexer::literal` return the token of
the lexeme alone: its length and value do not include the byte behind the
lexeme. If that byte is `*`, `!` or `-` the annotation of the token is
Transparent, Keep or Skip and the lexer stands one byte behind the lexeme;
otherwise the annotation is Normal and the lexer stands right behind the
lexeme. -/
theorem operator_suffix_is_consumed (lx : EbnfLexer) :
    (lx.ident.2 =
        { d_type := .NonTerm, d_lineNr := lx.d_lineNr, d_colNr := lx.d_colNr + 1,
          d_len := (lx.rest.takeWhile isIdentChar).length,
          d_val := lx.rest.takeWhile isIdentChar,
          d_op := (suffixOp (lx.rest.drop (lx.rest.takeWhile isIdentChar).length)).1 } ∧
      lx.ident.1.d_colNr = lx.d_colNr + (lx.rest.takeWhile isIdentChar).length
        + (suffixOp (lx.rest.drop (lx.rest.takeWhile isIdentChar).length)).2) ∧
    (lx.literal.2.d_type = .Literal ∧
      lx.literal.2.d_colNr = lx.d_colNr + 1 ∧
      lx.literal.2.d_len = literalScan (lx.rest.drop 1) 1 + 1 ∧
      lx.literal.2.d_val
        = replace2 92 92 92 (replace2 92 39 39
            ((lx.rest.drop 1).take (literalScan (lx.rest.drop 1) 1 - 1))) ∧
      lx.literal.2.d_op = (suffixOp (lx.rest.drop (literalScan (lx.rest.drop 1) 1 + 1))).1 ∧
      lx.literal.1.d_colNr = lx.d_colNr + (literalScan (lx.rest.drop 1) 1 + 1)
        + (suffixOp (lx.rest.drop (literalScan (lx.rest.drop 1) 1 + 1))).2) :=
  ⟨ident_token lx, literal_token lx⟩

/-! ## Identifiers: keyword or nonterminal -/

theorem ident_d_kw (lx : EbnfLexer) : lx.ident.1.d_kw = lx.d_kw := by
  unfold EbnfLexer.ident EbnfLexer.readOp EbnfLexer.token
  simp only
  split <;> rfl

theorem takeWhile_ident_maximal (lexeme more : QByteArray)
    (hall : lexeme.all isIdentChar = true)
    (hmax : ∀ c r, more = c :: r → isIdentChar c = false) :
    (lexeme ++ more).takeWhile isIdentChar = lexeme := by
  cases more with
  | nil =>
      simp only [List.append_nil]
      exact List.takeWhile_eq_self_iff.mpr (by simpa using hall)
  | cons c r => exact takeWhile_ident lexeme r c hall (hmax c r rfl)

/-- Claim C26, amended. When `potentialProduction` is not set, an identifier
lexeme (a maximal run of alphanumeric bytes, `_` and `$` that starts with an
alphanumeric byte or `$`) is returned as a Keyword token if its text is in the
keyword set and as a NonTerm token otherwise, with the text of the identifier
as its value. -/
theorem identifier_is_keyword_or_nonterm (lx : EbnfLexer) (lexeme more : QByteArray)
    (hrest : lx.rest = lexeme ++ more) (hlex : isIdentifier lexeme = true)
    (hmax : ∀ c r, more = c :: r → isIdentChar c = false) :
    (lx.lexAt false).2 =
      { d_type := if lexeme ∈ lx.d_kw then .Keyword else .NonTerm,
        d_lineNr := lx.d_lineNr, d_colNr := lx.d_colNr + 1, d_len := lexeme.length,
        d_val := lexeme, d_op := (suffixOp more).1 } := by
  obtain ⟨hall, c, cs, hcs, hc⟩ := isIdentifier_all lexeme hlex
  have hrest0 := hrest
  unfold EbnfLexer.rest at hrest0
  have hch : lx.d_line.getD lx.d_colNr 0 = c := by
    rw [getD_eq_headD_drop, hrest0, hcs]; rfl
  have hnc : c ≠ 47 := by
    intro h47; subst h47; simp [isalnum] at hc
  have htw : lx.rest.takeWhile isIdentChar = lexeme := by
    rw [hrest]; exact takeWhile_ident_maximal lexeme more hall hmax
  have hid := (ident_token lx).1
  rw [htw, hrest, List.drop_left] at hid
  have hkw := ident_d_kw lx
  unfold EbnfLexer.lexAt
  simp only [hch, hnc, false_and, if_false]
  unfold EbnfLexer.identOrLiteral
  simp only [hc, if_true, Bool.false_eq_true, if_false]
  generalize lx.ident = r at hid hkw
  obtain ⟨lx1, t⟩ := r
  simp only at hid hkw
  subst hid
  simp only [hkw]
  split <;> rfl

/-- Witness of the theorem above: the keyword `if` in the line `a if b`. -/
theorem identifier_is_keyword_or_nonterm_witness :
    (lexerBeforeIf.lexAt false).2 =
      { d_type := if ba "if" ∈ lexerBeforeIf.d_kw then .Keyword else .NonTerm,
        d_lineNr := lexerBeforeIf.d_lineNr, d_colNr := lexerBeforeIf.d_colNr + 1,
        d_len := (ba "if").length, d_val := ba "if", d_op := (suffixOp (ba " b")).1 } :=
  identifier_is_keyword_or_nonterm lexerBeforeIf (ba "if") (ba " b") (by decide) (by decide)
    (by intro c r h; cases h; decide)

/-- Claim C26 as stated fails: in the line `abc def` the identifier `abc`
stands at column 1 and is not followed by `::=`; it is not promoted to
Production, and the lexer returns neither a Keyword nor a NonTerm token for it
but an Invalid token. -/
theorem identifier_at_line_start_is_invalid :
    (EbnfLexer.setStream [] [ba "abc def\n"]).nextToken.2 =
      { d_type := .Invalid, d_lineNr := 1, d_colNr := 5, d_len := 0,
        d_val := ba "production or comment expected", d_op := .Normal } := by
  decide

/-! ## The values of the rule ids -/

theorem enumValues_append (a b : List String) (first : Nat) :
    enumValues (a ++ b) first = enumValues a first ++ enumValues b (first + a.length) := by
  simp [enumValues, List.enumFrom_append]

theorem enumValues_length (a : List String) (first : Nat) :
    (enumValues a first).length = a.length := by
  simp [enumValues]

theorem enumValues_bounds (a : List String) (first : Nat) (p : String × Nat)
    (h : p ∈ enumValues a first) : first ≤ p.2 ∧ p.2 < first + a.length := by
  induction a generalizing first with
  | nil => simp [enumValues] at h
  | cons x xs ih =>
      simp only [enumValues, List.enumFrom_cons, List.map_cons, List.mem_cons] at h
      rcases h with h | h
      · subst h
        simp
      · have := ih (first + 1) h
        simp only [List.length_cons]
        omega

theorem enumValues_map_mem (a : List String) (first : Nat) (n : String) (h : n ∈ a) :
    ∃ v, (n, v) ∈ enumValues a first := by
  induction a generalizing first with
  | nil => simp at h
  | cons x xs ih =>
      simp only [List.mem_cons] at h
      rcases h with h | h
      · exact ⟨first, by simp [enumValues, List.enumFrom_cons, h]⟩
      · obtain ⟨v, hv⟩ := ih (first + 1) h
        exact ⟨v, by
          simp only [enumValues, List.enumFrom_cons, List.map_cons, List.mem_cons]
          exact Or.inr hv⟩

/-- Claim C21, amended. `Tok_Invalid` has the value 0. Every enumerator of
`enum ParserRule` that `SynTreeGen::generateTree` writes has a value greater
than `TT_Max` (`R_First` is `TT_Max + 1`, the rule ids follow). In the
`enum TokenType` that `SynTreeGen::generateTt` writes with `includeNt`, the
enumerator `TT_Max` comes last, behind the `R_` enumerators, so each of them
has a value smaller than `TT_Max`. -/
theorem rule_id_values (gu : GenUtils) (an : Analyzer) (syn : EbnfSyntax)
    (defs : List Definition) (includeNt : Bool) (ttMax : Nat) :
    (SynTreeGen.tokenTypeValues gu an syn defs includeNt).head? = some ("Tok_Invalid", 0) ∧
    (∀ p ∈ SynTreeGen.parserRuleEnum gu defs ttMax, ttMax < p.2) ∧
    (SynTreeGen.tokenTypeValues gu an syn defs true).getLast?
      = some ("TT_Max", (SynTreeGen.tokenTypeEnum gu an syn defs true).length - 1) ∧
    (∀ d ∈ defs, SynTreeGen.hasRuleId d = true →
      ∃ v, ("R_" ++ gu.escapeDollars d.d_tok.d_val, v)
          ∈ SynTreeGen.tokenTypeValues gu an syn defs true ∧
        v < (SynTreeGen.tokenTypeEnum gu an syn defs true).length - 1) := by
  refine ⟨?_, ?_, ?_, ?_⟩
  · simp [SynTreeGen.tokenTypeValues, SynTreeGen.tokenTypeEnum, enumValues, List.enumFrom_cons]
  · intro p hp
    have := enumValues_bounds _ _ p hp
    omega
  · simp only [SynTreeGen.tokenTypeValues, SynTreeGen.tokenTypeEnum, if_true]
    rw [enumValues_append, List.getLast?_append]
    simp [enumValues, List.enumFrom_cons]
    omega
  · intro d hd hr
    simp only [SynTreeGen.tokenTypeValues, SynTreeGen.tokenTypeEnum, if_true]
    rw [enumValues_append]
    have hmem : "R_" ++ gu.escapeDollars d.d_tok.d_val ∈
        ["Tok_Invalid"]
          ++ SynTreeGen.tokenEnumerators (SynTreeGen.generateTokenList gu an syn)
          ++ (["TT_Nonterminals"]
            ++ (defs.filter SynTreeGen.hasRuleId).map
                (fun d => "R_" ++ gu.escapeDollars d.d_tok.d_val)) := by
      simp only [List.mem_append, List.mem_map, List.mem_filter]
      exact Or.inr (Or.inr ⟨d, ⟨hd, hr⟩, rfl⟩)
    obtain ⟨v, hv⟩ := enumValues_map_mem _ 0 _ hmem
    refine ⟨v, List.mem_append_left _ hv, ?_⟩
    have := enumValues_bounds _ _ _ hv
    simp only [List.length_append, List.length_singleton] at this ⊢
    omega

/-- Claim C21 as stated fails for `SynTreeGen::generateTt`: for a grammar with
the referenced definition `T ::= U` and no token, `enum TokenType` with
`includeNt` gives `R_T` the value 6 and `TT_Max` the value 7. -/
theorem rule_id_below_tt_max :
    SynTreeGen.tokenTypeValues plainNames noTokens { d_order := [singleRef] } [singleRef] true
      = [("Tok_Invalid", 0), ("TT_Literals", 1), ("TT_Specials", 2), ("Tok_Eof", 3),
          ("TT_MaxToken", 4), ("TT_Nonterminals", 5), ("R_T", 6), ("TT_Max", 7)] := by
  decide

/-! ## Grouping parentheses -/

theorem checkCardinality_wellBuilt (p : EbnfParser) (n : Node) (hw : n.wellBuiltRoot)
    (hq : n.d_quant = .One) : p.checkCardinality n = (p, true) := by
  obtain ⟨ty, q, tk, subs, d⟩ := n
  simp only [d_quant_mk] at hq
  subst hq
  have hwb := hw.1
  unfold EbnfParser.checkCardinality
  cases ty
  · simp
  · simp
  · have h2 : 2 ≤ subs.length := by
      simp only [Node.wellBuilt, Bool.and_eq_true, decide_eq_true_eq] at hwb
      exact hwb.1.1.2
    have hne : subs.isEmpty = false := by
      cases subs with
      | nil => simp at h2
      | cons a as => rfl
    simp [hne]
    omega
  · have h2 : 2 ≤ subs.length := by
      simp only [Node.wellBuilt, Bool.and_eq_true, decide_eq_true_eq] at hwb
      exact hwb.1.1.2
    have hne : subs.isEmpty = false := by
      cases subs with
      | nil => simp at h2
      | cons a as => rfl
    simp [hne]
    omega
  · simp

theorem setQuant_self (n : Node) : n.setQuant n.d_quant = n := by
  obtain ⟨ty, q, tk, subs, d⟩ := n
  rfl

/-- Claim C30. When `parseExpression` accepts the tokens behind a `(` with a
node `n` of quantifier One and stands at the `)` then, `parseFactor` on the
`(` returns exactly `n` and stands behind the `)`. A second pair of
parentheses around that gives `n` again. -/
theorem grouping_parentheses_leave_no_trace (f g : Nat) (p p1 : EbnfParser) (n : Node)
    (hopen : p.d_cur.d_type = .LPar)
    (hexpr : parseExpression f p.nextToken = some (p1, some n))
    (hclose : p1.d_cur.d_type = .RPar)
    (hq : n.d_quant = .One) (hg : f + 1 ≤ g) :
    parseFactor g p = some (p1.nextToken, some n) ∧
    (∀ p0 : EbnfParser, p0.d_cur.d_type = .LPar → p0.nextToken = p →
      p1.nextToken.d_cur.d_type = .RPar →
      parseFactor (g + 3) p0 = some (p1.nextToken.nextToken, some n)) := by
  have hw : n.wellBuiltRoot := (parser_builds_well f).2.1 _ _ _ hexpr
  have hset : n.setQuant .One = n := by rw [← hq]; exact setQuant_self n
  have hfirst : ∀ k, f + 1 ≤ k → parseFactor k p = some (p1.nextToken, some n) := by
    intro k hk
    obtain ⟨j, rfl⟩ : ∃ j, k = j + 1 := ⟨k - 1, by omega⟩
    have hj := parseExpression_mono f j (by omega) _ _ hexpr
    rw [parseFactor]
    simp only [hopen, hj, Option.map_some', finishBracket, hclose, ne_eq, not_true_eq_false,
      if_false, checkCardinality_wellBuilt p1 n hw hq, hset]
  refine ⟨hfirst g hg, ?_⟩
  intro p0 h0 hp0 hclose2
  obtain ⟨j, rfl⟩ : ∃ j, g = j + 1 := ⟨g - 1, by omega⟩
  have hnp : p.d_cur.d_type ≠ .Predicate := by rw [hopen]; decide
  have hterm : parseTerm (j + 1 + 1) p = some (p1.nextToken, some n) := by
    rw [parseTerm_without_predicate _ p hnp]
    simp only [hopen, isFactorStart, if_true, hfirst (j + 1) hg]
    rw [termLoop]
    simp [hclose2, isFactorStart]
  have hexp2 : parseExpression (j + 1 + 2) p = some (p1.nextToken, some n) := by
    rw [parseExpression]
    simp only [hopen, isTermStart, if_true, hterm]
    rw [expressionLoop]
    simp [hclose2]
  rw [parseFactor]
  simp only [h0, hp0, hexp2, Option.map_some', finishBracket, hclose2, ne_eq, not_true_eq_false,
    if_false, checkCardinality_wellBuilt p1.nextToken n hw hq, hset]

/-- Witness of the theorem above: the factor `( a | b )`. -/
theorem grouping_parentheses_leave_no_trace_witness :
    parseFactor 9 (parserAt (tok .LPar 1 "")
        [tok .NonTerm 3 "a", tok .Bar 5 "", tok .NonTerm 7 "b", tok .RPar 9 ""]) =
      some ((parserAt (tok .RPar 9 "") []).nextToken,
        some (Node.container .Alternative 1 3
          [Node.new .Nonterminal (tok .NonTerm 3 "a"),
           Node.new .Nonterminal (tok .NonTerm 7 "b")])) :=
  (grouping_parentheses_leave_no_trace 8 9
    (parserAt (tok .LPar 1 "")
      [tok .NonTerm 3 "a", tok .Bar 5 "", tok .NonTerm 7 "b", tok .RPar 9 ""])
    (parserAt (tok .RPar 9 "") [])
    (Node.container .Alternative 1 3
      [Node.new .Nonterminal (tok .NonTerm 3 "a"), Node.new .Nonterminal (tok .NonTerm 7 "b")])
    rfl rfl rfl rfl (Nat.le_refl _)).1

/-! ## Looking ahead does not change the tokens -/

theorem put_skipWhiteSpace (lx : EbnfLexer) (b : List EbnfToken) (l : EbnfToken) :
    (lx.put b l).skipWhiteSpace = (lx.skipWhiteSpace.1.put b l, lx.skipWhiteSpace.2) := rfl

theorem put_token (lx : EbnfLexer) (b : List EbnfToken) (l : EbnfToken) (tt : TokenType)
    (len : Nat) (v : QByteArray) :
    (lx.put b l).token tt len v = ((lx.token tt len v).1.setBuffer b, (lx.token tt len v).2) :=
  rfl

theorem put_readOp (lx : EbnfLexer) (b : List EbnfToken) (l : EbnfToken) :
    (lx.put b l).readOp = (lx.readOp.1.put b l, lx.readOp.2) := by
  unfold EbnfLexer.readOp
  simp only [EbnfLexer.put]
  split <;> rfl

theorem setBuffer_readOp (lx : EbnfLexer) (b : List EbnfToken) :
    (lx.setBuffer b).readOp = (lx.readOp.1.setBuffer b, lx.readOp.2) := by
  unfold EbnfLexer.readOp
  simp only [EbnfLexer.setBuffer]
  split <;> rfl

theorem put_ident (lx : EbnfLexer) (b : List EbnfToken) (l : EbnfToken) :
    (lx.put b l).ident = (lx.ident.1.setBuffer b, lx.ident.2) := by
  unfold EbnfLexer.ident
  simp only [put_token, setBuffer_readOp]
  rfl

theorem put_literal (lx : EbnfLexer) (b : List EbnfToken) (l : EbnfToken) :
    (lx.put b l).literal = (lx.literal.1.setBuffer b, lx.literal.2) := by
  unfold EbnfLexer.literal
  simp only [put_token, setBuffer_readOp]
  rfl

theorem put_attribute (lx : EbnfLexer) (b : List EbnfToken) (l : EbnfToken) :
    (lx.put b l).attribute = (lx.attribute.1.setBuffer b, lx.attribute.2) := rfl

theorem setBuffer_eq_put (lx : EbnfLexer) (b : List EbnfToken) :
    lx.setBuffer b = lx.put b lx.d_lastToken := rfl

theorem setBuffer_setBuffer (lx : EbnfLexer) (b c : List EbnfToken) :
    (lx.setBuffer b).setBuffer c = lx.setBuffer c := rfl

theorem punctuation_cases (x : EbnfLexer) (pp : Bool) (ch : Nat) :
    (∃ tt len v, ∀ y : EbnfLexer, y.lookAhead 1 = x.lookAhead 1 →
        y.lookAhead 2 = x.lookAhead 2 → y.punctuation pp ch = y.token tt len v) ∨
    (∀ y : EbnfLexer, y.lookAhead 1 = x.lookAhead 1 → y.lookAhead 2 = x.lookAhead 2 →
        y.punctuation pp ch = y.attribute) := by
  by_cases hpp : pp = true
  · exact Or.inl ⟨_, _, _, fun y _ _ => by rw [EbnfLexer.punctuation, if_pos hpp]⟩
  by_cases h1 : ch = 58 ∧ x.lookAhead 1 = 58 ∧ x.lookAhead 2 = 61
  · exact Or.inl ⟨_, _, _, fun y e1 e2 => by
      rw [EbnfLexer.punctuation, if_neg hpp, if_pos (by rw [e1, e2]; exact h1)]⟩
  have n1 : ∀ y : EbnfLexer, y.lookAhead 1 = x.lookAhead 1 → y.lookAhead 2 = x.lookAhead 2 →
      ¬(ch = 58 ∧ y.lookAhead 1 = 58 ∧ y.lookAhead 2 = 61) := by
    intro y e1 e2
    rw [e1, e2]
    exact h1
  by_cases h2 : ch = 40
  · exact Or.inl ⟨_, _, _, fun y e1 e2 => by
      rw [EbnfLexer.punctuation, if_neg hpp, if_neg (n1 y e1 e2), if_pos h2]⟩
  by_cases h3 : ch = 41
  · exact Or.inl ⟨_, _, _, fun y e1 e2 => by
      rw [EbnfLexer.punctuation, if_neg hpp, if_neg (n1 y e1 e2), if_neg h2, if_pos h3]⟩
  by_cases h4 : ch = 91
  · exact Or.inl ⟨_, _, _, fun y e1 e2 => by
      rw [EbnfLexer.punctuation, if_neg hpp, if_neg (n1 y e1 e2), if_neg h2, if_neg h3,
        if_pos h4]⟩
  by_cases h5 : ch = 93
  · exact Or.inl ⟨_, _, _, fun y e1 e2 => by
      rw [EbnfLexer.punctuation, if_neg hpp, if_neg (n1 y e1 e2), if_neg h2, if_neg h3,
        if_neg h4, if_pos h5]⟩
  by_cases h6 : ch = 123
  · exact Or.inl ⟨_, _, _, fun y e1 e2 => by
      rw [EbnfLexer.punctuation, if_neg hpp, if_neg (n1 y e1 e2), if_neg h2, if_neg h3,
        if_neg h4, if_neg h5, if_pos h6]⟩
  by_cases h7 : ch = 125
  · exact Or.inl ⟨_, _, _, fun y e1 e2 => by
      rw [EbnfLexer.punctuation, if_neg hpp, if_neg (n1 y e1 e2), if_neg h2, if_neg h3,
        if_neg h4, if_neg h5, if_neg h6, if_pos h7]⟩
  by_cases h8 : ch = 124
  · exact Or.inl ⟨_, _, _, fun y e1 e2 => by
      rw [EbnfLexer.punctuation, if_neg hpp, if_neg (n1 y e1 e2), if_neg h2, if_neg h3,
        if_neg h4, if_neg h5, if_neg h6, if_neg h7, if_pos h8]⟩
  by_cases h9 : ch = 92
  · exact Or.inr (fun y e1 e2 => by
      rw [EbnfLexer.punctuation, if_neg hpp, if_neg (n1 y e1 e2), if_neg h2, if_neg h3,
        if_neg h4, if_neg h5, if_neg h6, if_neg h7, if_neg h8, if_pos h9])
  · exact Or.inl ⟨_, _, _, fun y e1 e2 => by
      rw [EbnfLexer.punctuation, if_neg hpp, if_neg (n1 y e1 e2), if_neg h2, if_neg h3,
        if_neg h4, if_neg h5, if_neg h6, if_neg h7, if_neg h8, if_neg h9]⟩

theorem put_punctuation (lx : EbnfLexer) (b : List EbnfToken) (l : EbnfToken) (pp : Bool)
    (ch : Nat) :
    (lx.put b l).punctuation pp ch
      = ((lx.punctuation pp ch).1.setBuffer b, (lx.punctuation pp ch).2) := by
  rcases punctuation_cases lx pp ch with ⟨tt, len, v, h⟩ | h
  · rw [h lx rfl rfl, h (lx.put b l) rfl rfl]
    rfl
  · rw [h lx rfl rfl, h (lx.put b l) rfl rfl]
    rfl

theorem put_identOrLiteral (lx : EbnfLexer) (b : List EbnfToken) (l : EbnfToken) (pp : Bool)
    (ch : Nat) :
    (lx.put b l).identOrLiteral pp ch
      = (if (isalnum ch || ch == 36) = true ∨ ch = 39 then
          (lx.identOrLiteral pp ch).1.setBuffer b
         else lx.put b l, (lx.identOrLiteral pp ch).2) := by
  unfold EbnfLexer.identOrLiteral
  simp only [put_ident, put_literal]
  have hl : ∀ (x : EbnfLexer) k, (x.setBuffer b).skipWhiteSpace.1.lookAhead k
      = x.skipWhiteSpace.1.lookAhead k := fun _ _ => rfl
  have hk : ∀ (x : EbnfLexer), (x.setBuffer b).d_kw = x.d_kw := fun _ => rfl
  simp only [hl, hk]
  split_ifs <;> simp_all <;> rfl

theorem identOrLiteral_other (lx : EbnfLexer) (pp : Bool) (ch : Nat)
    (h : ¬((isalnum ch || ch == 36) = true ∨ ch = 39)) :
    lx.identOrLiteral pp ch = (lx, none) := by
  unfold EbnfLexer.identOrLiteral
  simp only [not_or] at h
  simp [h.1, h.2]

theorem put_lexAt (lx : EbnfLexer) (b : List EbnfToken) (l : EbnfToken) (pp : Bool) :
    (lx.put b l).lexAt pp = ((lx.lexAt pp).1.setBuffer b, (lx.lexAt pp).2) := by
  unfold EbnfLexer.lexAt
  have hl : ∀ k, (lx.put b l).lookAhead k = lx.lookAhead k := fun _ => rfl
  have hline : (lx.put b l).d_line = lx.d_line := rfl
  have hcol : (lx.put b l).d_colNr = lx.d_colNr := rfl
  simp only [hl, hline, hcol, put_token, put_identOrLiteral]
  split_ifs with h1 h2
  · rfl
  · generalize lx.identOrLiteral pp (lx.d_line.getD lx.d_colNr 0) = r
    obtain ⟨x, o⟩ := r
    cases o with
    | none =>
        simp only
        rw [setBuffer_eq_put, put_punctuation]
    | some t => rfl
  · rw [identOrLiteral_other lx pp _ h2]
    simp only
    rw [put_punctuation]

theorem put_lineLoop (b : List EbnfToken) (l : EbnfToken) :
    ∀ (ins : List QByteArray) (lx : EbnfLexer) (pp : Bool),
      EbnfLexer.lineLoop ins (lx.put b l) pp
        = ((EbnfLexer.lineLoop ins lx pp).1.put b l, (EbnfLexer.lineLoop ins lx pp).2)
  | [], lx, pp => by
      unfold EbnfLexer.lineLoop
      have hline : (lx.put b l).d_line = lx.d_line := rfl
      have hcol : (lx.put b l).d_colNr = lx.d_colNr := rfl
      simp only [hline, hcol]
      split_ifs <;> rfl
  | raw :: rest, lx, pp => by
      unfold EbnfLexer.lineLoop
      have hline : (lx.put b l).d_line = lx.d_line := rfl
      have hcol : (lx.put b l).d_colNr = lx.d_colNr := rfl
      simp only [hline, hcol]
      split_ifs
      · have e : ((lx.put b l).nextLine raw rest).skipWhiteSpace
            = (((lx.nextLine raw rest).skipWhiteSpace).1.put b l,
                ((lx.nextLine raw rest).skipWhiteSpace).2) := rfl
        simp only [e]
        exact put_lineLoop b l rest _ _
      · rfl

/-- What `nextTokenImp` does is independent of the buffer and of the last
token, and it leaves the buffer as it is. -/
theorem put_nextTokenImp (lx : EbnfLexer) (b : List EbnfToken) (l : EbnfToken) :
    (lx.put b l).nextTokenImp = (lx.nextTokenImp.1.setBuffer b, lx.nextTokenImp.2) := by
  unfold EbnfLexer.nextTokenImp
  have hin : (lx.put b l).d_in = lx.d_in := rfl
  rw [hin]
  cases lx.d_in with
  | none => rfl
  | some ins =>
      simp only [put_skipWhiteSpace, put_lineLoop]
      generalize EbnfLexer.lineLoop ins lx.skipWhiteSpace.1 false = r
      obtain ⟨x, pp, e⟩ := r
      cases e with
      | true =>
          simp only [put_token]
          have ho : ((x.token .Eof 0 []).1.setBuffer b).ownsStream
              = (x.token .Eof 0 []).1.ownsStream := rfl
          simp only [ho]
          split_ifs <;> rfl
      | false =>
          simp only
          rw [put_lexAt]

theorem nextTokenImp_d_buffer (lx : EbnfLexer) : lx.nextTokenImp.1.d_buffer = lx.d_buffer := by
  have h := put_nextTokenImp lx lx.d_buffer lx.d_lastToken
  have e : lx.put lx.d_buffer lx.d_lastToken = lx := rfl
  rw [e] at h
  have := congrArg (fun r => r.1.d_buffer) h
  simpa [EbnfLexer.setBuffer] using this

theorem impTokens_succ (n : Nat) (lx : EbnfLexer) :
    EbnfLexer.impTokens (n + 1) lx
      = ((EbnfLexer.impTokens n lx.nextTokenImp.1).1,
          lx.nextTokenImp.2 :: (EbnfLexer.impTokens n lx.nextTokenImp.1).2) := rfl

theorem nextTokens_succ (n : Nat) (lx : EbnfLexer) :
    EbnfLexer.nextTokens (n + 1) lx
      = ((EbnfLexer.nextTokens n lx.nextToken.1).1,
          lx.nextToken.2 :: (EbnfLexer.nextTokens n lx.nextToken.1).2) := rfl

theorem impTokens_length (n : Nat) : ∀ lx : EbnfLexer, (EbnfLexer.impTokens n lx).2.length = n := by
  induction n with
  | zero => intro lx; rfl
  | succ n ih => intro lx; rw [impTokens_succ]; simp [ih]

/-- The tokens of `nextTokenImp` do not depend on the buffer or the last token. -/
theorem impTokens_put (n : Nat) :
    ∀ (lx : EbnfLexer) (b : List EbnfToken) (l : EbnfToken),
      (EbnfLexer.impTokens n (lx.put b l)).2 = (EbnfLexer.impTokens n lx).2 := by
  induction n with
  | zero => intro lx b l; rfl
  | succ n ih =>
      intro lx b l
      rw [impTokens_succ, impTokens_succ, put_nextTokenImp]
      simp only [setBuffer_eq_put, ih]

theorem impTokens_put_state (n : Nat) :
    ∀ (lx : EbnfLexer) (b : List EbnfToken) (l : EbnfToken),
      ∃ b1 l1, (EbnfLexer.impTokens n (lx.put b l)).1 = (EbnfLexer.impTokens n lx).1.put b1 l1 := by
  induction n with
  | zero => intro lx b l; exact ⟨b, l, rfl⟩
  | succ n ih =>
      intro lx b l
      rw [impTokens_succ, impTokens_succ, put_nextTokenImp]
      simp only [setBuffer_eq_put]
      exact ih _ _ _

theorem put_put (lx : EbnfLexer) (b c : List EbnfToken) (l m : EbnfToken) :
    (lx.put b l).put c m = lx.put c m := rfl

theorem impTokens_add (n : Nat) :
    ∀ (m : Nat) (lx : EbnfLexer),
      (EbnfLexer.impTokens (n + m) lx).2
        = (EbnfLexer.impTokens n lx).2
            ++ (EbnfLexer.impTokens m (EbnfLexer.impTokens n lx).1).2 := by
  induction n with
  | zero => intro m lx; simp [EbnfLexer.impTokens]
  | succ n ih =>
      intro m lx
      have e : n + 1 + m = (n + m) + 1 := by omega
      rw [e, impTokens_succ, impTokens_succ, ih]
      rfl

/-- The tokens `nextToken` delivers: first the buffer, then what
`nextTokenImp` delivers. -/
theorem nextTokens_eq (n : Nat) :
    ∀ lx : EbnfLexer,
      (EbnfLexer.nextTokens n lx).2 = (lx.d_buffer ++ (EbnfLexer.impTokens n lx).2).take n := by
  induction n with
  | zero => intro lx; simp [EbnfLexer.nextTokens]
  | succ n ih =>
      intro lx
      rw [nextTokens_succ]
      cases hb : lx.d_buffer with
      | nil =>
          have hn : lx.nextToken = lx.nextTokenImp := nextToken_empty_buffer lx hb
          rw [hn, ih, nextTokenImp_d_buffer, hb, impTokens_succ]
          simp
      | cons t rest =>
          have hn : lx.nextToken = (lx.put rest lx.d_lastToken, t) := by
            unfold EbnfLexer.nextToken
            rw [hb]
            rfl
          rw [hn]
          simp only
          rw [ih, impTokens_put]
          have hd : (lx.put rest lx.d_lastToken).d_buffer = rest := rfl
          rw [hd]
          have e := impTokens_add n 1 lx
          rw [e]
          have hl := impTokens_length n lx
          simp only [List.cons_append, List.take_succ_cons, List.cons.injEq, true_and]
          have ht : List.take n ((rest ++ (EbnfLexer.impTokens n lx).2)
                ++ (EbnfLexer.impTokens 1 (EbnfLexer.impTokens n lx).1).2)
              = List.take n (rest ++ (EbnfLexer.impTokens n lx).2) :=
            List.take_append_of_le_length (by simp [hl])
          rw [← List.append_assoc, ht]

/-- The loop of `peekToken` puts the next tokens of `nextTokenImp` behind the
buffer until it holds `k` tokens. -/
theorem peekLoop_spec (fuel : Nat) :
    ∀ (lx : EbnfLexer) (k : Nat), k ≤ lx.d_buffer.length + fuel →
      ∃ l, EbnfLexer.peekLoop fuel lx k
        = (EbnfLexer.impTokens (k - lx.d_buffer.length) lx).1.put
            (lx.d_buffer ++ (EbnfLexer.impTokens (k - lx.d_buffer.length) lx).2) l := by
  induction fuel with
  | zero =>
      intro lx k hk
      have e : k - lx.d_buffer.length = 0 := by omega
      rw [e]
      exact ⟨lx.d_lastToken, by simp [EbnfLexer.peekLoop, EbnfLexer.impTokens, EbnfLexer.put]⟩
  | succ fuel ih =>
      intro lx k hk
      rw [EbnfLexer.peekLoop]
      by_cases hlt : lx.d_buffer.length < k
      · simp only [hlt, if_true]
        have hb := nextTokenImp_d_buffer lx
        have hstate : ({ lx.nextTokenImp.1 with
              d_buffer := lx.nextTokenImp.1.d_buffer ++ [lx.nextTokenImp.2] } : EbnfLexer)
            = lx.nextTokenImp.1.put (lx.d_buffer ++ [lx.nextTokenImp.2])
                lx.nextTokenImp.1.d_lastToken := by
          rw [hb]; rfl
        rw [hstate]
        obtain ⟨l, hl⟩ := ih (lx.nextTokenImp.1.put (lx.d_buffer ++ [lx.nextTokenImp.2])
          lx.nextTokenImp.1.d_lastToken) k (by
            have : (lx.nextTokenImp.1.put (lx.d_buffer ++ [lx.nextTokenImp.2])
              lx.nextTokenImp.1.d_lastToken).d_buffer = lx.d_buffer ++ [lx.nextTokenImp.2] := rfl
            rw [this]; simp; omega)
        rw [hl]
        have hbuf : (lx.nextTokenImp.1.put (lx.d_buffer ++ [lx.nextTokenImp.2])
            lx.nextTokenImp.1.d_lastToken).d_buffer = lx.d_buffer ++ [lx.nextTokenImp.2] := rfl
        rw [hbuf]
        have hk1 : k - lx.d_buffer.length = (k - (lx.d_buffer ++ [lx.nextTokenImp.2]).length) + 1 := by
          simp; omega
        rw [hk1, impTokens_succ]
        generalize k - (lx.d_buffer ++ [lx.nextTokenImp.2]).length = m
        have h2 := impTokens_put m lx.nextTokenImp.1 (lx.d_buffer ++ [lx.nextTokenImp.2])
          lx.nextTokenImp.1.d_lastToken
        rw [h2]
        obtain ⟨b1, l1, h3⟩ := impTokens_put_state m lx.nextTokenImp.1
          (lx.d_buffer ++ [lx.nextTokenImp.2]) lx.nextTokenImp.1.d_lastToken
        rw [h3, put_put]
        exact ⟨l, by simp⟩
      · simp only [hlt, if_false]
        have e : k - lx.d_buffer.length = 0 := by omega
        rw [e]
        exact ⟨lx.d_lastToken, by simp [EbnfLexer.impTokens, EbnfLexer.put]⟩

theorem peekToken_state (lx : EbnfLexer) (k : Nat) :
    ∃ l, (lx.peekToken k).1
      = (EbnfLexer.impTokens (k - lx.d_buffer.length) lx).1.put
          (lx.d_buffer ++ (EbnfLexer.impTokens (k - lx.d_buffer.length) lx).2) l :=
  peekLoop_spec k lx k (by omega)

theorem take_append_impTokens (b : List EbnfToken) (lx : EbnfLexer) (n m : Nat) :
    (b ++ (EbnfLexer.impTokens (n + m) lx).2).take n
      = (b ++ (EbnfLexer.impTokens n lx).2).take n := by
  rw [impTokens_add, ← List.append_assoc]
  exact List.take_append_of_le_length (by simp [impTokens_length])

/-- The tokens `nextToken` delivers behind a call of `peekToken` are those it
delivers without that call. -/
theorem peek_keeps_tokens (lx : EbnfLexer) (k n : Nat) :
    (EbnfLexer.nextTokens n (lx.peekToken k).1).2 = (EbnfLexer.nextTokens n lx).2 := by
  obtain ⟨l, hl⟩ := peekToken_state lx k
  rw [nextTokens_eq, nextTokens_eq, hl, impTokens_put]
  have hb : ((EbnfLexer.impTokens (k - lx.d_buffer.length) lx).1.put
      (lx.d_buffer ++ (EbnfLexer.impTokens (k - lx.d_buffer.length) lx).2) l).d_buffer
      = lx.d_buffer ++ (EbnfLexer.impTokens (k - lx.d_buffer.length) lx).2 := rfl
  rw [hb, List.append_assoc, ← impTokens_add, Nat.add_comm, take_append_impTokens]

theorem peek_value (lx : EbnfLexer) (k : Nat) (hk : 1 ≤ k) :
    (lx.peekToken k).2 = (EbnfLexer.nextTokens k lx).2.getD (k - 1) EbnfToken.default := by
  obtain ⟨l, hl⟩ := peekToken_state lx k
  have hv : (lx.peekToken k).2
      = (lx.peekToken k).1.d_buffer.getD (k - 1) EbnfToken.default := rfl
  rw [hv, hl, nextTokens_eq]
  have hb : ((EbnfLexer.impTokens (k - lx.d_buffer.length) lx).1.put
      (lx.d_buffer ++ (EbnfLexer.impTokens (k - lx.d_buffer.length) lx).2) l).d_buffer
      = lx.d_buffer ++ (EbnfLexer.impTokens (k - lx.d_buffer.length) lx).2 := rfl
  rw [hb]
  have hk2 : k = (k - lx.d_buffer.length) + (k - (k - lx.d_buffer.length)) := by omega
  have hlen := impTokens_length (k - lx.d_buffer.length) lx
  have e : (lx.d_buffer ++ (EbnfLexer.impTokens k lx).2)
      = (lx.d_buffer ++ (EbnfLexer.impTokens (k - lx.d_buffer.length) lx).2)
          ++ (EbnfLexer.impTokens (k - (k - lx.d_buffer.length))
                (EbnfLexer.impTokens (k - lx.d_buffer.length) lx).1).2 := by
    conv_lhs => rw [hk2]
    rw [impTokens_add, List.append_assoc]
  rw [e]
  simp only [List.getD_eq_getElem?_getD]
  have h1 : ((lx.d_buffer ++ (EbnfLexer.impTokens (k - lx.d_buffer.length) lx).2)
      ++ (EbnfLexer.impTokens (k - (k - lx.d_buffer.length))
            (EbnfLexer.impTokens (k - lx.d_buffer.length) lx).1).2)[k - 1]?
      = (lx.d_buffer ++ (EbnfLexer.impTokens (k - lx.d_buffer.length) lx).2)[k - 1]? :=
    List.getElem?_append_left (by simp only [List.length_append, hlen]; omega)
  rw [List.getElem?_take_of_lt (by omega), h1]

theorem run_tokens :
    ∀ (calls : List LexerCall) (lx lx1 : EbnfLexer),
      (∀ n, (EbnfLexer.nextTokens n lx).2 = (EbnfLexer.nextTokens n lx1).2) →
      (lx.run calls).2 = (EbnfLexer.nextTokens (countNext calls) lx1).2
  | [], lx, lx1, _ => rfl
  | .next :: calls, lx, lx1, h => by
      have h1 := h 1
      simp only [nextTokens_succ, EbnfLexer.nextTokens, List.cons.injEq, and_true] at h1
      have ht : ∀ n, (EbnfLexer.nextTokens n lx.nextToken.1).2
          = (EbnfLexer.nextTokens n lx1.nextToken.1).2 := by
        intro n
        have := h (n + 1)
        simp only [nextTokens_succ, List.cons.injEq] at this
        exact this.2
      have ih := run_tokens calls lx.nextToken.1 lx1.nextToken.1 ht
      show lx.nextToken.2 :: (EbnfLexer.run calls lx.nextToken.1).2 = _
      rw [ih, h1]
      rfl
  | .peek k :: calls, lx, lx1, h => by
      show (EbnfLexer.run calls (lx.peekToken k).1).2 = _
      exact run_tokens calls (lx.peekToken k).1 lx1 (fun n => by rw [peek_keeps_tokens, h])

/-- Claim C24. `peekToken(k)` with `k >= 1` returns the token that the `k`-th
following call of `nextToken` returns, and whatever calls of `peekToken` are
made between the calls of `nextToken`, the calls of `nextToken` deliver the
tokens they deliver without them. -/
theorem peek_agrees_with_next (lx : EbnfLexer) (k : Nat) (hk : 1 ≤ k) :
    (lx.peekToken k).2 = (EbnfLexer.nextTokens k lx).2.getD (k - 1) EbnfToken.default ∧
    (EbnfLexer.nextTokens k lx).2.length = k ∧
    (∀ calls : List LexerCall,
      (lx.run calls).2 = (EbnfLexer.nextTokens (countNext calls) lx).2) := by
  refine ⟨peek_value lx k hk, ?_, fun calls => run_tokens calls lx lx (fun _ => rfl)⟩
  rw [nextTokens_eq]
  simp [impTokens_length]

/-- Witness of the theorem above: in the line `a b c` a look at the second
token gives `b`, and the calls of `nextToken` still deliver `a`, `b`, `c`. -/
theorem peek_agrees_with_next_witness :
    ((EbnfLexer.setStream [] [ba " a b c\n"]).peekToken 2).2
      = (EbnfLexer.nextTokens 2 (EbnfLexer.setStream [] [ba " a b c\n"])).2.getD (2 - 1)
          EbnfToken.default ∧
    ((EbnfLexer.setStream [] [ba " a b c\n"]).peekToken 2).2
      = { d_type := .NonTerm, d_lineNr := 1, d_colNr := 4, d_len := 1, d_val := ba "b",
          d_op := .Normal } ∧
    ((EbnfLexer.setStream [] [ba " a b c\n"]).run
        [.peek 2, .next, .peek 1, .peek 2, .next, .next]).2
      = (EbnfLexer.nextTokens 3 (EbnfLexer.setStream [] [ba " a b c\n"])).2 :=
  ⟨(peek_agrees_with_next (EbnfLexer.setStream [] [ba " a b c\n"]) 2 (by decide)).1,
    by decide,
    (peek_agrees_with_next (EbnfLexer.setStream [] [ba " a b c\n"]) 2 (by decide)).2.2
      [.peek 2, .next, .peek 1, .peek 2, .next, .next]⟩

/-! ## The start of a line -/

theorem headD_cons_of_ne (l : QByteArray) (x : Nat) (hx : x ≠ 0) (h : l.headD 0 = x) :
    ∃ l1, l = x :: l1 := by
  cases l with
  | nil => simp at h; exact absurd h.symm hx
  | cons a as => simp at h; exact ⟨as, by rw [h]⟩

theorem lookAhead_assign (lx : EbnfLexer)
    (h : lx.lookAhead 0 = 58 ∧ lx.lookAhead 1 = 58 ∧ lx.lookAhead 2 = 61) :
    ∃ tail, lx.rest = 58 :: 58 :: 61 :: tail := by
  obtain ⟨h0, h1, h2⟩ := h
  rw [lookAhead_eq] at h0 h1 h2
  obtain ⟨l1, e1⟩ := headD_cons_of_ne _ 58 (by decide) h0
  simp only [List.drop_zero] at e1
  rw [e1] at h1 h2
  simp only [List.drop_succ_cons, List.drop_zero] at h1 h2
  obtain ⟨l2, e2⟩ := headD_cons_of_ne _ 58 (by decide) h1
  rw [e2] at h2
  simp only [List.drop_succ_cons, List.drop_zero] at h2
  obtain ⟨l3, e3⟩ := headD_cons_of_ne _ 61 (by decide) h2
  exact ⟨l3, by rw [e1, e2, e3]⟩

theorem suffixOp_split (after : QByteArray) :
    ∃ op, after = op ++ after.drop (suffixOp after).2 ∧ opSuffix op = some (suffixOp after).1 := by
  unfold suffixOp
  split
  · exact ⟨[42], rfl, rfl⟩
  · exact ⟨[33], rfl, rfl⟩
  · exact ⟨[45], rfl, rfl⟩
  · exact ⟨[], rfl, rfl⟩

theorem readOp_d_line (lx : EbnfLexer) : lx.readOp.1.d_line = lx.d_line := by
  unfold EbnfLexer.readOp
  split <;> rfl

theorem readOp_d_lineNr (lx : EbnfLexer) : lx.readOp.1.d_lineNr = lx.d_lineNr := by
  unfold EbnfLexer.readOp
  split <;> rfl

theorem ident_d_line (lx : EbnfLexer) : lx.ident.1.d_line = lx.d_line := by
  unfold EbnfLexer.ident
  simp only [readOp_d_line]
  rfl

theorem ident_d_lineNr (lx : EbnfLexer) : lx.ident.1.d_lineNr = lx.d_lineNr := by
  unfold EbnfLexer.ident
  simp only [readOp_d_lineNr]
  rfl

theorem literal_d_line (lx : EbnfLexer) : lx.literal.1.d_line = lx.d_line := by
  unfold EbnfLexer.literal
  simp only [readOp_d_line]
  rfl

theorem literal_d_lineNr (lx : EbnfLexer) : lx.literal.1.d_lineNr = lx.d_lineNr := by
  unfold EbnfLexer.literal
  simp only [readOp_d_lineNr]
  rfl

theorem ident_rest (lx : EbnfLexer) :
    lx.ident.1.rest
      = (lx.rest.drop (lx.rest.takeWhile isIdentChar).length).drop
          (suffixOp (lx.rest.drop (lx.rest.takeWhile isIdentChar).length)).2 := by
  have h := (ident_token lx).2
  simp only [EbnfLexer.rest, ident_d_line, List.drop_drop] at h ⊢
  rw [h]

theorem literal_rest (lx : EbnfLexer) :
    lx.literal.1.rest
      = (lx.rest.drop (literalScan (lx.rest.drop 1) 1 + 1)).drop
          (suffixOp (lx.rest.drop (literalScan (lx.rest.drop 1) 1 + 1))).2 := by
  have h := (literal_token lx).2.2.2.2.2
  simp only [EbnfLexer.rest, literal_d_line, List.drop_drop] at h ⊢
  rw [h]

theorem literalScan_ge (r : QByteArray) (o : Nat) : o ≤ literalScan r o := by
  induction r, o using literalScan.induct with
  | case1 off => simp [literalScan]
  | case2 off => simp [literalScan]
  | case3 off _ => simp [literalScan]
  | case4 c off h1 h2 => simp [literalScan, h1, h2]
  | case5 d rest off ih => simp only [literalScan, if_true]; omega
  | case6 d rest off _ => simp [literalScan]
  | case7 c d rest off h1 h2 ih => simp only [literalScan, h1, h2, if_false]; omega

/-- The loop of `literal` stops inside the line only at a closing quote. -/
theorem literalScan_found (r : QByteArray) (o : Nat) :
    literalScan r o < o + r.length →
      isQuotedBody (r.take (literalScan r o - o + 1)) = true := by
  induction r, o using literalScan.induct with
  | case1 off => intro h; simp [literalScan] at h
  | case2 off => intro h; simp [literalScan] at h
  | case3 off _ => intro _; simp [literalScan, isQuotedBody]
  | case4 c off h1 h2 => intro h; simp [literalScan, h1, h2] at h
  | case5 d rest off ih =>
      intro h
      simp only [literalScan, if_true, List.length_cons] at h ⊢
      have hge := literalScan_ge rest (off + 2)
      have h1 := ih (by omega)
      have e : literalScan rest (off + 2) - off + 1
          = (literalScan rest (off + 2) - (off + 2) + 1) + 2 := by omega
      rw [e]
      simpa [isQuotedBody] using h1
  | case6 d rest off _ => intro _; simp [literalScan, isQuotedBody]
  | case7 c d rest off h1 h2 ih =>
      intro h
      simp only [literalScan, h1, h2, if_false, List.length_cons] at h ⊢
      have hge := literalScan_ge (d :: rest) (off + 1)
      have h3 := ih (by simp only [List.length_cons]; omega)
      have e : literalScan (d :: rest) (off + 1) - off + 1
          = (literalScan (d :: rest) (off + 1) - (off + 1)) + 1 + 1 := by omega
      rw [e]
      simpa [isQuotedBody, h1, h2] using h3

theorem punctuation_true (lx : EbnfLexer) (ch : Nat) :
    lx.punctuation true ch = lx.token .Invalid 0 (ba "production or comment expected") := by
  rw [EbnfLexer.punctuation, if_pos rfl]

theorem getD_of_rest (lx : EbnfLexer) (c : Nat) (r : QByteArray) (hrest : lx.rest = c :: r) :
    lx.d_line.getD lx.d_colNr 0 = c := by
  unfold EbnfLexer.rest at hrest
  rw [getD_eq_headD_drop, hrest]
  rfl

theorem lookAhead_one_of_rest (lx : EbnfLexer) (c : Nat) (r : QByteArray)
    (hrest : lx.rest = c :: r) : lx.lookAhead 1 = r.headD 0 := by
  rw [lookAhead_eq, hrest]
  rfl

/-- The second loop of `nextTokenImp` at the start of a line, in front of an
identifier. -/
theorem lexAt_true_ident (lx : EbnfLexer) (c : Nat) (r : QByteArray) (hrest : lx.rest = c :: r)
    (hc : (isalnum c || c == 36) = true) :
    (lx.lexAt true).2 =
      if lx.ident.1.skipWhiteSpace.1.lookAhead 0 = 58 ∧
          lx.ident.1.skipWhiteSpace.1.lookAhead 1 = 58 ∧
          lx.ident.1.skipWhiteSpace.1.lookAhead 2 = 61 then
        { lx.ident.2 with d_type := .Production }
      else
        (lx.ident.1.skipWhiteSpace.1.token .Invalid 0 (ba "production or comment expected")).2 := by
  have hch := getD_of_rest lx c r hrest
  have hnc : c ≠ 47 := by
    intro h47; subst h47; simp [isalnum] at hc
  unfold EbnfLexer.lexAt
  simp only [hch, hnc, false_and, if_false]
  unfold EbnfLexer.identOrLiteral
  simp only [hc, if_true]
  split_ifs
  · rfl
  · show (EbnfLexer.punctuation _ true c).2 = _
    rw [punctuation_true]

/-- The second loop of `nextTokenImp` at the start of a line, in front of a
quote. -/
theorem lexAt_true_literal (lx : EbnfLexer) (r : QByteArray) (hrest : lx.rest = 39 :: r) :
    (lx.lexAt true).2 =
      if lx.literal.1.skipWhiteSpace.1.lookAhead 0 = 58 ∧
          lx.literal.1.skipWhiteSpace.1.lookAhead 1 = 58 ∧
          lx.literal.1.skipWhiteSpace.1.lookAhead 2 = 61 then
        { lx.literal.2 with d_type := .Production }
      else
        (lx.literal.1.skipWhiteSpace.1.token .Invalid 0
          (ba "production or comment expected")).2 := by
  have hch := getD_of_rest lx 39 r hrest
  unfold EbnfLexer.lexAt
  simp only [hch, show (39 : Nat) ≠ 47 by decide, false_and, if_false]
  unfold EbnfLexer.identOrLiteral
  simp only [show (isalnum 39 || (39 : Nat) == 36) = false by decide, Bool.false_eq_true,
    if_false, if_true]
  split_ifs
  · rfl
  · show (EbnfLexer.punctuation _ true 39).2 = _
    rw [punctuation_true]

/-- The second loop of `nextTokenImp` at the start of a line, in front of any
other byte that does not start a comment. -/
theorem lexAt_true_other (lx : EbnfLexer) (c : Nat) (r : QByteArray) (hrest : lx.rest = c :: r)
    (hc : (isalnum c || c == 36) = false) (hq : c ≠ 39)
    (hcom : startsComment (c :: r) = false) :
    (lx.lexAt true).2 = (lx.token .Invalid 0 (ba "production or comment expected")).2 := by
  have hch := getD_of_rest lx c r hrest
  have hla := lookAhead_one_of_rest lx c r hrest
  have hno : ¬(c = 47 ∧ lx.lookAhead 1 = 47) := by
    rintro ⟨h1, h2⟩
    subst h1
    rw [hla] at h2
    cases r with
    | nil => simp at h2
    | cons y ys =>
        simp only [List.headD_cons] at h2
        subst h2
        simp [startsComment] at hcom
  unfold EbnfLexer.lexAt
  simp only [hch, hno, if_false]
  unfold EbnfLexer.identOrLiteral
  simp only [hc, Bool.false_eq_true, if_false, hq]
  rw [punctuation_true]

theorem lexAt_comment (lx : EbnfLexer) (pp : Bool) (r : QByteArray)
    (hrest : lx.rest = 47 :: 47 :: r) :
    (lx.lexAt pp).2 =
      { d_type := .Comment, d_lineNr := lx.d_lineNr, d_colNr := lx.d_colNr + 1,
        d_len := lx.d_line.length - lx.d_colNr, d_val := trimmed r, d_op := .Normal } := by
  have hch := getD_of_rest lx 47 (47 :: r) hrest
  have hla := lookAhead_one_of_rest lx 47 (47 :: r) hrest
  have hm : midFrom lx.d_line (lx.d_colNr + 2) = r := by
    unfold EbnfLexer.rest at hrest
    unfold midFrom
    have : lx.d_line.drop (lx.d_colNr + 2) = (lx.d_line.drop lx.d_colNr).drop 2 := by
      rw [List.drop_drop, Nat.add_comm]
    rw [this, hrest]
    rfl
  unfold EbnfLexer.lexAt
  simp only [hch, hla, List.headD_cons, and_self, if_true, hm]
  rfl

theorem ws_split (a : QByteArray) (tail : QByteArray)
    (h : a.dropWhile isspace = 58 :: 58 :: 61 :: tail) :
    ∃ ws, a = ws ++ 58 :: 58 :: 61 :: tail ∧ ws.all isspace = true := by
  refine ⟨a.takeWhile isspace, ?_, ?_⟩
  · rw [← h, List.takeWhile_append_dropWhile]
  · simp only [List.all_eq_true]
    intro x hx
    exact List.mem_takeWhile_imp hx

/-- When the lexer finds `::=` behind an identifier at the start of a line, the
line is a production header. -/
theorem header_of_ident (lx : EbnfLexer) (c : Nat) (r : QByteArray) (hrest : lx.rest = c :: r)
    (hc : (isalnum c || c == 36) = true)
    (hla : lx.ident.1.skipWhiteSpace.1.lookAhead 0 = 58 ∧
      lx.ident.1.skipWhiteSpace.1.lookAhead 1 = 58 ∧
      lx.ident.1.skipWhiteSpace.1.lookAhead 2 = 61) :
    IsProductionHeader (c :: r) := by
  obtain ⟨tail, ht⟩ := lookAhead_assign _ hla
  rw [rest_skipWhiteSpace, ident_rest] at ht
  obtain ⟨op, hop1, hop2⟩ :=
    suffixOp_split (lx.rest.drop (lx.rest.takeWhile isIdentChar).length)
  obtain ⟨ws, hws1, hws2⟩ := ws_split _ tail ht
  have hic : isIdentChar c = true := by
    simp only [isIdentChar, Bool.or_eq_true] at hc ⊢
    rcases hc with h | h
    · exact Or.inl (Or.inl h)
    · exact Or.inr h
  have hlexeme : lx.rest.takeWhile isIdentChar = c :: r.takeWhile isIdentChar := by
    rw [hrest, List.takeWhile_cons, if_pos hic]
  refine ⟨lx.rest.takeWhile isIdentChar, op, ws, tail, _, ?_, Or.inl ?_, hop2, hws2⟩
  · rw [← hws1, ← hop1, ← hrest]
    exact (List.take_append_drop _ _).symm.trans (by
      rw [(List.prefix_iff_eq_take.mp (List.takeWhile_prefix isIdentChar)).symm])
  · rw [hlexeme]
    simp only [isIdentifier, Bool.and_eq_true, List.all_eq_true]
    exact ⟨by simpa using hc, fun x hx => List.mem_takeWhile_imp hx⟩

/-- When the lexer finds `::=` behind a literal at the start of a line, the
literal is terminated and the line is a production header. -/
theorem header_of_literal (lx : EbnfLexer) (r : QByteArray) (hrest : lx.rest = 39 :: r)
    (hla : lx.literal.1.skipWhiteSpace.1.lookAhead 0 = 58 ∧
      lx.literal.1.skipWhiteSpace.1.lookAhead 1 = 58 ∧
      lx.literal.1.skipWhiteSpace.1.lookAhead 2 = 61) :
    IsProductionHeader (39 :: r) := by
  obtain ⟨tail, ht⟩ := lookAhead_assign _ hla
  rw [rest_skipWhiteSpace, literal_rest] at ht
  have hd : lx.rest.drop 1 = r := by rw [hrest]; rfl
  have hd2 : lx.rest.drop (literalScan r 1 + 1) = r.drop (literalScan r 1) := by
    rw [hrest]; rfl
  rw [hd, hd2] at ht
  obtain ⟨op, hop1, hop2⟩ := suffixOp_split (r.drop (literalScan r 1))
  obtain ⟨ws, hws1, hws2⟩ := ws_split _ tail ht
  have hne : r.drop (literalScan r 1) ≠ [] := by
    intro h
    rw [h] at hws1
    simp [suffixOp] at hws1
  have hlt : literalScan r 1 < r.length := by
    by_contra hge
    exact hne (List.drop_eq_nil_of_le (by omega))
  have hge := literalScan_ge r 1
  have hq := literalScan_found r 1 (by omega)
  have e : literalScan r 1 - 1 + 1 = literalScan r 1 := by omega
  rw [e] at hq
  refine ⟨39 :: r.take (literalScan r 1), op, ws, tail, _, ?_, Or.inr ?_, hop2, hws2⟩
  · rw [← hws1, ← hop1]
    simp
  · simpa [isQuotedLiteral] using hq

theorem header_first_byte (line : QByteArray) (h : IsProductionHeader line) :
    ∃ c r, line = c :: r ∧ ((isalnum c || c == 36) = true ∨ c = 39) := by
  obtain ⟨lexeme, op, ws, tail, hh, hline, hlex, _, _⟩ := h
  rcases hlex with hl | hl
  · obtain ⟨_, c, cs, rfl, hc⟩ := isIdentifier_all lexeme hl
    exact ⟨c, _, by rw [hline]; rfl, Or.inl hc⟩
  · unfold isQuotedLiteral at hl
    split at hl
    · exact ⟨39, _, by rw [hline]; rfl, Or.inr rfl⟩
    · simp at hl

theorem not_header_of_first_byte (c : Nat) (r : QByteArray)
    (h1 : (isalnum c || c == 36) = false) (h2 : c ≠ 39) : ¬IsProductionHeader (c :: r) := by
  intro h
  obtain ⟨c1, r1, e, hc⟩ := header_first_byte _ h
  simp only [List.cons.injEq] at e
  obtain ⟨rfl, _⟩ := e
  rcases hc with hc | hc
  · rw [h1] at hc; exact absurd hc (by decide)
  · exact h2 hc

theorem skipWhiteSpace_d_lineNr (lx : EbnfLexer) :
    lx.skipWhiteSpace.1.d_lineNr = lx.d_lineNr := rfl

/-- What the second loop of `nextTokenImp` returns at the start of a line. -/
theorem lexAt_true_classes (lx : EbnfLexer) (c : Nat) (r : QByteArray)
    (hrest : lx.rest = c :: r) :
    (startsComment (c :: r) = true → (lx.lexAt true).2.d_type = .Comment) ∧
    (IsProductionHeader (c :: r) → (lx.lexAt true).2.d_type = .Production) ∧
    (startsComment (c :: r) = false → ¬IsProductionHeader (c :: r) →
      (lx.lexAt true).2.d_type = .Invalid ∧
      (lx.lexAt true).2.d_val = ba "production or comment expected" ∧
      (lx.lexAt true).2.d_lineNr = lx.d_lineNr ∧
      (lx.lexAt true).2.d_len = 0) := by
  refine ⟨?_, ?_, ?_⟩
  · intro h
    unfold startsComment at h
    split at h
    · rename_i _ r1 heq
      simp only [List.cons.injEq] at heq
      obtain ⟨rfl, rfl⟩ := heq
      rw [lexAt_comment lx true r1 hrest]
    · simp at h
  · rintro ⟨lexeme, op, ws, tail, h, hline, hlex, hop, hws⟩
    rcases hlex with hl | hl
    · rw [lexAt_ident_header lx lexeme op ws tail h (hrest.trans hline) hl hop hws]
    · rw [lexAt_literal_header lx lexeme op ws tail h (hrest.trans hline) hl hop hws]
  · intro hcom hnh
    by_cases hc : (isalnum c || c == 36) = true
    · rw [lexAt_true_ident lx c r hrest hc]
      split_ifs with hla
      · exact absurd (header_of_ident lx c r hrest hc hla) hnh
      · exact ⟨rfl, rfl, by
          show lx.ident.1.skipWhiteSpace.1.d_lineNr = _
          rw [skipWhiteSpace_d_lineNr, ident_d_lineNr], rfl⟩
    · by_cases hq : c = 39
      · subst hq
        rw [lexAt_true_literal lx r hrest]
        split_ifs with hla
        · exact absurd (header_of_literal lx r hrest hla) hnh
        · exact ⟨rfl, rfl, by
            show lx.literal.1.skipWhiteSpace.1.d_lineNr = _
            rw [skipWhiteSpace_d_lineNr, literal_d_lineNr], rfl⟩
      · rw [lexAt_true_other lx c r hrest (by simpa using hc) hq hcom]
        exact ⟨rfl, rfl, rfl, rfl⟩

theorem takeWhile_all (p : Nat → Bool) (l : QByteArray) (h : l.all p = true) :
    l.takeWhile p = l :=
  List.takeWhile_eq_self_iff.mpr (by simpa using h)

/-- The first loop of `nextTokenImp` passes lines of white space and stops at
the start of a line whose first byte is not white space. -/
theorem lineLoop_blank_lines (raw : QByteArray) (rest : List QByteArray) (c : Nat)
    (r : QByteArray) (hline : chopLine raw = c :: r) (hc : isspace c = false) :
    ∀ (blanks : List QByteArray) (lx : EbnfLexer) (pp : Bool),
      lx.d_line.length ≤ lx.d_colNr →
      (∀ b ∈ blanks, (chopLine b).all isspace = true) →
      EbnfLexer.lineLoop (blanks ++ raw :: rest) lx pp
        = ({ lx with d_in := some rest, d_lineNr := lx.d_lineNr + blanks.length + 1,
                     d_colNr := 0, d_line := c :: r }, true, false)
  | [], lx, pp, hcol, _ => by
      simp only [List.nil_append, List.length_nil, Nat.add_zero]
      unfold EbnfLexer.lineLoop
      simp only [hcol, if_true, EbnfLexer.nextLine, EbnfLexer.skipWhiteSpace, hline,
        List.drop_zero, List.takeWhile_cons, hc, Bool.false_eq_true, if_false, List.length_nil,
        Nat.add_zero, beq_self_eq_true]
      cases rest with
      | nil => simp [EbnfLexer.lineLoop]
      | cons r1 rs => simp [EbnfLexer.lineLoop]
  | b :: bs, lx, pp, hcol, hb => by
      have hbl : (chopLine b).all isspace = true := hb b (List.mem_cons_self _ _)
      rw [List.cons_append, EbnfLexer.lineLoop]
      simp only [hcol, if_true]
      have hskip : ((lx.nextLine b (bs ++ raw :: rest)).skipWhiteSpace).1
          = { lx.nextLine b (bs ++ raw :: rest) with d_colNr := (chopLine b).length } := by
        simp [EbnfLexer.skipWhiteSpace, EbnfLexer.nextLine, takeWhile_all isspace _ hbl]
      rw [hskip]
      rw [lineLoop_blank_lines raw rest c r hline hc bs _ _ (by simp [EbnfLexer.nextLine])
        (fun x hx => hb x (List.mem_cons_of_mem _ hx))]
      simp only [EbnfLexer.nextLine, List.length_cons]
      have e : lx.d_lineNr + 1 + bs.length + 1 = lx.d_lineNr + (bs.length + 1) + 1 := by omega
      rw [e]

/-- Reading on to the next line that starts with a byte other than white
space: the lexer stands at column 0 of that line with `potentialProduction`
set. -/
theorem nextTokenImp_next_line (lx : EbnfLexer) (blanks : List QByteArray) (raw : QByteArray)
    (rest : List QByteArray) (c : Nat) (r : QByteArray)
    (hin : lx.d_in = some (blanks ++ raw :: rest))
    (hrest : lx.rest.all isspace = true)
    (hblank : ∀ b ∈ blanks, (chopLine b).all isspace = true)
    (hline : chopLine raw = c :: r) (hc : isspace c = false) :
    lx.nextTokenImp =
      EbnfLexer.lexAt { lx with d_in := some rest, d_lineNr := lx.d_lineNr + blanks.length + 1,
                                d_colNr := 0, d_line := c :: r } true := by
  have hlen : (lx.d_line.drop lx.d_colNr).length = lx.d_line.length - lx.d_colNr :=
    List.length_drop _ _
  have hused : lx.skipWhiteSpace.1.d_line.length ≤ lx.skipWhiteSpace.1.d_colNr := by
    unfold EbnfLexer.rest at hrest
    simp only [EbnfLexer.skipWhiteSpace, takeWhile_all isspace _ hrest, hlen]
    omega
  unfold EbnfLexer.nextTokenImp
  rw [hin]
  simp only
  rw [lineLoop_blank_lines raw rest c r hline hc blanks _ false hused hblank]
  rfl

/-- Claim C29. When the lexer reads on to a line whose first byte is not white
space, it returns a Comment token if the line starts with `//` and a
Production token if the line is a production header; for every other line it
returns an Invalid token of length 0 with the message
`production or comment expected`. -/
theorem line_start_comment_header_or_invalid (lx : EbnfLexer) (blanks : List QByteArray)
    (raw : QByteArray) (rest : List QByteArray) (c : Nat) (r : QByteArray)
    (hin : lx.d_in = some (blanks ++ raw :: rest))
    (hrest : lx.rest.all isspace = true)
    (hblank : ∀ b ∈ blanks, (chopLine b).all isspace = true)
    (hline : chopLine raw = c :: r) (hc : isspace c = false) :
    (startsComment (c :: r) = true → lx.nextTokenImp.2.d_type = .Comment) ∧
    (IsProductionHeader (c :: r) → lx.nextTokenImp.2.d_type = .Production) ∧
    (startsComment (c :: r) = false → ¬IsProductionHeader (c :: r) →
      lx.nextTokenImp.2.d_type = .Invalid ∧
      lx.nextTokenImp.2.d_val = ba "production or comment expected" ∧
      lx.nextTokenImp.2.d_lineNr = lx.d_lineNr + blanks.length + 1 ∧
      lx.nextTokenImp.2.d_len = 0) := by
  rw [nextTokenImp_next_line lx blanks raw rest c r hin hrest hblank hline hc]
  exact lexAt_true_classes _ c r (by simp [EbnfLexer.rest])

/-- Witness of the theorem above: behind an empty line, the line `( a )` gives
the Invalid token. -/
theorem line_start_comment_header_or_invalid_witness :
    (EbnfLexer.setStream [] [ba "\n", ba "( a )\n"]).nextTokenImp.2.d_type = .Invalid ∧
    (EbnfLexer.setStream [] [ba "\n", ba "( a )\n"]).nextTokenImp.2.d_val
      = ba "production or comment expected" ∧
    (EbnfLexer.setStream [] [ba "\n", ba "( a )\n"]).nextTokenImp.2.d_lineNr
      = (EbnfLexer.setStream [] [ba "\n", ba "( a )\n"]).d_lineNr + [ba "\n"].length + 1 ∧
    (EbnfLexer.setStream [] [ba "\n", ba "( a )\n"]).nextTokenImp.2.d_len = 0 :=
  (line_start_comment_header_or_invalid (EbnfLexer.setStream [] [ba "\n", ba "( a )\n"])
    [ba "\n"] (ba "( a )\n") [] 40 (ba " a )") rfl (by decide) (by decide) (by decide)
    (by decide)).2.2
    (by decide) (not_header_of_first_byte 40 _ (by decide) (by decide))

/-! ## Positions of tokens -/

theorem advanced_refl (x : EbnfLexer) : x.Advanced x :=
  ⟨rfl, rfl, rfl, rfl, rfl, Nat.le_refl _⟩

theorem advanced_trans (x y z : EbnfLexer) (h1 : x.Advanced y) (h2 : y.Advanced z) :
    x.Advanced z := by
  unfold EbnfLexer.Advanced at h1 h2 ⊢
  refine ⟨?_, ?_, ?_, ?_, ?_, ?_⟩
  · rw [h2.1, h1.1]
  · rw [h2.2.1, h1.2.1]
  · rw [h2.2.2.1, h1.2.2.1]
  · rw [h2.2.2.2.1, h1.2.2.2.1]
  · rw [h2.2.2.2.2.1, h1.2.2.2.2.1]
  · exact Nat.le_trans h1.2.2.2.2.2 h2.2.2.2.2.2

theorem advanced_skipWhiteSpace (x : EbnfLexer) : x.Advanced x.skipWhiteSpace.1 :=
  ⟨rfl, rfl, rfl, rfl, rfl, Nat.le_add_right _ _⟩

theorem advanced_token (x : EbnfLexer) (tt : TokenType) (len : Nat) (v : QByteArray) :
    x.Advanced (x.token tt len v).1 ∧ x.d_colNr + len = (x.token tt len v).1.d_colNr :=
  ⟨⟨rfl, rfl, rfl, rfl, rfl, Nat.le_add_right _ _⟩, rfl⟩

theorem advanced_readOp (x : EbnfLexer) : x.Advanced x.readOp.1 := by
  unfold EbnfLexer.readOp
  split
  · exact ⟨rfl, rfl, rfl, rfl, rfl, Nat.le_add_right _ _⟩
  · exact ⟨rfl, rfl, rfl, rfl, rfl, Nat.le_add_right _ _⟩
  · exact ⟨rfl, rfl, rfl, rfl, rfl, Nat.le_add_right _ _⟩
  · exact advanced_refl x

theorem makes_token (x : EbnfLexer) (tt : TokenType) (len : Nat) (v : QByteArray)
    (h : tt ≠ .Eof) : MakesTokenAt x (x.token tt len v) :=
  ⟨(advanced_token x tt len v).1, rfl, rfl, Nat.le_refl _, h⟩

theorem makes_ident (x : EbnfLexer) : MakesTokenAt x x.ident := by
  have e : x.ident
      = ((x.token .NonTerm (x.rest.takeWhile isIdentChar).length
            (mid x.d_line x.d_colNr (x.rest.takeWhile isIdentChar).length)).1.readOp.1,
          { (x.token .NonTerm (x.rest.takeWhile isIdentChar).length
              (mid x.d_line x.d_colNr (x.rest.takeWhile isIdentChar).length)).2 with
            d_op := (x.token .NonTerm (x.rest.takeWhile isIdentChar).length
              (mid x.d_line x.d_colNr
                (x.rest.takeWhile isIdentChar).length)).1.readOp.2 }) := rfl
  rw [e]
  obtain ⟨h1, h2⟩ := advanced_token x .NonTerm (x.rest.takeWhile isIdentChar).length
    (mid x.d_line x.d_colNr (x.rest.takeWhile isIdentChar).length)
  have h3 := advanced_readOp (x.token .NonTerm (x.rest.takeWhile isIdentChar).length
    (mid x.d_line x.d_colNr (x.rest.takeWhile isIdentChar).length)).1
  refine ⟨advanced_trans _ _ _ h1 h3, rfl, rfl, ?_, by simp [EbnfLexer.token, EbnfToken.make]⟩
  have := h3.2.2.2.2.2
  simp only [EbnfLexer.token, EbnfToken.make] at this ⊢
  exact this

theorem makes_literal (x : EbnfLexer) : MakesTokenAt x x.literal := by
  have e : ∃ len v, x.literal
      = ((x.token .Literal len v).1.readOp.1,
          { (x.token .Literal len v).2 with d_op := (x.token .Literal len v).1.readOp.2 }) :=
    ⟨_, _, rfl⟩
  obtain ⟨len, v, e⟩ := e
  rw [e]
  obtain ⟨h1, h2⟩ := advanced_token x .Literal len v
  have h3 := advanced_readOp (x.token .Literal len v).1
  refine ⟨advanced_trans _ _ _ h1 h3, rfl, rfl, ?_, by simp [EbnfLexer.token, EbnfToken.make]⟩
  have := h3.2.2.2.2.2
  simp only [EbnfLexer.token, EbnfToken.make] at this ⊢
  exact this

theorem makes_attribute (x : EbnfLexer) : MakesTokenAt x x.attribute :=
  makes_token x .Predicate _ _ (by decide)

theorem makes_retyped (x l1 : EbnfLexer) (t : EbnfToken) (tt : TokenType) (htt : tt ≠ .Eof)
    (h : MakesTokenAt x (l1, t)) : MakesTokenAt x (l1, { t with d_type := tt }) :=
  ⟨h.1, h.2.1, h.2.2.1, h.2.2.2.1, htt⟩

theorem makes_later (x y : EbnfLexer) (res : EbnfLexer × EbnfToken) (hy : y.Advanced res.1)
    (h : MakesTokenAt x (y, res.2)) : MakesTokenAt x res :=
  ⟨advanced_trans _ _ _ h.1 hy, h.2.1, h.2.2.1, Nat.le_trans h.2.2.2.1 hy.2.2.2.2.2, h.2.2.2.2⟩

theorem makes_punctuation (x : EbnfLexer) (pp : Bool) (ch : Nat) :
    MakesTokenAt x (x.punctuation pp ch) := by
  unfold EbnfLexer.punctuation
  split_ifs
  all_goals first
    | exact makes_attribute x
    | exact makes_token x _ _ _ (by decide)

theorem identOrLiteral_position (x : EbnfLexer) (pp : Bool) (ch : Nat) :
    match x.identOrLiteral pp ch with
    | (l1, some t) => MakesTokenAt x (l1, t)
    | (l1, none) => x.Advanced l1 ∧ (l1 = x ∨ pp = true) := by
  unfold EbnfLexer.identOrLiteral
  have hi := makes_ident x
  have hl := makes_literal x
  generalize x.ident = ri at hi
  generalize x.literal = rl at hl
  obtain ⟨xi, ti⟩ := ri
  obtain ⟨xl, tl⟩ := rl
  simp only
  cases pp
  · by_cases h1 : (isalnum ch || ch == 36) = true
    · simp only [h1, if_true, Bool.false_eq_true, if_false]
      split_ifs
      · exact makes_retyped x xi ti .Keyword (by decide) hi
      · exact hi
    · simp only [h1, if_false, Bool.false_eq_true]
      by_cases h2 : ch = 39
      · simp only [h2, if_true]
        exact hl
      · simp only [h2, if_false]
        exact ⟨advanced_refl x, Or.inl trivial⟩
  · by_cases h1 : (isalnum ch || ch == 36) = true
    · simp only [h1, if_true]
      split_ifs
      · exact makes_later x xi (xi.skipWhiteSpace.1, _) (advanced_skipWhiteSpace xi)
          (makes_retyped x xi ti .Production (by decide) hi)
      · exact ⟨advanced_trans _ _ _ hi.1 (advanced_skipWhiteSpace xi), Or.inr trivial⟩
    · simp only [h1, if_false, if_true, Bool.false_eq_true]
      by_cases h2 : ch = 39
      · simp only [h2, if_true]
        split_ifs
        · exact makes_later x xl (xl.skipWhiteSpace.1, _) (advanced_skipWhiteSpace xl)
            (makes_retyped x xl tl .Production (by decide) hl)
        · exact ⟨advanced_trans _ _ _ hl.1 (advanced_skipWhiteSpace xl), Or.inr trivial⟩
      · simp only [h2, if_false]
        exact ⟨advanced_refl x, Or.inl trivial⟩

/-- The position of the token the second loop of `nextTokenImp` returns. -/
theorem lexAt_position (x : EbnfLexer) (pp : Bool) :
    x.Advanced (x.lexAt pp).1 ∧ (x.lexAt pp).2.d_lineNr = x.d_lineNr ∧
    1 ≤ (x.lexAt pp).2.d_colNr ∧ (x.lexAt pp).2.d_type ≠ .Eof ∧
    ((x.lexAt pp).2.d_type ≠ .Invalid →
      (x.lexAt pp).2.d_colNr = x.d_colNr + 1 ∧
        x.d_colNr + (x.lexAt pp).2.d_len ≤ (x.lexAt pp).1.d_colNr) := by
  have hmk : ∀ res : EbnfLexer × EbnfToken, MakesTokenAt x res →
      x.Advanced res.1 ∧ res.2.d_lineNr = x.d_lineNr ∧ 1 ≤ res.2.d_colNr ∧
      res.2.d_type ≠ .Eof ∧
      (res.2.d_type ≠ .Invalid →
        res.2.d_colNr = x.d_colNr + 1 ∧ x.d_colNr + res.2.d_len ≤ res.1.d_colNr) := by
    intro res h
    exact ⟨h.1, h.2.1, by rw [h.2.2.1]; omega, h.2.2.2.2, fun _ => ⟨h.2.2.1, h.2.2.2.1⟩⟩
  unfold EbnfLexer.lexAt
  simp only
  split_ifs with hcom
  · exact hmk _ (makes_token x .Comment _ _ (by decide))
  · have hs := identOrLiteral_position x pp (x.d_line.getD x.d_colNr 0)
    generalize x.identOrLiteral pp (x.d_line.getD x.d_colNr 0) = r at hs
    obtain ⟨l1, o⟩ := r
    cases o with
    | some t => exact hmk _ hs
    | none =>
        obtain ⟨ha, hor⟩ := hs
        simp only
        rcases hor with rfl | hpp
        · exact hmk _ (makes_punctuation l1 pp _)
        · subst hpp
          rw [punctuation_true]
          have hm := makes_token l1 .Invalid 0 (ba "production or comment expected")
            (by decide)
          refine ⟨advanced_trans _ _ _ ha hm.1, hm.2.1.trans ha.2.2.2.1, ?_, hm.2.2.2.2, ?_⟩
          · rw [hm.2.2.1]; omega
          · intro h
            exact absurd rfl h

theorem reads_of_advanced (input : List QByteArray) (x y : EbnfLexer) (h : x.Reads input)
    (ha : x.Advanced y) : y.Reads input := by
  obtain ⟨a1, a2, a3, a4, _, _⟩ := ha
  obtain ⟨h1, h2, h3, h4⟩ := h
  refine ⟨a2.trans h1, by rw [a4]; exact h2, ?_, ?_⟩
  · intro h0
    rw [a3]
    exact h3 (a4 ▸ h0)
  · intro k hk
    rw [a3]
    exact h4 k (a4 ▸ hk)

theorem line_at_col (x : EbnfLexer) : x.d_line[x.d_colNr]? = x.rest.head? := by
  unfold EbnfLexer.rest
  rw [List.head?_drop]

theorem settled_skipWhiteSpace (x : EbnfLexer) : x.skipWhiteSpace.1.Settled := by
  intro c hc
  rw [line_at_col, rest_skipWhiteSpace] at hc
  have := List.head?_dropWhile_not isspace x.rest
  rw [hc] at this
  simpa using this

/-- The first loop of `nextTokenImp` keeps count of the lines it reads. -/
theorem lineLoop_reads (input : List QByteArray) :
    ∀ (ins : List QByteArray) (x : EbnfLexer) (pp : Bool),
      ins = input.drop x.d_lineNr → x.Reads input → x.Settled →
      (EbnfLexer.lineLoop ins x pp).1.Reads input ∧
      (EbnfLexer.lineLoop ins x pp).1.Settled ∧
      (EbnfLexer.lineLoop ins x pp).1.d_in
        = some (input.drop (EbnfLexer.lineLoop ins x pp).1.d_lineNr) ∧
      ((EbnfLexer.lineLoop ins x pp).2.2 = true →
        (EbnfLexer.lineLoop ins x pp).1.d_lineNr = input.length) ∧
      ((EbnfLexer.lineLoop ins x pp).2.2 = false →
        (EbnfLexer.lineLoop ins x pp).1.d_colNr < (EbnfLexer.lineLoop ins x pp).1.d_line.length)
  | [], x, pp, hins, hr, hs => by
      have hlen : x.d_lineNr = input.length := by
        have h1 := hr.2.1
        have h2 : input.length ≤ x.d_lineNr := List.drop_eq_nil_iff.mp hins.symm
        omega
      unfold EbnfLexer.lineLoop
      split_ifs with hu
      · exact ⟨hr, hs, by simp [hlen], fun _ => hlen, fun h => by simp at h⟩
      · exact ⟨hr, hs, by simp [hlen], fun h => by simp at h, fun _ => by
          simp only; omega⟩
  | raw :: rest, x, pp, hins, hr, hs => by
      have hlt : x.d_lineNr < input.length := by
        by_contra hge
        have : input.drop x.d_lineNr = [] := List.drop_eq_nil_of_le (by omega)
        rw [this] at hins
        simp at hins
      have hraw : input[x.d_lineNr]? = some raw := by
        have := List.getElem?_drop input x.d_lineNr 0
        rw [← hins] at this
        simpa using this.symm
      have hrest : rest = input.drop (x.d_lineNr + 1) := by
        have : (input.drop x.d_lineNr).drop 1 = input.drop (x.d_lineNr + 1) := by
          rw [List.drop_drop, Nat.add_comm]
        rw [← this, ← hins]
        rfl
      unfold EbnfLexer.lineLoop
      split_ifs with hu
      · have hr1 : (x.nextLine raw rest).Reads input := by
          refine ⟨hr.1, by simp only [EbnfLexer.nextLine]; omega, ?_, ?_⟩
          · intro h0
            simp [EbnfLexer.nextLine] at h0
          · intro k hk
            simp only [EbnfLexer.nextLine] at hk ⊢
            have : k = x.d_lineNr := by omega
            subst this
            exact ⟨raw, hraw, rfl⟩
        exact lineLoop_reads input rest (x.nextLine raw rest).skipWhiteSpace.1 _
          (by simpa [EbnfLexer.skipWhiteSpace, EbnfLexer.nextLine] using hrest)
          (reads_of_advanced input _ _ hr1 (advanced_skipWhiteSpace _))
          (settled_skipWhiteSpace _)
      · refine ⟨hr, hs, by simp only; rw [hins], fun h => by simp at h, fun _ => by
          simp only; omega⟩

/-- One call of `nextTokenImp` on a lexer that reads the lines `input`. -/
theorem nextTokenImp_position (input : List QByteArray) (lx : EbnfLexer)
    (hr : lx.Reads input) (hin : lx.d_in = some (input.drop lx.d_lineNr)) :
    lx.nextTokenImp.1.Reads input ∧
    lx.nextTokenImp.1.d_in = some (input.drop lx.nextTokenImp.1.d_lineNr) ∧
    PositionOk input lx.nextTokenImp.2 := by
  have h0 := lineLoop_reads input (input.drop lx.d_lineNr) lx.skipWhiteSpace.1 false rfl
    (reads_of_advanced input _ _ hr (advanced_skipWhiteSpace lx)) (settled_skipWhiteSpace lx)
  unfold EbnfLexer.nextTokenImp
  rw [hin]
  simp only
  generalize EbnfLexer.lineLoop (input.drop lx.d_lineNr) lx.skipWhiteSpace.1 false = r at h0
  obtain ⟨lxs, pp, e⟩ := r
  obtain ⟨hrs, hss, hins, hend, hmore⟩ := h0
  simp only at hrs hss hins hend hmore
  cases e with
  | true =>
      have hown : (lxs.token .Eof 0 []).1.ownsStream = false := hrs.1
      simp only [hown, Bool.false_eq_true, if_false]
      refine ⟨reads_of_advanced input _ _ hrs (advanced_token lxs .Eof 0 []).1, hins, ?_⟩
      refine ⟨Nat.le_add_left _ _, hrs.2.1, fun _ => hend rfl, fun h => absurd rfl h⟩
  | false =>
      simp only
      obtain ⟨ha, hl, hc1, hne, hcol⟩ := lexAt_position lxs pp
      have hlt := hmore rfl
      have hline1 : 1 ≤ lxs.d_lineNr := by
        by_contra h
        have h0 : lxs.d_lineNr = 0 := by omega
        have := hrs.2.2.1 h0
        rw [this] at hlt
        simp at hlt
      refine ⟨reads_of_advanced input _ _ hrs ha, ?_, ?_⟩
      · rw [ha.1, ha.2.2.2.1]
        exact hins
      · refine ⟨hc1, by rw [hl]; exact hrs.2.1, fun h => absurd h hne, fun _ => ?_⟩
        refine ⟨by rw [hl]; exact hline1, fun hni => ?_⟩
        obtain ⟨hc2, _⟩ := hcol hni
        obtain ⟨raw, hraw, hchop⟩ := hrs.2.2.2 (lxs.d_lineNr - 1) (by omega)
        have hget : lxs.d_line[lxs.d_colNr]? = some (lxs.d_line[lxs.d_colNr]) :=
          List.getElem?_eq_getElem hlt
        refine ⟨raw, lxs.d_line[lxs.d_colNr], by rw [hl]; exact hraw, ?_, hss _ hget⟩
        rw [hc2, ← hchop]
        simp

theorem impTokens_position (input : List QByteArray) (n : Nat) :
    ∀ lx : EbnfLexer, lx.Reads input → lx.d_in = some (input.drop lx.d_lineNr) →
      ∀ t ∈ (EbnfLexer.impTokens n lx).2, PositionOk input t := by
  induction n with
  | zero => intro lx _ _ t ht; simp [EbnfLexer.impTokens] at ht
  | succ n ih =>
      intro lx hr hin t ht
      obtain ⟨h1, h2, h3⟩ := nextTokenImp_position input lx hr hin
      rw [impTokens_succ] at ht
      simp only [List.mem_cons] at ht
      rcases ht with rfl | ht
      · exact h3
      · exact ih _ h1 h2 t ht

theorem setStream_reads (kw : List QByteArray) (input : List QByteArray) :
    (EbnfLexer.setStream kw input).Reads input ∧
      (EbnfLexer.setStream kw input).d_in
        = some (input.drop (EbnfLexer.setStream kw input).d_lineNr) :=
  ⟨⟨rfl, Nat.zero_le _, fun _ => rfl, fun k hk => by simp [EbnfLexer.setStream] at hk⟩, rfl⟩

/-- The tokens of a lexer that `setStream` has just attached to the lines
`input` have a column of at least 1 and a line number of at most the number of
lines; Eof carries the number of lines, any other token a line number of at
least 1, and unless it is Invalid its column is 1 plus the offset of a byte of
that line that is not white space. -/
theorem nextTokens_positionOk (kw : List QByteArray) (input : List QByteArray) (n : Nat) :
    ∀ t ∈ (EbnfLexer.nextTokens n (EbnfLexer.setStream kw input)).2, PositionOk input t := by
  intro t ht
  rw [nextTokens_eq] at ht
  have hb : (EbnfLexer.setStream kw input).d_buffer = [] := rfl
  rw [hb, List.nil_append, List.take_of_length_le (by rw [impTokens_length])] at ht
  exact impTokens_position input n _ (setStream_reads kw input).1 (setStream_reads kw input).2 t ht

/-! ## Comments in the token source -/

theorem skipComments_filter (l : List EbnfToken) :
    skipComments (l.filter notComment)
      = ((skipComments l).1.filter notComment, (skipComments l).2) := by
  induction l with
  | nil => rfl
  | cons t rest ih =>
      by_cases h : t.d_type = .Comment
      · have hn : notComment t = false := by simp [notComment, h]
        rw [List.filter_cons_of_neg (by simp [hn])]
        simp only [skipComments, h, if_true]
        exact ih
      · have hn : notComment t = true := by simp [notComment, h]
        rw [List.filter_cons_of_pos hn]
        simp only [skipComments, h, if_false]

theorem withoutComments_nextToken (p : EbnfParser) :
    p.withoutComments.nextToken = p.nextToken.withoutComments := by
  simp only [EbnfParser.nextToken, EbnfParser.withoutComments, skipComments_filter]

theorem withoutComments_error (p : EbnfParser) (t : EbnfToken) (msg : String) :
    p.withoutComments.error t msg = (p.error t msg).withoutComments := by
  unfold EbnfParser.error
  have he : p.withoutComments.d_errs = p.d_errs := rfl
  rw [he]
  cases p.d_errs with
  | none => rfl
  | some e =>
      simp only
      split_ifs <;> rfl

theorem withoutComments_checkCardinality (p : EbnfParser) (node : Node) :
    p.withoutComments.checkCardinality node
      = resultWithoutComments (p.checkCardinality node) := by
  unfold EbnfParser.checkCardinality
  have hc : p.withoutComments.d_cur = p.d_cur := rfl
  simp only [hc, withoutComments_error]
  split_ifs <;> rfl

theorem withoutComments_finishBracket (close : TokenType) (msg : String) (q : Quantity)
    (x : EbnfParser × Option Node) :
    finishBracket close msg q (resultWithoutComments x)
      = resultWithoutComments (finishBracket close msg q x) := by
  obtain ⟨p, r⟩ := x
  cases r with
  | none => rfl
  | some node =>
      simp only [resultWithoutComments, finishBracket]
      have hc : p.withoutComments.d_cur = p.d_cur := rfl
      simp only [hc, withoutComments_error, withoutComments_checkCardinality]
      split_ifs
      · rfl
      · generalize p.checkCardinality node = r
        obtain ⟨p1, b⟩ := r
        cases b with
        | false => rfl
        | true =>
            simp only [resultWithoutComments, withoutComments_nextToken]

theorem map_finishBracket_without (close : TokenType) (msg : String) (q : Quantity)
    (o : Option (EbnfParser × Option Node)) :
    (o.map resultWithoutComments).map (finishBracket close msg q)
      = (o.map (finishBracket close msg q)).map resultWithoutComments := by
  cases o with
  | none => rfl
  | some x => simp only [Option.map_some', withoutComments_finishBracket]

/-- The parsing functions do the same on a token source without its comments. -/
theorem parser_ignores_comments (f : Nat) :
    (∀ p, parseFactor f p.withoutComments = (parseFactor f p).map resultWithoutComments) ∧
    (∀ p, parseExpression f p.withoutComments
      = (parseExpression f p).map resultWithoutComments) ∧
    (∀ first p node alt, expressionLoop f first p.withoutComments node alt
      = (expressionLoop f first p node alt).map resultWithoutComments) ∧
    (∀ p, parseTerm f p.withoutComments = (parseTerm f p).map resultWithoutComments) ∧
    (∀ p node seq, termLoop f p.withoutComments node seq
      = (termLoop f p node seq).map resultWithoutComments) := by
  induction f with
  | zero =>
      refine ⟨?_, ?_, ?_, ?_, ?_⟩
      · intro p; simp [parseFactor]
      · intro p; simp [parseExpression]
      · intro first p node alt; simp [expressionLoop]
      · intro p; simp [parseTerm]
      · intro p node seq; simp [termLoop]
  | succ f ih =>
      obtain ⟨ihF, ihE, ihEL, ihT, ihTL⟩ := ih
      have hc : ∀ p : EbnfParser, p.withoutComments.d_cur = p.d_cur := fun _ => rfl
      refine ⟨?_, ?_, ?_, ?_, ?_⟩
      · intro p
        rw [parseFactor, parseFactor]
        simp only [hc, withoutComments_nextToken, withoutComments_error, ihE,
          map_finishBracket_without]
        cases p.d_cur.d_type <;> rfl
      · intro p
        rw [parseExpression, parseExpression]
        simp only [hc, withoutComments_error, ihT]
        split_ifs
        · cases parseTerm f p with
          | none => rfl
          | some x =>
              obtain ⟨p1, o⟩ := x
              cases o with
              | none => rfl
              | some node =>
                  simp only [Option.map_some', resultWithoutComments]
                  exact ihEL _ _ _ _
        · rfl
      · intro first p node alt
        rw [expressionLoop, expressionLoop]
        simp only [hc, withoutComments_nextToken, ihT]
        by_cases hb : p.d_cur.d_type = .Bar
        · simp only [hb, if_true]
          cases parseTerm f p.nextToken with
          | none => rfl
          | some x =>
              obtain ⟨p1, o⟩ := x
              cases o with
              | none => rfl
              | some n =>
                  simp only [Option.map_some', resultWithoutComments]
                  exact ihEL _ _ _ _
        · simp only [hb, if_false]
          rfl
      · intro p
        by_cases hp : p.d_cur.d_type = .Predicate
        · rw [parseTerm_with_predicate f p hp,
            parseTerm_with_predicate f p.withoutComments (by rw [hc]; exact hp)]
          simp only [hc, withoutComments_nextToken, withoutComments_error, ihF]
          split_ifs
          · cases parseFactor f p.nextToken with
            | none => rfl
            | some x =>
                obtain ⟨p1, o⟩ := x
                cases o with
                | none => rfl
                | some n =>
                    simp only [Option.map_some', resultWithoutComments]
                    exact ihTL _ _ _
          · rfl
        · rw [parseTerm_without_predicate f p hp,
            parseTerm_without_predicate f p.withoutComments (by rw [hc]; exact hp)]
          simp only [hc, withoutComments_error, ihF]
          split_ifs
          · cases parseFactor f p with
            | none => rfl
            | some x =>
                obtain ⟨p1, o⟩ := x
                cases o with
                | none => rfl
                | some n =>
                    simp only [Option.map_some', resultWithoutComments]
                    exact ihTL _ _ _
          · rfl
      · intro p node seq
        rw [termLoop, termLoop]
        simp only [hc, ihF]
        by_cases hb : isFactorStart p.d_cur.d_type = true
        · simp only [hb, if_true]
          cases parseFactor f p with
          | none => rfl
          | some x =>
              obtain ⟨p1, o⟩ := x
              cases o with
              | none => rfl
              | some n =>
                  simp only [Option.map_some', resultWithoutComments]
                  exact ihTL _ _ _
        · simp only [hb, if_false]
          rfl

theorem parseLoop_ignores_comments (f : Nat) :
    ∀ p, parseLoop f p.withoutComments = (parseLoop f p).map resultWithoutComments := by
  induction f with
  | zero => intro p; simp [parseLoop]
  | succ f ih =>
      intro p
      have hc : ∀ p : EbnfParser, p.withoutComments.d_cur = p.d_cur := fun _ => rfl
      have hs : ∀ p : EbnfParser, p.withoutComments.d_syn = p.d_syn := fun _ => rfl
      have he : ∀ p : EbnfParser, p.withoutComments.d_errs = p.d_errs := fun _ => rfl
      have hw : ∀ (q : EbnfParser) (syn : EbnfSyntax),
          ({ d_lex := q.withoutComments.d_lex, d_cur := q.d_cur,
             d_errs := q.withoutComments.d_errs, d_syn := syn } : EbnfParser)
            = EbnfParser.withoutComments
                { d_lex := q.d_lex, d_cur := q.d_cur, d_errs := q.d_errs, d_syn := syn } :=
        fun _ _ => rfl
      rw [parseLoop, parseLoop]
      simp only [hc, hs, withoutComments_nextToken, withoutComments_error]
      by_cases hv : p.d_cur.isValid = true
      · simp only [hv, if_true]
        by_cases hprod : p.d_cur.d_type = .Production
        · simp only [hprod, if_true]
          by_cases hass : p.nextToken.d_cur.d_type = .Assig
          · simp only [hass, ne_eq, not_true_eq_false, if_false]
            cases hadd : p.nextToken.d_syn.addDef (Definition.new p.d_cur) with
            | none => rfl
            | some syn =>
                simp only [hw, withoutComments_nextToken, hc]
                split_ifs
                · rw [(parser_ignores_comments f).2.1]
                  cases parseExpression f (EbnfParser.nextToken { p.nextToken with d_syn := syn })
                    with
                  | none => rfl
                  | some x =>
                      obtain ⟨p3, node⟩ := x
                      simp only [Option.map_some', resultWithoutComments, hs, hw]
                      exact ih { d_lex := p3.d_lex, d_cur := p3.d_cur, d_errs := p3.d_errs,
                                 d_syn := p3.d_syn.setLastNode node }
                · exact ih _
          · simp only [hass, ne_eq, not_false_eq_true, if_true]
            rfl
        · simp only [hprod, if_false]
          rfl
      · have hv2 : p.d_cur.isValid = false := by simpa using hv
        simp only [hv2, Bool.false_eq_true, if_false]
        split_ifs <;> rfl

theorem parseLoop_step (f : Nat) :
    ∀ p r, parseLoop f p = some r → parseLoop (f + 1) p = some r := by
  induction f with
  | zero => intro p r h; simp [parseLoop] at h
  | succ f ih =>
      intro p r h
      rw [parseLoop] at h
      rw [parseLoop]
      simp only at h ⊢
      by_cases hv : p.d_cur.isValid = true
      · simp only [hv, if_true] at h ⊢
        by_cases hprod : p.d_cur.d_type = .Production
        · simp only [hprod, if_true] at h ⊢
          by_cases hass : p.nextToken.d_cur.d_type = .Assig
          · simp only [hass, ne_eq, not_true_eq_false, if_false] at h ⊢
            cases hadd : p.nextToken.d_syn.addDef (Definition.new p.d_cur) with
            | none => rw [hadd] at h; exact h
            | some syn =>
                rw [hadd] at h
                simp only at h ⊢
                split_ifs at h ⊢
                · cases hx : parseExpression f
                    (EbnfParser.nextToken { p.nextToken with d_syn := syn }) with
                  | none => rw [hx] at h; simp at h
                  | some x =>
                      rw [hx] at h
                      rw [(fuel_step f).2.1 _ _ hx]
                      exact ih _ _ h
                · exact ih _ _ h
          · simp only [hass, ne_eq, not_false_eq_true, if_true] at h ⊢
            exact h
        · simp only [hprod, if_false] at h ⊢
          exact h
      · have hv2 : p.d_cur.isValid = false := by simpa using hv
        simp only [hv2, Bool.false_eq_true, if_false] at h ⊢
        exact h

theorem parseLoop_mono (f g : Nat) (h : f ≤ g) (p : EbnfParser) (r : EbnfParser × Bool)
    (hr : parseLoop f p = some r) : parseLoop g p = some r := by
  induction h with
  | refl => exact hr
  | step _ ih => exact parseLoop_step _ p r ih

/-- The run of `parse` on a token source and on the same source without its
comments. -/
theorem parse_without_comments (lex : List EbnfToken) (errs : Option EbnfErrors) :
    (EbnfParser.parse lex errs).map resultWithoutComments
      = EbnfParser.parse (lex.filter notComment) errs := by
  obtain ⟨r, hr⟩ := parse_total (lex.filter notComment) errs
  rw [hr]
  unfold EbnfParser.parse at hr ⊢
  have hlen : (lex.filter notComment).length ≤ lex.length := List.length_filter_le _ _
  have hm := parseLoop_mono _ (3 * lex.length + 7) (by omega) _ _ hr
  have hp : (EbnfParser.nextToken
      { d_lex := lex.filter notComment, d_cur := EbnfToken.default,
        d_errs := errs.map EbnfErrors.resetErrCount, d_syn := { d_order := [] } })
      = (EbnfParser.nextToken
          { d_lex := lex, d_cur := EbnfToken.default,
            d_errs := errs.map EbnfErrors.resetErrCount,
            d_syn := { d_order := [] } }).withoutComments :=
    withoutComments_nextToken
      { d_lex := lex, d_cur := EbnfToken.default, d_errs := errs.map EbnfErrors.resetErrCount,
        d_syn := { d_order := [] } }
  simp only at hm ⊢
  rw [hp, parseLoop_ignores_comments] at hm
  exact hm

/-- Claim C25. Two token sources that differ only in their Comment tokens give
the same run of `EbnfParser::parse`: the same returned flag, the same grammar
and the same reports in the sink. -/
theorem comments_do_not_change_parse (lex1 lex2 : List EbnfToken) (errs : Option EbnfErrors)
    (h : lex1.filter notComment = lex2.filter notComment) :
    ∃ p1 p2 b, EbnfParser.parse lex1 errs = some (p1, b) ∧
      EbnfParser.parse lex2 errs = some (p2, b) ∧
      p1.d_syn = p2.d_syn ∧ p1.d_errs = p2.d_errs := by
  obtain ⟨⟨p1, b1⟩, h1⟩ := parse_total lex1 errs
  obtain ⟨⟨p2, b2⟩, h2⟩ := parse_total lex2 errs
  have e1 := parse_without_comments lex1 errs
  have e2 := parse_without_comments lex2 errs
  rw [h1] at e1
  rw [h2, ← h, ← e1] at e2
  simp only [Option.map_some', Option.some.injEq, resultWithoutComments, Prod.mk.injEq] at e2
  obtain ⟨hp, hb⟩ := e2
  subst hb
  refine ⟨p1, p2, b2, h1, h2, ?_, ?_⟩
  · exact (congrArg EbnfParser.d_syn hp).symm
  · exact (congrArg EbnfParser.d_errs hp).symm

/-- Witness of the theorem above: two token sources of `S ::= a | b` with
comments at different places. -/
theorem comments_do_not_change_parse_witness :
    ∃ p1 p2 b,
      EbnfParser.parse commentedTokens (some { entries := [], errCount := 0 }) = some (p1, b) ∧
      EbnfParser.parse otherCommentedTokens (some { entries := [], errCount := 0 })
        = some (p2, b) ∧
      p1.d_syn = p2.d_syn ∧ p1.d_errs = p2.d_errs :=
  comments_do_not_change_parse commentedTokens otherCommentedTokens
    (some { entries := [], errCount := 0 }) (by decide)

/-! ## Parentheses around a quantified factor -/

theorem single_factor_expression (f g : Nat) (p p1 : EbnfParser) (x : Node)
    (hx : parseFactor f p = some (p1, some x))
    (hnf : isFactorStart p1.d_cur.d_type = false) (hnb : p1.d_cur.d_type ≠ .Bar)
    (hg : f + 4 ≤ g) : parseExpression g p = some (p1, some x) := by
  have hs := parseFactor_some_isFactorStart f p p1 x hx
  have hp : p.d_cur.d_type ≠ .Predicate := by
    intro h
    rw [h] at hs
    simp [isFactorStart] at hs
  have ht : parseTerm (f + 2) p = some (p1, some x) := by
    rw [parseTerm_without_predicate _ p hp]
    simp only [hs, if_true, parseFactor_mono f (f + 1) (by omega) _ _ hx]
    rw [termLoop_factors f [] p1 p1 x false (f + 1) ⟨hnf, rfl⟩ (by simp)]
    simp
  obtain ⟨k, rfl⟩ : ∃ k, g = k + 1 := ⟨g - 1, by omega⟩
  rw [parseExpression]
  simp only [parseTerm_some_isTermStart (f + 2) p p1 x ht, if_true,
    parseTerm_mono (f + 2) k (by omega) _ _ ht]
  rw [expressionLoop_terms (f + 2) p.d_cur [] p1 p1 x false k ⟨hnb, rfl⟩ (by simp; omega)]
  simp

theorem checkCardinality_quantified (p : EbnfParser) (n : Node) (hq : n.d_quant ≠ .One) :
    p.checkCardinality n = (p.error p.d_cur "contradicting nested quantifiers", false) := by
  unfold EbnfParser.checkCardinality
  simp [hq]

/-- Claim C31. Plain parentheses around a single factor that carries ZeroOrOne
or ZeroOrMore are rejected: the expression between the parentheses is that
factor as it is, and `parseFactor` on `( X )` returns no node and sends the
report `contradicting nested quantifiers` to the sink at the closing
parenthesis; the grammar is left as it was. -/
theorem parentheses_reject_quantified_factor (f g : Nat) (p p1 : EbnfParser) (x : Node)
    (hopen : p.d_cur.d_type = .LPar)
    (hx : parseFactor f p.nextToken = some (p1, some x))
    (hclose : p1.d_cur.d_type = .RPar)
    (hq : x.d_quant = .ZeroOrOne ∨ x.d_quant = .ZeroOrMore)
    (hg : f + 5 ≤ g) :
    parseExpression (f + 4) p.nextToken = some (p1, some x) ∧
    parseFactor g p = some (p1.error p1.d_cur "contradicting nested quantifiers", none) ∧
    (∀ e, p1.d_errs = some e →
      (p1.error p1.d_cur "contradicting nested quantifiers").d_errs =
        some (e.error .Syntax p1.d_cur.d_lineNr p1.d_cur.d_colNr
          (.text "contradicting nested quantifiers"))) ∧
    (p1.error p1.d_cur "contradicting nested quantifiers").d_syn = p.d_syn := by
  have hne : x.d_quant ≠ .One := by
    rcases hq with h | h <;> rw [h] <;> decide
  have hexpr : parseExpression (f + 4) p.nextToken = some (p1, some x) :=
    single_factor_expression f (f + 4) p.nextToken p1 x hx (by rw [hclose]; rfl)
      (by rw [hclose]; decide) (Nat.le_refl _)
  refine ⟨hexpr, ?_, ?_, ?_⟩
  · obtain ⟨k, rfl⟩ : ∃ k, g = k + 1 := ⟨g - 1, by omega⟩
    have hk := parseExpression_mono (f + 4) k (by omega) _ _ hexpr
    rw [parseFactor]
    simp only [hopen, hk, Option.map_some', finishBracket, hclose,
      checkCardinality_quantified p1 x hne, ne_eq, not_true_eq_false, if_false]
  · intro e he
    apply error_text p1 p1.d_cur _ e he
    · rw [hclose]; decide
    · decide
  · rw [error_d_syn, parseFactor_d_syn f _ _ _ hx]
    rfl

/-- Witness of the theorem above: the factor `( [ a ] )`. -/
theorem parentheses_reject_quantified_factor_witness :
    parseFactor 13 (parserAt (tok .LPar 1 "") [tok .LBrack 3 "", tok .NonTerm 5 "a",
        tok .RBrack 7 "", tok .RPar 9 ""]) =
      some ((parserAt (tok .RPar 9 "") []).error (tok .RPar 9 "")
        "contradicting nested quantifiers", none) :=
  (parentheses_reject_quantified_factor 8 13
    (parserAt (tok .LPar 1 "") [tok .LBrack 3 "", tok .NonTerm 5 "a",
        tok .RBrack 7 "", tok .RPar 9 ""])
    (parserAt (tok .RPar 9 "") [])
    (.mk .Nonterminal .ZeroOrOne (tok .NonTerm 5 "a") [] none)
    rfl rfl rfl (Or.inl rfl) (Nat.le_refl _)).2.1

/-! ## The container branches of checkCardinality -/

theorem wellBuilt_container_length (n : Node) (hw : n.wellBuilt = true)
    (hc : n.d_type = .Sequence ∨ n.d_type = .Alternative) : 2 ≤ n.d_subs.length := by
  obtain ⟨ty, q, tk, subs, d⟩ := n
  simp only [d_type_mk] at hc
  simp only [d_subs_mk]
  rcases hc with h | h <;> subst h <;>
    simp only [Node.wellBuilt, Bool.and_eq_true, decide_eq_true_eq] at hw <;>
    exact hw.1.1.2

theorem wellBuilt_leaf_subs (n : Node) (hw : n.wellBuilt = true)
    (hc : n.d_type ≠ .Sequence ∧ n.d_type ≠ .Alternative) : n.d_subs = [] := by
  obtain ⟨ty, q, tk, subs, d⟩ := n
  simp only [d_type_mk] at hc
  simp only [d_subs_mk]
  cases ty
  · simp only [Node.wellBuilt, Bool.and_eq_true, List.isEmpty_iff] at hw
    exact hw.1
  · simp only [Node.wellBuilt, List.isEmpty_iff] at hw
    exact hw
  · exact absurd rfl hc.1
  · exact absurd rfl hc.2
  · simp only [Node.wellBuilt, Bool.and_eq_true, List.isEmpty_iff] at hw
    exact hw.1.1

/-- Claim C35. A node that `parseExpression` returns is never a Sequence or an
Alternative with fewer than two children, and it has no child when it is
neither. So `checkCardinality` on it, in any parser state, takes neither the
branch `container with zero items` nor the branch `container containing only
one other sequence or alternative`: it reports `contradicting nested
quantifiers` when the quantifier is not One and accepts the node otherwise. -/
theorem container_branches_unreachable (f : Nat) (p p1 q : EbnfParser) (n : Node)
    (h : parseExpression f p = some (p1, some n)) :
    (n.d_type = .Sequence ∨ n.d_type = .Alternative → 2 ≤ n.d_subs.length) ∧
    (n.d_type ≠ .Sequence ∧ n.d_type ≠ .Alternative → n.d_subs = []) ∧
    q.checkCardinality n =
      (if n.d_quant ≠ .One then (q.error q.d_cur "contradicting nested quantifiers", false)
       else (q, true)) := by
  have hw := (parser_builds_well f).2.1 p p1 n h
  refine ⟨wellBuilt_container_length n hw.1, wellBuilt_leaf_subs n hw.1, ?_⟩
  by_cases hq : n.d_quant = .One
  · rw [checkCardinality_wellBuilt q n hw hq]
    simp [hq]
  · rw [checkCardinality_quantified q n hq]
    simp [hq]

/-- Witness of the theorem above: the expression `a b`, a Sequence of two
children, checked in the state behind it. -/
theorem container_branches_unreachable_witness :
    (parserAt eofToken []).checkCardinality
        (Node.container .Sequence 1 1
          [Node.new .Nonterminal (tok .NonTerm 1 "a"), Node.new .Nonterminal (tok .NonTerm 3 "b")])
      = (parserAt eofToken [], true) :=
  (container_branches_unreachable 7 (parserAt (tok .NonTerm 1 "a") [tok .NonTerm 3 "b"])
    (parserAt eofToken []) (parserAt eofToken [])
    (Node.container .Sequence 1 1
      [Node.new .Nonterminal (tok .NonTerm 1 "a"), Node.new .Nonterminal (tok .NonTerm 3 "b")])
    rfl).2.2

/-! ## Rule ids of the push actions and the enumeration ParserRule -/

theorem sortInsert_mem_self (k : String) (xs : List String) : k ∈ sortInsert k xs := by
  induction xs with
  | nil => simp [sortInsert]
  | cons x xs ih =>
      unfold sortInsert
      by_cases h1 : k < x
      · simp [h1]
      · by_cases h2 : k = x
        · simp [h1, h2]
        · simp only [h1, h2, if_false]
          exact List.mem_cons_of_mem _ ih

theorem sortInsert_mem_of_mem (k y : String) (xs : List String) (h : y ∈ xs) :
    y ∈ sortInsert k xs := by
  induction xs with
  | nil => simp at h
  | cons x xs ih =>
      unfold sortInsert
      by_cases h1 : k < x
      · simp only [h1, if_true]
        exact List.mem_cons_of_mem _ h
      · by_cases h2 : k = x
        · subst h2
          rw [if_neg h1, if_pos rfl]
          exact h
        · simp only [h1, h2, if_false]
          rcases List.mem_cons.mp h with h | h
          · rw [h]; exact List.mem_cons_self _ _
          · exact List.mem_cons_of_mem _ (ih h)

theorem sortedRuleNames_fold (gu : GenUtils) (y : String) :
    ∀ (defs : List Definition) (acc : List String),
      (y ∈ acc ∨ ∃ d ∈ defs, (d.d_tok.d_op != .Transparent && !d.d_usedBy.isEmpty) = true ∧
        gu.escapeDollars d.d_tok.d_val = y) →
      y ∈ defs.foldl
        (fun acc d =>
          if d.d_tok.d_op != .Transparent && !d.d_usedBy.isEmpty then
            sortInsert (gu.escapeDollars d.d_tok.d_val) acc
          else acc)
        acc
  | [], acc, h => by
      rcases h with h | ⟨d, hd, _⟩
      · exact h
      · simp at hd
  | e :: es, acc, h => by
      rw [List.foldl_cons]
      apply sortedRuleNames_fold gu y es
      rcases h with h | ⟨d, hd, hc, hk⟩
      · left
        split_ifs
        · exact sortInsert_mem_of_mem _ _ _ h
        · exact h
      · rcases List.mem_cons.mp hd with hde | hde
        · left
          subst hde
          rw [if_pos hc, ← hk]
          exact sortInsert_mem_self _ _
        · right
          exact ⟨d, hde, hc, hk⟩

theorem sortedRuleNames_mem (gu : GenUtils) (defs : List Definition) (d : Definition)
    (hd : d ∈ defs) (hc : (d.d_tok.d_op != .Transparent && !d.d_usedBy.isEmpty) = true) :
    gu.escapeDollars d.d_tok.d_val ∈ SynTreeGen.sortedRuleNames gu defs :=
  sortedRuleNames_fold gu _ defs [] (Or.inr ⟨d, hd, hc, rfl⟩)

theorem pushedRule_some (gu : GenUtils) (d : Definition) (i : Nat) (buildAst : Bool)
    (name : String) (h : CocoGen.pushedRule gu d i buildAst = some name) :
    ¬(d.d_tok.d_op = .Skip ∨ (i ≠ 0 ∧ d.d_usedBy.isEmpty = true)) ∧
    (∃ root, d.d_node = some root) ∧
    (buildAst && !(d.d_tok.d_op == .Transparent)) = true ∧
    name = gu.escapeDollars d.d_tok.d_val := by
  unfold CocoGen.pushedRule at h
  by_cases hs : d.d_tok.d_op = .Skip ∨ (i ≠ 0 ∧ d.d_usedBy.isEmpty = true)
  · rw [if_pos hs] at h
    simp at h
  · rw [if_neg hs] at h
    cases hn : d.d_node with
    | none => rw [hn] at h; simp at h
    | some root =>
        rw [hn] at h
        simp only at h
        by_cases hb : (buildAst && !(d.d_tok.d_op == .Transparent)) = true
        · rw [if_pos hb] at h
          exact ⟨hs, ⟨root, rfl⟩, hb, (Option.some.inj h).symm⟩
        · rw [if_neg hb] at h
          simp at h

/-- Claim C34. A rule id that the loop of `CocoGen::generate` writes in the
push action of a production is an enumerator of the `enum ParserRule` that
`SynTreeGen::generateTree` writes with `includeNt` for the same definitions,
with a value above `R_First`. The production with a push action is the
heading, the push action with `R_` and the name, the body, the pop action and
the closing dot; a production without a push action names no rule id. -/
theorem pushed_rule_ids_are_declared (env : CocoEnv) (syn : EbnfSyntax)
    (defs : List Definition) (ttMax k : Nat) (d : Definition) (name : String) (buildAst : Bool)
    (hdefs : defs.Perm syn.d_order)
    (hd : syn.d_order[k + 1]? = some d)
    (hpush : CocoGen.pushedRule env.gu d (k + 1) buildAst = some name) :
    (∃ root, d.d_node = some root ∧ ∀ out : CocoOut,
      CocoGen.writeProduction env out d (k + 1) buildAst =
        ((CocoGen.writeNode env
            ((out.write (env.gu.escapeDollars d.d_tok.d_val ++ " = " ++ "\n" ++ "    ")).write
              ("(. Vl::SynTree* n = new Vl::SynTree( Vl::SynTree::R_" ++ name
                ++ ", d_next ); d_stack.top()->d_children.append(n); d_stack.push(n); .) "
                ++ "( "))
            root true buildAst).write (") " ++ "(. d_stack.pop(); .) ")).write
          ("\n" ++ "    ." ++ "\n" ++ "\n")) ∧
    (∃ v, ("R_" ++ name, v) ∈ SynTreeGen.parserRuleEnum env.gu defs ttMax ∧ ttMax + 1 < v) ∧
    (∀ (e : Definition) (i : Nat) (out : CocoOut),
      CocoGen.pushedRule env.gu e i buildAst = none →
      CocoGen.writeProduction env out e i buildAst =
        if e.d_tok.d_op = .Skip ∨ (i ≠ 0 ∧ e.d_usedBy.isEmpty) then out
        else
          match e.d_node with
          | none => out
          | some root =>
              (CocoGen.writeNode env
                (out.write (env.gu.escapeDollars e.d_tok.d_val ++ " = " ++ "\n" ++ "    "))
                root true buildAst).write ("\n" ++ "    ." ++ "\n" ++ "\n")) := by
  obtain ⟨hs, ⟨root, hroot⟩, hb, hname⟩ := pushedRule_some env.gu d (k + 1) buildAst name hpush
  refine ⟨⟨root, hroot, ?_⟩, ?_, ?_⟩
  · intro out
    unfold CocoGen.writeProduction
    rw [if_neg hs, hroot]
    simp only [hb, if_true, hname]
  · have hmemd : d ∈ defs := by
      rw [hdefs.mem_iff]
      exact List.mem_iff_getElem?.mpr ⟨k + 1, hd⟩
    have hused : d.d_usedBy.isEmpty = false := by
      cases hu : d.d_usedBy.isEmpty with
      | false => rfl
      | true => exact absurd (Or.inr ⟨Nat.succ_ne_zero k, hu⟩) hs
    have htr : (d.d_tok.d_op != .Transparent) = true := by
      simp only [Bool.and_eq_true, Bool.not_eq_true', beq_eq_false_iff_ne, ne_eq] at hb
      simpa using hb.2
    have hc : (d.d_tok.d_op != .Transparent && !d.d_usedBy.isEmpty) = true := by
      rw [htr, hused]; rfl
    have hkey := sortedRuleNames_mem env.gu defs d hmemd hc
    rw [← hname] at hkey
    have hmem : "R_" ++ name ∈
        (SynTreeGen.sortedRuleNames env.gu defs).map (fun k => "R_" ++ k) ++ ["R_Last"] :=
      List.mem_append_left _ (List.mem_map.mpr ⟨name, hkey, rfl⟩)
    obtain ⟨v, hv⟩ := enumValues_map_mem _ (ttMax + 1 + 1) _ hmem
    refine ⟨v, ?_, ?_⟩
    · unfold SynTreeGen.parserRuleEnum
      rw [List.append_assoc, enumValues_append]
      exact List.mem_append_right _ hv
    · have := enumValues_bounds _ _ _ hv
      omega
  · intro e i out hnone
    unfold CocoGen.pushedRule at hnone
    unfold CocoGen.writeProduction
    by_cases hse : e.d_tok.d_op = .Skip ∨ (i ≠ 0 ∧ e.d_usedBy.isEmpty = true)
    · rw [if_pos hse, if_pos hse]
    · rw [if_neg hse] at hnone
      rw [if_neg hse, if_neg hse]
      cases hn : e.d_node with
      | none => rfl
      | some r =>
          rw [hn] at hnone
          simp only at hnone
          have hbe : (buildAst && !(e.d_tok.d_op == .Transparent)) = false := by
            cases hbb : (buildAst && !(e.d_tok.d_op == .Transparent)) with
            | false => rfl
            | true => rw [hbb] at hnone; simp at hnone
          simp only [hbe, Bool.false_eq_true, if_false]

/-- Witness of the theorem above: the definition `T ::= U` behind the start
definition; its rule id `R_T` has the value 9 when `TT_Max` is 7. -/
theorem pushed_rule_ids_are_declared_witness :
    ∃ v, ("R_" ++ "T", v) ∈ SynTreeGen.parserRuleEnum plainEnv.gu threeRules 7 ∧ 7 + 1 < v :=
  (pushed_rule_ids_are_declared plainEnv { d_order := threeRules } threeRules 7 0
    (threeRules.getD 1 (Definition.new eofToken)) "T" true (List.Perm.refl _) rfl rfl).2.1

/-! ## The kinds of token the second loop of nextTokenImp returns -/

theorem rest_of_getD_ne_zero (x : EbnfLexer) (h : x.d_line.getD x.d_colNr 0 ≠ 0) :
    ∃ r, x.rest = x.d_line.getD x.d_colNr 0 :: r ∧ x.d_colNr < x.d_line.length := by
  rw [getD_eq_headD_drop] at h ⊢
  unfold EbnfLexer.rest
  cases hd : x.d_line.drop x.d_colNr with
  | nil => rw [hd] at h; simp at h
  | cons c r =>
      refine ⟨r, rfl, ?_⟩
      by_contra hlt
      rw [List.drop_of_length_le (by omega)] at hd
      simp at hd

theorem punctuation_kinds (x : EbnfLexer) (pp : Bool) (ch : Nat) :
    ((x.punctuation pp ch).2.d_type ≠ .Invalid ∧ 1 ≤ (x.punctuation pp ch).2.d_len) ∨
    (pp = true ∧
      x.punctuation pp ch = x.token .Invalid 0 (ba "production or comment expected")) ∨
    (pp = false ∧ x.punctuation pp ch = x.token .Invalid 0 (unexpectedCharMsg ch)) := by
  cases pp
  · by_cases h1 : ch = 58 ∧ x.lookAhead 1 = 58 ∧ x.lookAhead 2 = 61
    · left
      rw [EbnfLexer.punctuation, if_neg (by decide), if_pos h1]
      exact ⟨by simp [EbnfLexer.token, EbnfToken.make], by simp [EbnfLexer.token, EbnfToken.make]⟩
    by_cases h2 : ch = 40
    · left
      rw [EbnfLexer.punctuation, if_neg (by decide), if_neg h1, if_pos h2]
      exact ⟨by simp [EbnfLexer.token, EbnfToken.make], by simp [EbnfLexer.token, EbnfToken.make]⟩
    by_cases h3 : ch = 41
    · left
      rw [EbnfLexer.punctuation, if_neg (by decide), if_neg h1, if_neg h2, if_pos h3]
      exact ⟨by simp [EbnfLexer.token, EbnfToken.make], by simp [EbnfLexer.token, EbnfToken.make]⟩
    by_cases h4 : ch = 91
    · left
      rw [EbnfLexer.punctuation, if_neg (by decide), if_neg h1, if_neg h2, if_neg h3, if_pos h4]
      exact ⟨by simp [EbnfLexer.token, EbnfToken.make], by simp [EbnfLexer.token, EbnfToken.make]⟩
    by_cases h5 : ch = 93
    · left
      rw [EbnfLexer.punctuation, if_neg (by decide), if_neg h1, if_neg h2, if_neg h3, if_neg h4,
        if_pos h5]
      exact ⟨by simp [EbnfLexer.token, EbnfToken.make], by simp [EbnfLexer.token, EbnfToken.make]⟩
    by_cases h6 : ch = 123
    · left
      rw [EbnfLexer.punctuation, if_neg (by decide), if_neg h1, if_neg h2, if_neg h3, if_neg h4,
        if_neg h5, if_pos h6]
      exact ⟨by simp [EbnfLexer.token, EbnfToken.make], by simp [EbnfLexer.token, EbnfToken.make]⟩
    by_cases h7 : ch = 125
    · left
      rw [EbnfLexer.punctuation, if_neg (by decide), if_neg h1, if_neg h2, if_neg h3, if_neg h4,
        if_neg h5, if_neg h6, if_pos h7]
      exact ⟨by simp [EbnfLexer.token, EbnfToken.make], by simp [EbnfLexer.token, EbnfToken.make]⟩
    by_cases h8 : ch = 124
    · left
      rw [EbnfLexer.punctuation, if_neg (by decide), if_neg h1, if_neg h2, if_neg h3, if_neg h4,
        if_neg h5, if_neg h6, if_neg h7, if_pos h8]
      exact ⟨by simp [EbnfLexer.token, EbnfToken.make], by simp [EbnfLexer.token, EbnfToken.make]⟩
    by_cases h9 : ch = 92
    · left
      rw [EbnfLexer.punctuation, if_neg (by decide), if_neg h1, if_neg h2, if_neg h3, if_neg h4,
        if_neg h5, if_neg h6, if_neg h7, if_neg h8, if_pos h9]
      exact ⟨by simp [EbnfLexer.attribute, EbnfLexer.token, EbnfToken.make],
        by simp [EbnfLexer.attribute, EbnfLexer.token, EbnfToken.make]⟩
    · right; right
      refine ⟨rfl, ?_⟩
      rw [EbnfLexer.punctuation, if_neg (by decide), if_neg h1, if_neg h2, if_neg h3, if_neg h4,
        if_neg h5, if_neg h6, if_neg h7, if_neg h8, if_neg h9]
  · right; left
    refine ⟨rfl, ?_⟩
    rw [EbnfLexer.punctuation, if_pos rfl]

theorem ident_len_pos (x : EbnfLexer) (h : (isalnum (x.d_line.getD x.d_colNr 0)
    || x.d_line.getD x.d_colNr 0 == 36) = true) :
    x.ident.2.d_type = .NonTerm ∧ 1 ≤ x.ident.2.d_len := by
  have hne : x.d_line.getD x.d_colNr 0 ≠ 0 := by
    intro h0
    rw [h0] at h
    simp [isalnum] at h
  obtain ⟨r, hr, _⟩ := rest_of_getD_ne_zero x hne
  have hid : isIdentChar (x.d_line.getD x.d_colNr 0) = true := by
    unfold isIdentChar
    simp only [Bool.or_eq_true] at h ⊢
    rcases h with h | h
    · exact Or.inl (Or.inl h)
    · exact Or.inr h
  have ht := (ident_token x).1
  rw [ht]
  refine ⟨rfl, ?_⟩
  simp only
  rw [hr, List.takeWhile_cons_of_pos hid]
  simp

theorem identOrLiteral_kinds (x : EbnfLexer) (pp : Bool) :
    match x.identOrLiteral pp (x.d_line.getD x.d_colNr 0) with
    | (_, some t) => t.d_type ≠ .Invalid ∧ 1 ≤ t.d_len
    | (l1, none) => pp = true ∨ l1 = x := by
  unfold EbnfLexer.identOrLiteral
  by_cases h1 : (isalnum (x.d_line.getD x.d_colNr 0) || x.d_line.getD x.d_colNr 0 == 36) = true
  · have hi := ident_len_pos x h1
    generalize x.ident = ri at hi
    obtain ⟨xi, ti⟩ := ri
    simp only [h1, if_true]
    simp only at hi
    cases pp
    · simp only [Bool.false_eq_true, if_false]
      split_ifs
      · exact ⟨by simp, hi.2⟩
      · exact ⟨by rw [hi.1]; decide, hi.2⟩
    · simp only [if_true]
      split_ifs
      · exact ⟨by simp, hi.2⟩
      · exact Or.inl trivial
  · simp only [h1, if_false, Bool.false_eq_true]
    by_cases h2 : x.d_line.getD x.d_colNr 0 = 39
    · have hl := literal_token x
      generalize x.literal = rl at hl
      obtain ⟨xl, tl⟩ := rl
      simp only [h2, if_true]
      simp only at hl
      cases pp
      · simp only [Bool.false_eq_true, if_false]
        exact ⟨by rw [hl.1]; decide, by rw [hl.2.2.1]; omega⟩
      · simp only [if_true]
        split_ifs
        · exact ⟨by simp, by rw [hl.2.2.1]; omega⟩
        · exact Or.inl trivial
    · simp only [h2, if_false]
      exact Or.inr trivial

theorem lexAt_kinds (x : EbnfLexer) (pp : Bool) :
    ((x.lexAt pp).2.d_type ≠ .Invalid ∧ 1 ≤ (x.lexAt pp).2.d_len) ∨
    (pp = true ∧ (x.lexAt pp).2.d_type = .Invalid ∧
      (x.lexAt pp).2.d_val = ba "production or comment expected") ∨
    (pp = false ∧
      x.lexAt pp = x.token .Invalid 0 (unexpectedCharMsg (x.d_line.getD x.d_colNr 0))) := by
  unfold EbnfLexer.lexAt
  simp only
  by_cases hc : x.d_line.getD x.d_colNr 0 = 47 ∧ x.lookAhead 1 = 47
  · left
    rw [if_pos hc]
    obtain ⟨r, _, hlt⟩ := rest_of_getD_ne_zero x (by rw [hc.1]; decide)
    refine ⟨by simp [EbnfLexer.token, EbnfToken.make], ?_⟩
    simp only [EbnfLexer.token, EbnfToken.make]
    omega
  · rw [if_neg hc]
    have hk := identOrLiteral_kinds x pp
    generalize x.identOrLiteral pp (x.d_line.getD x.d_colNr 0) = r at hk
    obtain ⟨l1, ot⟩ := r
    cases ot with
    | some t => exact Or.inl hk
    | none =>
        simp only at hk ⊢
        rcases punctuation_kinds l1 pp (x.d_line.getD x.d_colNr 0) with h | ⟨hp, h⟩ | ⟨hp, h⟩
        · exact Or.inl h
        · right; left
          rw [h]
          exact ⟨hp, rfl, rfl⟩
        · right; right
          rcases hk with hk | hk
          · rw [hp] at hk; cases hk
          · rw [h, hk]
            exact ⟨hp, rfl⟩

/-! ## What a call of nextTokenImp reads -/

theorem chopLine_length_le (raw : QByteArray) : (chopLine raw).length ≤ raw.length := by
  unfold chopLine
  have hl : raw.reverse.length = raw.length := List.length_reverse raw
  split
  · rename_i h; rw [h] at hl; simp at hl ⊢; omega
  · rename_i h; rw [h] at hl; simp at hl ⊢; omega
  · rename_i h; rw [h] at hl; simp at hl ⊢; omega
  · rename_i h; rw [h] at hl; simp at hl ⊢; omega
  · exact le_refl _

theorem lineLoop_settled :
    ∀ (ins : List QByteArray) (x : EbnfLexer) (pp : Bool), x.Settled →
      (EbnfLexer.lineLoop ins x pp).1.Settled ∧
      (∃ rest, (EbnfLexer.lineLoop ins x pp).1.d_in = some rest) ∧
      ((EbnfLexer.lineLoop ins x pp).2.2 = false →
        (EbnfLexer.lineLoop ins x pp).1.d_colNr < (EbnfLexer.lineLoop ins x pp).1.d_line.length) ∧
      (EbnfLexer.lineLoop ins x pp).1.unread
        ≤ (x.d_line.length - x.d_colNr) + (ins.map (fun raw => raw.length + 1)).sum
  | [], x, pp, hs => by
      unfold EbnfLexer.lineLoop
      by_cases h : x.d_line.length ≤ x.d_colNr
      · rw [if_pos h]
        refine ⟨hs, ⟨[], rfl⟩, ?_, le_refl _⟩
        intro hf
        simp at hf
      · rw [if_neg h]
        refine ⟨hs, ⟨[], rfl⟩, ?_, le_refl _⟩
        intro _
        exact Nat.lt_of_not_le h
  | raw :: rest, x, pp, hs => by
      unfold EbnfLexer.lineLoop
      by_cases h : x.d_line.length ≤ x.d_colNr
      · rw [if_pos h]
        simp only
        have ih := lineLoop_settled rest (x.nextLine raw rest).skipWhiteSpace.1
          ((x.nextLine raw rest).skipWhiteSpace.2 == 0)
          (settled_skipWhiteSpace (x.nextLine raw rest))
        refine ⟨ih.1, ih.2.1, ih.2.2.1, le_trans ih.2.2.2 ?_⟩
        have hc := chopLine_length_le raw
        have hline : (x.nextLine raw rest).skipWhiteSpace.1.d_line = chopLine raw := rfl
        rw [hline]
        simp only [List.map_cons, List.sum_cons]
        omega
      · rw [if_neg h]
        refine ⟨hs, ⟨raw :: rest, rfl⟩, ?_, le_refl _⟩
        intro _
        exact Nat.lt_of_not_le h

/-- A call of `nextTokenImp` that does not return Eof runs the second loop once,
in a state that stands at a byte of its line that is not white space. -/
theorem nextTokenImp_lexAt (x : EbnfLexer) (h : x.nextTokenImp.2.d_type ≠ .Eof) :
    ∃ (y : EbnfLexer) (pp : Bool) (rest : List QByteArray),
      x.nextTokenImp = y.lexAt pp ∧ y.d_in = some rest ∧
      y.d_colNr < y.d_line.length ∧ y.Settled ∧ y.unread ≤ x.unread := by
  unfold EbnfLexer.nextTokenImp at h ⊢
  cases hin : x.d_in with
  | none =>
      rw [hin] at h
      exact absurd rfl h
  | some ins =>
      rw [hin] at h
      simp only at h ⊢
      have h0 := lineLoop_settled ins x.skipWhiteSpace.1 false (settled_skipWhiteSpace x)
      have hu : (x.skipWhiteSpace.1.d_line.length - x.skipWhiteSpace.1.d_colNr)
          + (ins.map (fun raw => raw.length + 1)).sum ≤ x.unread := by
        unfold EbnfLexer.unread
        rw [hin]
        simp only [EbnfLexer.skipWhiteSpace]
        omega
      generalize EbnfLexer.lineLoop ins x.skipWhiteSpace.1 false = r at h h0
      obtain ⟨y, pp, e⟩ := r
      obtain ⟨hs, ⟨rest, hrest⟩, hcol, hun⟩ := h0
      simp only at hs hrest hcol hun h ⊢
      cases e with
      | true =>
          simp only at h
          exact absurd rfl h
      | false =>
          exact ⟨y, pp, rest, rfl, hrest, hcol rfl, hs, le_trans hun hu⟩

/-- In a state that stands at a byte of its line that is not white space,
`nextTokenImp` is the second loop alone. -/
theorem nextTokenImp_at_byte (x : EbnfLexer) (rest : List QByteArray) (hin : x.d_in = some rest)
    (hcol : x.d_colNr < x.d_line.length) (hs : x.Settled) : x.nextTokenImp = x.lexAt false := by
  have hskip : x.skipWhiteSpace.1 = x := by
    obtain ⟨c, hc⟩ : ∃ c, x.d_line[x.d_colNr]? = some c :=
      ⟨x.d_line[x.d_colNr], List.getElem?_eq_getElem hcol⟩
    have hsp := hs c hc
    rw [line_at_col] at hc
    unfold EbnfLexer.rest at hc
    unfold EbnfLexer.skipWhiteSpace
    cases hd : x.d_line.drop x.d_colNr with
    | nil => rw [hd] at hc; simp at hc
    | cons a as =>
        rw [hd] at hc
        simp only [List.head?_cons, Option.some.injEq] at hc
        subst hc
        simp only [List.takeWhile_cons, hsp, Bool.false_eq_true, if_false, List.length_nil,
          Nat.add_zero]
  have hloop : EbnfLexer.lineLoop rest x false = (x, false, false) := by
    have hx : ({ x with d_in := some rest } : EbnfLexer) = x := by
      obtain ⟨a, b, c, d, e, f, g, h⟩ := x
      simp only at hin
      subst hin
      rfl
    cases rest with
    | nil =>
        unfold EbnfLexer.lineLoop
        rw [if_neg (by omega), hx]
    | cons raw more =>
        unfold EbnfLexer.lineLoop
        rw [if_neg (by omega), hx]
  unfold EbnfLexer.nextTokenImp
  rw [hin]
  simp only [hskip, hloop]

/-! ## The lexer at an unexpected character -/

theorem token_invalid_again (y : EbnfLexer) (rest : List QByteArray) (msg : QByteArray)
    (hin : y.d_in = some rest) (hcol : y.d_colNr < y.d_line.length) (hs : y.Settled)
    (h : y.lexAt false = y.token .Invalid 0 msg) :
    (y.token .Invalid 0 msg).1.nextTokenImp = y.token .Invalid 0 msg := by
  have hput : (y.token .Invalid 0 msg).1 = y.put y.d_buffer (y.token .Invalid 0 msg).2 := rfl
  rw [nextTokenImp_at_byte (y.token .Invalid 0 msg).1 rest hin hcol hs]
  rw [hput, put_lexAt, h]
  rfl

theorem impTokens_fixed (x : EbnfLexer) (t : EbnfToken) (h : x.nextTokenImp = (x, t)) :
    ∀ n, EbnfLexer.impTokens n x = (x, List.replicate n t) := by
  intro n
  induction n with
  | zero => rfl
  | succ n ih =>
      rw [impTokens_succ, h]
      simp only [ih]
      rfl

/-- Claim C32. When `nextTokenImp` returns an Invalid token other than
`production or comment expected`, that token reports the byte the lexer stands
at as an unexpected character and has the length 0, and the lexer has not moved
past that byte: every following call of `nextTokenImp` returns the same token,
with the same position and message, and leaves the lexer as it is. -/
theorem lexer_stays_at_unexpected_character (lx : EbnfLexer)
    (hty : lx.nextTokenImp.2.d_type = .Invalid)
    (hmsg : lx.nextTokenImp.2.d_val ≠ ba "production or comment expected") :
    (∃ ch, lx.nextTokenImp.1.d_line[lx.nextTokenImp.1.d_colNr]? = some ch ∧
      lx.nextTokenImp.2 = EbnfToken.make .Invalid lx.nextTokenImp.1.d_lineNr
        (lx.nextTokenImp.1.d_colNr + 1) 0 (unexpectedCharMsg ch)) ∧
    lx.nextTokenImp.1.nextTokenImp = (lx.nextTokenImp.1, lx.nextTokenImp.2) ∧
    ∀ n, EbnfLexer.impTokens n lx.nextTokenImp.1
      = (lx.nextTokenImp.1, List.replicate n lx.nextTokenImp.2) := by
  obtain ⟨y, pp, rest, hy, hin, hcol, hs, _⟩ :=
    nextTokenImp_lexAt lx (by rw [hty]; decide)
  rw [hy] at hty hmsg ⊢
  rcases lexAt_kinds y pp with h | ⟨_, _, h⟩ | ⟨hp, h⟩
  · exact absurd hty h.1
  · exact absurd h hmsg
  · subst hp
    have hagain := token_invalid_again y rest _ hin hcol hs h
    rw [h]
    refine ⟨⟨y.d_line.getD y.d_colNr 0, ?_, rfl⟩, hagain, impTokens_fixed _ _ hagain⟩
    have hc : (y.token .Invalid 0 (unexpectedCharMsg (y.d_line.getD y.d_colNr 0))).1.d_colNr
        = y.d_colNr := rfl
    have hl : (y.token .Invalid 0 (unexpectedCharMsg (y.d_line.getD y.d_colNr 0))).1.d_line
        = y.d_line := rfl
    rw [hc, hl, List.getD_eq_getElem?_getD, List.getElem?_eq_getElem hcol]
    rfl

/-- Witness of the theorem above: the byte `+` in the line `S ::= a + b`; the
lexer behind `a` returns the Invalid token at column 9 again and again. -/
theorem lexer_stays_at_unexpected_character_witness :
    lexerBeforePlus.nextTokenImp.2
      = EbnfToken.make .Invalid 1 9 0 (ba "unexpected character '+' 43") ∧
    EbnfLexer.impTokens 3 lexerBeforePlus.nextTokenImp.1
      = (lexerBeforePlus.nextTokenImp.1, List.replicate 3 lexerBeforePlus.nextTokenImp.2) :=
  ⟨by decide,
    (lexer_stays_at_unexpected_character lexerBeforePlus (by decide) (by decide)).2.2 3⟩

/-! ## Termination of EbnfLexer::tokens -/

theorem isValid_types (t : EbnfToken) (h : t.isValid = true) :
    t.d_type ≠ .Eof ∧ t.d_type ≠ .Invalid := by
  unfold EbnfToken.isValid at h
  simpa using h

/-- A valid token read by `nextTokenImp` has at least one byte, starts inside
the current line, and the lexer has moved on behind its first byte. -/
theorem nextTokenImp_consumes (x : EbnfLexer) (h : x.nextTokenImp.2.isValid = true) :
    1 ≤ x.nextTokenImp.2.d_len ∧
    1 ≤ x.nextTokenImp.2.d_colNr ∧
    x.nextTokenImp.2.d_colNr - 1 < x.nextTokenImp.1.d_line.length ∧
    x.nextTokenImp.2.d_colNr - 1 + x.nextTokenImp.2.d_len ≤ x.nextTokenImp.1.d_colNr ∧
    x.nextTokenImp.1.unread < x.unread := by
  obtain ⟨hne, hni⟩ := isValid_types _ h
  obtain ⟨y, pp, rest, hy, hin, hcol, hs, hun⟩ := nextTokenImp_lexAt x hne
  rw [hy] at hni ⊢
  obtain ⟨ha, _, _, _, hpos⟩ := lexAt_position y pp
  obtain ⟨hc, hadv⟩ := hpos hni
  have hlen : 1 ≤ (y.lexAt pp).2.d_len := by
    rcases lexAt_kinds y pp with h1 | ⟨_, h1, _⟩ | ⟨_, h1⟩
    · exact h1.2
    · exact absurd h1 hni
    · rw [h1] at hni
      exact absurd rfl hni
  obtain ⟨hi, _, hl, _, _, _⟩ := ha
  refine ⟨hlen, by omega, ?_, by omega, ?_⟩
  · rw [hl, hc]
    simpa using hcol
  · refine lt_of_lt_of_le ?_ hun
    unfold EbnfLexer.unread
    rw [hl, hi]
    have : y.d_line.length - (y.lexAt pp).1.d_colNr < y.d_line.length - y.d_colNr := by omega
    omega

theorem nextToken_measure (x : EbnfLexer) (h : x.nextToken.2.isValid = true) :
    x.nextToken.1.d_buffer.length + x.nextToken.1.unread < x.d_buffer.length + x.unread := by
  unfold EbnfLexer.nextToken at h ⊢
  cases hb : x.d_buffer with
  | nil =>
      rw [hb] at h
      simp only at h ⊢
      have := (nextTokenImp_consumes x h).2.2.2.2
      rw [nextTokenImp_d_buffer, hb]
      simpa using this
  | cons t rest =>
      simp only [List.length_cons]
      have : ({ x with d_buffer := rest } : EbnfLexer).unread = x.unread := rfl
      rw [this]
      omega

theorem tokensLoop_spec :
    ∀ (fuel : Nat) (lx : EbnfLexer) (t : EbnfToken) (res : List EbnfToken),
      (if t.isValid = true then lx.d_buffer.length + lx.unread + 2 else 1) ≤ fuel →
      ∃ (n : Nat) (toks : List EbnfToken) (bad : EbnfToken),
        t :: (EbnfLexer.nextTokens n lx).2 = toks ++ [bad] ∧
        (∀ u ∈ toks, u.isValid = true) ∧ bad.isValid = false ∧
        EbnfLexer.tokensLoop fuel lx t res = some (res ++ toks)
  | 0, lx, t, res, h => by
      exfalso
      split_ifs at h <;> omega
  | fuel + 1, lx, t, res, h => by
      rw [EbnfLexer.tokensLoop]
      by_cases hv : t.isValid = true
      · rw [if_pos hv] at h
        simp only [hv, if_true]
        have hfuel : (if lx.nextToken.2.isValid = true then
            lx.nextToken.1.d_buffer.length + lx.nextToken.1.unread + 2 else 1) ≤ fuel := by
          by_cases hv1 : lx.nextToken.2.isValid = true
          · rw [if_pos hv1]
            have := nextToken_measure lx hv1
            omega
          · rw [if_neg hv1]
            omega
        obtain ⟨n, toks, bad, hseq, hall, hbad, hloop⟩ :=
          tokensLoop_spec fuel lx.nextToken.1 lx.nextToken.2 (res ++ [t]) hfuel
        refine ⟨n + 1, t :: toks, bad, ?_, ?_, hbad, ?_⟩
        · rw [nextTokens_succ]
          simp only [List.cons_append, List.cons.injEq, true_and]
          exact hseq
        · intro u hu
          rcases List.mem_cons.mp hu with hu | hu
          · rw [hu]; exact hv
          · exact hall u hu
        · rw [hloop]
          simp
      · have hf : t.isValid = false := by simpa using hv
        simp only [hf, Bool.false_eq_true, if_false]
        exact ⟨0, [], t, rfl, fun u hu => by simp at hu, hf, by simp⟩

/-- Claim C33. `EbnfLexer::tokens` returns for every lexer and every list of
lines: the list it returns holds the tokens `nextToken` delivers after
`setStream`, up to and without the first token that is Invalid or Eof. The
reason is that every other token `nextTokenImp` reads has at least one byte,
starts inside the current line, and moves the lexer behind its first byte, so
the number of unread bytes goes down. -/
theorem tokens_terminates :
    (∀ (lx : EbnfLexer) (input : List QByteArray),
      ∃ (n : Nat) (toks : List EbnfToken) (bad : EbnfToken),
        (EbnfLexer.nextTokens (n + 1) (lx.setStreamOn input)).2 = toks ++ [bad] ∧
        (∀ u ∈ toks, u.isValid = true) ∧ bad.isValid = false ∧
        lx.tokens input = some toks) ∧
    (∀ x : EbnfLexer, x.nextTokenImp.2.isValid = true →
      1 ≤ x.nextTokenImp.2.d_len ∧
      1 ≤ x.nextTokenImp.2.d_colNr ∧
      x.nextTokenImp.2.d_colNr - 1 < x.nextTokenImp.1.d_line.length ∧
      x.nextTokenImp.2.d_colNr - 1 + x.nextTokenImp.2.d_len ≤ x.nextTokenImp.1.d_colNr ∧
      x.nextTokenImp.1.unread < x.unread) ∧
    (∀ (kw : List QByteArray) (old input : List QByteArray),
      (EbnfLexer.setStream kw old).setStreamOn input = EbnfLexer.setStream kw input) ∧
    (EbnfLexer.setStream [] []).tokens [ba " a ( b\n", ba " + c\n"]
      = some [EbnfToken.make .NonTerm 1 2 1 (ba "a"), EbnfToken.make .LPar 1 4 1 [],
              EbnfToken.make .NonTerm 1 6 1 (ba "b")] := by
  refine ⟨?_, nextTokenImp_consumes, fun _ _ _ => rfl, by decide⟩
  intro lx input
  have hfuel : (if (lx.setStreamOn input).nextToken.2.isValid = true then
      (lx.setStreamOn input).nextToken.1.d_buffer.length
        + (lx.setStreamOn input).nextToken.1.unread + 2 else 1)
      ≤ (lx.setStreamOn input).d_buffer.length + (lx.setStreamOn input).unread + 1 := by
    by_cases hv1 : (lx.setStreamOn input).nextToken.2.isValid = true
    · rw [if_pos hv1]
      have := nextToken_measure _ hv1
      omega
    · rw [if_neg hv1]
      omega
  obtain ⟨n, toks, bad, hseq, hall, hbad, hloop⟩ :=
    tokensLoop_spec _ (lx.setStreamOn input).nextToken.1 (lx.setStreamOn input).nextToken.2 []
      hfuel
  refine ⟨n, toks, bad, ?_, hall, hbad, ?_⟩
  · rw [nextTokens_succ]
    exact hseq
  · unfold EbnfLexer.tokens
    simp only
    rw [hloop]
    rfl

/-! ## The first byte of a lexeme -/

theorem punctuation_starts (x : EbnfLexer) (ch : Nat) :
    startsLexeme (x.punctuation false ch).2 ch = true := by
  by_cases h1 : ch = 58 ∧ x.lookAhead 1 = 58 ∧ x.lookAhead 2 = 61
  · rw [EbnfLexer.punctuation, if_neg (by decide), if_pos h1]
    simp [startsLexeme, EbnfLexer.token, EbnfToken.make, h1.1]
  by_cases h2 : ch = 40
  · rw [EbnfLexer.punctuation, if_neg (by decide), if_neg h1, if_pos h2]
    simp [startsLexeme, EbnfLexer.token, EbnfToken.make, h2]
  by_cases h3 : ch = 41
  · rw [EbnfLexer.punctuation, if_neg (by decide), if_neg h1, if_neg h2, if_pos h3]
    simp [startsLexeme, EbnfLexer.token, EbnfToken.make, h3]
  by_cases h4 : ch = 91
  · rw [EbnfLexer.punctuation, if_neg (by decide), if_neg h1, if_neg h2, if_neg h3, if_pos h4]
    simp [startsLexeme, EbnfLexer.token, EbnfToken.make, h4]
  by_cases h5 : ch = 93
  · rw [EbnfLexer.punctuation, if_neg (by decide), if_neg h1, if_neg h2, if_neg h3, if_neg h4,
      if_pos h5]
    simp [startsLexeme, EbnfLexer.token, EbnfToken.make, h5]
  by_cases h6 : ch = 123
  · rw [EbnfLexer.punctuation, if_neg (by decide), if_neg h1, if_neg h2, if_neg h3, if_neg h4,
      if_neg h5, if_pos h6]
    simp [startsLexeme, EbnfLexer.token, EbnfToken.make, h6]
  by_cases h7 : ch = 125
  · rw [EbnfLexer.punctuation, if_neg (by decide), if_neg h1, if_neg h2, if_neg h3, if_neg h4,
      if_neg h5, if_neg h6, if_pos h7]
    simp [startsLexeme, EbnfLexer.token, EbnfToken.make, h7]
  by_cases h8 : ch = 124
  · rw [EbnfLexer.punctuation, if_neg (by decide), if_neg h1, if_neg h2, if_neg h3, if_neg h4,
      if_neg h5, if_neg h6, if_neg h7, if_pos h8]
    simp [startsLexeme, EbnfLexer.token, EbnfToken.make, h8]
  by_cases h9 : ch = 92
  · rw [EbnfLexer.punctuation, if_neg (by decide), if_neg h1, if_neg h2, if_neg h3, if_neg h4,
      if_neg h5, if_neg h6, if_neg h7, if_neg h8, if_pos h9]
    simp [startsLexeme, EbnfLexer.attribute, EbnfLexer.token, EbnfToken.make, h9]
  · rw [EbnfLexer.punctuation, if_neg (by decide), if_neg h1, if_neg h2, if_neg h3, if_neg h4,
      if_neg h5, if_neg h6, if_neg h7, if_neg h8, if_neg h9]
    simp [startsLexeme, EbnfLexer.token, EbnfToken.make]

theorem identOrLiteral_starts (x : EbnfLexer) (pp : Bool) (ch : Nat) :
    match x.identOrLiteral pp ch with
    | (_, some t) => startsLexeme t ch = true
    | (_, none) => True := by
  unfold EbnfLexer.identOrLiteral
  by_cases h1 : (isalnum ch || ch == 36) = true
  · have hi : x.ident.2.d_type = .NonTerm := by rw [(ident_token x).1]
    generalize x.ident = ri at hi
    obtain ⟨xi, ti⟩ := ri
    simp only [h1, if_true]
    simp only at hi
    cases pp
    · simp only [Bool.false_eq_true, if_false]
      split_ifs
      · simpa [startsLexeme] using h1
      · simpa [startsLexeme, hi] using h1
    · simp only [if_true]
      split_ifs
      · simp only [startsLexeme, Bool.or_eq_true]
        exact Or.inl (by simpa using h1)
      · trivial
  · simp only [h1, if_false, Bool.false_eq_true]
    by_cases h2 : ch = 39
    · have hl : x.literal.2.d_type = .Literal := (literal_token x).1
      generalize x.literal = rl at hl
      obtain ⟨xl, tl⟩ := rl
      simp only [h2, if_true]
      simp only at hl
      cases pp
      · simp only [Bool.false_eq_true, if_false]
        simp [startsLexeme, hl]
      · simp only [if_true]
        split_ifs
        · simp [startsLexeme]
        · trivial
    · simp only [h2, if_false]

theorem lexAt_starts (y : EbnfLexer) (pp : Bool) (h : (y.lexAt pp).2.d_type ≠ .Invalid) :
    startsLexeme (y.lexAt pp).2 (y.d_line.getD y.d_colNr 0) = true := by
  unfold EbnfLexer.lexAt at h ⊢
  simp only at h ⊢
  by_cases hc : y.d_line.getD y.d_colNr 0 = 47 ∧ y.lookAhead 1 = 47
  · rw [if_pos hc]
    simp only [startsLexeme, EbnfLexer.token, EbnfToken.make]
    rw [hc.1]
    rfl
  · rw [if_neg hc] at h ⊢
    have hs := identOrLiteral_starts y pp (y.d_line.getD y.d_colNr 0)
    have hp := identOrLiteral_position y pp (y.d_line.getD y.d_colNr 0)
    generalize y.identOrLiteral pp (y.d_line.getD y.d_colNr 0) = r at hs hp h
    obtain ⟨l1, ot⟩ := r
    cases ot with
    | some t => exact hs
    | none =>
        simp only at h hp ⊢
        cases pp with
        | true =>
            rw [EbnfLexer.punctuation, if_pos rfl] at h
            exact absurd rfl h
        | false => exact punctuation_starts l1 _

theorem lexAt_invalid_token (y : EbnfLexer) (pp : Bool)
    (h : (y.lexAt pp).2.d_type = .Invalid) :
    ∃ (z : EbnfLexer) (msg : QByteArray), y.lexAt pp = z.token .Invalid 0 msg := by
  unfold EbnfLexer.lexAt at h ⊢
  simp only at h ⊢
  by_cases hc : y.d_line.getD y.d_colNr 0 = 47 ∧ y.lookAhead 1 = 47
  · rw [if_pos hc] at h
    simp [EbnfLexer.token, EbnfToken.make] at h
  · rw [if_neg hc] at h ⊢
    have hk := identOrLiteral_kinds y pp
    generalize y.identOrLiteral pp (y.d_line.getD y.d_colNr 0) = r at hk h
    obtain ⟨l1, ot⟩ := r
    cases ot with
    | some t => exact absurd h hk.1
    | none =>
        simp only at h ⊢
        rcases punctuation_kinds l1 pp (y.d_line.getD y.d_colNr 0) with h1 | ⟨_, h1⟩ | ⟨_, h1⟩
        · exact absurd h h1.1
        · exact ⟨l1, _, h1⟩
        · exact ⟨l1, _, h1⟩

/-! ## Where the search for a lexeme starts -/

theorem take_length_takeWhile (p : Nat → Bool) (l : QByteArray) :
    l.take (l.takeWhile p).length = l.takeWhile p := by
  induction l with
  | nil => rfl
  | cons a as ih =>
      by_cases h : p a = true
      · rw [List.takeWhile_cons_of_pos h, List.length_cons, List.take_succ_cons, ih]
      · rw [List.takeWhile_cons_of_neg h]
        rfl

theorem all_takeWhile (p : Nat → Bool) (l : QByteArray) : (l.takeWhile p).all p = true := by
  rw [List.all_eq_true]
  intro a ha
  exact List.mem_takeWhile_imp ha

theorem skipWhiteSpace_between (x : EbnfLexer) :
    ((x.d_line.take x.skipWhiteSpace.1.d_colNr).drop x.d_colNr).all isspace = true := by
  have hc : x.skipWhiteSpace.1.d_colNr
      = x.d_colNr + ((x.d_line.drop x.d_colNr).takeWhile isspace).length := rfl
  rw [hc, List.drop_take, Nat.add_sub_cancel_left, take_length_takeWhile]
  exact all_takeWhile _ _

theorem lineLoop_start :
    ∀ (ins : List QByteArray) (x : EbnfLexer) (pp : Bool),
      ((EbnfLexer.lineLoop ins x pp).1.d_lineNr = x.d_lineNr ∧
        (EbnfLexer.lineLoop ins x pp).1.d_line = x.d_line ∧
        (EbnfLexer.lineLoop ins x pp).1.d_colNr = x.d_colNr) ∨
      (x.d_lineNr < (EbnfLexer.lineLoop ins x pp).1.d_lineNr ∧
        ((EbnfLexer.lineLoop ins x pp).1.d_line.take
          (EbnfLexer.lineLoop ins x pp).1.d_colNr).all isspace = true)
  | [], x, pp => by
      unfold EbnfLexer.lineLoop
      split_ifs <;> exact Or.inl ⟨rfl, rfl, rfl⟩
  | raw :: rest, x, pp => by
      unfold EbnfLexer.lineLoop
      by_cases h : x.d_line.length ≤ x.d_colNr
      · rw [if_pos h]
        simp only
        right
        have hnr : (x.nextLine raw rest).skipWhiteSpace.1.d_lineNr = x.d_lineNr + 1 := rfl
        have hb := skipWhiteSpace_between (x.nextLine raw rest)
        have h0 : (x.nextLine raw rest).d_colNr = 0 := rfl
        have hl : (x.nextLine raw rest).skipWhiteSpace.1.d_line = (x.nextLine raw rest).d_line :=
          rfl
        rw [h0, List.drop_zero, ← hl] at hb
        rcases lineLoop_start rest (x.nextLine raw rest).skipWhiteSpace.1
            ((x.nextLine raw rest).skipWhiteSpace.2 == 0) with ⟨e1, e2, e3⟩ | ⟨e1, e2⟩
        · rw [e1, e2, e3]
          exact ⟨by omega, hb⟩
        · exact ⟨by omega, e2⟩
      · rw [if_neg h]
        exact Or.inl ⟨rfl, rfl, rfl⟩

/-! ## The position of the token of one call -/

theorem headerComplaint_false_of_ne (t : EbnfToken) (h : t.d_type ≠ .Invalid) :
    isHeaderComplaint t = false := by
  unfold isHeaderComplaint
  simp [h]

theorem headerComplaint_invalid (t : EbnfToken) (h : isHeaderComplaint t = true) :
    t.d_type = .Invalid := by
  unfold isHeaderComplaint at h
  simp only [Bool.and_eq_true, beq_iff_eq] at h
  exact h.1

/-- The token of the second loop of `nextTokenImp`, run in a state that stands
at a byte of its line that is not white space. -/
theorem lexAt_positioned (y : EbnfLexer) (pp : Bool) (hcol : y.d_colNr < y.d_line.length)
    (hs : y.Settled) :
    (y.lexAt pp).2.d_lineNr = (y.lexAt pp).1.d_lineNr ∧ 1 ≤ (y.lexAt pp).2.d_colNr ∧
    (y.lexAt pp).1.d_lineNr = y.d_lineNr ∧ (y.lexAt pp).1.d_line = y.d_line ∧
    (isHeaderComplaint (y.lexAt pp).2 = true →
      (y.lexAt pp).2.d_colNr = (y.lexAt pp).1.d_colNr + 1 ∧ (y.lexAt pp).2.d_len = 0) ∧
    (isHeaderComplaint (y.lexAt pp).2 = false →
      ∃ c, y.d_line[y.d_colNr]? = some c ∧ isspace c = false ∧
        startsLexeme (y.lexAt pp).2 c = true ∧
        (y.lexAt pp).2.d_colNr = y.d_colNr + 1 ∧
        y.d_colNr + (y.lexAt pp).2.d_len ≤ (y.lexAt pp).1.d_colNr) := by
  obtain ⟨ha, hl, hc1, _, hpos⟩ := lexAt_position y pp
  obtain ⟨_, _, a3, a4, _, _⟩ := ha
  have hget : y.d_line[y.d_colNr]? = some (y.d_line.getD y.d_colNr 0) := by
    rw [List.getD_eq_getElem?_getD, List.getElem?_eq_getElem hcol]
    rfl
  refine ⟨by rw [hl, a4], hc1, a4, a3, ?_, ?_⟩
  · intro hcomp
    obtain ⟨z, msg, hz⟩ := lexAt_invalid_token y pp (headerComplaint_invalid _ hcomp)
    rw [hz]
    exact ⟨rfl, rfl⟩
  · intro hcomp
    refine ⟨y.d_line.getD y.d_colNr 0, hget, hs _ hget, ?_⟩
    by_cases hinv : (y.lexAt pp).2.d_type = .Invalid
    · rcases lexAt_kinds y pp with h1 | ⟨_, h1, h2⟩ | ⟨_, h1⟩
      · exact absurd hinv h1.1
      · exfalso
        unfold isHeaderComplaint at hcomp
        rw [h1, h2] at hcomp
        simp at hcomp
      · rw [h1]
        refine ⟨?_, rfl, Nat.le_refl _⟩
        simp [startsLexeme, EbnfLexer.token, EbnfToken.make]
    · exact ⟨lexAt_starts y pp hinv, (hpos hinv).1, (hpos hinv).2⟩

theorem nextTokenImp_positioned (x : EbnfLexer) : PositionedBy x x.nextTokenImp := by
  unfold EbnfLexer.nextTokenImp
  cases hin : x.d_in with
  | none =>
      refine ⟨rfl, Nat.le_add_left _ _, fun _ => rfl, fun h => absurd rfl h⟩
  | some ins =>
      simp only
      have h0 := lineLoop_settled ins x.skipWhiteSpace.1 false (settled_skipWhiteSpace x)
      have h1 := lineLoop_start ins x.skipWhiteSpace.1 false
      have hb := skipWhiteSpace_between x
      have hx0 : x.skipWhiteSpace.1.d_lineNr = x.d_lineNr := rfl
      have hx1 : x.skipWhiteSpace.1.d_line = x.d_line := rfl
      have hx2 : x.d_colNr ≤ x.skipWhiteSpace.1.d_colNr := Nat.le_add_right _ _
      generalize EbnfLexer.lineLoop ins x.skipWhiteSpace.1 false = r at h0 h1
      obtain ⟨y, pp, e⟩ := r
      obtain ⟨hs, _, hcol, _⟩ := h0
      simp only at hs hcol h1 ⊢
      cases e with
      | true =>
          simp only
          refine ⟨?_, ?_, fun _ => ?_, fun h => absurd ?_ h⟩
          · split_ifs <;> rfl
          · exact Nat.le_add_left _ _
          · split_ifs <;> rfl
          · rfl
      | false =>
          simp only
          obtain ⟨p1, p2, p3, p4, p5, p6⟩ := lexAt_positioned y pp (hcol rfl) hs
          refine ⟨p1, p2, fun he => absurd he (lexAt_position y pp).2.2.2.1,
            fun _ => ⟨?_, p5, ?_⟩⟩
          · rw [p3, p4]
            rcases h1 with ⟨e1, e2, _⟩ | ⟨e1, _⟩
            · exact Or.inl ⟨by rw [e1, hx0], by rw [e2, hx1]⟩
            · exact Or.inr (by omega)
          · intro hcomp
            obtain ⟨c, hc, hsp, hst, hcl, hlen⟩ := p6 hcomp
            have hcm : (y.lexAt pp).2.d_colNr - 1 = y.d_colNr := by omega
            refine ⟨c, by rw [hcm, p4]; exact hc, hsp, hst, ?_, ?_, by omega⟩
            · unfold searchedFrom
              rw [hcm, p3]
              split_ifs
              · rcases h1 with ⟨_, _, e3⟩ | ⟨e1, _⟩
                · omega
                · omega
              · exact Nat.zero_le _
            · unfold searchedFrom
              rw [hcm, p3, p4]
              rcases h1 with ⟨e1, e2, e3⟩ | ⟨e1, e2⟩
              · rw [if_pos (by rw [e1, hx0]), e2, e3, hx1]
                exact hb
              · rw [if_neg (by omega), List.drop_zero]
                exact e2

/-! ## The line of a token of a fresh lexer -/

theorem nextTokens_reads (input : List QByteArray) (n : Nat) :
    ∀ lx : EbnfLexer, lx.Reads input → lx.d_in = some (input.drop lx.d_lineNr) →
      lx.d_buffer = [] →
      (EbnfLexer.nextTokens n lx).1.Reads input ∧
      (EbnfLexer.nextTokens n lx).1.d_in
        = some (input.drop (EbnfLexer.nextTokens n lx).1.d_lineNr) ∧
      (EbnfLexer.nextTokens n lx).1.d_buffer = [] := by
  induction n with
  | zero => intro lx hr hin hb; exact ⟨hr, hin, hb⟩
  | succ n ih =>
      intro lx hr hin hb
      rw [nextTokens_succ]
      have hn : lx.nextToken = lx.nextTokenImp := nextToken_empty_buffer lx hb
      obtain ⟨h1, h2, _⟩ := nextTokenImp_position input lx hr hin
      rw [hn]
      exact ih _ h1 h2 (by rw [nextTokenImp_d_buffer, hb])

theorem nextTokenImp_readFrom (input : List QByteArray) (lx : EbnfLexer)
    (hr : lx.Reads input) (hin : lx.d_in = some (input.drop lx.d_lineNr)) :
    ReadFrom input lx.nextTokenImp := by
  obtain ⟨h1, h2, h3⟩ := nextTokenImp_position input lx hr hin
  obtain ⟨hline, _, _, _⟩ := nextTokenImp_positioned lx
  obtain ⟨_, q2, q3, q4⟩ := h3
  refine ⟨by rw [hline]; exact h2, q2, q3, fun hne => ⟨(q4 hne).1, ?_⟩⟩
  have hk : lx.nextTokenImp.1.d_lineNr = (lx.nextTokenImp.2.d_lineNr - 1) + 1 := by
    have := (q4 hne).1
    omega
  exact h1.2.2.2 _ hk

/-- Claim C28, amended. In every state of the lexer a token that
`nextTokenImp` returns carries the line count of the lexer and a column of at
least 1; unless it is Eof or `production or comment expected`, the column is 1
plus the offset of the first byte of its lexeme in the current line: the first
byte that is not white space from where the search started, and a byte such a
lexeme begins with. The Eof token and the token `production or comment
expected` carry 1 plus the offset at which the lexer stood when it made them. For a lexer that `setStream`
has just attached to the lines `input`, with an empty current line and buffer,
every token `nextToken` returns is read in this way, and the line number of a
token is the number of lines taken from `input`: all lines for Eof, and for
any other token a number `k` of at least 1 such that the current line is the
`k`-th line of `input` without its line end. -/
theorem token_positions :
    (∀ x : EbnfLexer, PositionedBy x x.nextTokenImp) ∧
    (∀ (kw : List QByteArray) (input : List QByteArray) (n : Nat),
      PositionedBy (EbnfLexer.nextTokens n (EbnfLexer.setStream kw input)).1
        (EbnfLexer.nextTokens n (EbnfLexer.setStream kw input)).1.nextToken ∧
      ReadFrom input (EbnfLexer.nextTokens n (EbnfLexer.setStream kw input)).1.nextToken) := by
  refine ⟨nextTokenImp_positioned, ?_⟩
  intro kw input n
  obtain ⟨hr, hin, hb⟩ := nextTokens_reads input n (EbnfLexer.setStream kw input)
    (setStream_reads kw input).1 (setStream_reads kw input).2 rfl
  rw [nextToken_empty_buffer _ hb]
  exact ⟨nextTokenImp_positioned _, nextTokenImp_readFrom input _ hr hin⟩

/-- Claim C28 as stated fails in three ways. For the empty input the Eof token
has the line number 0. A lexer that was used before keeps its current line
over `setStream`, so the tokens `a` and `b` left in the line ` a b` are
returned with the line number 0 before the token `c` of the new text. And for
the line `abc` the token `production or comment expected` has the column 4,
where the line of three bytes has no byte. -/
theorem token_position_exceptions :
    (EbnfLexer.setStream [] []).nextToken.2 =
      { d_type := .Eof, d_lineNr := 0, d_colNr := 1, d_len := 0, d_val := [],
        d_op := .Normal } ∧
    (EbnfLexer.nextTokens 3 reusedLexer).2 =
      [EbnfToken.make .NonTerm 0 2 1 (ba "a"), EbnfToken.make .NonTerm 0 4 1 (ba "b"),
       EbnfToken.make .NonTerm 1 2 1 (ba "c")] ∧
    (EbnfLexer.setStream [] [ba "abc\n"]).nextToken.2 =
      EbnfToken.make .Invalid 1 4 0 (ba "production or comment expected") := by
  decide

/-- Witness of the theorem above: the token `a` of the line ` a`, the first
token of a fresh lexer. -/
theorem token_positions_witness :
    PositionedBy (EbnfLexer.nextTokens 0 (EbnfLexer.setStream [] [ba " a\n"])).1
        (EbnfLexer.nextTokens 0 (EbnfLexer.setStream [] [ba " a\n"])).1.nextToken ∧
      ReadFrom [ba " a\n"]
        (EbnfLexer.nextTokens 0 (EbnfLexer.setStream [] [ba " a\n"])).1.nextToken :=
  token_positions.2 [] [ba " a\n"] 0

end EbnfStudio
